import Mathlib

/-!
Shallow embedding of the Mirage kernel (L1 core + L2 security core) and its
heap allocator, together with proofs about the behaviours its specification
describes.  Rust fixed-size arrays `[Option<T>; N]` are modelled as Lean
lists of options; `u64`/`usize` values are modelled as `Nat`, with an
explicit `% 2^64` exactly where the source uses wrapping arithmetic.
-/

set_option maxHeartbeats 1000000
set_option maxRecDepth 1000000

namespace Mirage

/-- `2^64`, the modulus used by the source's `u64::wrapping_add`. -/
def U64MOD : Nat := 18446744073709551616

/-- `u32::MAX`, used by `SecurityLabel::system()`. -/
def U32MAX : Nat := 4294967295

/-- Array read on a table of options: `domains[idx]` in the source. -/
def tget {α : Type} (l : List (Option α)) (i : Nat) : Option α :=
  (l.get? i).getD none

/-- Array read on a plain table with a default (indices are in range in the source). -/
def lget {α : Type} (d : α) (l : List α) (i : Nat) : α :=
  (l.get? i).getD d

/-! ## src/subkernel/mod.rs : the L2 security kernel -/

inductive SecurityLevel where
  | Public
  | Internal
  | Confidential
  | System
deriving DecidableEq, Repr

/-- The `as u8` discriminant values of `SecurityLevel`. -/
def SecurityLevel.rank : SecurityLevel → Nat
  | .Public => 0
  | .Internal => 1
  | .Confidential => 2
  | .System => 3

structure SecurityLabel where
  level : SecurityLevel
  categories : Nat
deriving DecidableEq, Repr

def SecurityLabel.publicL : SecurityLabel := ⟨.Public, 0⟩

def SecurityLabel.internalL : SecurityLabel := ⟨.Internal, 0⟩

def SecurityLabel.confidentialL : SecurityLabel := ⟨.Confidential, 0⟩

def SecurityLabel.systemL : SecurityLabel := ⟨.System, U32MAX⟩

/-- `SecurityLabel::dominates`. -/
def SecurityLabel.dominates (a other : SecurityLabel) : Bool :=
  decide (other.level.rank ≤ a.level.rank) &&
    ((a.categories &&& other.categories) == other.categories)

inductive SecurityClass where
  | Public
  | Internal
  | Confidential
  | System
deriving DecidableEq, Repr

/-- `SecurityClass::as_label`. -/
def SecurityClass.as_label : SecurityClass → SecurityLabel
  | .Public => SecurityLabel.publicL
  | .Internal => SecurityLabel.internalL
  | .Confidential => SecurityLabel.confidentialL
  | .System => SecurityLabel.systemL

inductive IsolationLevel where
  | None
  | Process
  | VirtualMachine
deriving DecidableEq, Repr

structure CapabilitySet where
  flags : Nat
deriving DecidableEq, Repr

def CAP_IPC : Nat := 1
def CAP_SPAWN : Nat := 2
def CAP_KERNEL : Nat := 4
def CAP_IO : Nat := 8

def CapabilitySet.noneSet : CapabilitySet := ⟨0⟩

def CapabilitySet.full : CapabilitySet := ⟨CAP_IPC ||| CAP_SPAWN ||| CAP_KERNEL ||| CAP_IO⟩

def CapabilitySet.ipc : CapabilitySet := ⟨CAP_IPC⟩

def CapabilitySet.allows_ipc (c : CapabilitySet) : Bool :=
  (c.flags &&& CAP_IPC) != 0

def CapabilitySet.allows_spawn (c : CapabilitySet) : Bool :=
  (c.flags &&& CAP_SPAWN) != 0

def CapabilitySet.allows_kernel_access (c : CapabilitySet) : Bool :=
  (c.flags &&& CAP_KERNEL) != 0

def CapabilitySet.allows_io (c : CapabilitySet) : Bool :=
  (c.flags &&& CAP_IO) != 0

structure Credentials where
  label : SecurityLabel
  capabilities : CapabilitySet
  isolation : IsolationLevel
deriving DecidableEq, Repr

def Credentials.system : Credentials :=
  ⟨SecurityLabel.systemL, CapabilitySet.full, .Process⟩

def Credentials.user : Credentials :=
  ⟨SecurityLabel.internalL, CapabilitySet.ipc, .None⟩

structure TaskDomain where
  pid : Nat
  label : SecurityLabel
  capabilities : CapabilitySet
  isolation : IsolationLevel
  quarantine_events : Nat
deriving DecidableEq, Repr

/-- `TaskDomain::from_credentials`. -/
def TaskDomain.from_credentials (pid : Nat) (creds : Credentials) : TaskDomain :=
  ⟨pid, creds.label, creds.capabilities, creds.isolation, 0⟩

/-- `TaskDomain::can_transmit`. -/
def TaskDomain.can_transmit (d : TaskDomain) (cls : SecurityClass) : Bool :=
  d.capabilities.allows_ipc && d.label.dominates cls.as_label

/-- `TaskDomain::can_receive`. -/
def TaskDomain.can_receive (d : TaskDomain) (cls : SecurityClass) : Bool :=
  d.label.dominates cls.as_label

inductive IsolationError where
  | UnknownTask
  | PolicyViolation
  | CapabilityMissing
deriving DecidableEq, Repr

/-- The open-addressed security domain table (`SecurityKernel<MAX>`). -/
structure SecurityKernel where
  domains : List (Option TaskDomain)
  population : Nat
deriving DecidableEq, Repr

def SecurityKernel.new (max : Nat) : SecurityKernel :=
  ⟨List.replicate max none, 0⟩

def SecurityKernel.reset (sk : SecurityKernel) : SecurityKernel :=
  ⟨List.replicate sk.domains.length none, 0⟩

/-- `SecurityKernel::hash`: `(pid ^ (pid >> 33)) % MAX` with a zero-size guard. -/
def skhash (max pid : Nat) : Nat :=
  if max = 0 then 0 else (Nat.xor pid (pid >>> 33)) % max

/-- `SecurityKernel::next_index`. -/
def sknext (max cur : Nat) : Nat :=
  if max = 0 then 0 else (cur + 1) % max

/-- Probe loop of `SecurityKernel::insert_domain`; the `Bool` records whether a
fresh slot was taken (population grows) rather than a same-pid overwrite. -/
def insertAux (ds : List (Option TaskDomain)) (d : TaskDomain) (idx : Nat) :
    Nat → Option (List (Option TaskDomain) × Bool)
  | 0 => none
  | fuel + 1 =>
    match tget ds idx with
    | some existing =>
      if existing.pid = d.pid then some (ds.set idx (some d), false)
      else insertAux ds d (sknext ds.length idx) fuel
    | none => some (ds.set idx (some d), true)

/-- `SecurityKernel::insert_domain`. -/
def SecurityKernel.insert_domain (sk : SecurityKernel) (d : TaskDomain) :
    Except IsolationError SecurityKernel :=
  if sk.domains.length = 0 then .error .PolicyViolation
  else
    match insertAux sk.domains d (skhash sk.domains.length d.pid) sk.domains.length with
    | none => .error .PolicyViolation
    | some (ds, fresh) => .ok ⟨ds, if fresh then sk.population + 1 else sk.population⟩

/-- Probe loop of `SecurityKernel::lookup`. -/
def lookupAux (ds : List (Option TaskDomain)) (pid idx : Nat) : Nat → Option TaskDomain
  | 0 => none
  | fuel + 1 =>
    match tget ds idx with
    | some dm => if dm.pid = pid then some dm else lookupAux ds pid (sknext ds.length idx) fuel
    | none => none

/-- `SecurityKernel::lookup`. -/
def SecurityKernel.lookup (sk : SecurityKernel) (pid : Nat) : Option TaskDomain :=
  if sk.domains.length = 0 then none
  else lookupAux sk.domains pid (skhash sk.domains.length pid) sk.domains.length

/-- One `let _ = self.insert_domain(domain)` step inside `rehash_from`
(population bookkeeping included, errors dropped). -/
def rehashStep (ds : List (Option TaskDomain)) (pop : Nat) (dm : TaskDomain) :
    List (Option TaskDomain) × Nat :=
  if ds.length = 0 then (ds, pop)
  else
    match insertAux ds dm (skhash ds.length dm.pid) ds.length with
    | none => (ds, pop)
    | some (ds2, fresh) => (ds2, if fresh then pop + 1 else pop)

/-- Loop of `SecurityKernel::rehash_from`. -/
def rehashAux (ds : List (Option TaskDomain)) (pop idx : Nat) :
    Nat → List (Option TaskDomain) × Nat
  | 0 => (ds, pop)
  | fuel + 1 =>
    match tget ds idx with
    | none => (ds, pop)
    | some dm =>
      let ds1 := ds.set idx none
      let pop1 := pop - 1
      let st := rehashStep ds1 pop1 dm
      rehashAux st.1 st.2 (sknext ds.length idx) fuel

/-- Probe loop of `SecurityKernel::remove`. -/
def removeAux (ds : List (Option TaskDomain)) (pop pid idx : Nat) :
    Nat → List (Option TaskDomain) × Nat
  | 0 => (ds, pop)
  | fuel + 1 =>
    match tget ds idx with
    | some dm =>
      if dm.pid = pid then
        rehashAux (ds.set idx none) (pop - 1) (sknext ds.length idx) ds.length
      else removeAux ds pop pid (sknext ds.length idx) fuel
    | none => (ds, pop)

/-- `SecurityKernel::remove`. -/
def SecurityKernel.remove (sk : SecurityKernel) (pid : Nat) : SecurityKernel :=
  if sk.domains.length = 0 ∨ sk.population = 0 then sk
  else
    let st := removeAux sk.domains sk.population pid (skhash sk.domains.length pid)
      sk.domains.length
    ⟨st.1, st.2⟩

/-- `SecurityKernel::register_task`. -/
def SecurityKernel.register_task (sk : SecurityKernel) (pid : Nat) (creds : Credentials) :
    Except IsolationError SecurityKernel :=
  sk.insert_domain (TaskDomain.from_credentials pid creds)

/-- `SecurityKernel::revoke_task`. -/
def SecurityKernel.revoke_task (sk : SecurityKernel) (pid : Nat) : SecurityKernel :=
  sk.remove pid

/-- `SecurityKernel::authorize_ipc`. -/
def SecurityKernel.authorize_ipc (sk : SecurityKernel) (sender receiver : Nat)
    (cls : SecurityClass) : Except IsolationError Unit :=
  match sk.lookup sender with
  | none => .error .UnknownTask
  | some sd =>
    match sk.lookup receiver with
    | none => .error .UnknownTask
    | some rd =>
      if !sd.capabilities.allows_ipc then .error .CapabilityMissing
      else if !sd.can_transmit cls || !rd.can_receive cls then .error .PolicyViolation
      else if sd.isolation = .VirtualMachine && rd.isolation = .None then
        .error .PolicyViolation
      else .ok ()

/-- `SecurityKernel::enforce_isolation`. -/
def SecurityKernel.enforce_isolation (sk : SecurityKernel) (pid : Nat) :
    Except IsolationError Unit :=
  match sk.lookup pid with
  | none => .error .UnknownTask
  | some dm =>
    match dm.isolation with
    | .None => .ok ()
    | .Process => .ok ()
    | .VirtualMachine =>
      if dm.quarantine_events > 0 then .error .PolicyViolation else .ok ()

/-! ## src/kernel/process.rs and src/kernel/thread.rs -/

inductive ProcessState where
  | Ready
  | Running
  | Blocked
  | Terminated
deriving DecidableEq, Repr

inductive ProcessPriority where
  | Critical
  | High
  | Normal
  | Low
deriving DecidableEq, Repr

/-- `ProcessPriority::time_slice`. -/
def ProcessPriority.time_slice : ProcessPriority → Nat
  | .Critical => 8
  | .High => 6
  | .Normal => 4
  | .Low => 2

structure ProcessControlBlock where
  pid : Nat
  parent : Option Nat
  state : ProcessState
  priority : ProcessPriority
  entry_point : Nat
  address_space_root : Nat
  cpu_time : Nat
  security_label : SecurityLabel
  /-- Modelled from the spec: the `thread_count` component of the PCB record
  (§3 data model), absent from `process.rs` although `kernel/mod.rs` calls
  `increment_thread_count`/`decrement_thread_count` on it. -/
  thread_count : Nat
deriving DecidableEq, Repr

/-- `ProcessControlBlock::new`; `thread_count` starts at zero (modelled from the
spec: a fresh PCB has no threads yet). -/
def ProcessControlBlock.new (pid entry_point : Nat) (priority : ProcessPriority)
    (parent : Option Nat) : ProcessControlBlock :=
  ⟨pid, parent, .Ready, priority, entry_point, 0, 0, SecurityLabel.publicL, 0⟩

def ProcessControlBlock.update_security_label (p : ProcessControlBlock)
    (label : SecurityLabel) : ProcessControlBlock :=
  { p with security_label := label }

/-- Modelled from the spec: `spawn_thread` "increments `thread_count` on
success" (§4.D); the method body is missing from `process.rs`. -/
def ProcessControlBlock.increment_thread_count (p : ProcessControlBlock) :
    ProcessControlBlock :=
  { p with thread_count := p.thread_count + 1 }

/-- Modelled from the spec: the companion decrement used on thread termination
and removal paths (§4.E step 5); the method body is missing from `process.rs`. -/
def ProcessControlBlock.decrement_thread_count (p : ProcessControlBlock) :
    ProcessControlBlock :=
  { p with thread_count := p.thread_count - 1 }

def THREADS_PER_PROCESS : Nat := 4
def MAX_THREADS : Nat := 256

inductive ThreadState where
  | Ready
  | Running
  | Blocked
  | Terminated
deriving DecidableEq, Repr

structure ThreadControlBlock where
  id : Nat
  process : Nat
  priority : ProcessPriority
  state : ThreadState
  entry_point : Nat
  stack_pointer : Nat
  cpu_time : Nat
deriving DecidableEq, Repr

def ThreadControlBlock.new (id process entry_point : Nat) (priority : ProcessPriority) :
    ThreadControlBlock :=
  ⟨id, process, priority, .Ready, entry_point, 0, 0⟩

def ThreadControlBlock.mark_running (t : ThreadControlBlock) : ThreadControlBlock :=
  { t with state := .Running }

def ThreadControlBlock.mark_ready (t : ThreadControlBlock) : ThreadControlBlock :=
  { t with state := .Ready }

def ThreadControlBlock.block (t : ThreadControlBlock) : ThreadControlBlock :=
  { t with state := .Blocked }

def ThreadControlBlock.terminate (t : ThreadControlBlock) : ThreadControlBlock :=
  { t with state := .Terminated }

/-- `accumulate_cpu_time` (`u128::saturating_add`, which never saturates here). -/
def ThreadControlBlock.accumulate_cpu_time (t : ThreadControlBlock) (ticks : Nat) :
    ThreadControlBlock :=
  { t with cpu_time := t.cpu_time + ticks }

/-! ## src/kernel/ipc.rs -/

structure MessagePayload where
  security_class : SecurityClass
  data : List Nat
  length : Nat
deriving DecidableEq, Repr

def MessagePayload.empty (cls : SecurityClass) : MessagePayload :=
  ⟨cls, List.replicate 64 0, 0⟩

structure Message where
  sender : Nat
  receiver : Nat
  sequence : Nat
  payload : MessagePayload
deriving DecidableEq, Repr

inductive MessageQueueError where
  | Full
deriving DecidableEq, Repr

structure MessageQueue where
  buffer : List (Option Message)
  head : Nat
  tail : Nat
  len : Nat
deriving DecidableEq, Repr

def MessageQueue.new (n : Nat) : MessageQueue :=
  ⟨List.replicate n none, 0, 0, 0⟩

def MessageQueue.capacity (q : MessageQueue) : Nat := q.buffer.length

def MessageQueue.is_full (q : MessageQueue) : Bool := q.len == q.capacity

/-- `MessageQueue::push`. -/
def MessageQueue.push (q : MessageQueue) (m : Message) :
    Except MessageQueueError MessageQueue :=
  if q.is_full then .error .Full
  else .ok ⟨q.buffer.set q.tail (some m), q.head, (q.tail + 1) % q.capacity, q.len + 1⟩

/-- `MessageQueue::pop`. -/
def MessageQueue.pop (q : MessageQueue) : Option Message × MessageQueue :=
  if q.len = 0 then (none, q)
  else
    (tget q.buffer q.head,
      ⟨q.buffer.set q.head none, (q.head + 1) % q.capacity, q.tail, q.len - 1⟩)

def MessageQueue.clear (q : MessageQueue) : MessageQueue :=
  ⟨List.replicate q.buffer.length none, 0, 0, 0⟩

/-! ## src/kernel/scheduler.rs -/

inductive SchedulerError where
  | QueueFull
deriving DecidableEq, Repr

structure ScheduledThread where
  thread : Nat
  process : Nat
  priority : ProcessPriority
  remaining_slice : Nat
deriving DecidableEq, Repr

def ScheduledThread.new (thread process : Nat) (priority : ProcessPriority) :
    ScheduledThread :=
  ⟨thread, process, priority, priority.time_slice⟩

/-- `ScheduledThread::consume_time_slice`: returns whether the slice reached
zero, together with the updated entry. -/
def ScheduledThread.consume_time_slice (s : ScheduledThread) : Bool × ScheduledThread :=
  let s' := if s.remaining_slice > 0 then { s with remaining_slice := s.remaining_slice - 1 }
            else s
  (s'.remaining_slice == 0, s')

def ScheduledThread.reset_time_slice (s : ScheduledThread) : ScheduledThread :=
  { s with remaining_slice := s.priority.time_slice }

structure Scheduler where
  queue : List (Option ScheduledThread)
  head : Nat
  tail : Nat
  len : Nat
deriving DecidableEq, Repr

def Scheduler.new (max : Nat) : Scheduler :=
  ⟨List.replicate max none, 0, 0, 0⟩

def Scheduler.reset (s : Scheduler) : Scheduler :=
  ⟨List.replicate s.queue.length none, 0, 0, 0⟩

/-- `Scheduler::enqueue`. -/
def Scheduler.enqueue (s : Scheduler) (t : ScheduledThread) :
    Except SchedulerError Scheduler :=
  if s.len = s.queue.length then .error .QueueFull
  else .ok ⟨s.queue.set s.tail (some t), s.head, (s.tail + 1) % s.queue.length, s.len + 1⟩

/-- `Scheduler::requeue`. -/
def Scheduler.requeue (s : Scheduler) (t : ScheduledThread) :
    Except SchedulerError Scheduler :=
  s.enqueue t

/-- `enqueue` with the error dropped, as in `let _ = self.scheduler.enqueue(...)`. -/
def Scheduler.enqueueD (s : Scheduler) (t : ScheduledThread) : Scheduler :=
  match s.enqueue t with
  | .ok s' => s'
  | .error _ => s

/-- Scan loop of `Scheduler::next`: first occupied slot at `(head + steps) % MAX`,
returned with its index. -/
def schedNextAux (q : List (Option ScheduledThread)) (head steps : Nat) :
    Nat → Option (Nat × ScheduledThread)
  | 0 => none
  | fuel + 1 =>
    let idx := (head + steps) % q.length
    match tget q idx with
    | some entry => some (idx, entry)
    | none => schedNextAux q head (steps + 1) fuel

/-- `Scheduler::next`. -/
def Scheduler.next (s : Scheduler) : Option ScheduledThread × Scheduler :=
  if s.len = 0 then (none, s)
  else
    match schedNextAux s.queue s.head 0 s.queue.length with
    | some (idx, entry) =>
      (some entry,
        ⟨s.queue.set idx none, (idx + 1) % s.queue.length, s.tail, s.len - 1⟩)
    | none => (none, ⟨s.queue, 0, 0, 0⟩)

/-- Removal loop shared by `remove_thread` and `remove_process`. -/
def schedRemoveAux (pred : ScheduledThread → Bool) (q : List (Option ScheduledThread))
    (len idx : Nat) : Nat → List (Option ScheduledThread) × Nat
  | 0 => (q, len)
  | fuel + 1 =>
    match tget q idx with
    | some entry =>
      if pred entry then
        schedRemoveAux pred (q.set idx none) (if len > 0 then len - 1 else len)
          (idx + 1) fuel
      else schedRemoveAux pred q len (idx + 1) fuel
    | none => schedRemoveAux pred q len (idx + 1) fuel

/-- `Scheduler::remove_thread`. -/
def Scheduler.remove_thread (s : Scheduler) (thread : Nat) : Scheduler :=
  let st := schedRemoveAux (fun e => e.thread == thread) s.queue s.len 0 s.queue.length
  ⟨st.1, s.head, s.tail, st.2⟩

/-- `Scheduler::remove_process`. -/
def Scheduler.remove_process (s : Scheduler) (process : Nat) : Scheduler :=
  let st := schedRemoveAux (fun e => e.process == process) s.queue s.len 0 s.queue.length
  ⟨st.1, s.head, s.tail, st.2⟩

/-! ## src/kernel/cpu.rs -/

def MAX_CORES : Nat := 4

structure CpuCoreState where
  online : Bool
  current_thread : Option Nat
  local_ticks : Nat
  idle_ticks : Nat
deriving DecidableEq, Repr

def CpuCoreState.new : CpuCoreState := ⟨false, none, 0, 0⟩

def CpuCoreState.set_online (c : CpuCoreState) : CpuCoreState :=
  { c with online := true }

def CpuCoreState.start_thread (c : CpuCoreState) (thread : Nat) : CpuCoreState :=
  { c with online := true, current_thread := some thread }

def CpuCoreState.finish_cycle (c : CpuCoreState) : CpuCoreState :=
  { c with local_ticks := if c.online then c.local_ticks + 1 else c.local_ticks,
           current_thread := none }

def CpuCoreState.idle_cycle (c : CpuCoreState) : CpuCoreState :=
  { c with idle_ticks := if c.online then c.idle_ticks + 1 else c.idle_ticks,
           current_thread := none }

def CpuCoreState.evict (c : CpuCoreState) (thread : Nat) : CpuCoreState :=
  if c.current_thread = some thread then { c with current_thread := none } else c

/-! ## src/kernel/mod.rs : the kernel facade -/

def MAX_PROCESSES : Nat := 64
def MESSAGE_DEPTH : Nat := 16

inductive KernelError where
  | ProcessTableFull
  | SchedulerFull
  | UnknownProcess
  | UnknownThread
  | ThreadTableFull
  | MessageQueueFull
  | MessageQueueEmpty
  | SecurityViolation
  | IsolationFault
deriving DecidableEq, Repr

/-- `Kernel<MAX_PROC, MSG_DEPTH>`; the const generics become the lengths of the
stored lists.  The global monotonic clock (`KERNEL_TIME`) lives outside the
`Kernel` struct in the source and plays no role in the state transitions
modelled here. -/
structure Kernel where
  process_table : List (Option ProcessControlBlock)
  ipc_queues : List MessageQueue
  scheduler : Scheduler
  security : SecurityKernel
  core_states : List CpuCoreState
  thread_table : List (Option ThreadControlBlock)
  next_pid : Nat
  next_thread : Nat
  message_sequence : Nat
deriving DecidableEq, Repr

/-- `Kernel::new`. -/
def Kernel.new (maxProc msgDepth : Nat) : Kernel :=
  ⟨List.replicate maxProc none,
   List.replicate maxProc (MessageQueue.new msgDepth),
   Scheduler.new MAX_THREADS,
   SecurityKernel.new maxProc,
   List.replicate MAX_CORES CpuCoreState.new,
   List.replicate MAX_THREADS none,
   1, 1, 0⟩

/-- `Kernel::bootstrap` (the `KERNEL_TIME.init` call touches only the external
clock). -/
def Kernel.bootstrap (k : Kernel) : Kernel :=
  let k := { k with
    scheduler := k.scheduler.reset,
    security := k.security.reset,
    next_pid := 1, next_thread := 1, message_sequence := 0,
    process_table := List.replicate k.process_table.length none,
    ipc_queues := k.ipc_queues.map MessageQueue.clear,
    thread_table := List.replicate k.thread_table.length none,
    core_states := List.replicate k.core_states.length CpuCoreState.new }
  if 0 < k.core_states.length then
    { k with core_states := k.core_states.set 0 ((lget CpuCoreState.new k.core_states 0).set_online) }
  else k

/-- Index of the first element satisfying `p` (the source's `while` scans). -/
def scanIdx {α : Type} (p : α → Bool) : List α → Option Nat
  | [] => none
  | x :: xs => if p x then some 0 else (scanIdx p xs).map (· + 1)

/-- `Kernel::locate_process`: index of the first live PCB with this pid. -/
def Kernel.locate_process (k : Kernel) (pid : Nat) : Option Nat :=
  scanIdx (fun e => match e with
    | some pcb => pcb.pid == pid
    | none => false) k.process_table

/-- `Kernel::locate_thread`. -/
def Kernel.locate_thread (k : Kernel) (thread : Nat) : Option Nat :=
  scanIdx (fun e => match e with
    | some tcb => tcb.id == thread
    | none => false) k.thread_table

/-- `Kernel::find_free_slot`. -/
def Kernel.find_free_slot (k : Kernel) : Option Nat :=
  scanIdx (fun e => e.isNone) k.process_table

/-- `Kernel::find_free_thread_slot`. -/
def Kernel.find_free_thread_slot (k : Kernel) : Option Nat :=
  scanIdx (fun e => e.isNone) k.thread_table

/-- `Kernel::update_process_thread_count`. -/
def Kernel.update_process_thread_count (k : Kernel) (pid : Nat) (increment : Bool) :
    Kernel :=
  match k.locate_process pid with
  | some index =>
    match tget k.process_table index with
    | some pcb =>
      let pcb' := if increment then pcb.increment_thread_count
                  else pcb.decrement_thread_count
      { k with process_table := k.process_table.set index (some pcb') }
    | none => k
  | none => k

/-- `Kernel::create_thread`. -/
def Kernel.create_thread (k : Kernel) (pid entry_point : Nat)
    (priority : ProcessPriority) : Except KernelError Nat × Kernel :=
  match k.find_free_thread_slot with
  | none => (.error .ThreadTableFull, k)
  | some slot =>
    let id := k.next_thread
    let k := { k with next_thread := k.next_thread + 1 }
    let tcb := ThreadControlBlock.new id pid entry_point priority
    let k := { k with thread_table := k.thread_table.set slot (some tcb) }
    (.ok id, k.update_process_thread_count pid true)

/-- `Kernel::rollback_thread_creation`. -/
def Kernel.rollback_thread_creation (k : Kernel) (thread : Nat) : Kernel :=
  match k.locate_thread thread with
  | some index =>
    match tget k.thread_table index with
    | some tcb =>
      let k := { k with thread_table := k.thread_table.set index none }
      k.update_process_thread_count tcb.process false
    | none => k
  | none => k

/-- `Kernel::spawn_process`. -/
def Kernel.spawn_process (k : Kernel) (entry_point : Nat) (priority : ProcessPriority)
    (parent : Option Nat) (creds : Credentials) : Except KernelError Nat × Kernel :=
  match k.find_free_slot with
  | none => (.error .ProcessTableFull, k)
  | some slot =>
    let pid := k.next_pid
    let k := { k with next_pid := k.next_pid + 1 }
    let pcb := (ProcessControlBlock.new pid entry_point priority parent).update_security_label
      creds.label
    match k.security.register_task pid creds with
    | .error _ => (.error .SecurityViolation, k)
    | .ok sec =>
      let k := { k with security := sec,
                        process_table := k.process_table.set slot (some pcb) }
      match k.create_thread pid entry_point priority with
      | (.error err, k) =>
        let k := { k with process_table := k.process_table.set slot none }
        (.error err, { k with security := k.security.revoke_task pid })
      | (.ok thread_id, k) =>
        let k := match tget k.process_table slot with
          | some pcb2 =>
            { k with process_table := k.process_table.set slot (some { pcb2 with state := .Ready }) }
          | none => k
        match k.scheduler.enqueue (ScheduledThread.new thread_id pid priority) with
        | .error _ =>
          let k := k.rollback_thread_creation thread_id
          let k := { k with process_table := k.process_table.set slot none }
          (.error .SchedulerFull, { k with security := k.security.revoke_task pid })
        | .ok sch => (.ok pid, { k with scheduler := sch })

/-- `Kernel::spawn_initial_process`. -/
def Kernel.spawn_initial_process (k : Kernel) (creds : Credentials) :
    Except KernelError Nat × Kernel :=
  k.spawn_process 0 .Critical none creds

/-- `Kernel::spawn_thread`. -/
def Kernel.spawn_thread (k : Kernel) (pid entry_point : Nat)
    (priority : ProcessPriority) : Except KernelError Nat × Kernel :=
  match k.locate_process pid with
  | none => (.error .UnknownProcess, k)
  | some _ =>
    match k.create_thread pid entry_point priority with
    | (.error err, k) => (.error err, k)
    | (.ok thread_id, k) =>
      match k.scheduler.enqueue (ScheduledThread.new thread_id pid priority) with
      | .error _ => (.error .SchedulerFull, k.rollback_thread_creation thread_id)
      | .ok sch => (.ok thread_id, { k with scheduler := sch })

/-- `Kernel::remove_thread_from_cores`. -/
def Kernel.remove_thread_from_cores (k : Kernel) (thread : Nat) : Kernel :=
  { k with core_states := k.core_states.map (fun c => c.evict thread) }

/-- Loop of `Kernel::remove_threads_for_process`. -/
def removeThreadsAux (pid : Nat) (k : Kernel) (idx : Nat) : Nat → Kernel
  | 0 => k
  | fuel + 1 =>
    let k' := match tget k.thread_table idx with
      | some thread =>
        if thread.process = pid then
          let k := { k with scheduler := k.scheduler.remove_thread thread.id }
          let k := k.remove_thread_from_cores thread.id
          { k with thread_table := k.thread_table.set idx none }
        else k
      | none => k
    removeThreadsAux pid k' (idx + 1) fuel

/-- `Kernel::remove_threads_for_process`. -/
def Kernel.remove_threads_for_process (k : Kernel) (pid : Nat) : Kernel :=
  removeThreadsAux pid k 0 k.thread_table.length

/-- `Kernel::terminate_process`. -/
def Kernel.terminate_process (k : Kernel) (pid : Nat) : Kernel :=
  match k.locate_process pid with
  | none => k
  | some index =>
    let k := { k with process_table := k.process_table.set index none }
    let iq := k.ipc_queues.set index ((lget (MessageQueue.new 0) k.ipc_queues index).clear)
    let k := { k with ipc_queues := iq }
    let k := { k with scheduler := k.scheduler.remove_process pid }
    let k := k.remove_threads_for_process pid
    { k with security := k.security.revoke_task pid }

/-- `Kernel::terminate_thread`. -/
def Kernel.terminate_thread (k : Kernel) (thread : Nat) : Kernel :=
  match k.locate_thread thread with
  | none => k
  | some index =>
    match tget k.thread_table index with
    | some tcb =>
      let k := { k with scheduler := k.scheduler.remove_thread thread }
      let k := k.remove_thread_from_cores thread
      let k := { k with thread_table := k.thread_table.set index none }
      k.update_process_thread_count tcb.process false
    | none => k

/-- Loop of `Kernel::make_threads_ready`. -/
def makeThreadsReadyAux (pid : Nat) (k : Kernel) (idx : Nat) : Nat → Kernel
  | 0 => k
  | fuel + 1 =>
    let k' := match tget k.thread_table idx with
      | some thread =>
        if thread.process = pid ∧ thread.state = .Blocked then
          let k := { k with thread_table := k.thread_table.set idx (some thread.mark_ready) }
          let sch := k.scheduler.enqueueD
            (ScheduledThread.new thread.id thread.process thread.priority)
          { k with scheduler := sch }
        else k
      | none => k
    makeThreadsReadyAux pid k' (idx + 1) fuel

/-- `Kernel::make_threads_ready`. -/
def Kernel.make_threads_ready (k : Kernel) (pid : Nat) : Kernel :=
  makeThreadsReadyAux pid k 0 k.thread_table.length

/-- `Kernel::block_threads_for_process` (a straight pass over the thread table). -/
def Kernel.block_threads_for_process (k : Kernel) (pid : Nat) : Kernel :=
  { k with thread_table := k.thread_table.map (fun e => match e with
      | some thread => if thread.process = pid then some thread.block else some thread
      | none => none) }

/-- `Kernel::next_message_sequence`. -/
def Kernel.next_message_sequence (k : Kernel) : Nat × Kernel :=
  (k.message_sequence, { k with message_sequence := (k.message_sequence + 1) % U64MOD })

/-- `Kernel::send_message`. -/
def Kernel.send_message (k : Kernel) (sender receiver : Nat) (payload : MessagePayload) :
    Except KernelError Unit × Kernel :=
  match k.security.authorize_ipc sender receiver payload.security_class with
  | .error _ => (.error .SecurityViolation, k)
  | .ok _ =>
    let sq := k.next_message_sequence
    let k := sq.2
    let message : Message := ⟨sender, receiver, sq.1, payload⟩
    match k.locate_process receiver with
    | none => (.error .UnknownProcess, k)
    | some queue_index =>
      match (lget (MessageQueue.new 0) k.ipc_queues queue_index).push message with
      | .error _ => (.error .MessageQueueFull, k)
      | .ok q' =>
        let k := { k with ipc_queues := k.ipc_queues.set queue_index q' }
        match tget k.process_table queue_index with
        | some pcb =>
          if pcb.state = .Blocked then
            let pt := k.process_table.set queue_index (some { pcb with state := .Ready })
            let k := { k with process_table := pt }
            (.ok (), k.make_threads_ready receiver)
          else (.ok (), k)
        | none => (.ok (), k)

/-- `Kernel::receive_message`. -/
def Kernel.receive_message (k : Kernel) (pid : Nat) : Except KernelError Message × Kernel :=
  match k.locate_process pid with
  | none => (.error .UnknownProcess, k)
  | some queue_index =>
    let pq := (lget (MessageQueue.new 0) k.ipc_queues queue_index).pop
    match pq.1 with
    | none => (.error .MessageQueueEmpty, k)
    | some m => (.ok m, { k with ipc_queues := k.ipc_queues.set queue_index pq.2 })

/-- `Kernel::block_for_message`. -/
def Kernel.block_for_message (k : Kernel) (pid : Nat) : Kernel :=
  match k.locate_process pid with
  | none => k
  | some index =>
    let k := match tget k.process_table index with
      | some pcb =>
        { k with process_table := k.process_table.set index (some { pcb with state := .Blocked }) }
      | none => k
    let k := { k with scheduler := k.scheduler.remove_process pid }
    k.block_threads_for_process pid

/-- Update one core state in place. -/
def Kernel.set_core (k : Kernel) (i : Nat) (f : CpuCoreState → CpuCoreState) : Kernel :=
  { k with core_states := k.core_states.set i (f (lget CpuCoreState.new k.core_states i)) }

/-- `Kernel::handle_isolation_fault`. -/
def Kernel.handle_isolation_fault (k : Kernel) (pid : Nat) : Kernel :=
  k.terminate_process pid

/-- `Kernel::run_core`. -/
def Kernel.run_core (k : Kernel) (core_index : Nat) : Kernel :=
  let nx := k.scheduler.next
  let k := { k with scheduler := nx.2 }
  match nx.1 with
  | none => k.set_core core_index CpuCoreState.idle_cycle
  | some scheduled =>
    match k.locate_thread scheduled.thread with
    | none => k.set_core core_index CpuCoreState.idle_cycle
    | some thread_index =>
      match k.locate_process scheduled.process with
      | none =>
        let k := { k with thread_table := k.thread_table.set thread_index none }
        k.set_core core_index CpuCoreState.idle_cycle
      | some process_index =>
        match k.security.enforce_isolation scheduled.process with
        | .error _ => k.handle_isolation_fault scheduled.process
        | .ok _ =>
          let k := k.set_core core_index (fun c => c.start_thread scheduled.thread)
          let tk : Bool × Kernel := match tget k.thread_table thread_index with
            | some thread =>
              if thread.state = .Terminated then
                (true, { k with thread_table := k.thread_table.set thread_index none })
              else
                let tt := k.thread_table.set thread_index
                  (some (thread.mark_running.accumulate_cpu_time 1))
                (false, { k with thread_table := tt })
            | none => (false, k)
          let k := tk.2
          if tk.1 then
            let k := k.update_process_thread_count scheduled.process false
            k.set_core core_index CpuCoreState.finish_cycle
          else
            let k := match tget k.process_table process_index with
              | some pcb =>
                let pt := k.process_table.set process_index
                  (some { pcb with state := .Running, cpu_time := pcb.cpu_time + 1 })
                { k with process_table := pt }
              | none => k
            let k := match tget k.thread_table thread_index with
              | some thread =>
                let tt := k.thread_table.set thread_index (some thread.mark_ready)
                { k with thread_table := tt }
              | none => k
            let k := match tget k.process_table process_index with
              | some pcb =>
                let pt := k.process_table.set process_index (some { pcb with state := .Ready })
                { k with process_table := pt }
              | none => k
            let k := k.set_core core_index CpuCoreState.finish_cycle
            let cs := scheduled.consume_time_slice
            let scheduled := if cs.1 then cs.2.reset_time_slice else cs.2
            { k with scheduler := k.scheduler.enqueueD scheduled }

/-- Core loop of `Kernel::tick` (the clock tick touches only the external
`KERNEL_TIME`). -/
def tickAux (k : Kernel) (idx : Nat) : Nat → Kernel
  | 0 => k
  | fuel + 1 =>
    let k' := if (lget CpuCoreState.new k.core_states idx).online then k.run_core idx else k
    tickAux k' (idx + 1) fuel

/-- `Kernel::tick`. -/
def Kernel.tick (k : Kernel) : Kernel :=
  tickAux k 0 k.core_states.length

/-- `Kernel::bring_up_secondary_cores` loop. -/
def bringUpAux (k : Kernel) (idx remaining : Nat) : Nat → Kernel
  | 0 => k
  | fuel + 1 =>
    if remaining = 0 then k
    else
      let k := k.set_core idx CpuCoreState.set_online
      bringUpAux k (idx + 1) (remaining - 1) fuel

/-- `Kernel::bring_up_secondary_cores`. -/
def Kernel.bring_up_secondary_cores (k : Kernel) (count : Nat) : Kernel :=
  bringUpAux k 1 count (k.core_states.length - 1)

/-- `Kernel::online_core_count`. -/
def Kernel.online_core_count (k : Kernel) : Nat :=
  k.core_states.countP (fun c => c.online)

/-- Decidable equality on `Except`, for evaluating concrete results. -/
instance {ε α : Type} [DecidableEq ε] [DecidableEq α] : DecidableEq (Except ε α) :=
  fun a b =>
    match a, b with
    | .error x, .error y =>
      if h : x = y then .isTrue (by rw [h]) else
        .isFalse (by intro hh; cases hh; exact h rfl)
    | .error _, .ok _ => .isFalse (by intro hh; cases hh)
    | .ok _, .error _ => .isFalse (by intro hh; cases hh)
    | .ok x, .ok y =>
      if h : x = y then .isTrue (by rw [h]) else
        .isFalse (by intro hh; cases hh; exact h rfl)

/-! ## Basic lemmas about the table primitives -/

theorem tget_nil {α : Type} (i : Nat) : tget ([] : List (Option α)) i = none := by
  cases i <;> rfl

theorem tget_cons_zero {α : Type} (x : Option α) (l : List (Option α)) :
    tget (x :: l) 0 = x := rfl

theorem tget_cons_succ {α : Type} (x : Option α) (l : List (Option α)) (i : Nat) :
    tget (x :: l) (i + 1) = tget l i := rfl

theorem tget_set_self {α : Type} {l : List (Option α)} {i : Nat} (x : Option α)
    (h : i < l.length) : tget (l.set i x) i = x := by
  induction l generalizing i with
  | nil => simp at h
  | cons a as ih =>
    cases i with
    | zero => rfl
    | succ n =>
      simp only [List.set]
      rw [tget_cons_succ]
      exact ih (by simpa using h)

theorem tget_set_ne {α : Type} {l : List (Option α)} {i j : Nat} (x : Option α)
    (h : i ≠ j) : tget (l.set i x) j = tget l j := by
  induction l generalizing i j with
  | nil => simp [List.set]
  | cons a as ih =>
    cases i with
    | zero =>
      cases j with
      | zero => exact absurd rfl h
      | succ m => rfl
    | succ n =>
      cases j with
      | zero => rfl
      | succ m =>
        simp only [List.set]
        rw [tget_cons_succ, tget_cons_succ]
        exact ih (fun hh => h (by rw [hh]))

theorem tget_ge_length {α : Type} {l : List (Option α)} {i : Nat}
    (h : l.length ≤ i) : tget l i = none := by
  induction l generalizing i with
  | nil => exact tget_nil i
  | cons a as ih =>
    cases i with
    | zero => simp at h
    | succ n =>
      rw [tget_cons_succ]
      exact ih (by simpa using h)

theorem tget_map {α β : Type} (f : Option α → Option β) (l : List (Option α)) (i : Nat)
    (hf : f none = none) : tget (l.map f) i = f (tget l i) := by
  induction l generalizing i with
  | nil => simp [tget_nil, hf]
  | cons a as ih =>
    cases i with
    | zero => rfl
    | succ n =>
      simp only [List.map]
      rw [tget_cons_succ, tget_cons_succ]
      exact ih n

theorem lget_set_self {α : Type} {l : List α} {i : Nat} (d x : α)
    (h : i < l.length) : lget d (l.set i x) i = x := by
  induction l generalizing i with
  | nil => simp at h
  | cons a as ih =>
    cases i with
    | zero => rfl
    | succ n => exact ih (by simpa using h)

theorem lget_set_ne {α : Type} {l : List α} {i j : Nat} (d x : α)
    (h : i ≠ j) : lget d (l.set i x) j = lget d l j := by
  induction l generalizing i j with
  | nil => simp [List.set]
  | cons a as ih =>
    cases i with
    | zero =>
      cases j with
      | zero => exact absurd rfl h
      | succ m => rfl
    | succ n =>
      cases j with
      | zero => rfl
      | succ m => exact ih (fun hh => h (by rw [hh]))

theorem scanIdx_found {α : Type} {p : α → Bool} {l : List α} {i : Nat}
    (h : scanIdx p l = some i) :
    ∃ x, l.get? i = some x ∧ p x = true := by
  induction l generalizing i with
  | nil => simp [scanIdx] at h
  | cons a as ih =>
    by_cases hp : p a = true
    · simp [scanIdx, hp] at h
      exact ⟨a, by rw [← h]; rfl, hp⟩
    · simp [scanIdx, hp] at h
      obtain ⟨j, hj, hji⟩ := h
      obtain ⟨x, hx, hpx⟩ := ih hj
      exact ⟨x, by rw [← hji]; simpa using hx, hpx⟩

theorem scanIdx_lt_length {α : Type} {p : α → Bool} {l : List α} {i : Nat}
    (h : scanIdx p l = some i) : i < l.length := by
  obtain ⟨x, hx, _⟩ := scanIdx_found h
  exact List.get?_eq_some.mp hx |>.1

theorem scanIdx_earlier {α : Type} {p : α → Bool} {l : List α} {i j : Nat}
    (h : scanIdx p l = some i) (hj : j < i) {x : α} (hx : l.get? j = some x) :
    p x = false := by
  induction l generalizing i j with
  | nil => simp [scanIdx] at h
  | cons a as ih =>
    by_cases hp : p a = true
    · have hi : i = 0 := by
        simp [scanIdx, hp] at h
        omega
      exact absurd hj (by omega)
    · simp [scanIdx, hp] at h
      obtain ⟨i', hi', hii⟩ := h
      subst hii
      cases j with
      | zero =>
        have hxa : a = x := by simpa using hx
        rw [← hxa]
        simpa using hp
      | succ m =>
        exact ih hi' (Nat.lt_of_succ_lt_succ hj) (by simpa using hx)

theorem scanIdx_set_pred {α : Type} {p : α → Bool} {l : List α} {i : Nat}
    (h : scanIdx p l = some i) (y : α) (hy : p y = true) :
    scanIdx p (l.set i y) = some i := by
  induction l generalizing i with
  | nil => simp [scanIdx] at h
  | cons a as ih =>
    by_cases hp : p a = true
    · simp [scanIdx, hp] at h
      subst h
      simp [List.set, scanIdx, hy]
    · simp [scanIdx, hp] at h
      obtain ⟨i', hi', hii⟩ := h
      subst hii
      simp [List.set, scanIdx, hp, ih hi']

theorem scanIdx_set_ne {α : Type} {p : α → Bool} {l : List α} {i j : Nat}
    (h : scanIdx p l = some i) (y : α) (hne : j ≠ i) (hy : p y = false) :
    scanIdx p (l.set j y) = some i := by
  induction l generalizing i j with
  | nil => simp [scanIdx] at h
  | cons a as ih =>
    by_cases hp : p a = true
    · simp [scanIdx, hp] at h
      subst h
      cases j with
      | zero => exact absurd rfl hne
      | succ m => simp [List.set, scanIdx, hp]
    · simp [scanIdx, hp] at h
      obtain ⟨i', hi', hii⟩ := h
      subst hii
      cases j with
      | zero => simp [List.set, scanIdx, hy, hi']
      | succ m =>
        have hmi : m ≠ i' := fun hh => hne (by rw [hh])
        simp [List.set, scanIdx, hp, ih hi' hmi]

/-! ## Claim C1: mandatory access control on `send_message` -/

/-- `authorize_ipc` errors whenever one of the four policy conditions fails. -/
theorem authorize_ipc_error_of_policy_failure (sk : SecurityKernel)
    (sender receiver : Nat) (cls : SecurityClass) (sd rd : TaskDomain)
    (hs : sk.lookup sender = some sd) (hr : sk.lookup receiver = some rd)
    (hfail : ¬(sd.capabilities.allows_ipc = true ∧
      sd.label.dominates cls.as_label = true ∧
      rd.label.dominates cls.as_label = true ∧
      ¬(sd.isolation = .VirtualMachine ∧ rd.isolation = .None))) :
    ∃ e, sk.authorize_ipc sender receiver cls = .error e := by
  unfold SecurityKernel.authorize_ipc
  rw [hs, hr]
  by_cases hipc : sd.capabilities.allows_ipc = true
  · by_cases htr : sd.label.dominates cls.as_label = true
    · by_cases hrc : rd.label.dominates cls.as_label = true
      · have hiso : sd.isolation = .VirtualMachine ∧ rd.isolation = .None := by
          by_contra hno
          exact hfail ⟨hipc, htr, hrc, hno⟩
        simp [hipc, htr, hrc, hiso.1, hiso.2, TaskDomain.can_transmit,
          TaskDomain.can_receive]
      · simp [hipc, htr, hrc, TaskDomain.can_transmit, TaskDomain.can_receive]
    · simp [hipc, htr, TaskDomain.can_transmit, TaskDomain.can_receive]
  · simp [hipc]

/-- C1: for every kernel state in which sender and receiver are registered with
the security kernel, `send_message` fails with `SecurityViolation` and leaves
the kernel state untouched unless the sender holds the IPC capability, both the
sender's and the receiver's labels dominate the payload class's label, and it
is not the case that the sender is VM-isolated while the receiver runs at
isolation `None`. -/
theorem send_message_security_violation (k : Kernel) (sender receiver : Nat)
    (payload : MessagePayload) (sd rd : TaskDomain)
    (hs : k.security.lookup sender = some sd)
    (hr : k.security.lookup receiver = some rd)
    (hfail : ¬(sd.capabilities.allows_ipc = true ∧
      sd.label.dominates payload.security_class.as_label = true ∧
      rd.label.dominates payload.security_class.as_label = true ∧
      ¬(sd.isolation = .VirtualMachine ∧ rd.isolation = .None))) :
    k.send_message sender receiver payload = (.error .SecurityViolation, k) := by
  obtain ⟨e, he⟩ := authorize_ipc_error_of_policy_failure k.security sender receiver
    payload.security_class sd rd hs hr hfail
  unfold Kernel.send_message
  rw [he]

/-- Sender credentials of the spec's mandatory-access-control scenario:
a Public-labelled task holding the IPC capability. -/
def macSenderCreds : Credentials := ⟨SecurityLabel.publicL, CapabilitySet.ipc, .None⟩

/-- Receiver credentials of the scenario: a Confidential-labelled task. -/
def macReceiverCreds : Credentials := ⟨SecurityLabel.confidentialL, CapabilitySet.ipc, .None⟩

/-- Bootstrapped kernel with the Public sender (pid 1) and the Confidential
receiver (pid 2) spawned. -/
def macKernel : Kernel :=
  (((Kernel.new MAX_PROCESSES MESSAGE_DEPTH).bootstrap.spawn_process 0 .Normal none
    macSenderCreds).2.spawn_process 0 .Normal none macReceiverCreds).2

/-- Witness for C1, the spec's scenario: the Public sender (which cannot
dominate Confidential) fails to send a Confidential-class payload to the
Confidential receiver with `SecurityViolation`. -/
theorem send_message_security_violation_witness :
    macKernel.send_message 1 2 (MessagePayload.empty .Confidential) =
      (.error .SecurityViolation, macKernel) :=
  send_message_security_violation macKernel 1 2 (MessagePayload.empty .Confidential)
    (TaskDomain.from_credentials 1 macSenderCreds)
    (TaskDomain.from_credentials 2 macReceiverCreds)
    (by decide) (by decide) (by decide)

/-! ## Claim C3: FIFO dispatch within one priority class -/

/-- Bootstrapped kernel with three Normal-priority single-thread processes,
whose threads t1 = 1, t2 = 2, t3 = 3 are enqueued in that order. -/
def fifoKernel : Kernel :=
  ((((Kernel.new MAX_PROCESSES MESSAGE_DEPTH).bootstrap.spawn_process 7 .Normal none
    Credentials.user).2.spawn_process 8 .Normal none
    Credentials.user).2.spawn_process 9 .Normal none Credentials.user).2

/-- The (thread id, accumulated cpu time) profile of the live thread table;
a `tick` increments exactly the dispatched thread's cpu time. -/
def threadCpuTimes (k : Kernel) : List (Nat × Nat) :=
  k.thread_table.filterMap (fun e => e.map (fun t => (t.id, t.cpu_time)))

/-- The thread the scheduler would hand to the next dispatch. -/
def nextDispatch (k : Kernel) : Option Nat :=
  (k.scheduler.next).1.map (fun s => s.thread)

/-- C3: on a freshly bootstrapped kernel with exactly one online core and three
Normal-priority threads t1 = 1, t2 = 2, t3 = 3 enqueued in that order, three
successive `tick()` calls dispatch exactly t1, then t2, then t3: each tick
hands the head thread to the core (incrementing just that thread's cpu time)
and re-enqueues it at the tail. -/
theorem tick_dispatches_in_arrival_order :
    fifoKernel.online_core_count = 1 ∧
    nextDispatch fifoKernel = some 1 ∧
    nextDispatch fifoKernel.tick = some 2 ∧
    nextDispatch fifoKernel.tick.tick = some 3 ∧
    threadCpuTimes fifoKernel = [(1, 0), (2, 0), (3, 0)] ∧
    threadCpuTimes fifoKernel.tick = [(1, 1), (2, 0), (3, 0)] ∧
    threadCpuTimes fifoKernel.tick.tick = [(1, 1), (2, 1), (3, 0)] ∧
    threadCpuTimes fifoKernel.tick.tick.tick = [(1, 1), (2, 1), (3, 1)] := by
  decide

/-! ## Scheduler removal lemmas (used by C2 and C6) -/

theorem tget_some_lt_length {α : Type} {l : List (Option α)} {j : Nat} {e : α}
    (h : tget l j = some e) : j < l.length := by
  by_contra hge
  rw [tget_ge_length (by omega)] at h
  exact Option.noConfusion h

theorem schedRemoveAux_length (pred : ScheduledThread → Bool)
    (q : List (Option ScheduledThread)) (len idx fuel : Nat) :
    (schedRemoveAux pred q len idx fuel).1.length = q.length := by
  induction fuel generalizing q len idx with
  | zero => rfl
  | succ f ih =>
    unfold schedRemoveAux
    cases h : tget q idx with
    | none => simp [ih]
    | some entry =>
      by_cases hp : pred entry = true
      · simp [hp, ih, List.length_set]
      · simp [hp, ih]

theorem schedRemoveAux_step_none (pred : ScheduledThread → Bool)
    {q : List (Option ScheduledThread)} {len idx : Nat} (f : Nat)
    (hq : tget q idx = none) :
    schedRemoveAux pred q len idx (f + 1) = schedRemoveAux pred q len (idx + 1) f := by
  conv_lhs => rw [schedRemoveAux]
  rw [hq]

theorem schedRemoveAux_step_pos (pred : ScheduledThread → Bool)
    {q : List (Option ScheduledThread)} {len idx : Nat} (f : Nat)
    {entry : ScheduledThread} (hq : tget q idx = some entry)
    (hp : pred entry = true) :
    schedRemoveAux pred q len idx (f + 1) =
      schedRemoveAux pred (q.set idx none) (if len > 0 then len - 1 else len)
        (idx + 1) f := by
  conv_lhs => rw [schedRemoveAux]
  rw [hq]
  simp [hp]

theorem schedRemoveAux_step_neg (pred : ScheduledThread → Bool)
    {q : List (Option ScheduledThread)} {len idx : Nat} (f : Nat)
    {entry : ScheduledThread} (hq : tget q idx = some entry)
    (hp : ¬pred entry = true) :
    schedRemoveAux pred q len idx (f + 1) = schedRemoveAux pred q len (idx + 1) f := by
  conv_lhs => rw [schedRemoveAux]
  rw [hq]
  simp [hp]

theorem schedRemoveAux_sub (pred : ScheduledThread → Bool)
    (q : List (Option ScheduledThread)) (len idx fuel : Nat) {j : Nat}
    {e : ScheduledThread}
    (h : tget (schedRemoveAux pred q len idx fuel).1 j = some e) :
    tget q j = some e := by
  induction fuel generalizing q len idx with
  | zero => exact h
  | succ f ih =>
    cases hq : tget q idx with
    | none =>
      rw [schedRemoveAux_step_none pred f hq] at h
      exact ih _ _ _ h
    | some entry =>
      by_cases hp : pred entry = true
      · rw [schedRemoveAux_step_pos pred f hq hp] at h
        have hres := ih _ _ _ h
        by_cases hji : j = idx
        · subst hji
          rw [tget_set_self none (tget_some_lt_length hq)] at hres
          exact Option.noConfusion hres
        · rwa [tget_set_ne none (fun hh => hji hh.symm)] at hres
      · rw [schedRemoveAux_step_neg pred f hq hp] at h
        exact ih _ _ _ h

theorem schedRemoveAux_clears (pred : ScheduledThread → Bool)
    (q : List (Option ScheduledThread)) (len idx fuel : Nat) {j : Nat}
    {e : ScheduledThread} (hij : idx ≤ j) (hjf : j < idx + fuel)
    (hq : tget q j = some e) (hp : pred e = true) :
    tget (schedRemoveAux pred q len idx fuel).1 j = none := by
  induction fuel generalizing q len idx with
  | zero => omega
  | succ f ih =>
    cases hqi : tget q idx with
    | none =>
      have hji : j ≠ idx := fun hh => by rw [hh, hqi] at hq; exact Option.noConfusion hq
      rw [schedRemoveAux_step_none pred f hqi]
      exact ih _ _ _ (by omega) (by omega) hq
    | some entry =>
      by_cases hpe : pred entry = true
      · rw [schedRemoveAux_step_pos pred f hqi hpe]
        by_cases hji : j = idx
        · subst hji
          cases hres : tget (schedRemoveAux pred (q.set j none)
              (if len > 0 then len - 1 else len) (j + 1) f).1 j with
          | none => rfl
          | some e' =>
            have := schedRemoveAux_sub pred _ _ _ _ hres
            rw [tget_set_self none (tget_some_lt_length hq)] at this
            exact Option.noConfusion this
        · refine ih _ _ _ (by omega) (by omega) ?_
          rwa [tget_set_ne none (fun hh => hji hh.symm)]
      · have hji : j ≠ idx := fun hh => by
          rw [hh, hqi] at hq
          have hee : entry = e := Option.some.inj hq
          rw [hee] at hpe
          exact hpe hp
        rw [schedRemoveAux_step_neg pred f hqi hpe]
        exact ih _ _ _ (by omega) (by omega) hq

/-- After `Scheduler::remove_process(pid)` no queue slot holds an entry of
that process. -/
theorem remove_process_clears (s : Scheduler) (pid : Nat) {j : Nat}
    {e : ScheduledThread} (h : tget (s.remove_process pid).queue j = some e) :
    e.process ≠ pid := by
  intro hpe
  have hsub := schedRemoveAux_sub (fun x => x.process == pid) s.queue s.len 0
    s.queue.length h
  have hj : j < s.queue.length := tget_some_lt_length hsub
  have := schedRemoveAux_clears (fun x => x.process == pid) s.queue s.len 0
    s.queue.length (Nat.zero_le j) (by omega) hsub (by simp [hpe])
  rw [show (s.remove_process pid).queue =
    (schedRemoveAux (fun x => x.process == pid) s.queue s.len 0 s.queue.length).1 from rfl]
    at h
  rw [this] at h
  exact Option.noConfusion h

/-- After `Scheduler::remove_thread(tid)` no queue slot holds that thread. -/
theorem remove_thread_clears (s : Scheduler) (tid : Nat) {j : Nat}
    {e : ScheduledThread} (h : tget (s.remove_thread tid).queue j = some e) :
    e.thread ≠ tid := by
  intro hpe
  have hsub := schedRemoveAux_sub (fun x => x.thread == tid) s.queue s.len 0
    s.queue.length h
  have hj : j < s.queue.length := tget_some_lt_length hsub
  have := schedRemoveAux_clears (fun x => x.thread == tid) s.queue s.len 0
    s.queue.length (Nat.zero_le j) (by omega) hsub (by simp [hpe])
  rw [show (s.remove_thread tid).queue =
    (schedRemoveAux (fun x => x.thread == tid) s.queue s.len 0 s.queue.length).1 from rfl]
    at h
  rw [this] at h
  exact Option.noConfusion h

/-! ## Claim C6: `block_for_message` -/

/-- A PCB for pid 1 used in the C6 states. -/
def blkPcb : ProcessControlBlock := ProcessControlBlock.new 1 0 .Normal none

/-- A thread of process 1 whose state is `Terminated`. -/
def blkTcb : ThreadControlBlock := (ThreadControlBlock.new 10 1 0 .Normal).terminate

/-- A kernel state in which process 1 is live and owns one `Terminated` TCB. -/
def blkKernel : Kernel :=
  ⟨[some blkPcb], [MessageQueue.new 4], Scheduler.new 4, SecurityKernel.new 4,
    [CpuCoreState.new], [some blkTcb], 2, 11, 0⟩

/-- Counterexample to C6 as stated: `block_for_message` calls
`ThreadControlBlock::block` on every TCB of the process regardless of its
state, so a `Terminated` TCB of the process does not keep its previous state —
it is moved to `Blocked`. -/
theorem block_for_message_terminated_counterexample :
    blkKernel.locate_process 1 = some 0 ∧
    (tget blkKernel.thread_table 0).map (fun t => t.process) = some 1 ∧
    (tget blkKernel.thread_table 0).map (fun t => t.state) = some .Terminated ∧
    (tget (blkKernel.block_for_message 1).thread_table 0).map (fun t => t.state) =
      some .Blocked ∧
    ThreadState.Blocked ≠ ThreadState.Terminated := by
  decide

/-- C6 (amended): after `block_for_message(p)` for a live process `p`, `p`'s
PCB state is Blocked, no scheduler queue entry has process `p`, every TCB of
`p` is Blocked afterwards regardless of its previous state (the code blocks
Terminated TCBs too, not only Ready/Running ones), and TCBs of other processes
keep their previous state. -/
theorem block_for_message_spec (k : Kernel) (pid idx : Nat)
    (hloc : k.locate_process pid = some idx) :
    (∀ pcb, tget k.process_table idx = some pcb →
      tget (k.block_for_message pid).process_table idx =
        some { pcb with state := .Blocked }) ∧
    (∀ j e, tget (k.block_for_message pid).scheduler.queue j = some e →
      e.process ≠ pid) ∧
    (∀ j t, tget k.thread_table j = some t → t.process = pid →
      tget (k.block_for_message pid).thread_table j = some t.block) ∧
    (∀ j t, tget k.thread_table j = some t → t.process ≠ pid →
      tget (k.block_for_message pid).thread_table j = some t) := by
  obtain ⟨x, hx, hpx⟩ := scanIdx_found hloc
  obtain ⟨pcb0, hpcb0⟩ : ∃ pcb0, x = some pcb0 := by
    cases x with
    | none => simp at hpx
    | some p => exact ⟨p, rfl⟩
  subst hpcb0
  have hxg : tget k.process_table idx = some pcb0 := by
    unfold tget
    rw [hx]
    rfl
  have hidx : idx < k.process_table.length := scanIdx_lt_length hloc
  refine ⟨?_, ?_, ?_, ?_⟩
  · intro pcb hpcb
    have hpp : pcb = pcb0 := by
      rw [hxg] at hpcb
      exact (Option.some.inj hpcb).symm
    subst hpp
    simp only [Kernel.block_for_message, hloc, hxg, Kernel.block_threads_for_process]
    exact tget_set_self _ hidx
  · intro j e he
    simp only [Kernel.block_for_message, hloc, hxg, Kernel.block_threads_for_process] at he
    exact remove_process_clears _ pid he
  · intro j t ht hp
    simp only [Kernel.block_for_message, hloc, hxg, Kernel.block_threads_for_process]
    rw [tget_map _ _ _ rfl, ht]
    simp [hp]
  · intro j t ht hp
    simp only [Kernel.block_for_message, hloc, hxg, Kernel.block_threads_for_process]
    rw [tget_map _ _ _ rfl, ht]
    simp [hp]

/-- Witness for the amended C6 at the concrete state `blkKernel`. -/
theorem block_for_message_spec_witness :
    tget (blkKernel.block_for_message 1).process_table 0 =
      some { blkPcb with state := .Blocked } ∧
    tget (blkKernel.block_for_message 1).thread_table 0 = some blkTcb.block :=
  ⟨(block_for_message_spec blkKernel 1 0 (by decide)).1 blkPcb (by decide),
   (block_for_message_spec blkKernel 1 0 (by decide)).2.2.1 0 blkTcb (by decide) (by decide)⟩

/-! ## Claim C10: a full receiver queue leaves the receiver-visible state intact -/

/-- C10: when `send_message` fails with `MessageQueueFull`, the resulting
kernel differs from the original only in the kernel-wide message sequence
counter (which has already advanced): the receiver's queue, all PCBs and TCBs,
the scheduler and the security state are exactly as before, so a Blocked
receiver is not woken. -/
theorem send_message_queue_full (k : Kernel) (sender receiver qidx : Nat)
    (payload : MessagePayload)
    (hauth : k.security.authorize_ipc sender receiver payload.security_class = .ok ())
    (hloc : k.locate_process receiver = some qidx)
    (hfull : (lget (MessageQueue.new 0) k.ipc_queues qidx).is_full = true) :
    k.send_message sender receiver payload =
      (.error .MessageQueueFull,
        { k with message_sequence := (k.message_sequence + 1) % U64MOD }) := by
  have hloc2 : Kernel.locate_process
      { k with message_sequence := (k.message_sequence + 1) % U64MOD } receiver =
      some qidx := hloc
  have hfull2 : (lget (MessageQueue.new 0)
      ({ k with message_sequence := (k.message_sequence + 1) % U64MOD }).ipc_queues
      qidx).is_full = true := hfull
  simp only [Kernel.send_message, hauth, Kernel.next_message_sequence, hloc2,
    MessageQueue.push, hfull2, if_pos]

/-- Kernel whose IPC queues have zero capacity (always full), with two live
`user`-credentialled processes 1 and 2. -/
def fullQKernel : Kernel :=
  (((Kernel.new 4 0).bootstrap.spawn_process 0 .Normal none
    Credentials.user).2.spawn_process 0 .Normal none Credentials.user).2

/-- Witness for C10 at a concrete state whose receiver queue is full. -/
theorem send_message_queue_full_witness :
    fullQKernel.send_message 1 2 (MessagePayload.empty .Internal) =
      (.error .MessageQueueFull,
        { fullQKernel with message_sequence := (fullQKernel.message_sequence + 1) % U64MOD }) :=
  send_message_queue_full fullQKernel 1 2 1 (MessagePayload.empty .Internal)
    (by decide) (by decide) (by decide)

/-! ## Claim C5: per-pair FIFO message delivery -/

/-- `make_threads_ready` touches only the thread table and the scheduler. -/
theorem makeThreadsReadyAux_fields (pid : Nat) (k : Kernel) (idx fuel : Nat) :
    (makeThreadsReadyAux pid k idx fuel).process_table = k.process_table ∧
    (makeThreadsReadyAux pid k idx fuel).ipc_queues = k.ipc_queues ∧
    (makeThreadsReadyAux pid k idx fuel).security = k.security ∧
    (makeThreadsReadyAux pid k idx fuel).message_sequence = k.message_sequence := by
  induction fuel generalizing k idx with
  | zero => exact ⟨rfl, rfl, rfl, rfl⟩
  | succ f ih =>
    unfold makeThreadsReadyAux
    cases h : tget k.thread_table idx with
    | none => exact ih _ _
    | some thread =>
      by_cases hc : thread.process = pid ∧ thread.state = .Blocked
      · simp only [hc, if_pos]
        exact ih _ _
      · simp only [hc, if_neg, if_false]
        exact ih _ _

/-- Successful `send_message` characterised: the message is appended at the
tail of the receiver's queue carrying the pre-increment sequence number, the
sequence counter advances modulo `2^64`, security is untouched, and the
process table is unchanged except possibly for waking the receiver's PCB. -/
theorem send_message_ok (k : Kernel) (s r qidx : Nat) (payload : MessagePayload)
    (hauth : k.security.authorize_ipc s r payload.security_class = .ok ())
    (hloc : k.locate_process r = some qidx)
    (hnf : (lget (MessageQueue.new 0) k.ipc_queues qidx).is_full = false) :
    ∃ k', k.send_message s r payload = (.ok (), k') ∧
      k'.security = k.security ∧
      k'.message_sequence = (k.message_sequence + 1) % U64MOD ∧
      k'.ipc_queues = k.ipc_queues.set qidx
        ⟨(lget (MessageQueue.new 0) k.ipc_queues qidx).buffer.set
            (lget (MessageQueue.new 0) k.ipc_queues qidx).tail
            (some ⟨s, r, k.message_sequence, payload⟩),
          (lget (MessageQueue.new 0) k.ipc_queues qidx).head,
          ((lget (MessageQueue.new 0) k.ipc_queues qidx).tail + 1) %
            (lget (MessageQueue.new 0) k.ipc_queues qidx).capacity,
          (lget (MessageQueue.new 0) k.ipc_queues qidx).len + 1⟩ ∧
      (k'.process_table = k.process_table ∨
        ∃ pcb, tget k.process_table qidx = some pcb ∧
          k'.process_table = k.process_table.set qidx (some { pcb with state := .Ready })) := by
  have hloc2 : Kernel.locate_process
      { k with message_sequence := (k.message_sequence + 1) % U64MOD } r = some qidx := hloc
  have hnf2 : (lget (MessageQueue.new 0)
      ({ k with message_sequence := (k.message_sequence + 1) % U64MOD }).ipc_queues
      qidx).is_full = false := hnf
  simp only [Kernel.send_message, hauth, Kernel.next_message_sequence, hloc2,
    MessageQueue.push, hnf2, Bool.false_eq_true, if_false]
  cases hpt : tget k.process_table qidx with
  | none =>
    simp only [hpt]
    exact ⟨_, rfl, rfl, rfl, rfl, Or.inl rfl⟩
  | some pcb =>
    by_cases hb : pcb.state = .Blocked
    · simp only [hpt, hb, if_pos]
      refine ⟨_, rfl, ?_, ?_, ?_, ?_⟩
      · exact (makeThreadsReadyAux_fields r _ 0 _).2.2.1
      · exact (makeThreadsReadyAux_fields r _ 0 _).2.2.2
      · exact (makeThreadsReadyAux_fields r _ 0 _).2.1
      · exact Or.inr ⟨pcb, rfl, (makeThreadsReadyAux_fields r _ 0 _).1⟩
    · simp only [hpt, hb, if_neg, if_false]
      exact ⟨_, rfl, rfl, rfl, rfl, Or.inl rfl⟩

/-- Successful `receive_message` characterised: it pops the head of the
receiver's queue. -/
theorem receive_message_ok (k : Kernel) (r qidx : Nat) (q : MessageQueue) (m : Message)
    (hloc : k.locate_process r = some qidx)
    (hq : lget (MessageQueue.new 0) k.ipc_queues qidx = q)
    (hlen : ¬q.len = 0)
    (hm : tget q.buffer q.head = some m) :
    (k.receive_message r).1 = .ok m ∧
    (k.receive_message r).2 = { k with ipc_queues := (k.ipc_queues.set qidx
      (MessageQueue.mk (q.buffer.set q.head none) ((q.head + 1) % q.capacity)
        q.tail (q.len - 1))) } := by
  unfold Kernel.receive_message
  simp only [hloc, hq, MessageQueue.pop]
  rw [if_neg hlen]
  simp only [hm]
  exact ⟨trivial, trivial⟩

/-- C5 (amended): for every live sender and receiver whose queue is empty and
well-formed, `send(s,r,m1); send(s,r,m2); receive(r); receive(r)` succeeds and
yields m1 first and m2 second (FIFO per pair); m2's sequence number is
`(m1's + 1) % 2^64`, so m1's sequence is strictly below m2's except in the
single state where the kernel-wide counter wraps at `2^64 - 1`. -/
theorem ipc_fifo_per_pair (k : Kernel) (s r qidx : Nat) (m1 m2 : MessagePayload)
    (hauth1 : k.security.authorize_ipc s r m1.security_class = .ok ())
    (hauth2 : k.security.authorize_ipc s r m2.security_class = .ok ())
    (hloc : k.locate_process r = some qidx)
    (hqlen : (lget (MessageQueue.new 0) k.ipc_queues qidx).len = 0)
    (hht : (lget (MessageQueue.new 0) k.ipc_queues qidx).tail =
      (lget (MessageQueue.new 0) k.ipc_queues qidx).head)
    (hcap : 2 ≤ (lget (MessageQueue.new 0) k.ipc_queues qidx).capacity)
    (hhd : (lget (MessageQueue.new 0) k.ipc_queues qidx).head <
      (lget (MessageQueue.new 0) k.ipc_queues qidx).capacity)
    (hql : qidx < k.ipc_queues.length) :
    (k.send_message s r m1).1 = .ok () ∧
    ((k.send_message s r m1).2.send_message s r m2).1 = .ok () ∧
    (((k.send_message s r m1).2.send_message s r m2).2.receive_message r).1 =
      .ok ⟨s, r, k.message_sequence, m1⟩ ∧
    ((((k.send_message s r m1).2.send_message s r m2).2.receive_message
        r).2.receive_message r).1 =
      .ok ⟨s, r, (k.message_sequence + 1) % U64MOD, m2⟩ := by
  set q0 := lget (MessageQueue.new 0) k.ipc_queues qidx with hq0
  obtain ⟨x, hx, hpx⟩ := scanIdx_found hloc
  obtain ⟨pcb0, hpcb0⟩ : ∃ pcb0, x = some pcb0 := by
    cases x with
    | none => simp at hpx
    | some p => exact ⟨p, rfl⟩
  subst hpcb0
  have hpid : pcb0.pid = r := by simpa using hpx
  have hnf1 : q0.is_full = false := by
    unfold MessageQueue.is_full
    rw [hqlen]
    simp
    omega
  -- first send
  obtain ⟨k1, hs1, hsec1, hseq1, hipc1, hpt1⟩ := send_message_ok k s r qidx m1 hauth1 hloc hnf1
  have hlen0 : q0.buffer.length = q0.capacity := rfl
  have hhd2 : (q0.head + 1) % q0.capacity ≠ q0.head := by
    intro h
    rcases Nat.lt_or_ge (q0.head + 1) q0.capacity with hlt | hge
    · rw [Nat.mod_eq_of_lt hlt] at h
      omega
    · have hle : q0.head + 1 = q0.capacity := by omega
      rw [hle, Nat.mod_self] at h
      omega
  have hq1 : lget (MessageQueue.new 0) k1.ipc_queues qidx =
      ⟨q0.buffer.set q0.head (some ⟨s, r, k.message_sequence, m1⟩), q0.head,
        (q0.head + 1) % q0.capacity, 1⟩ := by
    rw [hipc1, lget_set_self _ _ hql, ← hq0, hht, hqlen]
  -- locate in k1
  have hloc1 : k1.locate_process r = some qidx := by
    rcases hpt1 with hsame | ⟨pcb, hpcb, hset⟩
    · unfold Kernel.locate_process
      rw [hsame]
      exact hloc
    · unfold Kernel.locate_process
      rw [hset]
      refine scanIdx_set_pred hloc _ ?_
      have : pcb = pcb0 := by
        have h0 : tget k.process_table qidx = some pcb0 := by
          unfold tget
          rw [hx]
          rfl
        rw [h0] at hpcb
        exact (Option.some.inj hpcb).symm
      subst this
      simp [hpid]
  have hauth21 : k1.security.authorize_ipc s r m2.security_class = .ok () := by
    rw [hsec1]
    exact hauth2
  have hnf21 : (lget (MessageQueue.new 0) k1.ipc_queues qidx).is_full = false := by
    rw [hq1]
    unfold MessageQueue.is_full MessageQueue.capacity
    simp only [List.length_set]
    have : q0.buffer.length = q0.capacity := rfl
    rw [this]
    simp
    omega
  -- second send
  obtain ⟨k2, hs2, hsec2, hseq2, hipc2, hpt2⟩ :=
    send_message_ok k1 s r qidx m2 hauth21 hloc1 hnf21
  have hq1l : qidx < k1.ipc_queues.length := by
    rw [hipc1, List.length_set]
    exact hql
  set B2 : List (Option Message) :=
    (q0.buffer.set q0.head (some ⟨s, r, k.message_sequence, m1⟩)).set
      ((q0.head + 1) % q0.capacity) (some ⟨s, r, k1.message_sequence, m2⟩) with hB2
  have hlenB2 : B2.length = q0.capacity := by
    rw [hB2]
    simp only [List.length_set]
    exact hlen0
  have hq2 : lget (MessageQueue.new 0) k2.ipc_queues qidx =
      ⟨B2, q0.head, ((q0.head + 1) % q0.capacity + 1) % q0.capacity, 2⟩ := by
    rw [hipc2, lget_set_self _ _ hq1l, hq1, hB2]
    simp only [MessageQueue.capacity, List.length_set]
  have hloc2' : k2.locate_process r = some qidx := by
    rcases hpt2 with hsame | ⟨pcb, hpcb, hset⟩
    · unfold Kernel.locate_process
      rw [hsame]
      exact hloc1
    · unfold Kernel.locate_process
      rw [hset]
      refine scanIdx_set_pred hloc1 _ ?_
      obtain ⟨y, hy, hpy⟩ := scanIdx_found hloc1
      have h0 : tget k1.process_table qidx = y := by
        unfold tget
        rw [hy]
        rfl
      rw [h0] at hpcb
      subst hpcb
      simpa using hpy
  -- first receive
  have hblt : q0.head < q0.buffer.length := by rw [hlen0]; exact hhd
  have hm1at : tget B2 q0.head = some ⟨s, r, k.message_sequence, m1⟩ := by
    rw [hB2, tget_set_ne _ hhd2, tget_set_self _ hblt]
  have hrecv1 := receive_message_ok k2 r qidx
    ⟨B2, q0.head, ((q0.head + 1) % q0.capacity + 1) % q0.capacity, 2⟩
    ⟨s, r, k.message_sequence, m1⟩ hloc2' hq2 (by simp) hm1at
  -- the kernel state after the first receive, with `capacity` normalised
  have hk3 : (k2.receive_message r).2 =
      { k2 with ipc_queues := (k2.ipc_queues.set qidx (MessageQueue.mk
          (B2.set q0.head none) ((q0.head + 1) % B2.length)
          (((q0.head + 1) % q0.capacity + 1) % q0.capacity) 1)) } := hrecv1.2
  have hloc3 : Kernel.locate_process
      { k2 with ipc_queues := k2.ipc_queues.set qidx (MessageQueue.mk
          (B2.set q0.head none) ((q0.head + 1) % B2.length)
          (((q0.head + 1) % q0.capacity + 1) % q0.capacity) 1) } r = some qidx := hloc2'
  have hq2len : qidx < k2.ipc_queues.length := by
    rw [hipc2, List.length_set]
    exact hq1l
  have hq3 : lget (MessageQueue.new 0)
      ({ k2 with ipc_queues := k2.ipc_queues.set qidx (MessageQueue.mk
          (B2.set q0.head none) ((q0.head + 1) % B2.length)
          (((q0.head + 1) % q0.capacity + 1) % q0.capacity) 1) }).ipc_queues qidx =
      MessageQueue.mk (B2.set q0.head none) ((q0.head + 1) % B2.length)
        (((q0.head + 1) % q0.capacity + 1) % q0.capacity) 1 :=
    lget_set_self _ _ hq2len
  have hm2at : tget (B2.set q0.head none) ((q0.head + 1) % B2.length) =
      some ⟨s, r, k1.message_sequence, m2⟩ := by
    rw [hlenB2, tget_set_ne _ (fun hh => hhd2 hh.symm)]
    refine tget_set_self _ ?_
    simp only [List.length_set]
    rw [hlen0]
    exact Nat.mod_lt _ (by omega)
  have hrecv2 := receive_message_ok
    { k2 with ipc_queues := k2.ipc_queues.set qidx (MessageQueue.mk
        (B2.set q0.head none) ((q0.head + 1) % B2.length)
        (((q0.head + 1) % q0.capacity + 1) % q0.capacity) 1) } r qidx
    (MessageQueue.mk (B2.set q0.head none) ((q0.head + 1) % B2.length)
      (((q0.head + 1) % q0.capacity + 1) % q0.capacity) 1)
    ⟨s, r, k1.message_sequence, m2⟩ hloc3 hq3 (by simp) hm2at
  refine ⟨by rw [hs1], ?_, ?_, ?_⟩
  · rw [hs1]
    show (k1.send_message s r m2).1 = _
    rw [hs2]
  · rw [hs1]
    show ((k1.send_message s r m2).2.receive_message r).1 = _
    rw [hs2]
    show (k2.receive_message r).1 = _
    rw [hrecv1.1]
  · rw [hs1]
    show (((k1.send_message s r m2).2.receive_message r).2.receive_message r).1 = _
    rw [hs2]
    show (((k2.receive_message r)).2.receive_message r).1 = _
    rw [hk3]
    rw [hrecv2.1, hseq1]

/-- Bootstrapped kernel (queue depth 2) with two live `user` processes 1 and 2. -/
def pairKernel : Kernel :=
  (((Kernel.new 4 2).bootstrap.spawn_process 0 .Normal none
    Credentials.user).2.spawn_process 0 .Normal none Credentials.user).2

/-- `pairKernel` at the point where the kernel-wide sequence counter is about
to wrap: the next two sequence numbers are `2^64 - 1` and `0`. -/
def wrapKernel : Kernel := { pairKernel with message_sequence := U64MOD - 1 }

/-- First payload of the wrap scenario. -/
def wrapM1 : MessagePayload := { MessagePayload.empty .Internal with length := 1 }

/-- Second payload of the wrap scenario. -/
def wrapM2 : MessagePayload := { MessagePayload.empty .Internal with length := 2 }

/-- Counterexample to C5 as stated: in the kernel state whose sequence counter
sits at `2^64 - 1` (the counter is advanced with `u64::wrapping_add`), two
successive sends to an empty queue succeed and are received in FIFO order, but
the first message's sequence number `2^64 - 1` is not strictly less than the
second's, which wraps to `0`. -/
theorem ipc_sequence_wrap_counterexample :
    (wrapKernel.send_message 1 2 wrapM1).1 = .ok () ∧
    ((wrapKernel.send_message 1 2 wrapM1).2.send_message 1 2 wrapM2).1 = .ok () ∧
    (((wrapKernel.send_message 1 2 wrapM1).2.send_message 1 2
        wrapM2).2.receive_message 2).1 = .ok ⟨1, 2, U64MOD - 1, wrapM1⟩ ∧
    ((((wrapKernel.send_message 1 2 wrapM1).2.send_message 1 2
        wrapM2).2.receive_message 2).2.receive_message 2).1 = .ok ⟨1, 2, 0, wrapM2⟩ ∧
    ¬(U64MOD - 1 < 0) := by
  decide

/-- Witness for the amended C5 at the concrete state `pairKernel`: messages are
delivered in FIFO order with sequence numbers 0 and 1. -/
theorem ipc_fifo_per_pair_witness :
    (pairKernel.send_message 1 2 wrapM1).1 = .ok () ∧
    ((pairKernel.send_message 1 2 wrapM1).2.send_message 1 2 wrapM2).1 = .ok () ∧
    (((pairKernel.send_message 1 2 wrapM1).2.send_message 1 2
        wrapM2).2.receive_message 2).1 = .ok ⟨1, 2, pairKernel.message_sequence, wrapM1⟩ ∧
    ((((pairKernel.send_message 1 2 wrapM1).2.send_message 1 2
        wrapM2).2.receive_message 2).2.receive_message 2).1 =
      .ok ⟨1, 2, (pairKernel.message_sequence + 1) % U64MOD, wrapM2⟩ :=
  ipc_fifo_per_pair pairKernel 1 2 1 wrapM1 wrapM2 (by decide) (by decide) (by decide)
    (by decide) (by decide) (by decide) (by decide) (by decide)

/-! ## src/kernel/memory.rs : the heap allocator

Pointers (`NonNull<u8>`) are modelled as byte offsets from the arena base, so
the source's `addr - base` translation is the identity and the
`addr < base || addr >= base + HEAP_SIZE` guard becomes `offset < HEAP_SIZE`.
`usize` arithmetic is modelled on `Nat` (the source's `checked_add` never
returns `None` there). -/

def PAGE_SIZE : Nat := 4096
def DEFAULT_HEAP_BYTES : Nat := 131072
def MAX_ALLOCATION_RECORDS : Nat := 512

def PROT_READ : Nat := 1
def PROT_WRITE : Nat := 2
def PROT_EXECUTE : Nat := 4

inductive AllocationKind where
  | Heap
  | Mapping
deriving DecidableEq, Repr

structure MemoryProtection where
  read : Bool
  write : Bool
  execute : Bool
deriving DecidableEq, Repr

def MemoryProtection.read_only : MemoryProtection := ⟨true, false, false⟩

def MemoryProtection.read_write : MemoryProtection := ⟨true, true, false⟩

structure AllocationRecord where
  offset : Nat
  size : Nat
  kind : AllocationKind
  protection : MemoryProtection
deriving DecidableEq, Repr

structure FreeRegion where
  offset : Nat
  size : Nat
deriving DecidableEq, Repr

/-- `FreeRegion::end` (`end` is a keyword in Lean). -/
def FreeRegion.endOff (f : FreeRegion) : Nat := f.offset + f.size

structure MemoryManager where
  heap : List Nat
  bump_offset : Nat
  allocations : List (Option AllocationRecord)
  free_regions : List (Option FreeRegion)
  allocated_bytes : Nat
  peak_bytes : Nat
deriving DecidableEq, Repr

/-- `MemoryManager::new` for `HEAP_SIZE` heap bytes and `MAX_AREAS` records. -/
def MemoryManager.new (heapSize maxAreas : Nat) : MemoryManager :=
  ⟨List.replicate heapSize 0, 0, List.replicate maxAreas none,
    List.replicate maxAreas none, 0, 0⟩

/-- `MemoryManager::align_up`: `(value + (align-1)) & !(align-1)` written as a
subtraction of the masked low bits (the same bits for values below `2^64`). -/
def align_up (value align : Nat) : Nat :=
  if align = 0 then value
  else (value + (align - 1)) - Nat.land (value + (align - 1)) (align - 1)

/-- Merge scan of `MemoryManager::insert_free_region`: one pass over the
free-region array absorbing any region adjacent to `merged`. -/
def mergePass (fr : List (Option FreeRegion)) (merged : FreeRegion) (idx : Nat) :
    Nat → List (Option FreeRegion) × FreeRegion
  | 0 => (fr, merged)
  | fuel + 1 =>
    match tget fr idx with
    | some existing =>
      if existing.endOff = merged.offset then
        mergePass (fr.set idx none) ⟨existing.offset, existing.size + merged.size⟩
          (idx + 1) fuel
      else if merged.endOff = existing.offset then
        mergePass (fr.set idx none) ⟨merged.offset, merged.size + existing.size⟩
          (idx + 1) fuel
      else mergePass fr merged (idx + 1) fuel
    | none => mergePass fr merged (idx + 1) fuel

/-- Second loop of `insert_free_region`: store in the first empty slot, or drop
the region when the array is saturated (the documented leak). -/
def storeRegion (fr : List (Option FreeRegion)) (merged : FreeRegion) :
    List (Option FreeRegion) :=
  match scanIdx (fun e => e.isNone) fr with
  | some i => fr.set i (some merged)
  | none => fr

/-- `MemoryManager::insert_free_region`. -/
def MemoryManager.insert_free_region (m : MemoryManager) (region : FreeRegion) :
    MemoryManager :=
  if region.size = 0 then m
  else
    let st := mergePass m.free_regions region 0 m.free_regions.length
    { m with free_regions := storeRegion st.1 st.2 }

/-- Scan loop of `MemoryManager::reserve_from_free_list`. -/
def reserveScan (m : MemoryManager) (size align idx : Nat) :
    Nat → Option Nat × MemoryManager
  | 0 => (none, m)
  | fuel + 1 =>
    match tget m.free_regions idx with
    | some region =>
      let aligned_start := align_up region.offset align
      let e := aligned_start + size
      if e ≤ region.endOff then
        let m := { m with free_regions := m.free_regions.set idx none }
        let m := if aligned_start > region.offset then
            m.insert_free_region ⟨region.offset, aligned_start - region.offset⟩
          else m
        let m := if e < region.endOff then
            m.insert_free_region ⟨e, region.endOff - e⟩
          else m
        (some aligned_start, m)
      else reserveScan m size align (idx + 1) fuel
    | none => reserveScan m size align (idx + 1) fuel

/-- `MemoryManager::reserve_from_free_list`. -/
def MemoryManager.reserve_from_free_list (m : MemoryManager) (size align : Nat) :
    Option Nat × MemoryManager :=
  reserveScan m size align 0 m.free_regions.length

/-- `MemoryManager::reserve`. -/
def MemoryManager.reserve (m : MemoryManager) (size align : Nat) :
    Option Nat × MemoryManager :=
  match m.reserve_from_free_list size align with
  | (some offset, m) => (some offset, m)
  | (none, m) =>
    let aligned_offset := align_up m.bump_offset align
    let e := aligned_offset + size
    if e > m.heap.length then (none, m)
    else (some aligned_offset, { m with bump_offset := e })

/-- `MemoryManager::record_allocation`. -/
def MemoryManager.record_allocation (m : MemoryManager) (record : AllocationRecord) :
    Option MemoryManager :=
  match scanIdx (fun e => e.isNone) m.allocations with
  | some i => some { m with allocations := m.allocations.set i (some record) }
  | none => none

def MemoryManager.update_stats_on_alloc (m : MemoryManager) (size : Nat) :
    MemoryManager :=
  let ab := m.allocated_bytes + size
  { m with allocated_bytes := ab,
           peak_bytes := if ab > m.peak_bytes then ab else m.peak_bytes }

def MemoryManager.update_stats_on_free (m : MemoryManager) (size : Nat) :
    MemoryManager :=
  { m with allocated_bytes := m.allocated_bytes - size }

/-- `MemoryManager::malloc`. -/
def MemoryManager.malloc (m : MemoryManager) (size : Nat) :
    Option Nat × MemoryManager :=
  if size = 0 then (none, m)
  else
    let align := 8
    let actual_size := align_up size align
    match m.reserve actual_size align with
    | (none, m) => (none, m)
    | (some offset, m) =>
      let record : AllocationRecord :=
        ⟨offset, actual_size, .Heap, MemoryProtection.read_write⟩
      match m.record_allocation record with
      | none => (none, m)
      | some m => (some offset, m.update_stats_on_alloc actual_size)

/-- `MemoryManager::malloc_aligned`. -/
def MemoryManager.malloc_aligned (m : MemoryManager) (size align : Nat) :
    Option Nat × MemoryManager :=
  if size = 0 ∨ align = 0 then (none, m)
  else
    let actual_align := max align 8
    let actual_size := align_up size 8
    if actual_size < size then (none, m)
    else
      match m.reserve actual_size actual_align with
      | (none, m) => (none, m)
      | (some offset, m) =>
        let record : AllocationRecord :=
          ⟨offset, actual_size, .Heap, MemoryProtection.read_write⟩
        match m.record_allocation record with
        | none => (none, m)
        | some m => (some offset, m.update_stats_on_alloc actual_size)

/-- `MemoryManager::find_allocation_index`. -/
def MemoryManager.find_allocation_index (m : MemoryManager) (offset : Nat) :
    Option Nat :=
  scanIdx (fun e => match e with
    | some record => record.offset == offset
    | none => false) m.allocations

/-- `MemoryManager::remove_allocation`. -/
def MemoryManager.remove_allocation (m : MemoryManager) (offset : Nat)
    (expected_kind : Option AllocationKind) (minimum_length : Option Nat) :
    Option AllocationRecord × MemoryManager :=
  match m.find_allocation_index offset with
  | none => (none, m)
  | some idx =>
    match tget m.allocations idx with
    | none => (none, m)
    | some record =>
      match expected_kind with
      | some kind =>
        if record.kind ≠ kind then (none, m)
        else
          match minimum_length with
          | some length =>
            if record.size < length then (none, m)
            else (some record, { m with allocations := m.allocations.set idx none })
          | none => (some record, { m with allocations := m.allocations.set idx none })
      | none =>
        match minimum_length with
        | some length =>
          if record.size < length then (none, m)
          else (some record, { m with allocations := m.allocations.set idx none })
        | none => (some record, { m with allocations := m.allocations.set idx none })

/-- `MemoryManager::release`. -/
def MemoryManager.release (m : MemoryManager) (ptr : Nat)
    (expected_kind : Option AllocationKind) (minimum_length : Option Nat) :
    Bool × MemoryManager :=
  if ptr ≥ m.heap.length then (false, m)
  else
    match m.remove_allocation ptr expected_kind minimum_length with
    | (some record, m) =>
      let m := m.insert_free_region ⟨record.offset, record.size⟩
      (true, m.update_stats_on_free record.size)
    | (none, m) => (false, m)

/-- `MemoryManager::free`. -/
def MemoryManager.free (m : MemoryManager) (ptr : Nat) : Bool × MemoryManager :=
  m.release ptr (some .Heap) none

/-- `ptr::copy_nonoverlapping` on the modelled heap, one byte at a time. -/
def heapCopy (h : List Nat) (src dst : Nat) : Nat → List Nat
  | 0 => h
  | n + 1 => heapCopy (h.set dst (lget 0 h src)) (src + 1) (dst + 1) n

/-- `MemoryManager::realloc`. -/
def MemoryManager.realloc (m : MemoryManager) (ptr : Option Nat) (new_size : Nat) :
    Option Nat × MemoryManager :=
  match ptr, new_size with
  | none, 0 => (none, m)
  | none, size => m.malloc size
  | some p, 0 => (none, (m.free p).2)
  | some p, size =>
    if p ≥ m.heap.length then (none, m)
    else
      match m.find_allocation_index p with
      | none => (none, m)
      | some idx =>
        match tget m.allocations idx with
        | none => (none, m)
        | some record =>
          if record.kind ≠ .Heap then (none, m)
          else
            let aligned_new := align_up size 8
            if aligned_new < size then (none, m)
            else if aligned_new ≤ record.size then
              let leftover := record.size - aligned_new
              let m := if leftover > 0 then
                  (m.insert_free_region ⟨record.offset + aligned_new, leftover⟩).update_stats_on_free
                    leftover
                else m
              let m := { m with allocations := (m.allocations.set idx
                (some { record with size := aligned_new })) }
              (some p, m)
            else
              let copy_len := min record.size size
              match m.malloc size with
              | (none, m) => (none, m)
              | (some new_ptr, m) =>
                let m := { m with heap := heapCopy m.heap p new_ptr copy_len }
                (some new_ptr, (m.free p).2)

structure MappedRegion where
  ptr : Nat
  length : Nat
  requested : Nat
  protection : MemoryProtection
  kind : AllocationKind
deriving DecidableEq, Repr

/-- `MemoryManager::mmap`. -/
def MemoryManager.mmap (m : MemoryManager) (length : Nat)
    (protection : MemoryProtection) : Option MappedRegion × MemoryManager :=
  if length = 0 then (none, m)
  else
    let align := PAGE_SIZE
    let actual_size := align_up length PAGE_SIZE
    match m.reserve actual_size align with
    | (none, m) => (none, m)
    | (some offset, m) =>
      let record : AllocationRecord := ⟨offset, actual_size, .Mapping, protection⟩
      match m.record_allocation record with
      | none => (none, m)
      | some m =>
        (some ⟨offset, actual_size, length, protection, .Mapping⟩,
          m.update_stats_on_alloc actual_size)

/-- `MemoryManager::munmap`. -/
def MemoryManager.munmap (m : MemoryManager) (region : MappedRegion) :
    Bool × MemoryManager :=
  m.release region.ptr (some .Mapping) (some region.length)

/-- `MemoryManager::munmap_ptr`. -/
def MemoryManager.munmap_ptr (m : MemoryManager) (ptr length : Nat) :
    Bool × MemoryManager :=
  m.release ptr (some .Mapping) (some length)

/-- A raw byte write through an allocator pointer, as the repository's tests do
with `ptr.write` (touches only the heap contents). -/
def MemoryManager.poke (m : MemoryManager) (off val : Nat) : MemoryManager :=
  { m with heap := m.heap.set off val }

/-! ## Claim C8: allocator free-list invariants -/

/-- Interval membership on raw offsets. -/
def inCells (x off sz : Nat) : Prop := off ≤ x ∧ x < off + sz

/-- Interval separation on raw offsets. -/
def sep (ao as bo bs : Nat) : Prop := ao + as ≤ bo ∨ bo + bs ≤ ao

/-- Invariant carried through the merge pass of `insert_free_region`:
the free regions are positive, bounded by the bump pointer, pairwise disjoint
and non-adjacent; the region being merged is disjoint from all of them; and the
slots already scanned are not adjacent to the merged region on either side. -/
structure MPpre (bump : Nat) (fr : List (Option FreeRegion)) (merged : FreeRegion)
    (idx : Nat) : Prop where
  mPos : 0 < merged.size
  mBnd : merged.endOff ≤ bump
  fPos : ∀ i f, tget fr i = some f → 0 < f.size ∧ f.endOff ≤ bump
  fDisj : ∀ i j f g, i ≠ j → tget fr i = some f → tget fr j = some g →
    sep f.offset f.size g.offset g.size
  fAdj : ∀ i j f g, tget fr i = some f → tget fr j = some g → f.endOff ≠ g.offset
  mDisj : ∀ i f, tget fr i = some f → sep merged.offset merged.size f.offset f.size
  mScan : ∀ i f, i < idx → tget fr i = some f →
    f.endOff ≠ merged.offset ∧ merged.endOff ≠ f.offset

theorem mergePass_spec (bump : Nat) : ∀ (fuel : Nat) (fr : List (Option FreeRegion))
    (merged : FreeRegion) (idx : Nat), MPpre bump fr merged idx →
    MPpre bump (mergePass fr merged idx fuel).1 (mergePass fr merged idx fuel).2
      (idx + fuel) ∧
    (∀ j g, tget (mergePass fr merged idx fuel).1 j = some g → tget fr j = some g) ∧
    (∀ x, inCells x (mergePass fr merged idx fuel).2.offset
        (mergePass fr merged idx fuel).2.size →
      inCells x merged.offset merged.size ∨
        ∃ j g, tget fr j = some g ∧ inCells x g.offset g.size) := by
  intro fuel
  induction fuel with
  | zero =>
    intro fr merged idx h
    exact ⟨h, fun j g hg => hg, fun x hx => Or.inl hx⟩
  | succ f ih =>
    intro fr merged idx h
    have hidx : idx + (f + 1) = (idx + 1) + f := by omega
    cases hq : tget fr idx with
    | none =>
      have hstep : mergePass fr merged idx (f + 1) = mergePass fr merged (idx + 1) f := by
        conv_lhs => rw [mergePass]
        rw [hq]
      have hpre : MPpre bump fr merged (idx + 1) :=
        ⟨h.mPos, h.mBnd, h.fPos, h.fDisj, h.fAdj, h.mDisj, by
          intro i fi hi hfi
          rcases Nat.lt_or_ge i idx with hlt | hge
          · exact h.mScan i fi hlt hfi
          · have hii : i = idx := by omega
            subst hii
            rw [hq] at hfi
            exact Option.noConfusion hfi⟩
      obtain ⟨h1, h2, h3⟩ := ih fr merged (idx + 1) hpre
      rw [hstep, hidx]
      exact ⟨h1, h2, h3⟩
    | some ex =>
      have hexP : 0 < ex.size ∧ ex.offset + ex.size ≤ bump := h.fPos idx ex hq
      have hsub1 : ∀ j g, tget (fr.set idx none) j = some g → tget fr j = some g := by
        intro j g hg
        by_cases hji : j = idx
        · subst hji
          rw [tget_set_self none (tget_some_lt_length hq)] at hg
          exact Option.noConfusion hg
        · rwa [tget_set_ne none (fun hh => hji hh.symm)] at hg
      have hsubNe : ∀ j g, tget (fr.set idx none) j = some g → j ≠ idx := by
        intro j g hg hji
        subst hji
        rw [tget_set_self none (tget_some_lt_length hq)] at hg
        exact Option.noConfusion hg
      have hmP : 0 < merged.size := h.mPos
      have hmB : merged.offset + merged.size ≤ bump := h.mBnd
      by_cases hL : ex.endOff = merged.offset
      · -- absorb the left neighbour
        have hL' : ex.offset + ex.size = merged.offset := hL
        have hstep : mergePass fr merged idx (f + 1) =
            mergePass (fr.set idx none) ⟨ex.offset, ex.size + merged.size⟩ (idx + 1) f := by
          conv_lhs => rw [mergePass]
          rw [hq]
          simp [hL]
        have hpre : MPpre bump (fr.set idx none) ⟨ex.offset, ex.size + merged.size⟩
            (idx + 1) := by
          refine ⟨?_, ?_, ?_, ?_, ?_, ?_, ?_⟩
          · show 0 < ex.size + merged.size
            omega
          · show ex.offset + (ex.size + merged.size) ≤ bump
            omega
          · intro i fi hfi
            exact h.fPos i fi (hsub1 i fi hfi)
          · intro i j fi gj hij hfi hgj
            exact h.fDisj i j fi gj hij (hsub1 i fi hfi) (hsub1 j gj hgj)
          · intro i j fi gj hfi hgj
            exact h.fAdj i j fi gj (hsub1 i fi hfi) (hsub1 j gj hgj)
          · intro i fi hfi
            have hio : merged.offset + merged.size ≤ fi.offset ∨
                fi.offset + fi.size ≤ merged.offset := h.mDisj i fi (hsub1 i fi hfi)
            have hie : fi.offset + fi.size ≤ ex.offset ∨
                ex.offset + ex.size ≤ fi.offset :=
              h.fDisj i idx fi ex (hsubNe i fi hfi) (hsub1 i fi hfi) hq
            have hfiP : 0 < fi.size ∧ fi.offset + fi.size ≤ bump :=
              h.fPos i fi (hsub1 i fi hfi)
            show ex.offset + (ex.size + merged.size) ≤ fi.offset ∨
              fi.offset + fi.size ≤ ex.offset
            omega
          · intro i fi hi hfi
            have hadj : fi.offset + fi.size ≠ ex.offset :=
              h.fAdj i idx fi ex (hsub1 i fi hfi) hq
            have hlt : i < idx := by
              rcases Nat.lt_or_ge i idx with hlt | hge
              · exact hlt
              · exfalso
                have hii : i = idx := by omega
                exact hsubNe i fi hfi hii
            have hold : fi.offset + fi.size ≠ merged.offset ∧
                merged.offset + merged.size ≠ fi.offset :=
              h.mScan i fi hlt (hsub1 i fi hfi)
            refine ⟨?_, ?_⟩
            · show fi.offset + fi.size ≠ ex.offset
              exact hadj
            · show ex.offset + (ex.size + merged.size) ≠ fi.offset
              omega
        obtain ⟨h1, h2, h3⟩ := ih (fr.set idx none) ⟨ex.offset, ex.size + merged.size⟩
          (idx + 1) hpre
        rw [hstep, hidx]
        refine ⟨h1, ?_, ?_⟩
        · intro j g hg
          exact hsub1 j g (h2 j g hg)
        · intro x hx
          rcases h3 x hx with hin | ⟨j, g, hg, hgin⟩
          · have hin' : ex.offset ≤ x ∧ x < ex.offset + (ex.size + merged.size) := hin
            rcases Nat.lt_or_ge x merged.offset with hlt | hge
            · refine Or.inr ⟨idx, ex, hq, ?_, ?_⟩ <;> omega
            · exact Or.inl ⟨hge, by omega⟩
          · exact Or.inr ⟨j, g, hsub1 j g hg, hgin⟩
      · by_cases hR : merged.endOff = ex.offset
        · -- absorb the right neighbour
          have hR' : merged.offset + merged.size = ex.offset := hR
          have hstep : mergePass fr merged idx (f + 1) =
              mergePass (fr.set idx none) ⟨merged.offset, merged.size + ex.size⟩
                (idx + 1) f := by
            conv_lhs => rw [mergePass]
            rw [hq]
            simp [hL, hR]
          have hpre : MPpre bump (fr.set idx none)
              ⟨merged.offset, merged.size + ex.size⟩ (idx + 1) := by
            refine ⟨?_, ?_, ?_, ?_, ?_, ?_, ?_⟩
            · show 0 < merged.size + ex.size
              omega
            · show merged.offset + (merged.size + ex.size) ≤ bump
              omega
            · intro i fi hfi
              exact h.fPos i fi (hsub1 i fi hfi)
            · intro i j fi gj hij hfi hgj
              exact h.fDisj i j fi gj hij (hsub1 i fi hfi) (hsub1 j gj hgj)
            · intro i j fi gj hfi hgj
              exact h.fAdj i j fi gj (hsub1 i fi hfi) (hsub1 j gj hgj)
            · intro i fi hfi
              have hio : merged.offset + merged.size ≤ fi.offset ∨
                  fi.offset + fi.size ≤ merged.offset := h.mDisj i fi (hsub1 i fi hfi)
              have hie : ex.offset + ex.size ≤ fi.offset ∨
                  fi.offset + fi.size ≤ ex.offset :=
                h.fDisj idx i ex fi (fun hh => hsubNe i fi hfi hh.symm) hq
                  (hsub1 i fi hfi)
              have hfiP : 0 < fi.size ∧ fi.offset + fi.size ≤ bump :=
                h.fPos i fi (hsub1 i fi hfi)
              show merged.offset + (merged.size + ex.size) ≤ fi.offset ∨
                fi.offset + fi.size ≤ merged.offset
              omega
            · intro i fi hi hfi
              have hadj : ex.offset + ex.size ≠ fi.offset :=
                h.fAdj idx i ex fi hq (hsub1 i fi hfi)
              have hlt : i < idx := by
                rcases Nat.lt_or_ge i idx with hlt | hge
                · exact hlt
                · exfalso
                  have hii : i = idx := by omega
                  exact hsubNe i fi hfi hii
              have hold : fi.offset + fi.size ≠ merged.offset ∧
                  merged.offset + merged.size ≠ fi.offset :=
                h.mScan i fi hlt (hsub1 i fi hfi)
              refine ⟨?_, ?_⟩
              · show fi.offset + fi.size ≠ merged.offset
                exact hold.1
              · show merged.offset + (merged.size + ex.size) ≠ fi.offset
                omega
          obtain ⟨h1, h2, h3⟩ := ih (fr.set idx none)
            ⟨merged.offset, merged.size + ex.size⟩ (idx + 1) hpre
          rw [hstep, hidx]
          refine ⟨h1, ?_, ?_⟩
          · intro j g hg
            exact hsub1 j g (h2 j g hg)
          · intro x hx
            rcases h3 x hx with hin | ⟨j, g, hg, hgin⟩
            · have hin' : merged.offset ≤ x ∧
                  x < merged.offset + (merged.size + ex.size) := hin
              rcases Nat.lt_or_ge x (merged.offset + merged.size) with hlt | hge
              · exact Or.inl ⟨hin'.1, hlt⟩
              · refine Or.inr ⟨idx, ex, hq, ?_, ?_⟩ <;> omega
            · exact Or.inr ⟨j, g, hsub1 j g hg, hgin⟩
        · -- no merge at this slot
          have hstep : mergePass fr merged idx (f + 1) =
              mergePass fr merged (idx + 1) f := by
            conv_lhs => rw [mergePass]
            rw [hq]
            simp [hL, hR]
          have hpre : MPpre bump fr merged (idx + 1) :=
            ⟨h.mPos, h.mBnd, h.fPos, h.fDisj, h.fAdj, h.mDisj, by
              intro i fi hi hfi
              rcases Nat.lt_or_ge i idx with hlt | hge
              · exact h.mScan i fi hlt hfi
              · have hii : i = idx := by omega
                subst hii
                rw [hq] at hfi
                have hfe : ex = fi := Option.some.inj hfi
                subst hfe
                exact ⟨hL, hR⟩⟩
          obtain ⟨h1, h2, h3⟩ := ih fr merged (idx + 1) hpre
          rw [hstep, hidx]
          exact ⟨h1, h2, h3⟩

/-- The free-side invariant: regions are nonempty, below the bump pointer,
pairwise disjoint and pairwise non-adjacent. -/
structure FrInv (bump : Nat) (fr : List (Option FreeRegion)) : Prop where
  fPos : ∀ i f, tget fr i = some f → 0 < f.size ∧ f.endOff ≤ bump
  fDisj : ∀ i j f g, i ≠ j → tget fr i = some f → tget fr j = some g →
    sep f.offset f.size g.offset g.size
  fAdj : ∀ i j f g, tget fr i = some f → tget fr j = some g → f.endOff ≠ g.offset

theorem sep_symm {ao as bo bs : Nat} (h : sep ao as bo bs) : sep bo bs ao as := by
  unfold sep at h ⊢
  omega

theorem disj_of_pointwise {ao as bo bs : Nat} (ha : 0 < as) (hb : 0 < bs)
    (h : ∀ x, inCells x ao as → ¬inCells x bo bs) : sep ao as bo bs := by
  by_contra hc
  unfold sep at hc
  push_neg at hc
  have := h (max ao bo)
  unfold inCells at this
  omega

theorem align_up_ge (value align : Nat) : value ≤ align_up value align := by
  unfold align_up
  by_cases h : align = 0
  · simp [h]
  · rw [if_neg h]
    have hle : Nat.land (value + (align - 1)) (align - 1) ≤ align - 1 :=
      Nat.and_le_right
    omega

theorem mergePass_length (fr : List (Option FreeRegion)) (merged : FreeRegion)
    (idx : Nat) : ∀ fuel, (mergePass fr merged idx fuel).1.length = fr.length := by
  intro fuel
  induction fuel generalizing fr merged idx with
  | zero => rfl
  | succ f ih =>
    cases hq : tget fr idx with
    | none =>
      have hstep : mergePass fr merged idx (f + 1) = mergePass fr merged (idx + 1) f := by
        conv_lhs => rw [mergePass]
        rw [hq]
      rw [hstep, ih]
    | some ex =>
      by_cases hL : ex.endOff = merged.offset
      · have hstep : mergePass fr merged idx (f + 1) =
            mergePass (fr.set idx none) ⟨ex.offset, ex.size + merged.size⟩ (idx + 1) f := by
          conv_lhs => rw [mergePass]
          rw [hq]
          simp [hL]
        rw [hstep, ih, List.length_set]
      · by_cases hR : merged.endOff = ex.offset
        · have hstep : mergePass fr merged idx (f + 1) =
              mergePass (fr.set idx none) ⟨merged.offset, merged.size + ex.size⟩
                (idx + 1) f := by
            conv_lhs => rw [mergePass]
            rw [hq]
            simp [hL, hR]
          rw [hstep, ih, List.length_set]
        · have hstep : mergePass fr merged idx (f + 1) =
              mergePass fr merged (idx + 1) f := by
            conv_lhs => rw [mergePass]
            rw [hq]
            simp [hL, hR]
          rw [hstep, ih]

/-- What `insert_free_region` guarantees on the free side: the invariant is
restored, nothing but the free-region array changes, and every stored cell was
already free or belongs to the inserted region. -/
theorem insert_free_region_spec (m : MemoryManager) (r : FreeRegion)
    (hinv : FrInv m.bump_offset m.free_regions)
    (hbnd : r.offset + r.size ≤ m.bump_offset)
    (hdisj : ∀ i f, tget m.free_regions i = some f →
      sep r.offset r.size f.offset f.size) :
    FrInv m.bump_offset (m.insert_free_region r).free_regions ∧
    (m.insert_free_region r).allocations = m.allocations ∧
    (m.insert_free_region r).bump_offset = m.bump_offset ∧
    (m.insert_free_region r).heap = m.heap ∧
    (∀ j g, tget (m.insert_free_region r).free_regions j = some g →
      ∀ x, inCells x g.offset g.size →
        inCells x r.offset r.size ∨
          ∃ i f, tget m.free_regions i = some f ∧ inCells x f.offset f.size) := by
  unfold MemoryManager.insert_free_region
  by_cases hz : r.size = 0
  · rw [if_pos hz]
    exact ⟨hinv, rfl, rfl, rfl, fun j g hg x hx => Or.inr ⟨j, g, hg, hx⟩⟩
  · rw [if_neg hz]
    have hpre : MPpre m.bump_offset m.free_regions r 0 :=
      ⟨Nat.pos_of_ne_zero hz, hbnd, hinv.fPos, hinv.fDisj, hinv.fAdj, hdisj,
        fun i fi hi _ => absurd hi (Nat.not_lt_zero i)⟩
    obtain ⟨hfin, hsub, hcell⟩ := mergePass_spec m.bump_offset m.free_regions.length
      m.free_regions r 0 hpre
    set st := mergePass m.free_regions r 0 m.free_regions.length with hst
    have hlen : st.1.length = m.free_regions.length := mergePass_length _ _ _ _
    have hscan : ∀ j g, tget st.1 j = some g →
        g.endOff ≠ st.2.offset ∧ st.2.endOff ≠ g.offset := by
      intro j g hg
      have hj : j < m.free_regions.length := by
        have := tget_some_lt_length hg
        omega
      exact hfin.mScan j g (by omega) hg
    have hgoal : FrInv m.bump_offset (storeRegion st.1 st.2) ∧
        (∀ j g, tget (storeRegion st.1 st.2) j = some g →
          ∀ x, inCells x g.offset g.size →
            inCells x r.offset r.size ∨
              ∃ i f, tget m.free_regions i = some f ∧ inCells x f.offset f.size) := by
      unfold storeRegion
      cases hfree : scanIdx (fun e => e.isNone) st.1 with
      | none =>
        refine ⟨⟨hfin.fPos, hfin.fDisj, hfin.fAdj⟩, ?_⟩
        intro j g hg x hx
        exact Or.inr ⟨j, g, hsub j g hg, hx⟩
      | some slot =>
        have hslot : slot < st.1.length := scanIdx_lt_length hfree
        have hslotN : tget st.1 slot = none := by
          obtain ⟨x, hx, hpx⟩ := scanIdx_found hfree
          have hxn : x = none := by
            cases x with
            | none => rfl
            | some y => simp at hpx
          subst hxn
          unfold tget
          rw [hx]
          rfl
        have htg : ∀ j g, tget (st.1.set slot (some st.2)) j = some g →
            (j ≠ slot ∧ tget st.1 j = some g) ∨ (j = slot ∧ g = st.2) := by
          intro j g hg
          by_cases hji : j = slot
          · subst hji
            rw [tget_set_self _ hslot] at hg
            exact Or.inr ⟨rfl, (Option.some.inj hg).symm⟩
          · rw [tget_set_ne _ (fun hh => hji hh.symm)] at hg
            exact Or.inl ⟨hji, hg⟩
        refine ⟨⟨?_, ?_, ?_⟩, ?_⟩
        · intro i f hf
          rcases htg i f hf with ⟨_, hold⟩ | ⟨_, hfe⟩
          · exact hfin.fPos i f hold
          · subst hfe
            exact ⟨hfin.mPos, hfin.mBnd⟩
        · intro i j f g hij hf hg
          rcases htg i f hf with ⟨_, holdi⟩ | ⟨hie, hfe⟩ <;>
            rcases htg j g hg with ⟨_, holdj⟩ | ⟨hje, hge⟩
          · exact hfin.fDisj i j f g hij holdi holdj
          · subst hge
            exact sep_symm (hfin.mDisj i f holdi)
          · subst hfe
            exact hfin.mDisj j g holdj
          · exact absurd (hie.trans hje.symm) hij
        · intro i j f g hf hg
          rcases htg i f hf with ⟨_, holdi⟩ | ⟨hie, hfe⟩ <;>
            rcases htg j g hg with ⟨_, holdj⟩ | ⟨hje, hge⟩
          · exact hfin.fAdj i j f g holdi holdj
          · subst hge
            exact (hscan i f holdi).1
          · subst hfe
            exact (hscan j g holdj).2
          · subst hfe
            subst hge
            have := hfin.mPos
            show st.2.offset + st.2.size ≠ st.2.offset
            omega
        · intro j g hg x hx
          rcases htg j g hg with ⟨_, hold⟩ | ⟨_, hge⟩
          · exact Or.inr ⟨j, g, hsub j g hold, hx⟩
          · subst hge
            exact hcell x hx
    exact ⟨hgoal.1, rfl, rfl, rfl, hgoal.2⟩

/-- The allocator invariant of claim C8: allocation records and free regions
are positive and below the bump pointer, allocations are pairwise disjoint,
no free region overlaps an allocation, and the free regions are pairwise
disjoint and non-adjacent. -/
structure MemInv (m : MemoryManager) : Prop where
  aPos : ∀ i a, tget m.allocations i = some a →
    0 < a.size ∧ a.offset + a.size ≤ m.bump_offset
  aDisj : ∀ i j a b, i ≠ j → tget m.allocations i = some a →
    tget m.allocations j = some b → sep a.offset a.size b.offset b.size
  faDisj : ∀ i j f a, tget m.free_regions i = some f →
    tget m.allocations j = some a → sep f.offset f.size a.offset a.size
  frInv : FrInv m.bump_offset m.free_regions

theorem sep_mono {ao as bo bs co cs : Nat} (h : sep ao as bo bs)
    (h1 : ao ≤ co) (h2 : co + cs ≤ ao + as) : sep co cs bo bs := by
  unfold sep at h ⊢
  omega

theorem tget_set_none_sub {α : Type} {l : List (Option α)} {idx j : Nat} {g : α}
    (h : tget (l.set idx none) j = some g) : tget l j = some g := by
  by_cases hji : j = idx
  · subst hji
    by_cases hlt : j < l.length
    · rw [tget_set_self none hlt] at h
      exact Option.noConfusion h
    · rw [tget_ge_length (by simp; omega)] at h
      exact Option.noConfusion h
  · rwa [tget_set_ne none (fun hh => hji hh.symm)] at h

theorem FrInv_clear {bump : Nat} {fr : List (Option FreeRegion)} (idx : Nat)
    (h : FrInv bump fr) : FrInv bump (fr.set idx none) :=
  ⟨fun i f hf => h.fPos i f (tget_set_none_sub hf),
   fun i j f g hij hf hg =>
     h.fDisj i j f g hij (tget_set_none_sub hf) (tget_set_none_sub hg),
   fun i j f g hf hg => h.fAdj i j f g (tget_set_none_sub hf) (tget_set_none_sub hg)⟩

/-- `insert_free_region` preserves the full allocator invariant when the
inserted region is below the bump pointer and disjoint from every free region
and every allocation. -/
theorem insert_region_meminv (m : MemoryManager) (r : FreeRegion)
    (hinv : MemInv m)
    (hbnd : r.offset + r.size ≤ m.bump_offset)
    (hdisjF : ∀ i f, tget m.free_regions i = some f →
      sep r.offset r.size f.offset f.size)
    (hdisjA : ∀ j a, tget m.allocations j = some a →
      sep r.offset r.size a.offset a.size) :
    MemInv (m.insert_free_region r) ∧
    (m.insert_free_region r).allocations = m.allocations ∧
    (m.insert_free_region r).bump_offset = m.bump_offset ∧
    (m.insert_free_region r).heap = m.heap ∧
    (∀ j g, tget (m.insert_free_region r).free_regions j = some g →
      ∀ x, inCells x g.offset g.size →
        inCells x r.offset r.size ∨
          ∃ i f, tget m.free_regions i = some f ∧ inCells x f.offset f.size) := by
  obtain ⟨hfr, hal, hbp, hhp, hcell⟩ := insert_free_region_spec m r hinv.frInv hbnd hdisjF
  refine ⟨⟨?_, ?_, ?_, ?_⟩, hal, hbp, hhp, hcell⟩
  · intro i a ha
    rw [hal] at ha
    rw [hbp]
    exact hinv.aPos i a ha
  · intro i j a b hij ha hb
    rw [hal] at ha hb
    exact hinv.aDisj i j a b hij ha hb
  · intro i j f a hf ha
    rw [hal] at ha
    have haP := hinv.aPos j a ha
    have hfP := hfr.fPos i f hf
    refine disj_of_pointwise hfP.1 haP.1 ?_
    intro x hx hax
    have hax' : a.offset ≤ x ∧ x < a.offset + a.size := hax
    rcases hcell i f hf x hx with hxr | ⟨i2, f2, hf2, hxf⟩
    · have hxr' : r.offset ≤ x ∧ x < r.offset + r.size := hxr
      have hsepA : r.offset + r.size ≤ a.offset ∨ a.offset + a.size ≤ r.offset :=
        hdisjA j a ha
      omega
    · have hxf' : f2.offset ≤ x ∧ x < f2.offset + f2.size := hxf
      have hsepA : f2.offset + f2.size ≤ a.offset ∨ a.offset + a.size ≤ f2.offset :=
        hinv.faDisj i2 j f2 a hf2 ha
      omega
  · rw [← hbp] at hfr
    exact hfr

/-- `reserve_from_free_list` scan: on a miss the manager is untouched; on a hit
the reserved range comes out of the removed free region and is disjoint from
every allocation and every remaining free region. -/
theorem reserveScan_spec (size align : Nat) (hsz : 0 < size) :
    ∀ (fuel : Nat) (m : MemoryManager) (idx : Nat), MemInv m →
    ((reserveScan m size align idx fuel).1 = none ∧
      (reserveScan m size align idx fuel).2 = m) ∨
    (∃ off, (reserveScan m size align idx fuel).1 = some off ∧
      MemInv (reserveScan m size align idx fuel).2 ∧
      (reserveScan m size align idx fuel).2.allocations = m.allocations ∧
      (reserveScan m size align idx fuel).2.bump_offset = m.bump_offset ∧
      (reserveScan m size align idx fuel).2.heap = m.heap ∧
      off + size ≤ m.bump_offset ∧
      (∀ j a, tget m.allocations j = some a → sep off size a.offset a.size) ∧
      (∀ j g, tget (reserveScan m size align idx fuel).2.free_regions j = some g →
        sep off size g.offset g.size)) := by
  intro fuel
  induction fuel with
  | zero =>
    intro m idx hinv
    exact Or.inl ⟨rfl, rfl⟩
  | succ f ih =>
    intro m idx hinv
    cases hq : tget m.free_regions idx with
    | none =>
      have hstep : reserveScan m size align idx (f + 1) =
          reserveScan m size align (idx + 1) f := by
        conv_lhs => rw [reserveScan]
        rw [hq]
      rw [hstep]
      exact ih m (idx + 1) hinv
    | some region =>
      by_cases hfit : align_up region.offset align + size ≤ region.endOff
      · -- hit: carve the range out of this region
        have hrP : 0 < region.size ∧ region.offset + region.size ≤ m.bump_offset :=
          hinv.frInv.fPos idx region hq
        have hge : region.offset ≤ align_up region.offset align :=
          align_up_ge region.offset align
        have hfit' : align_up region.offset align + size ≤
            region.offset + region.size := hfit
        set au := align_up region.offset align with hau
        -- the manager with this free region removed
        set m1 : MemoryManager :=
          { m with free_regions := m.free_regions.set idx none } with hm1
        have hinv1 : MemInv m1 :=
          ⟨hinv.aPos, hinv.aDisj,
           fun i j fi a hf ha => hinv.faDisj i j fi a (tget_set_none_sub hf) ha,
           FrInv_clear idx hinv.frInv⟩
        have hm1sub : ∀ j g, tget m1.free_regions j = some g →
            tget m.free_regions j = some g ∧ j ≠ idx := by
          intro j g hg
          refine ⟨tget_set_none_sub hg, ?_⟩
          intro hji
          subst hji
          by_cases hlt : j < m.free_regions.length
          · rw [show m1.free_regions = m.free_regions.set j none from rfl,
              tget_set_self none hlt] at hg
            exact Option.noConfusion hg
          · rw [show m1.free_regions = m.free_regions.set j none from rfl,
              tget_ge_length (by simp; omega)] at hg
            exact Option.noConfusion hg
        have hsepm1 : ∀ j g, tget m1.free_regions j = some g →
            region.offset + region.size ≤ g.offset ∨
              g.offset + g.size ≤ region.offset := by
          intro j g hg
          obtain ⟨hold, hne⟩ := hm1sub j g hg
          exact hinv.frInv.fDisj idx j region g (fun hh => hne hh.symm) hq hold
        have hsepm1A : ∀ j a, tget m.allocations j = some a →
            region.offset + region.size ≤ a.offset ∨
              a.offset + a.size ≤ region.offset := by
          intro j a ha
          exact hinv.faDisj idx j region a hq ha
        -- insert the pre-slack region
        set m2 : MemoryManager :=
          if au > region.offset then
            m1.insert_free_region ⟨region.offset, au - region.offset⟩
          else m1 with hm2
        have hstat2 : MemInv m2 ∧ m2.allocations = m.allocations ∧
            m2.bump_offset = m.bump_offset ∧ m2.heap = m.heap ∧
            (∀ j g, tget m2.free_regions j = some g → ∀ x,
              inCells x g.offset g.size →
                (region.offset ≤ x ∧ x < au) ∨
                ∃ i fi, tget m1.free_regions i = some fi ∧
                  inCells x fi.offset fi.size) := by
          rw [hm2]
          by_cases hpre : au > region.offset
          · rw [if_pos hpre]
            obtain ⟨hi2, hal2, hbp2, hhp2, hcell2⟩ := insert_region_meminv m1
              ⟨region.offset, au - region.offset⟩ hinv1
              (by show region.offset + (au - region.offset) ≤ m.bump_offset
                  omega)
              (by intro j g hg
                  have := hsepm1 j g hg
                  show region.offset + (au - region.offset) ≤ g.offset ∨
                    g.offset + g.size ≤ region.offset
                  omega)
              (by intro j a ha
                  have := hsepm1A j a ha
                  show region.offset + (au - region.offset) ≤ a.offset ∨
                    a.offset + a.size ≤ region.offset
                  omega)
            refine ⟨hi2, hal2, hbp2, hhp2, ?_⟩
            intro j g hg x hx
            rcases hcell2 j g hg x hx with hxr | hold
            · have hxr' : region.offset ≤ x ∧
                  x < region.offset + (au - region.offset) := hxr
              exact Or.inl (by omega)
            · exact Or.inr hold
          · rw [if_neg hpre]
            refine ⟨hinv1, rfl, rfl, rfl, ?_⟩
            intro j g hg x hx
            exact Or.inr ⟨j, g, hg, hx⟩
        obtain ⟨hi2, hal2, hbp2, hhp2, hcell2⟩ := hstat2
        have hposm2 : ∀ j g, tget m2.free_regions j = some g → 0 < g.size := by
          intro j g hg
          have := hi2.frInv.fPos j g hg
          rw [hbp2] at this
          exact this.1
        -- insert the post-slack region
        set m3 : MemoryManager :=
          if au + size < region.endOff then
            m2.insert_free_region ⟨au + size, region.endOff - (au + size)⟩
          else m2 with hm3
        have hstat3 : MemInv m3 ∧ m3.allocations = m.allocations ∧
            m3.bump_offset = m.bump_offset ∧ m3.heap = m.heap ∧
            (∀ j g, tget m3.free_regions j = some g → ∀ x,
              inCells x g.offset g.size →
                (au + size ≤ x ∧ x < region.offset + region.size) ∨
                (region.offset ≤ x ∧ x < au) ∨
                ∃ i fi, tget m1.free_regions i = some fi ∧
                  inCells x fi.offset fi.size) := by
          rw [hm3]
          by_cases hpost : au + size < region.endOff
          · have hpost' : au + size < region.offset + region.size := hpost
            rw [if_pos hpost]
            obtain ⟨hi3, hal3, hbp3, hhp3, hcell3⟩ := insert_region_meminv m2
              ⟨au + size, region.endOff - (au + size)⟩ hi2
              (by show au + size + (region.endOff - (au + size)) ≤ m2.bump_offset
                  have he : region.endOff = region.offset + region.size := rfl
                  rw [hbp2]
                  omega)
              (by intro j g hg
                  have hgP := hposm2 j g hg
                  refine disj_of_pointwise (by
                    show 0 < region.endOff - (au + size)
                    have he : region.endOff = region.offset + region.size := rfl
                    omega) hgP ?_
                  intro x hx hgx
                  have hx' : au + size ≤ x ∧
                      x < au + size + (region.endOff - (au + size)) := hx
                  have he : region.endOff = region.offset + region.size := rfl
                  have hgx' : g.offset ≤ x ∧ x < g.offset + g.size := hgx
                  rcases hcell2 j g hg x hgx with hxr | ⟨i2, f2, hf2, hxf⟩
                  · omega
                  · have hxf' : f2.offset ≤ x ∧ x < f2.offset + f2.size := hxf
                    have := hsepm1 i2 f2 hf2
                    omega)
              (by intro j a ha
                  rw [hal2] at ha
                  have := hsepm1A j a ha
                  have haP := hinv.aPos j a ha
                  show au + size + (region.endOff - (au + size)) ≤ a.offset ∨
                    a.offset + a.size ≤ au + size
                  have he : region.endOff = region.offset + region.size := rfl
                  omega)
            refine ⟨hi3, hal3.trans hal2, hbp3.trans hbp2, hhp3.trans hhp2, ?_⟩
            intro j g hg x hx
            rcases hcell3 j g hg x hx with hxr | ⟨i2, f2, hf2, hxf⟩
            · have hxr' : au + size ≤ x ∧
                  x < au + size + (region.endOff - (au + size)) := hxr
              have he : region.endOff = region.offset + region.size := rfl
              exact Or.inl (by omega)
            · exact Or.inr (hcell2 i2 f2 hf2 x hxf)
          · rw [if_neg hpost]
            refine ⟨hi2, hal2, hbp2, hhp2, ?_⟩
            intro j g hg x hx
            exact Or.inr (hcell2 j g hg x hx)
        obtain ⟨hi3, hal3, hbp3, hhp3, hcell3⟩ := hstat3
        have hstep : reserveScan m size align idx (f + 1) = (some au, m3) := by
          conv_lhs => rw [reserveScan]
          rw [hq]
          simp only [hfit, if_pos, hm3, hm2, hm1, hau]
        rw [hstep]
        refine Or.inr ⟨au, rfl, hi3, hal3, hbp3, hhp3, by omega, ?_, ?_⟩
        · intro j a ha
          have := hsepm1A j a ha
          show au + size ≤ a.offset ∨ a.offset + a.size ≤ au
          omega
        · intro j g hg
          have hgP : 0 < g.size := by
            have := hi3.frInv.fPos j g hg
            rw [hbp3] at this
            exact this.1
          refine disj_of_pointwise hsz hgP ?_
          intro x hx hgx
          have hx' : au ≤ x ∧ x < au + size := hx
          rcases hcell3 j g hg x hgx with h1 | h2 | ⟨i2, f2, hf2, hxf⟩
          · omega
          · omega
          · have hxf' : f2.offset ≤ x ∧ x < f2.offset + f2.size := hxf
            have := hsepm1 i2 f2 hf2
            omega
      · have hstep : reserveScan m size align idx (f + 1) =
            reserveScan m size align (idx + 1) f := by
          conv_lhs => rw [reserveScan]
          rw [hq]
          simp only [hfit, if_neg, if_false]
        rw [hstep]
        exact ih m (idx + 1) hinv


/-- The invariant only reads allocations, free regions and the bump pointer, so
it transports along managers that agree on those three fields. -/
theorem MemInv_congr {m m' : MemoryManager} (h : MemInv m)
    (ha : m'.allocations = m.allocations) (hf : m'.free_regions = m.free_regions)
    (hb : m'.bump_offset = m.bump_offset) : MemInv m' := by
  refine ⟨?_, ?_, ?_, ?_⟩
  · intro i a hx
    rw [ha] at hx
    rw [hb]
    exact h.aPos i a hx
  · intro i j a b hij hx hy
    rw [ha] at hx hy
    exact h.aDisj i j a b hij hx hy
  · intro i j f a hx hy
    rw [hf] at hx
    rw [ha] at hy
    exact h.faDisj i j f a hx hy
  · rw [hf, hb]
    exact h.frInv

theorem insert_free_region_fields (m : MemoryManager) (r : FreeRegion) :
    (m.insert_free_region r).allocations = m.allocations ∧
    (m.insert_free_region r).bump_offset = m.bump_offset ∧
    (m.insert_free_region r).heap = m.heap := by
  unfold MemoryManager.insert_free_region
  by_cases hz : r.size = 0
  · rw [if_pos hz]
    exact ⟨rfl, rfl, rfl⟩
  · rw [if_neg hz]
    exact ⟨rfl, rfl, rfl⟩

theorem insert_free_region_frees_congr (m m' : MemoryManager) (r : FreeRegion)
    (h : m'.free_regions = m.free_regions) :
    (m'.insert_free_region r).free_regions =
      (m.insert_free_region r).free_regions := by
  unfold MemoryManager.insert_free_region
  by_cases hz : r.size = 0
  · rw [if_pos hz, if_pos hz]
    exact h
  · rw [if_neg hz, if_neg hz]
    simp [h]

theorem tget_set_cases {α : Type} {l : List (Option α)} {i j : Nat}
    {x : Option α} {a : α} (hlt : i < l.length) (h : tget (l.set i x) j = some a) :
    (j = i ∧ x = some a) ∨ (j ≠ i ∧ tget l j = some a) := by
  by_cases hji : j = i
  · subst hji
    rw [tget_set_self x hlt] at h
    exact Or.inl ⟨rfl, h⟩
  · rw [tget_set_ne x (fun hh => hji hh.symm)] at h
    exact Or.inr ⟨hji, h⟩

theorem tget_set_none_ne {α : Type} {l : List (Option α)} {idx j : Nat} {g : α}
    (hlt : idx < l.length) (h : tget (l.set idx none) j = some g) : j ≠ idx := by
  intro hji
  subst hji
  rw [tget_set_self none hlt] at h
  exact Option.noConfusion h

/-- `MemoryManager::reserve`: either a miss leaving the manager untouched, or a
hit handing out a range disjoint from every allocation and free region. -/
theorem reserve_spec (m : MemoryManager) (size align : Nat) (hsz : 0 < size)
    (hinv : MemInv m) :
    ((m.reserve size align).1 = none ∧ (m.reserve size align).2 = m) ∨
    (∃ off, (m.reserve size align).1 = some off ∧
      MemInv (m.reserve size align).2 ∧
      (m.reserve size align).2.allocations = m.allocations ∧
      (m.reserve size align).2.heap = m.heap ∧
      off + size ≤ (m.reserve size align).2.bump_offset ∧
      (∀ j a, tget m.allocations j = some a → sep off size a.offset a.size) ∧
      (∀ j g, tget (m.reserve size align).2.free_regions j = some g →
        sep off size g.offset g.size)) := by
  rcases hres : reserveScan m size align 0 m.free_regions.length with ⟨o, m1⟩
  have hspec := reserveScan_spec size align hsz m.free_regions.length m 0 hinv
  rw [hres] at hspec
  have hpair : m.reserve_from_free_list size align = (o, m1) := hres
  rcases hspec with ⟨h1, h2⟩ | ⟨off, h1, hi, hal, hbp, hhp, hbound, hsepA, hsepF⟩
  · -- scan missed: fall back to the bump allocator
    have ho : o = none := h1
    have hm : m1 = m := h2
    subst ho
    rw [hm] at hpair
    have hstep : m.reserve size align =
        (if align_up m.bump_offset align + size > m.heap.length then (none, m)
         else (some (align_up m.bump_offset align),
           { m with bump_offset := align_up m.bump_offset align + size })) := by
      unfold MemoryManager.reserve
      rw [hpair]
    rw [hstep]
    by_cases hbig : align_up m.bump_offset align + size > m.heap.length
    · rw [if_pos hbig]
      exact Or.inl ⟨rfl, rfl⟩
    · rw [if_neg hbig]
      have hge := align_up_ge m.bump_offset align
      refine Or.inr ⟨align_up m.bump_offset align, rfl, ?_, rfl, rfl,
        Nat.le_refl _, ?_, ?_⟩
      · refine ⟨?_, hinv.aDisj, hinv.faDisj, ⟨?_, hinv.frInv.fDisj, hinv.frInv.fAdj⟩⟩
        · intro i a ha
          have := hinv.aPos i a ha
          exact ⟨this.1, by
            show a.offset + a.size ≤ align_up m.bump_offset align + size
            omega⟩
        · intro i f hf
          have := hinv.frInv.fPos i f hf
          have h2 : f.offset + f.size ≤ m.bump_offset := this.2
          exact ⟨this.1, by
            show f.offset + f.size ≤ align_up m.bump_offset align + size
            omega⟩
      · intro j a ha
        have := (hinv.aPos j a ha).2
        exact Or.inr (by omega)
      · intro j g hg
        have := (hinv.frInv.fPos j g hg).2
        have h2 : g.offset + g.size ≤ m.bump_offset := this
        exact Or.inr (by omega)
  · -- scan hit
    have ho : o = some off := h1
    subst ho
    have hstep : m.reserve size align = (some off, m1) := by
      unfold MemoryManager.reserve
      rw [hpair]
    rw [hstep]
    have hi' : MemInv m1 := hi
    have hal' : m1.allocations = m.allocations := hal
    have hbp' : m1.bump_offset = m.bump_offset := hbp
    have hhp' : m1.heap = m.heap := hhp
    refine Or.inr ⟨off, rfl, hi', hal', hhp', ?_, hsepA, hsepF⟩
    show off + size ≤ m1.bump_offset
    omega

/-- `MemoryManager::record_allocation` on success stores the record in a
previously empty slot and preserves the invariant when the record is disjoint
from everything live. -/
theorem record_allocation_meminv (m : MemoryManager) (rec : AllocationRecord)
    (m' : MemoryManager) (hinv : MemInv m)
    (hr : m.record_allocation rec = some m')
    (hpos : 0 < rec.size) (hbnd : rec.offset + rec.size ≤ m.bump_offset)
    (hsepA : ∀ j a, tget m.allocations j = some a →
      sep rec.offset rec.size a.offset a.size)
    (hsepF : ∀ j f, tget m.free_regions j = some f →
      sep rec.offset rec.size f.offset f.size) :
    MemInv m' ∧ m'.free_regions = m.free_regions ∧
    m'.bump_offset = m.bump_offset ∧ m'.heap = m.heap := by
  unfold MemoryManager.record_allocation at hr
  cases hscan : scanIdx (fun e => e.isNone) m.allocations with
  | none =>
    rw [hscan] at hr
    exact Option.noConfusion hr
  | some i =>
    rw [hscan] at hr
    have hm' : m' = { m with allocations := m.allocations.set i (some rec) } :=
      (Option.some.inj hr).symm
    have hlt : i < m.allocations.length := scanIdx_lt_length hscan
    subst hm'
    refine ⟨⟨?_, ?_, ?_, hinv.frInv⟩, rfl, rfl, rfl⟩
    · intro j a hj
      rcases tget_set_cases hlt hj with ⟨hji, hxa⟩ | ⟨hji, hj2⟩
      · obtain rfl : rec = a := Option.some.inj hxa
        exact ⟨hpos, hbnd⟩
      · exact hinv.aPos j a hj2
    · intro j k a b hjk hj hk
      rcases tget_set_cases hlt hj with ⟨hji, hxa⟩ | ⟨hji, hj2⟩
      · obtain rfl : rec = a := Option.some.inj hxa
        rcases tget_set_cases hlt hk with ⟨hki, hxb⟩ | ⟨hki, hk2⟩
        · exact absurd (hji.trans hki.symm) hjk
        · exact hsepA k b hk2
      · rcases tget_set_cases hlt hk with ⟨hki, hxb⟩ | ⟨hki, hk2⟩
        · obtain rfl : rec = b := Option.some.inj hxb
          exact sep_symm (hsepA j a hj2)
        · exact hinv.aDisj j k a b hjk hj2 hk2
    · intro j k f a hj hk
      rcases tget_set_cases hlt hk with ⟨hki, hxa⟩ | ⟨hki, hk2⟩
      · obtain rfl : rec = a := Option.some.inj hxa
        exact sep_symm (hsepF j f hj)
      · exact hinv.faDisj j k f a hj hk2

/-- `malloc` preserves the allocator invariant. -/
theorem malloc_inv (m : MemoryManager) (size : Nat) (hinv : MemInv m) :
    MemInv (m.malloc size).2 := by
  by_cases h0 : size = 0
  · have hstep : m.malloc size = (none, m) := by
      unfold MemoryManager.malloc
      rw [if_pos h0]
    rw [hstep]
    exact hinv
  · have hsz : 0 < align_up size 8 :=
      lt_of_lt_of_le (Nat.pos_of_ne_zero h0) (align_up_ge size 8)
    rcases hres : m.reserve (align_up size 8) 8 with ⟨o, m1⟩
    have hspec := reserve_spec m (align_up size 8) 8 hsz hinv
    rw [hres] at hspec
    cases o with
    | none =>
      have hstep : m.malloc size = (none, m1) := by
        unfold MemoryManager.malloc
        rw [if_neg h0]
        simp only [hres]
      rw [hstep]
      rcases hspec with ⟨h1, h2⟩ | ⟨off, h1, _⟩
      · have hm : m1 = m := h2
        rw [hm]
        exact hinv
      · exact Option.noConfusion h1
    | some off =>
      rcases hspec with ⟨h1, h2⟩ | ⟨off2, h1, hi, hal, hhp, hbnd, hsepA, hsepF⟩
      · exact Option.noConfusion h1
      · have hoff : off = off2 := Option.some.inj h1
        subst hoff
        have hi1 : MemInv m1 := hi
        have hal1 : m1.allocations = m.allocations := hal
        have hbnd1 : off + align_up size 8 ≤ m1.bump_offset := hbnd
        cases hrec : m1.record_allocation
            ⟨off, align_up size 8, .Heap, MemoryProtection.read_write⟩ with
        | none =>
          have hstep : m.malloc size = (none, m1) := by
            unfold MemoryManager.malloc
            rw [if_neg h0]
            simp only [hres, hrec]
          rw [hstep]
          exact hi1
        | some m2 =>
          have hstep : m.malloc size =
              (some off, m2.update_stats_on_alloc (align_up size 8)) := by
            unfold MemoryManager.malloc
            rw [if_neg h0]
            simp only [hres, hrec]
          rw [hstep]
          obtain ⟨hi2, _, _, _⟩ := record_allocation_meminv m1
            ⟨off, align_up size 8, .Heap, MemoryProtection.read_write⟩ m2 hi1 hrec
            hsz hbnd1
            (by intro j a ha
                rw [hal1] at ha
                exact hsepA j a ha)
            (by intro j f hf
                exact hsepF j f hf)
          exact MemInv_congr hi2 rfl rfl rfl

/-- `malloc_aligned` preserves the allocator invariant. -/
theorem malloc_aligned_inv (m : MemoryManager) (size align : Nat)
    (hinv : MemInv m) : MemInv (m.malloc_aligned size align).2 := by
  by_cases h0 : size = 0 ∨ align = 0
  · have hstep : m.malloc_aligned size align = (none, m) := by
      unfold MemoryManager.malloc_aligned
      rw [if_pos h0]
    rw [hstep]
    exact hinv
  · push_neg at h0
    by_cases hshr : align_up size 8 < size
    · have hstep : m.malloc_aligned size align = (none, m) := by
        unfold MemoryManager.malloc_aligned
        rw [if_neg (by push_neg; exact h0)]
        simp only [if_pos hshr]
      rw [hstep]
      exact hinv
    · have hsz : 0 < align_up size 8 :=
        lt_of_lt_of_le (Nat.pos_of_ne_zero h0.1) (align_up_ge size 8)
      rcases hres : m.reserve (align_up size 8) (max align 8) with ⟨o, m1⟩
      have hspec := reserve_spec m (align_up size 8) (max align 8) hsz hinv
      rw [hres] at hspec
      cases o with
      | none =>
        have hstep : m.malloc_aligned size align = (none, m1) := by
          unfold MemoryManager.malloc_aligned
          rw [if_neg (by push_neg; exact h0)]
          simp only [if_neg hshr, hres]
        rw [hstep]
        rcases hspec with ⟨h1, h2⟩ | ⟨off, h1, _⟩
        · have hm : m1 = m := h2
          rw [hm]
          exact hinv
        · exact Option.noConfusion h1
      | some off =>
        rcases hspec with ⟨h1, h2⟩ | ⟨off2, h1, hi, hal, hhp, hbnd, hsepA, hsepF⟩
        · exact Option.noConfusion h1
        · have hoff : off = off2 := Option.some.inj h1
          subst hoff
          have hi1 : MemInv m1 := hi
          have hal1 : m1.allocations = m.allocations := hal
          have hbnd1 : off + align_up size 8 ≤ m1.bump_offset := hbnd
          cases hrec : m1.record_allocation
              ⟨off, align_up size 8, .Heap, MemoryProtection.read_write⟩ with
          | none =>
            have hstep : m.malloc_aligned size align = (none, m1) := by
              unfold MemoryManager.malloc_aligned
              rw [if_neg (by push_neg; exact h0)]
              simp only [if_neg hshr, hres, hrec]
            rw [hstep]
            exact hi1
          | some m2 =>
            have hstep : m.malloc_aligned size align =
                (some off, m2.update_stats_on_alloc (align_up size 8)) := by
              unfold MemoryManager.malloc_aligned
              rw [if_neg (by push_neg; exact h0)]
              simp only [if_neg hshr, hres, hrec]
            rw [hstep]
            obtain ⟨hi2, _, _, _⟩ := record_allocation_meminv m1
              ⟨off, align_up size 8, .Heap, MemoryProtection.read_write⟩ m2 hi1
              hrec hsz hbnd1
              (by intro j a ha
                  rw [hal1] at ha
                  exact hsepA j a ha)
              (by intro j f hf
                  exact hsepF j f hf)
            exact MemInv_congr hi2 rfl rfl rfl

/-- `mmap` preserves the allocator invariant. -/
theorem mmap_inv (m : MemoryManager) (length : Nat) (prot : MemoryProtection)
    (hinv : MemInv m) : MemInv (m.mmap length prot).2 := by
  by_cases h0 : length = 0
  · have hstep : m.mmap length prot = (none, m) := by
      unfold MemoryManager.mmap
      rw [if_pos h0]
    rw [hstep]
    exact hinv
  · have hsz : 0 < align_up length PAGE_SIZE :=
      lt_of_lt_of_le (Nat.pos_of_ne_zero h0) (align_up_ge length PAGE_SIZE)
    rcases hres : m.reserve (align_up length PAGE_SIZE) PAGE_SIZE with ⟨o, m1⟩
    have hspec := reserve_spec m (align_up length PAGE_SIZE) PAGE_SIZE hsz hinv
    rw [hres] at hspec
    cases o with
    | none =>
      have hstep : m.mmap length prot = (none, m1) := by
        unfold MemoryManager.mmap
        rw [if_neg h0]
        simp only [hres]
      rw [hstep]
      rcases hspec with ⟨h1, h2⟩ | ⟨off, h1, _⟩
      · have hm : m1 = m := h2
        rw [hm]
        exact hinv
      · exact Option.noConfusion h1
    | some off =>
      rcases hspec with ⟨h1, h2⟩ | ⟨off2, h1, hi, hal, hhp, hbnd, hsepA, hsepF⟩
      · exact Option.noConfusion h1
      · have hoff : off = off2 := Option.some.inj h1
        subst hoff
        have hi1 : MemInv m1 := hi
        have hal1 : m1.allocations = m.allocations := hal
        have hbnd1 : off + align_up length PAGE_SIZE ≤ m1.bump_offset := hbnd
        cases hrec : m1.record_allocation
            ⟨off, align_up length PAGE_SIZE, .Mapping, prot⟩ with
        | none =>
          have hstep : m.mmap length prot = (none, m1) := by
            unfold MemoryManager.mmap
            rw [if_neg h0]
            simp only [hres, hrec]
          rw [hstep]
          exact hi1
        | some m2 =>
          have hstep : m.mmap length prot =
              (some ⟨off, align_up length PAGE_SIZE, length, prot, .Mapping⟩,
                m2.update_stats_on_alloc (align_up length PAGE_SIZE)) := by
            unfold MemoryManager.mmap
            rw [if_neg h0]
            simp only [hres, hrec]
          rw [hstep]
          obtain ⟨hi2, _, _, _⟩ := record_allocation_meminv m1
            ⟨off, align_up length PAGE_SIZE, .Mapping, prot⟩ m2 hi1 hrec hsz hbnd1
            (by intro j a ha
                rw [hal1] at ha
                exact hsepA j a ha)
            (by intro j f hf
                exact hsepF j f hf)
          exact MemInv_congr hi2 rfl rfl rfl

/-- `MemoryManager::remove_allocation`: either a no-op failure or removal of the
record found at the matching slot. -/
theorem remove_allocation_spec (m : MemoryManager) (off : Nat)
    (ek : Option AllocationKind) (ml : Option Nat) :
    ((m.remove_allocation off ek ml).1 = none ∧
      (m.remove_allocation off ek ml).2 = m) ∨
    (∃ idx record, (m.remove_allocation off ek ml).1 = some record ∧
      tget m.allocations idx = some record ∧ idx < m.allocations.length ∧
      (m.remove_allocation off ek ml).2 =
        { m with allocations := m.allocations.set idx none }) := by
  cases hf : m.find_allocation_index off with
  | none =>
    have hstep : m.remove_allocation off ek ml = (none, m) := by
      unfold MemoryManager.remove_allocation
      rw [hf]
    rw [hstep]
    exact Or.inl ⟨rfl, rfl⟩
  | some idx =>
    cases hr : tget m.allocations idx with
    | none =>
      have hstep : m.remove_allocation off ek ml = (none, m) := by
        unfold MemoryManager.remove_allocation
        rw [hf]
        simp only [hr]
      rw [hstep]
      exact Or.inl ⟨rfl, rfl⟩
    | some record =>
      have hlt : idx < m.allocations.length := tget_some_lt_length hr
      cases ek with
      | some kind =>
        by_cases hk : record.kind ≠ kind
        · have hstep : m.remove_allocation off (some kind) ml = (none, m) := by
            unfold MemoryManager.remove_allocation
            rw [hf]
            simp only [hr]
            rw [if_pos hk]
          rw [hstep]
          exact Or.inl ⟨rfl, rfl⟩
        · cases ml with
          | some len =>
            by_cases hl : record.size < len
            · have hstep : m.remove_allocation off (some kind) (some len) =
                  (none, m) := by
                unfold MemoryManager.remove_allocation
                rw [hf]
                simp only [hr]
                rw [if_neg hk]
                simp only [if_pos hl]
              rw [hstep]
              exact Or.inl ⟨rfl, rfl⟩
            · have hstep : m.remove_allocation off (some kind) (some len) =
                  (some record,
                    { m with allocations := m.allocations.set idx none }) := by
                unfold MemoryManager.remove_allocation
                rw [hf]
                simp only [hr]
                rw [if_neg hk]
                simp only [if_neg hl]
              rw [hstep]
              exact Or.inr ⟨idx, record, rfl, hr, hlt, rfl⟩
          | none =>
            have hstep : m.remove_allocation off (some kind) none =
                (some record,
                  { m with allocations := m.allocations.set idx none }) := by
              unfold MemoryManager.remove_allocation
              rw [hf]
              simp only [hr]
              rw [if_neg hk]
            rw [hstep]
            exact Or.inr ⟨idx, record, rfl, hr, hlt, rfl⟩
      | none =>
        cases ml with
        | some len =>
          by_cases hl : record.size < len
          · have hstep : m.remove_allocation off none (some len) = (none, m) := by
              unfold MemoryManager.remove_allocation
              rw [hf]
              simp only [hr]
              simp only [if_pos hl]
            rw [hstep]
            exact Or.inl ⟨rfl, rfl⟩
          · have hstep : m.remove_allocation off none (some len) =
                (some record,
                  { m with allocations := m.allocations.set idx none }) := by
              unfold MemoryManager.remove_allocation
              rw [hf]
              simp only [hr]
              simp only [if_neg hl]
            rw [hstep]
            exact Or.inr ⟨idx, record, rfl, hr, hlt, rfl⟩
        | none =>
          have hstep : m.remove_allocation off none none =
              (some record,
                { m with allocations := m.allocations.set idx none }) := by
            unfold MemoryManager.remove_allocation
            rw [hf]
            simp only [hr]
          rw [hstep]
          exact Or.inr ⟨idx, record, rfl, hr, hlt, rfl⟩

/-- `release` preserves the allocator invariant. -/
theorem release_inv (m : MemoryManager) (ptr : Nat) (ek : Option AllocationKind)
    (ml : Option Nat) (hinv : MemInv m) : MemInv (m.release ptr ek ml).2 := by
  by_cases hp : ptr ≥ m.heap.length
  · have hstep : m.release ptr ek ml = (false, m) := by
      unfold MemoryManager.release
      rw [if_pos hp]
    rw [hstep]
    exact hinv
  · rcases hrm : m.remove_allocation ptr ek ml with ⟨o, m1⟩
    have hspec := remove_allocation_spec m ptr ek ml
    rw [hrm] at hspec
    cases o with
    | none =>
      have hstep : m.release ptr ek ml = (false, m1) := by
        unfold MemoryManager.release
        rw [if_neg hp]
        simp only [hrm]
      rw [hstep]
      rcases hspec with ⟨h1, h2⟩ | ⟨idx, record, h1, _⟩
      · have hm : m1 = m := h2
        rw [hm]
        exact hinv
      · exact Option.noConfusion h1
    | some record =>
      rcases hspec with ⟨h1, h2⟩ | ⟨idx, record2, h1, hr, hlt, h2⟩
      · exact Option.noConfusion h1
      · have hrec : record = record2 := Option.some.inj h1
        subst hrec
        have hm1 : m1 = { m with allocations := m.allocations.set idx none } := h2
        subst hm1
        have hstep : m.release ptr ek ml =
            (true, (({ m with allocations := m.allocations.set idx none
              }).insert_free_region
                ⟨record.offset, record.size⟩).update_stats_on_free record.size) := by
          unfold MemoryManager.release
          rw [if_neg hp]
          simp only [hrm]
        rw [hstep]
        have hrP := hinv.aPos idx record hr
        have hiM : MemInv { m with allocations := m.allocations.set idx none } :=
          ⟨fun i a ha => hinv.aPos i a (tget_set_none_sub ha),
           fun i j a b hij ha hb =>
             hinv.aDisj i j a b hij (tget_set_none_sub ha) (tget_set_none_sub hb),
           fun i j f a hf ha => hinv.faDisj i j f a hf (tget_set_none_sub ha),
           hinv.frInv⟩
        obtain ⟨hiI, _, _, _, _⟩ := insert_region_meminv
          { m with allocations := m.allocations.set idx none }
          ⟨record.offset, record.size⟩ hiM
          (by show record.offset + record.size ≤ m.bump_offset
              exact hrP.2)
          (by intro i f hf
              exact sep_symm (hinv.faDisj i idx f record hf hr))
          (by intro j a ha
              have hne : j ≠ idx := tget_set_none_ne hlt ha
              have ha2 := tget_set_none_sub ha
              exact hinv.aDisj idx j record a (fun hh => hne hh.symm) hr ha2)
        exact MemInv_congr hiI rfl rfl rfl

/-- `free` preserves the allocator invariant. -/
theorem free_inv (m : MemoryManager) (ptr : Nat) (hinv : MemInv m) :
    MemInv (m.free ptr).2 :=
  release_inv m ptr (some .Heap) none hinv

/-- `munmap` preserves the allocator invariant. -/
theorem munmap_inv (m : MemoryManager) (r : MappedRegion) (hinv : MemInv m) :
    MemInv (m.munmap r).2 :=
  release_inv m r.ptr (some .Mapping) (some r.length) hinv

/-- `munmap_ptr` preserves the allocator invariant. -/
theorem munmap_ptr_inv (m : MemoryManager) (ptr length : Nat) (hinv : MemInv m) :
    MemInv (m.munmap_ptr ptr length).2 :=
  release_inv m ptr (some .Mapping) (some length) hinv

/-- Shrinking one allocation record in place keeps the invariant. -/
theorem MemInv_set_shrunk (m : MemoryManager) (idx : Nat)
    (record rec2 : AllocationRecord) (hinv : MemInv m)
    (hr : tget m.allocations idx = some record)
    (hoff : rec2.offset = record.offset) (hpos : 0 < rec2.size)
    (hle : rec2.size ≤ record.size) :
    MemInv { m with allocations := m.allocations.set idx (some rec2) } := by
  have hlt : idx < m.allocations.length := tget_some_lt_length hr
  have hrP := hinv.aPos idx record hr
  refine ⟨?_, ?_, ?_, hinv.frInv⟩
  · intro j a hj
    rcases tget_set_cases hlt hj with ⟨hji, hxa⟩ | ⟨hji, hj2⟩
    · obtain rfl : rec2 = a := Option.some.inj hxa
      refine ⟨hpos, ?_⟩
      have := hrP.2
      show rec2.offset + rec2.size ≤ m.bump_offset
      omega
    · exact hinv.aPos j a hj2
  · intro j k a b hjk hj hk
    rcases tget_set_cases hlt hj with ⟨hji, hxa⟩ | ⟨hji, hj2⟩
    · obtain rfl : rec2 = a := Option.some.inj hxa
      rcases tget_set_cases hlt hk with ⟨hki, hxb⟩ | ⟨hki, hk2⟩
      · exact absurd (hji.trans hki.symm) hjk
      · have hs := hinv.aDisj idx k record b (fun hh => hki hh.symm) hr hk2
        exact sep_mono hs (by omega) (by omega)
    · rcases tget_set_cases hlt hk with ⟨hki, hxb⟩ | ⟨hki, hk2⟩
      · obtain rfl : rec2 = b := Option.some.inj hxb
        have hs := hinv.aDisj j idx a record (fun hh => hji hh) hj2 hr
        exact sep_symm (sep_mono (sep_symm hs) (by omega) (by omega))
      · exact hinv.aDisj j k a b hjk hj2 hk2
  · intro j k f a hj hk
    rcases tget_set_cases hlt hk with ⟨hki, hxa⟩ | ⟨hki, hk2⟩
    · obtain rfl : rec2 = a := Option.some.inj hxa
      have hs := hinv.faDisj j idx f record hj hr
      exact sep_symm (sep_mono (sep_symm hs) (by omega) (by omega))
    · exact hinv.faDisj j k f a hj hk2


/-- `realloc` preserves the allocator invariant. -/
theorem realloc_inv (m : MemoryManager) (ptr : Option Nat) (new_size : Nat)
    (hinv : MemInv m) : MemInv (m.realloc ptr new_size).2 := by
  cases ptr with
  | none =>
    cases new_size with
    | zero => exact hinv
    | succ n => exact malloc_inv m (n + 1) hinv
  | some p =>
    cases new_size with
    | zero => exact free_inv m p hinv
    | succ n =>
      have hstep0 : m.realloc (some p) (n + 1) =
          (if p ≥ m.heap.length then (none, m)
           else match m.find_allocation_index p with
           | none => (none, m)
           | some idx =>
             match tget m.allocations idx with
             | none => (none, m)
             | some record =>
               if record.kind ≠ .Heap then (none, m)
               else if align_up (n + 1) 8 < n + 1 then (none, m)
               else if align_up (n + 1) 8 ≤ record.size then
                 (some p,
                   { (if record.size - align_up (n + 1) 8 > 0 then
                       (m.insert_free_region
                         ⟨record.offset + align_up (n + 1) 8,
                           record.size - align_up (n + 1) 8⟩).update_stats_on_free
                         (record.size - align_up (n + 1) 8)
                     else m) with
                     allocations := ((if record.size - align_up (n + 1) 8 > 0 then
                       (m.insert_free_region
                         ⟨record.offset + align_up (n + 1) 8,
                           record.size - align_up (n + 1) 8⟩).update_stats_on_free
                         (record.size - align_up (n + 1) 8)
                     else m).allocations.set idx
                       (some { record with size := align_up (n + 1) 8 })) })
               else
                 match m.malloc (n + 1) with
                 | (none, m1) => (none, m1)
                 | (some new_ptr, m1) =>
                   (some new_ptr,
                     (({ m1 with
                       heap := heapCopy m1.heap p new_ptr
                         (min record.size (n + 1)) }).free p).2)) := rfl
      rw [hstep0]
      split
      · exact hinv
      · split
        · exact hinv
        · rename_i idx hf
          split
          · exact hinv
          · rename_i record hr
            split
            · exact hinv
            · split
              · exact hinv
              · rename_i hk hlo
                have hpos : 0 < align_up (n + 1) 8 := by
                  have := align_up_ge (n + 1) 8
                  omega
                split
                · rename_i hfits
                  split
                  · rename_i hrem
                    -- shrink with a leftover free region
                    have hrP := hinv.aPos idx record hr
                    have hlt : idx < m.allocations.length := tget_some_lt_length hr
                    have hiShr : MemInv { m with allocations :=
                        (m.allocations.set idx
                          (some { record with size := align_up (n + 1) 8 })) } :=
                      MemInv_set_shrunk m idx record
                        { record with size := align_up (n + 1) 8 } hinv hr rfl
                        hpos hfits
                    obtain ⟨hiI, halI, hbpI, _, _⟩ := insert_region_meminv
                      { m with allocations := (m.allocations.set idx
                          (some { record with size := align_up (n + 1) 8 })) }
                      ⟨record.offset + align_up (n + 1) 8,
                        record.size - align_up (n + 1) 8⟩ hiShr
                      (by show record.offset + align_up (n + 1) 8 +
                            (record.size - align_up (n + 1) 8) ≤ m.bump_offset
                          have := hrP.2
                          omega)
                      (by intro i f hf2
                          have hs := sep_symm (hinv.faDisj i idx f record hf2 hr)
                          show sep (record.offset + align_up (n + 1) 8)
                            (record.size - align_up (n + 1) 8) f.offset f.size
                          exact sep_mono hs (by omega) (by omega))
                      (by intro j a ha
                          rcases tget_set_cases hlt ha with ⟨hji, hxa⟩ | ⟨hji, ha2⟩
                          · obtain rfl :
                                ({ record with size := align_up (n + 1) 8 }
                                  : AllocationRecord) = a :=
                              Option.some.inj hxa
                            show sep (record.offset + align_up (n + 1) 8)
                              (record.size - align_up (n + 1) 8)
                              record.offset (align_up (n + 1) 8)
                            exact Or.inr (Nat.le_refl _)
                          · have hs := hinv.aDisj idx j record a
                              (fun hh => hji hh.symm) hr ha2
                            show sep (record.offset + align_up (n + 1) 8)
                              (record.size - align_up (n + 1) 8) a.offset a.size
                            exact sep_mono hs (by omega) (by omega))
                    refine MemInv_congr hiI ?_ ?_ ?_
                    · show ((m.insert_free_region
                          ⟨record.offset + align_up (n + 1) 8,
                            record.size - align_up (n + 1) 8⟩).allocations.set idx
                          (some { record with size := align_up (n + 1) 8 })) =
                        (MemoryManager.insert_free_region
                          { m with allocations := (m.allocations.set idx
                            (some { record with size := align_up (n + 1) 8 })) }
                          ⟨record.offset + align_up (n + 1) 8,
                            record.size - align_up (n + 1) 8⟩).allocations
                      rw [(insert_free_region_fields m _).1,
                        (insert_free_region_fields _ _).1]
                    · show (m.insert_free_region
                          ⟨record.offset + align_up (n + 1) 8,
                            record.size - align_up (n + 1) 8⟩).free_regions =
                        (MemoryManager.insert_free_region
                          { m with allocations := (m.allocations.set idx
                            (some { record with size := align_up (n + 1) 8 })) }
                          ⟨record.offset + align_up (n + 1) 8,
                            record.size - align_up (n + 1) 8⟩).free_regions
                      exact (insert_free_region_frees_congr m
                        { m with allocations := (m.allocations.set idx
                          (some { record with size := align_up (n + 1) 8 })) }
                        ⟨record.offset + align_up (n + 1) 8,
                          record.size - align_up (n + 1) 8⟩ rfl).symm
                    · show (m.insert_free_region
                          ⟨record.offset + align_up (n + 1) 8,
                            record.size - align_up (n + 1) 8⟩).bump_offset =
                        (MemoryManager.insert_free_region
                          { m with allocations := (m.allocations.set idx
                            (some { record with size := align_up (n + 1) 8 })) }
                          ⟨record.offset + align_up (n + 1) 8,
                            record.size - align_up (n + 1) 8⟩).bump_offset
                      rw [(insert_free_region_fields m _).2.1,
                        (insert_free_region_fields _ _).2.1]
                  · rename_i hrem
                    exact MemInv_set_shrunk m idx record
                      { record with size := align_up (n + 1) 8 } hinv hr rfl
                      hpos hfits
                · rename_i hfits
                  split
                  · rename_i m1 hmal
                    have := malloc_inv m (n + 1) hinv
                    rw [hmal] at this
                    exact this
                  · rename_i new_ptr m1 hmal
                    have hi1 : MemInv m1 := by
                      have := malloc_inv m (n + 1) hinv
                      rw [hmal] at this
                      exact this
                    exact free_inv { m1 with heap := (heapCopy m1.heap p new_ptr
                      (min record.size (n + 1))) } p
                      (MemInv_congr hi1 rfl rfl rfl)

/-- A raw heap write preserves the allocator invariant (it touches bytes only). -/
theorem poke_inv (m : MemoryManager) (off val : Nat) (hinv : MemInv m) :
    MemInv (m.poke off val) :=
  MemInv_congr hinv rfl rfl rfl

theorem tget_replicate_none {α : Type} (n i : Nat) :
    tget (List.replicate n (none : Option α)) i = none := by
  induction n generalizing i with
  | zero => exact tget_nil i
  | succ k ih =>
    cases i with
    | zero => rfl
    | succ j =>
      show tget (none :: List.replicate k (none : Option α)) (j + 1) = none
      rw [tget_cons_succ]
      exact ih j

/-- A fresh manager satisfies the allocator invariant. -/
theorem MemInv_new (hs ma : Nat) : MemInv (MemoryManager.new hs ma) := by
  have hA : ∀ i, tget (MemoryManager.new hs ma).allocations i = none :=
    fun i => tget_replicate_none ma i
  have hF : ∀ i, tget (MemoryManager.new hs ma).free_regions i = none :=
    fun i => tget_replicate_none ma i
  refine ⟨?_, ?_, ?_, ⟨?_, ?_, ?_⟩⟩
  · intro i a ha
    rw [hA i] at ha
    exact Option.noConfusion ha
  · intro i j a b hij ha hb
    rw [hA i] at ha
    exact Option.noConfusion ha
  · intro i j f a hf ha
    rw [hF i] at hf
    exact Option.noConfusion hf
  · intro i f hf
    rw [hF i] at hf
    exact Option.noConfusion hf
  · intro i j f g hij hf hg
    rw [hF i] at hf
    exact Option.noConfusion hf
  · intro i j f g hf hg
    rw [hF i] at hf
    exact Option.noConfusion hf

/-- States of the modelled allocator reachable from `MemoryManager::new` through
the public operations. -/
inductive MemReachable : MemoryManager → Prop where
  | init : ∀ heapSize maxAreas, MemReachable (MemoryManager.new heapSize maxAreas)
  | malloc : ∀ m size, MemReachable m → MemReachable (m.malloc size).2
  | malloc_aligned : ∀ m size align, MemReachable m →
      MemReachable (m.malloc_aligned size align).2
  | realloc : ∀ m ptr size, MemReachable m → MemReachable (m.realloc ptr size).2
  | free : ∀ m ptr, MemReachable m → MemReachable (m.free ptr).2
  | mmap : ∀ m len prot, MemReachable m → MemReachable (m.mmap len prot).2
  | munmap : ∀ m r, MemReachable m → MemReachable (m.munmap r).2
  | munmap_ptr : ∀ m ptr len, MemReachable m →
      MemReachable (m.munmap_ptr ptr len).2
  | poke : ∀ m off val, MemReachable m → MemReachable (m.poke off val)

/-- Every reachable allocator state satisfies the invariant. -/
theorem memInv_reachable (m : MemoryManager) (h : MemReachable m) : MemInv m := by
  induction h with
  | init hs ma => exact MemInv_new hs ma
  | malloc m size _ ih => exact malloc_inv m size ih
  | malloc_aligned m size align _ ih => exact malloc_aligned_inv m size align ih
  | realloc m ptr size _ ih => exact realloc_inv m ptr size ih
  | free m ptr _ ih => exact free_inv m ptr ih
  | mmap m len prot _ ih => exact mmap_inv m len prot ih
  | munmap m r _ ih => exact munmap_inv m r ih
  | munmap_ptr m ptr len _ ih => exact munmap_ptr_inv m ptr len ih
  | poke m off val _ ih => exact poke_inv m off val ih

/-- C8: after every allocator operation (any sequence of `malloc`,
`malloc_aligned`, `realloc`, `free`, `mmap`, `munmap`/`munmap_ptr` and raw heap
writes from a fresh manager), no free region overlaps any live allocation
record, and no two free regions in the free-region array are adjacent: no
region's end equals another region's start. -/
theorem allocator_free_list_invariant (m : MemoryManager) (h : MemReachable m) :
    (∀ i j f a, tget m.free_regions i = some f → tget m.allocations j = some a →
      f.offset + f.size ≤ a.offset ∨ a.offset + a.size ≤ f.offset) ∧
    (∀ i j f g, tget m.free_regions i = some f → tget m.free_regions j = some g →
      f.offset + f.size ≠ g.offset) := by
  have hinv := memInv_reachable m h
  constructor
  · intro i j f a hf ha
    exact hinv.faDisj i j f a hf ha
  · intro i j f g hf hg
    exact hinv.frInv.fAdj i j f g hf hg

theorem allocator_free_list_invariant_witness :
    ((0 : Nat) + 16 ≤ 16 ∨ 16 + 16 ≤ 0) ∧ ((0 : Nat) + 16 ≠ 0) := by
  have h := allocator_free_list_invariant
    ((((MemoryManager.new 256 8).malloc 16).2.malloc 16).2.free 0).2
    (MemReachable.free _ 0 (MemReachable.malloc _ 16
      (MemReachable.malloc _ 16 (MemReachable.init 256 8))))
  exact ⟨h.1 0 1 ⟨0, 16⟩ ⟨16, 16, .Heap, MemoryProtection.read_write⟩
      (by decide) (by decide),
    h.2 0 0 ⟨0, 16⟩ ⟨0, 16⟩ (by decide) (by decide)⟩

/-! ## Claim C9: realloc case behaviour -/

/-- The spec's realloc-preservation scenario: `p = malloc(16)` on a fresh
manager. -/
def c9base : MemoryManager := ((MemoryManager.new 256 8).malloc 16).2

/-- ... with bytes 0..15 written through the returned pointer (offset 0). -/
def c9w : MemoryManager := (List.range 16).foldl (fun mm i => mm.poke i i) c9base

/-- C9: `realloc(None,0)` returns `None`; `realloc(None,s)` behaves as
`malloc(s)`; `realloc(Some p, 0)` frees `p` and returns `None`; when the
word-aligned new size fits the record, the same pointer comes back, the record
is shrunk in place and the leftover is pushed as a free region; otherwise a new
block is allocated, `min(old,new)` bytes are copied and the old block is freed —
and in the concrete 16-byte scenario `realloc(p, 64)` preserves bytes 0..15. -/
theorem realloc_spec :
    (∀ m : MemoryManager, m.realloc none 0 = (none, m)) ∧
    (∀ (m : MemoryManager) (s : Nat), 0 < s → m.realloc none s = m.malloc s) ∧
    (∀ (m : MemoryManager) (p : Nat),
      m.realloc (some p) 0 = (none, (m.free p).2)) ∧
    (∀ (m : MemoryManager) (p s idx : Nat) (record : AllocationRecord),
      0 < s → p < m.heap.length →
      m.find_allocation_index p = some idx →
      tget m.allocations idx = some record →
      record.kind = .Heap →
      align_up s 8 ≤ record.size →
      (m.realloc (some p) s).1 = some p ∧
      (m.realloc (some p) s).2.allocations =
        m.allocations.set idx (some { record with size := align_up s 8 }) ∧
      (0 < record.size - align_up s 8 →
        (m.realloc (some p) s).2.free_regions =
          (m.insert_free_region ⟨record.offset + align_up s 8,
            record.size - align_up s 8⟩).free_regions) ∧
      (record.size - align_up s 8 = 0 →
        (m.realloc (some p) s).2.free_regions = m.free_regions)) ∧
    (∀ (m m1 : MemoryManager) (p s idx q : Nat) (record : AllocationRecord),
      0 < s → p < m.heap.length →
      m.find_allocation_index p = some idx →
      tget m.allocations idx = some record →
      record.kind = .Heap →
      record.size < align_up s 8 →
      m.malloc s = (some q, m1) →
      m.realloc (some p) s =
        (some q, (({ m1 with heap := (heapCopy m1.heap p q
          (min record.size s)) }).free p).2)) ∧
    ((c9w.realloc (some 0) 64).1 = some 16 ∧
      ((c9w.realloc (some 0) 64).2.heap.drop 16).take 16 = c9w.heap.take 16) := by
  refine ⟨fun m => rfl, ?_, fun m p => rfl, ?_, ?_, by decide⟩
  · intro m s hs
    cases s with
    | zero => omega
    | succ n => rfl
  · intro m p s idx record hs hp hf hr hk hfits
    cases s with
    | zero => omega
    | succ n =>
      have hstep : m.realloc (some p) (n + 1) =
          (some p,
            { (if record.size - align_up (n + 1) 8 > 0 then
                (m.insert_free_region
                  ⟨record.offset + align_up (n + 1) 8,
                    record.size - align_up (n + 1) 8⟩).update_stats_on_free
                  (record.size - align_up (n + 1) 8)
              else m) with
              allocations := ((if record.size - align_up (n + 1) 8 > 0 then
                (m.insert_free_region
                  ⟨record.offset + align_up (n + 1) 8,
                    record.size - align_up (n + 1) 8⟩).update_stats_on_free
                  (record.size - align_up (n + 1) 8)
              else m).allocations.set idx
                (some { record with size := align_up (n + 1) 8 })) }) := by
        have hstep0 : m.realloc (some p) (n + 1) =
            (if p ≥ m.heap.length then (none, m)
             else match m.find_allocation_index p with
             | none => (none, m)
             | some idx =>
               match tget m.allocations idx with
               | none => (none, m)
               | some record =>
                 if record.kind ≠ .Heap then (none, m)
                 else if align_up (n + 1) 8 < n + 1 then (none, m)
                 else if align_up (n + 1) 8 ≤ record.size then
                   (some p,
                     { (if record.size - align_up (n + 1) 8 > 0 then
                         (m.insert_free_region
                           ⟨record.offset + align_up (n + 1) 8,
                             record.size - align_up (n + 1) 8⟩).update_stats_on_free
                           (record.size - align_up (n + 1) 8)
                       else m) with
                       allocations := ((if record.size - align_up (n + 1) 8 > 0 then
                         (m.insert_free_region
                           ⟨record.offset + align_up (n + 1) 8,
                             record.size - align_up (n + 1) 8⟩).update_stats_on_free
                           (record.size - align_up (n + 1) 8)
                       else m).allocations.set idx
                         (some { record with size := align_up (n + 1) 8 })) })
                 else
                   match m.malloc (n + 1) with
                   | (none, m1) => (none, m1)
                   | (some new_ptr, m1) =>
                     (some new_ptr,
                       (({ m1 with
                         heap := heapCopy m1.heap p new_ptr
                           (min record.size (n + 1)) }).free p).2)) := rfl
        rw [hstep0]
        rw [if_neg (by omega : ¬ p ≥ m.heap.length)]
        simp only [hf, hr]
        rw [if_neg (not_not_intro hk)]
        rw [if_neg (show ¬ align_up (n + 1) 8 < n + 1 from by
          have := align_up_ge (n + 1) 8
          omega)]
        rw [if_pos hfits]
      refine ⟨by rw [hstep], ?_, ?_, ?_⟩
      · rw [hstep]
        show ((if record.size - align_up (n + 1) 8 > 0 then
            (m.insert_free_region
              ⟨record.offset + align_up (n + 1) 8,
                record.size - align_up (n + 1) 8⟩).update_stats_on_free
              (record.size - align_up (n + 1) 8)
          else m).allocations.set idx
            (some { record with size := align_up (n + 1) 8 })) =
          m.allocations.set idx (some { record with size := align_up (n + 1) 8 })
        by_cases hrem : record.size - align_up (n + 1) 8 > 0
        · rw [if_pos hrem]
          show ((m.insert_free_region
              ⟨record.offset + align_up (n + 1) 8,
                record.size - align_up (n + 1) 8⟩).allocations.set idx
              (some { record with size := align_up (n + 1) 8 })) =
            m.allocations.set idx (some { record with size := align_up (n + 1) 8 })
          rw [(insert_free_region_fields m _).1]
        · rw [if_neg hrem]
      · intro hrem
        rw [hstep]
        show (if record.size - align_up (n + 1) 8 > 0 then
            (m.insert_free_region
              ⟨record.offset + align_up (n + 1) 8,
                record.size - align_up (n + 1) 8⟩).update_stats_on_free
              (record.size - align_up (n + 1) 8)
          else m).free_regions =
            (m.insert_free_region ⟨record.offset + align_up (n + 1) 8,
              record.size - align_up (n + 1) 8⟩).free_regions
        rw [if_pos hrem]
        rfl
      · intro hrem
        rw [hstep]
        show (if record.size - align_up (n + 1) 8 > 0 then
            (m.insert_free_region
              ⟨record.offset + align_up (n + 1) 8,
                record.size - align_up (n + 1) 8⟩).update_stats_on_free
              (record.size - align_up (n + 1) 8)
          else m).free_regions = m.free_regions
        rw [if_neg (by omega : ¬ record.size - align_up (n + 1) 8 > 0)]
  · intro m m1 p s idx q record hs hp hf hr hk hgrow hmal
    cases s with
    | zero => omega
    | succ n =>
      have hstep0 : m.realloc (some p) (n + 1) =
          (if p ≥ m.heap.length then (none, m)
           else match m.find_allocation_index p with
           | none => (none, m)
           | some idx =>
             match tget m.allocations idx with
             | none => (none, m)
             | some record =>
               if record.kind ≠ .Heap then (none, m)
               else if align_up (n + 1) 8 < n + 1 then (none, m)
               else if align_up (n + 1) 8 ≤ record.size then
                 (some p,
                   { (if record.size - align_up (n + 1) 8 > 0 then
                       (m.insert_free_region
                         ⟨record.offset + align_up (n + 1) 8,
                           record.size - align_up (n + 1) 8⟩).update_stats_on_free
                         (record.size - align_up (n + 1) 8)
                     else m) with
                     allocations := ((if record.size - align_up (n + 1) 8 > 0 then
                       (m.insert_free_region
                         ⟨record.offset + align_up (n + 1) 8,
                           record.size - align_up (n + 1) 8⟩).update_stats_on_free
                         (record.size - align_up (n + 1) 8)
                     else m).allocations.set idx
                       (some { record with size := align_up (n + 1) 8 })) })
               else
                 match m.malloc (n + 1) with
                 | (none, m1) => (none, m1)
                 | (some new_ptr, m1) =>
                   (some new_ptr,
                     (({ m1 with
                       heap := heapCopy m1.heap p new_ptr
                         (min record.size (n + 1)) }).free p).2)) := rfl
      rw [hstep0]
      rw [if_neg (by omega : ¬ p ≥ m.heap.length)]
      simp only [hf, hr]
      rw [if_neg (not_not_intro hk)]
      rw [if_neg (show ¬ align_up (n + 1) 8 < n + 1 from by
        have := align_up_ge (n + 1) 8
        omega)]
      rw [if_neg (by omega : ¬ align_up (n + 1) 8 ≤ record.size)]
      simp only [hmal]

theorem realloc_spec_witness :
    (MemoryManager.new 8 2).realloc none 4 = (MemoryManager.new 8 2).malloc 4 ∧
    ((((MemoryManager.new 256 8).malloc 32).2.realloc (some 0) 8).1 = some 0) ∧
    ((c9w.realloc (some 0) 64).1 = some 16) := by
  obtain ⟨h1, h2, h3, h4, h5, h6⟩ := realloc_spec
  refine ⟨h2 (MemoryManager.new 8 2) 4 (by decide), ?_, h6.1⟩
  exact (h4 ((MemoryManager.new 256 8).malloc 32).2 0 8 0
    ⟨0, 32, .Heap, MemoryProtection.read_write⟩ (by decide) (by decide)
    (by decide) (by decide) (by decide) (by decide)).1

/-! ## Claim C4: spawn_process rollback machinery (security table) -/

/-- Well-formedness of the open-addressed security table: stored pids are
distinct, and every stored domain's probe path from its hash home to its slot
passes only occupied slots. -/
structure SKWF (ds : List (Option TaskDomain)) : Prop where
  wPid : ∀ i j d e, tget ds i = some d → tget ds j = some e → d.pid = e.pid → i = j
  wPath : ∀ i d, tget ds i = some d → ∃ t, t < ds.length ∧
    (skhash ds.length d.pid + t) % ds.length = i ∧
    ∀ u, u < t → tget ds ((skhash ds.length d.pid + u) % ds.length) ≠ none

theorem tset_self_id {α : Type} {l : List (Option α)} {i : Nat} {x : Option α}
    (hx : tget l i = x) (hi : i < l.length) : l.set i x = l := by
  induction l generalizing i with
  | nil => rfl
  | cons a as ih =>
    cases i with
    | zero =>
      rw [tget_cons_zero] at hx
      rw [← hx]
      rfl
    | succ j =>
      rw [tget_cons_succ] at hx
      show a :: as.set j x = a :: as
      rw [ih hx (by simpa using hi)]

theorem skhash_lt {N : Nat} (hN : 0 < N) (pid : Nat) : skhash N pid < N := by
  unfold skhash
  rw [if_neg (by omega)]
  exact Nat.mod_lt _ hN

theorem sknext_eq {N : Nat} (hN : 0 < N) (cur : Nat) : sknext N cur = (cur + 1) % N := by
  unfold sknext
  rw [if_neg (by omega)]

theorem pos_shift {N idx u : Nat} :
    ((idx + 1) % N + u) % N = (idx + (u + 1)) % N := by
  rw [Nat.mod_add_mod]
  congr 1
  omega

def countSome {α : Type} (l : List (Option α)) : Nat :=
  l.countP (fun e => e.isSome)

theorem countSome_pos {α : Type} {l : List (Option α)} {i : Nat} {e : α}
    (h : tget l i = some e) : 0 < countSome l := by
  have hi : i < l.length := tget_some_lt_length h
  have hmem : some e ∈ l := by
    have hg : l.get? i = some (some e) := by
      have := List.get?_eq_get hi
      rw [this]
      unfold tget at h
      rw [this] at h
      simpa using h
    exact List.get?_mem hg
  unfold countSome
  rw [List.countP_pos]
  exact ⟨some e, hmem, rfl⟩

/-- The probe loop of `insert_domain` lands on the first empty slot along the
walk and reports a fresh insertion. -/
theorem insertAux_firstEmpty (ds : List (Option TaskDomain)) (d : TaskDomain) :
    ∀ (t fuel idx : Nat), t < fuel → idx < ds.length →
    (∀ u, u < t → ∃ e, tget ds ((idx + u) % ds.length) = some e ∧ e.pid ≠ d.pid) →
    tget ds ((idx + t) % ds.length) = none →
    insertAux ds d idx fuel =
      some (ds.set ((idx + t) % ds.length) (some d), true) := by
  intro t
  induction t with
  | zero =>
    intro fuel idx hf hidx hwalk hnone
    cases fuel with
    | zero => omega
    | succ f =>
      have h0 : (idx + 0) % ds.length = idx := by
        rw [Nat.add_zero, Nat.mod_eq_of_lt hidx]
      rw [h0] at hnone ⊢
      conv_lhs => rw [insertAux]
      rw [hnone]
  | succ t ih =>
    intro fuel idx hf hidx hwalk hnone
    cases fuel with
    | zero => omega
    | succ f =>
      obtain ⟨e, he, hep⟩ := hwalk 0 (Nat.succ_pos t)
      have h0 : (idx + 0) % ds.length = idx := by
        rw [Nat.add_zero, Nat.mod_eq_of_lt hidx]
      rw [h0] at he
      have hN : 0 < ds.length := lt_of_le_of_lt (Nat.zero_le idx) hidx
      have hstep : insertAux ds d idx (f + 1) =
          insertAux ds d (sknext ds.length idx) f := by
        conv_lhs => rw [insertAux]
        simp only [he]
        rw [if_neg hep]
      rw [hstep, sknext_eq hN]
      have hres := ih f ((idx + 1) % ds.length) (by omega) (Nat.mod_lt _ hN)
        (by intro u hu
            obtain ⟨e2, he2, hep2⟩ := hwalk (u + 1) (by omega)
            refine ⟨e2, ?_, hep2⟩
            rw [pos_shift]
            exact he2)
        (by rw [pos_shift]
            exact hnone)
      rw [hres, pos_shift]

/-- Inverse characterisation: a successful insert of a pid absent from the
table took the first empty slot along its probe path. -/
theorem insertAux_fresh_shape (ds : List (Option TaskDomain)) (d : TaskDomain)
    (hfr : ∀ i e, tget ds i = some e → e.pid ≠ d.pid) :
    ∀ (fuel idx : Nat) (res : List (Option TaskDomain) × Bool),
    idx < ds.length → insertAux ds d idx fuel = some res →
    ∃ t, t < fuel ∧
      (∀ u, u < t → ∃ e, tget ds ((idx + u) % ds.length) = some e ∧ e.pid ≠ d.pid) ∧
      tget ds ((idx + t) % ds.length) = none ∧
      res = (ds.set ((idx + t) % ds.length) (some d), true) := by
  intro fuel
  induction fuel with
  | zero =>
    intro idx res hidx h
    exact Option.noConfusion h
  | succ f ih =>
    intro idx res hidx h
    have hN : 0 < ds.length := lt_of_le_of_lt (Nat.zero_le idx) hidx
    have h0 : (idx + 0) % ds.length = idx := by
      rw [Nat.add_zero, Nat.mod_eq_of_lt hidx]
    cases he : tget ds idx with
    | none =>
      have hstep : insertAux ds d idx (f + 1) =
          some (ds.set idx (some d), true) := by
        conv_lhs => rw [insertAux]
        rw [he]
      rw [hstep] at h
      refine ⟨0, by omega, by intro u hu; omega, ?_, ?_⟩
      · rw [h0]
        exact he
      · rw [h0]
        exact (Option.some.inj h).symm
    | some e =>
      have hep : e.pid ≠ d.pid := hfr idx e he
      have hstep : insertAux ds d idx (f + 1) =
          insertAux ds d (sknext ds.length idx) f := by
        conv_lhs => rw [insertAux]
        simp only [he]
        rw [if_neg hep]
      rw [hstep, sknext_eq hN] at h
      obtain ⟨t, htf, hwalk, hnone, hres⟩ := ih ((idx + 1) % ds.length) res
        (Nat.mod_lt _ hN) h
      refine ⟨t + 1, by omega, ?_, ?_, ?_⟩
      · intro u hu
        cases u with
        | zero =>
          refine ⟨e, ?_, hep⟩
          rw [h0]
          exact he
        | succ v =>
          obtain ⟨e2, he2, hep2⟩ := hwalk v (by omega)
          refine ⟨e2, ?_, hep2⟩
          rw [← pos_shift]
          exact he2
      · rw [← pos_shift]
        exact hnone
      · rw [← pos_shift]
        exact hres

/-- The probe loop of `remove` walks past foreign pids and fires the back-shift
rehash at the slot holding the target pid. -/
theorem removeAux_hit (ds : List (Option TaskDomain)) (pop pid : Nat) :
    ∀ (t fuel idx : Nat), t < fuel → idx < ds.length →
    (∀ u, u < t → ∃ e, tget ds ((idx + u) % ds.length) = some e ∧ e.pid ≠ pid) →
    (∃ dm, tget ds ((idx + t) % ds.length) = some dm ∧ dm.pid = pid) →
    removeAux ds pop pid idx fuel =
      rehashAux (ds.set ((idx + t) % ds.length) none) (pop - 1)
        (sknext ds.length ((idx + t) % ds.length)) ds.length := by
  intro t
  induction t with
  | zero =>
    intro fuel idx hf hidx hwalk hhit
    cases fuel with
    | zero => omega
    | succ f =>
      obtain ⟨dm, hdm, hdmp⟩ := hhit
      have h0 : (idx + 0) % ds.length = idx := by
        rw [Nat.add_zero, Nat.mod_eq_of_lt hidx]
      rw [h0] at hdm ⊢
      conv_lhs => rw [removeAux]
      simp only [hdm]
      rw [if_pos hdmp]
  | succ t ih =>
    intro fuel idx hf hidx hwalk hhit
    cases fuel with
    | zero => omega
    | succ f =>
      obtain ⟨e, he, hep⟩ := hwalk 0 (Nat.succ_pos t)
      have h0 : (idx + 0) % ds.length = idx := by
        rw [Nat.add_zero, Nat.mod_eq_of_lt hidx]
      rw [h0] at he
      have hN : 0 < ds.length := lt_of_le_of_lt (Nat.zero_le idx) hidx
      have hstep : removeAux ds pop pid idx (f + 1) =
          removeAux ds pop pid (sknext ds.length idx) f := by
        conv_lhs => rw [removeAux]
        simp only [he]
        rw [if_neg hep]
      rw [hstep, sknext_eq hN]
      have hres := ih f ((idx + 1) % ds.length) (by omega) (Nat.mod_lt _ hN)
        (by intro u hu
            obtain ⟨e2, he2, hep2⟩ := hwalk (u + 1) (by omega)
            refine ⟨e2, ?_, hep2⟩
            rw [pos_shift]
            exact he2)
        (by obtain ⟨dm, hdm, hdmp⟩ := hhit
            refine ⟨dm, ?_, hdmp⟩
            rw [pos_shift]
            exact hdm)
      rw [hres, pos_shift]

/-- Re-inserting a domain just cleared from a well-formed table puts it back in
its own slot. -/
theorem insertAux_lands_back (ds : List (Option TaskDomain)) (hwf : SKWF ds)
    {idx : Nat} {dm : TaskDomain} (hidx : idx < ds.length)
    (he : tget ds idx = some dm) :
    insertAux (ds.set idx none) dm (skhash ds.length dm.pid) ds.length =
      some ((ds.set idx none).set idx (some dm), true) := by
  obtain ⟨t, htN, hpos, hocc⟩ := hwf.wPath idx dm he
  have hN : 0 < ds.length := lt_of_le_of_lt (Nat.zero_le idx) hidx
  have hex : ∃ u, (skhash ds.length dm.pid + u) % ds.length = idx := ⟨t, hpos⟩
  have hp0 : (skhash ds.length dm.pid + Nat.find hex) % ds.length = idx :=
    Nat.find_spec hex
  have ht0le : Nat.find hex ≤ t := Nat.find_min' hex hpos
  have hlen : (ds.set idx none).length = ds.length := List.length_set ds idx none
  have hfe := insertAux_firstEmpty (ds.set idx none) dm (Nat.find hex)
    ds.length (skhash ds.length dm.pid) (by omega)
    (by rw [hlen]; exact skhash_lt hN dm.pid)
    (by intro u hu
        have hne : (skhash ds.length dm.pid + u) % ds.length ≠ idx :=
          Nat.find_min hex hu
        rw [hlen]
        rw [tget_set_ne none (fun hh => hne hh.symm)]
        have hoccu := hocc u (by omega)
        cases he2 : tget ds ((skhash ds.length dm.pid + u) % ds.length) with
        | none => exact absurd he2 hoccu
        | some e2 =>
          refine ⟨e2, rfl, ?_⟩
          intro hpp
          exact hne (hwf.wPid _ idx e2 dm he2 he hpp))
    (by rw [hlen, hp0]
        exact tget_set_self none hidx)
  rw [hlen, hp0] at hfe
  exact hfe

/-- The back-shift rehash after removing a freshly inserted pid restores the
table: every following cluster member re-inserts into its own slot. -/
theorem rehashAux_restore (ds : List (Option TaskDomain)) (pop : Nat)
    (hwf : SKWF ds) (hcnt : countSome ds ≤ pop) :
    ∀ (fuel idx : Nat), idx < ds.length →
    (∃ v, v < fuel ∧ tget ds ((idx + v) % ds.length) = none) →
    rehashAux ds pop idx fuel = (ds, pop) := by
  intro fuel
  induction fuel with
  | zero =>
    intro idx hidx hv
    obtain ⟨v, hv0, _⟩ := hv
    omega
  | succ f ih =>
    intro idx hidx hv
    obtain ⟨v, hvf, hvn⟩ := hv
    have hN : 0 < ds.length := lt_of_le_of_lt (Nat.zero_le idx) hidx
    cases he : tget ds idx with
    | none =>
      conv_lhs => rw [rehashAux]
      rw [he]
    | some dm =>
      have hv0 : v ≠ 0 := by
        intro hz
        subst hz
        rw [Nat.add_zero, Nat.mod_eq_of_lt hidx] at hvn
        rw [he] at hvn
        exact Option.noConfusion hvn
      have hstep : rehashAux ds pop idx (f + 1) =
          rehashAux (rehashStep (ds.set idx none) (pop - 1) dm).1
            (rehashStep (ds.set idx none) (pop - 1) dm).2
            (sknext ds.length idx) f := by
        conv_lhs => rw [rehashAux]
        rw [he]
      have hpop1 : 0 < pop := lt_of_lt_of_le (countSome_pos he) hcnt
      have hrs : rehashStep (ds.set idx none) (pop - 1) dm = (ds, pop) := by
        unfold rehashStep
        rw [if_neg (by rw [List.length_set]; omega)]
        have hins := insertAux_lands_back ds hwf hidx he
        rw [List.length_set, hins]
        rw [List.set_set, tset_self_id he hidx]
        show (ds, pop - 1 + 1) = (ds, pop)
        rw [Nat.sub_add_cancel hpop1]
      rw [hstep, hrs, sknext_eq hN]
      exact ih ((idx + 1) % ds.length) (Nat.mod_lt _ hN)
        ⟨v - 1, by omega, by
          rw [pos_shift]
          rw [show idx + (v - 1 + 1) = idx + v from by omega]
          exact hvn⟩

/-- Registering a fresh pid and then revoking it restores the security kernel
exactly. -/
theorem register_revoke_restore (sk : SecurityKernel) (pid : Nat)
    (creds : Credentials) (hwf : SKWF sk.domains)
    (hcnt : countSome sk.domains ≤ sk.population)
    (hfresh : ∀ i d, tget sk.domains i = some d → d.pid ≠ pid)
    (sec : SecurityKernel) (hreg : sk.register_task pid creds = .ok sec) :
    sec.revoke_task pid = sk := by
  unfold SecurityKernel.register_task SecurityKernel.insert_domain at hreg
  by_cases hN : sk.domains.length = 0
  · rw [if_pos hN] at hreg
    exact Except.noConfusion hreg
  · rw [if_neg hN] at hreg
    have hN0 : 0 < sk.domains.length := Nat.pos_of_ne_zero hN
    have hdp : (TaskDomain.from_credentials pid creds).pid = pid := rfl
    cases hins : insertAux sk.domains (TaskDomain.from_credentials pid creds)
        (skhash sk.domains.length (TaskDomain.from_credentials pid creds).pid)
        sk.domains.length with
    | none =>
      rw [hins] at hreg
      exact Except.noConfusion hreg
    | some res =>
      rw [hins] at hreg
      have hfr : ∀ i e, tget sk.domains i = some e →
          e.pid ≠ (TaskDomain.from_credentials pid creds).pid := by
        intro i e he
        rw [hdp]
        exact hfresh i e he
      obtain ⟨t0, ht0, hwalk, hnone, hres⟩ := insertAux_fresh_shape sk.domains
        (TaskDomain.from_credentials pid creds) hfr sk.domains.length
        (skhash sk.domains.length (TaskDomain.from_credentials pid creds).pid)
        res (skhash_lt hN0 _) hins
      rw [hres] at hreg
      have hsec : sec = ⟨sk.domains.set
          ((skhash sk.domains.length (TaskDomain.from_credentials pid creds).pid
            + t0) % sk.domains.length)
          (some (TaskDomain.from_credentials pid creds)), sk.population + 1⟩ :=
        (Except.ok.inj hreg).symm
      rw [hdp] at hwalk hnone hsec
      have hd1 : sec.domains = sk.domains.set
          ((skhash sk.domains.length pid + t0) % sk.domains.length)
          (some (TaskDomain.from_credentials pid creds)) := by rw [hsec]
      have hp1 : sec.population = sk.population + 1 := by rw [hsec]
      unfold SecurityKernel.revoke_task SecurityKernel.remove
      rw [hd1, hp1]
      rw [if_neg (by
        push_neg
        refine ⟨?_, by omega⟩
        rw [List.length_set]
        omega)]
      have hslt : (skhash sk.domains.length pid + t0) % sk.domains.length <
          sk.domains.length := Nat.mod_lt _ hN0
      have hrem : removeAux (sk.domains.set
          ((skhash sk.domains.length pid + t0) % sk.domains.length)
          (some (TaskDomain.from_credentials pid creds)))
          (sk.population + 1) pid
          (skhash (sk.domains.set
            ((skhash sk.domains.length pid + t0) % sk.domains.length)
            (some (TaskDomain.from_credentials pid creds))).length pid)
          (sk.domains.set
            ((skhash sk.domains.length pid + t0) % sk.domains.length)
            (some (TaskDomain.from_credentials pid creds))).length =
          rehashAux sk.domains sk.population
            (sknext sk.domains.length
              ((skhash sk.domains.length pid + t0) % sk.domains.length))
            sk.domains.length := by
        rw [List.length_set]
        have hhit := removeAux_hit (sk.domains.set
            ((skhash sk.domains.length pid + t0) % sk.domains.length)
            (some (TaskDomain.from_credentials pid creds)))
          (sk.population + 1) pid t0 sk.domains.length
          (skhash sk.domains.length pid) (by omega)
          (by rw [List.length_set]; exact skhash_lt hN0 pid)
          (by intro u hu
              obtain ⟨e, he, hep⟩ := hwalk u hu
              refine ⟨e, ?_, hep⟩
              rw [List.length_set]
              rw [tget_set_ne _ (by
                intro hh
                rw [hh] at hnone
                rw [he] at hnone
                exact Option.noConfusion hnone)]
              exact he)
          (by refine ⟨TaskDomain.from_credentials pid creds, ?_, hdp⟩
              rw [List.length_set]
              exact tget_set_self _ hslt)
        rw [List.length_set] at hhit
        rw [hhit]
        rw [List.set_set, tset_self_id hnone hslt]
        rw [show sk.population + 1 - 1 = sk.population from rfl]
      rw [hrem]
      have hfin := rehashAux_restore sk.domains sk.population hwf hcnt
        sk.domains.length
        (sknext sk.domains.length
          ((skhash sk.domains.length pid + t0) % sk.domains.length))
        (by rw [sknext_eq hN0]; exact Nat.mod_lt _ hN0)
        (by refine ⟨sk.domains.length - 1, by omega, ?_⟩
            rw [sknext_eq hN0, pos_shift]
            rw [show (skhash sk.domains.length pid + t0) % sk.domains.length +
              (sk.domains.length - 1 + 1) =
              (skhash sk.domains.length pid + t0) % sk.domains.length +
                sk.domains.length from by omega]
            rw [Nat.add_mod_right, Nat.mod_eq_of_lt hslt]
            exact hnone)
      rw [hfin]

theorem tget_of_get? {α : Type} {l : List (Option α)} {i : Nat} {x : Option α}
    (h : l.get? i = some x) : tget l i = x := by
  unfold tget
  rw [h]
  rfl

theorem scanIdx_set_first {α : Type} {p : α → Bool} {l : List α} {i : Nat} {y : α}
    (hi : i < l.length) (hy : p y = true)
    (hbefore : ∀ j, j < i → ∀ x, l.get? j = some x → p x = false) :
    scanIdx p (l.set i y) = some i := by
  induction l generalizing i with
  | nil => simp at hi
  | cons a as ih =>
    cases i with
    | zero =>
      show scanIdx p (y :: as) = some 0
      simp [scanIdx, hy]
    | succ m =>
      have hpa : p a = false := hbefore 0 (Nat.succ_pos m) a rfl
      show scanIdx p (a :: as.set m y) = some (m + 1)
      rw [show scanIdx p (a :: as.set m y) =
        if p a then some 0 else (scanIdx p (as.set m y)).map (· + 1) from rfl]
      rw [if_neg (by rw [hpa]; exact Bool.false_ne_true)]
      rw [ih (by simpa using hi) (fun j hj x hx => hbefore (j + 1) (by omega) x hx)]
      rfl

/-- `create_thread` error shape: only a full thread table fails, leaving the
kernel untouched. -/
theorem create_thread_error_shape (k : Kernel) (pid ep : Nat)
    (pr : ProcessPriority) {e : KernelError} {k2 : Kernel}
    (h : k.create_thread pid ep pr = (.error e, k2)) :
    k2 = k ∧ e = .ThreadTableFull := by
  unfold Kernel.create_thread at h
  cases hts : k.find_free_thread_slot with
  | none =>
    rw [hts] at h
    have h1 := congrArg Prod.fst h
    have h2 := congrArg Prod.snd h
    simp only at h1 h2
    have he : KernelError.ThreadTableFull = e := Except.error.inj h1
    exact ⟨h2.symm, he.symm⟩
  | some tslot =>
    rw [hts] at h
    have h1 := congrArg Prod.fst h
    simp only at h1
    exact Except.noConfusion h1

/-- `create_thread` success shape. -/
theorem create_thread_ok_shape (k : Kernel) (pid ep : Nat) (pr : ProcessPriority)
    {tid : Nat} {k2 : Kernel} (h : k.create_thread pid ep pr = (.ok tid, k2)) :
    ∃ tslot, tslot < k.thread_table.length ∧ tget k.thread_table tslot = none ∧
      tid = k.next_thread ∧
      k2 = ({ k with next_thread := k.next_thread + 1, thread_table := (k.thread_table.set tslot (some (ThreadControlBlock.new k.next_thread pid ep pr))) }).update_process_thread_count pid true := by
  unfold Kernel.create_thread at h
  cases hts : k.find_free_thread_slot with
  | none =>
    rw [hts] at h
    have h1 := congrArg Prod.fst h
    simp only at h1
    exact Except.noConfusion h1
  | some tslot =>
    rw [hts] at h
    have h1 := congrArg Prod.fst h
    have h2 := congrArg Prod.snd h
    simp only at h1 h2
    have hts' : scanIdx (fun e => e.isNone) k.thread_table = some tslot := hts
    refine ⟨tslot, scanIdx_lt_length hts', ?_, (Except.ok.inj h1).symm, h2.symm⟩
    obtain ⟨x, hx, hpx⟩ := scanIdx_found hts'
    have hxn : x = none := Option.isNone_iff_eq_none.mp hpx
    subst hxn
    exact tget_of_get? hx

/-- `update_process_thread_count` under a resolved locate. -/
theorem update_count_eq (k : Kernel) (pid : Nat) (inc : Bool) (idx : Nat)
    (pcb : ProcessControlBlock) (hloc : k.locate_process pid = some idx)
    (htg : tget k.process_table idx = some pcb) :
    k.update_process_thread_count pid inc =
      { k with process_table := (k.process_table.set idx
        (some (if inc then pcb.increment_thread_count
               else pcb.decrement_thread_count))) } := by
  unfold Kernel.update_process_thread_count
  simp only [hloc, htg]

/-- `rollback_thread_creation` under a resolved locate. -/
theorem rollback_eq (k : Kernel) (tid idx : Nat) (tcb : ThreadControlBlock)
    (hloc : k.locate_thread tid = some idx)
    (htg : tget k.thread_table idx = some tcb) :
    k.rollback_thread_creation tid =
      ({ k with thread_table := k.thread_table.set idx none
        }).update_process_thread_count tcb.process false := by
  unfold Kernel.rollback_thread_creation
  simp only [hloc, htg]

/-- Field-level description of a successful `create_thread`. -/
theorem create_thread_ok_fields (k : Kernel) (pid ep : Nat) (pr : ProcessPriority)
    {tid : Nat} {k2 : Kernel} (h : k.create_thread pid ep pr = (.ok tid, k2))
    {idx : Nat} {pcb : ProcessControlBlock}
    (hloc : k.locate_process pid = some idx)
    (htg : tget k.process_table idx = some pcb) :
    ∃ tslot, tslot < k.thread_table.length ∧ tget k.thread_table tslot = none ∧
      tid = k.next_thread ∧
      k2.process_table = k.process_table.set idx (some pcb.increment_thread_count) ∧
      k2.thread_table = (k.thread_table.set tslot
        (some (ThreadControlBlock.new k.next_thread pid ep pr))) ∧
      k2.scheduler = k.scheduler ∧
      k2.security = k.security := by
  obtain ⟨tslot, h1, h2, h3, h4⟩ := create_thread_ok_shape k pid ep pr h
  have hlocI : Kernel.locate_process ({ k with next_thread := k.next_thread + 1, thread_table := (k.thread_table.set tslot (some (ThreadControlBlock.new k.next_thread pid ep pr))) }) pid = some idx := hloc
  have htgI : tget (Kernel.process_table ({ k with next_thread := k.next_thread + 1, thread_table := (k.thread_table.set tslot (some (ThreadControlBlock.new k.next_thread pid ep pr))) })) idx = some pcb := htg
  refine ⟨tslot, h1, h2, h3, ?_, ?_, ?_, ?_⟩
  · rw [h4, update_count_eq _ pid true idx pcb hlocI htgI]
    rfl
  · rw [h4, update_count_eq _ pid true idx pcb hlocI htgI]
  · rw [h4, update_count_eq _ pid true idx pcb hlocI htgI]
  · rw [h4, update_count_eq _ pid true idx pcb hlocI htgI]

/-- Field-level description of `rollback_thread_creation`. -/
theorem rollback_fields (k : Kernel) (tid : Nat) {idx : Nat}
    {tcb : ThreadControlBlock} (hloc : k.locate_thread tid = some idx)
    (htg : tget k.thread_table idx = some tcb) {pidx : Nat}
    {pcb : ProcessControlBlock}
    (hlocp : k.locate_process tcb.process = some pidx)
    (htgp : tget k.process_table pidx = some pcb) :
    (k.rollback_thread_creation tid).process_table =
      k.process_table.set pidx (some pcb.decrement_thread_count) ∧
    (k.rollback_thread_creation tid).thread_table = k.thread_table.set idx none ∧
    (k.rollback_thread_creation tid).scheduler = k.scheduler ∧
    (k.rollback_thread_creation tid).security = k.security := by
  have hlocI : Kernel.locate_process ({ k with thread_table := k.thread_table.set idx none }) tcb.process = some pidx := hlocp
  have htgI : tget (Kernel.process_table ({ k with thread_table := k.thread_table.set idx none })) pidx = some pcb := htgp
  rw [rollback_eq k tid idx tcb hloc htg]
  rw [update_count_eq _ tcb.process false pidx pcb hlocI htgI]
  exact ⟨rfl, rfl, rfl, rfl⟩

/-- C4: spawn_process rolls back completely on failure. -/
theorem spawn_process_rollback (k : Kernel) (ep : Nat) (priority : ProcessPriority)
    (parent : Option Nat) (creds : Credentials) (err : KernelError)
    (hwf : SKWF k.security.domains)
    (hcnt : countSome k.security.domains ≤ k.security.population)
    (hfreshd : ∀ i d, tget k.security.domains i = some d → d.pid ≠ k.next_pid)
    (hfreshp : ∀ i pcb, tget k.process_table i = some pcb → pcb.pid ≠ k.next_pid)
    (hfresht : ∀ i tcb, tget k.thread_table i = some tcb → tcb.id ≠ k.next_thread)
    (herr : (k.spawn_process ep priority parent creds).1 = .error err) :
    (k.spawn_process ep priority parent creds).2.process_table = k.process_table ∧
    (k.spawn_process ep priority parent creds).2.thread_table = k.thread_table ∧
    (k.spawn_process ep priority parent creds).2.scheduler = k.scheduler ∧
    (k.spawn_process ep priority parent creds).2.security = k.security := by
  unfold Kernel.spawn_process at herr ⊢
  cases hslot : k.find_free_slot with
  | none =>
    simp only [hslot] at herr ⊢
    exact ⟨trivial, trivial, trivial, trivial⟩
  | some slot =>
    simp only [hslot] at herr ⊢
    have hslot2 : scanIdx (fun e => e.isNone) k.process_table = some slot := hslot
    have hsltP : slot < k.process_table.length := scanIdx_lt_length hslot2
    have hP0 : tget k.process_table slot = none := by
      obtain ⟨x, hx, hpx⟩ := scanIdx_found hslot2
      have hxn : x = none := Option.isNone_iff_eq_none.mp hpx
      subst hxn
      exact tget_of_get? hx
    cases hreg : k.security.register_task k.next_pid creds with
    | error e1 =>
      simp only [hreg] at herr ⊢
      exact ⟨trivial, trivial, trivial, trivial⟩
    | ok sec =>
      simp only [hreg] at herr ⊢
      split at herr
      · rename_i e2 kB hct
        simp only [hct]
        obtain ⟨hkB, he2⟩ := create_thread_error_shape _ _ _ _ hct
        subst hkB
        refine ⟨?_, rfl, rfl, ?_⟩
        · show ((k.process_table.set slot
            (some ((ProcessControlBlock.new k.next_pid ep priority
              parent).update_security_label creds.label))).set slot none) =
            k.process_table
          rw [List.set_set]
          exact tset_self_id hP0 hsltP
        · show sec.revoke_task k.next_pid = k.security
          exact register_revoke_restore k.security k.next_pid creds hwf hcnt
            hfreshd sec hreg
      · rename_i tid kB hct
        have hlocA : Kernel.locate_process ({ k with next_pid := k.next_pid + 1, security := sec, process_table := (k.process_table.set slot (some ((ProcessControlBlock.new k.next_pid ep priority parent).update_security_label creds.label))) }) k.next_pid = some slot := by
          show scanIdx (fun e => match e with | some pcb => pcb.pid == k.next_pid | none => false) (k.process_table.set slot (some ((ProcessControlBlock.new k.next_pid ep priority parent).update_security_label creds.label))) = some slot
          refine scanIdx_set_first hsltP ?_ ?_
          · show (k.next_pid == k.next_pid) = true
            simp
          · intro j hj x hx
            cases x with
            | none => rfl
            | some q =>
              show (q.pid == k.next_pid) = false
              exact beq_eq_false_iff_ne.mpr (hfreshp j q (tget_of_get? hx))
        have htgA : tget (Kernel.process_table ({ k with next_pid := k.next_pid + 1, security := sec, process_table := (k.process_table.set slot (some ((ProcessControlBlock.new k.next_pid ep priority parent).update_security_label creds.label))) })) slot = some ((ProcessControlBlock.new k.next_pid ep priority parent).update_security_label creds.label) := by
          show tget (k.process_table.set slot (some ((ProcessControlBlock.new k.next_pid ep priority parent).update_security_label creds.label))) slot = _
          exact tget_set_self _ hsltP
        obtain ⟨tslot, htslt, hT0, htid, hproc, hthr, hsched, hsecu⟩ :=
          create_thread_ok_fields _ _ _ _ hct hlocA htgA
        have htid2 : tid = k.next_thread := htid
        subst htid2
        have htslt2 : tslot < k.thread_table.length := htslt
        have hT02 : tget k.thread_table tslot = none := hT0
        have hproc2 : kB.process_table = (k.process_table.set slot (some ((ProcessControlBlock.new k.next_pid ep priority parent).update_security_label creds.label))).set slot (some ((ProcessControlBlock.new k.next_pid ep priority parent).update_security_label creds.label).increment_thread_count) := hproc
        have hthr2 : kB.thread_table = k.thread_table.set tslot (some (ThreadControlBlock.new k.next_thread k.next_pid ep priority)) := hthr
        have hsched2 : kB.scheduler = k.scheduler := hsched
        have hsecu2 : kB.security = sec := hsecu
        have htgB : tget kB.process_table slot = some ((ProcessControlBlock.new k.next_pid ep priority parent).update_security_label creds.label).increment_thread_count := by
          rw [hproc2]
          exact tget_set_self _ (by rw [List.length_set]; exact hsltP)
        simp only [htgB] at herr ⊢
        split at herr
        · rename_i e3 hsch3
          simp only [hsch3]
          have hlocT : Kernel.locate_thread ({ kB with process_table := (kB.process_table.set slot (some ({ ((ProcessControlBlock.new k.next_pid ep priority parent).update_security_label creds.label).increment_thread_count with state := ProcessState.Ready }))) }) k.next_thread = some tslot := by
            show scanIdx (fun e => match e with | some tcb => tcb.id == k.next_thread | none => false) kB.thread_table = some tslot
            rw [hthr2]
            refine scanIdx_set_first htslt2 ?_ ?_
            · show (k.next_thread == k.next_thread) = true
              simp
            · intro j hj x hx
              cases x with
              | none => rfl
              | some q =>
                show (q.id == k.next_thread) = false
                exact beq_eq_false_iff_ne.mpr (hfresht j q (tget_of_get? hx))
          have htgT : tget (Kernel.thread_table ({ kB with process_table := (kB.process_table.set slot (some ({ ((ProcessControlBlock.new k.next_pid ep priority parent).update_security_label creds.label).increment_thread_count with state := ProcessState.Ready }))) })) tslot = some (ThreadControlBlock.new k.next_thread k.next_pid ep priority) := by
            show tget kB.thread_table tslot = _
            rw [hthr2]
            exact tget_set_self _ htslt2
          have hlocp2 : Kernel.locate_process ({ kB with process_table := (kB.process_table.set slot (some ({ ((ProcessControlBlock.new k.next_pid ep priority parent).update_security_label creds.label).increment_thread_count with state := ProcessState.Ready }))) }) (ThreadControlBlock.new k.next_thread k.next_pid ep priority).process = some slot := by
            show scanIdx (fun e => match e with | some pcb => pcb.pid == k.next_pid | none => false) (kB.process_table.set slot (some ({ ((ProcessControlBlock.new k.next_pid ep priority parent).update_security_label creds.label).increment_thread_count with state := ProcessState.Ready }))) = some slot
            rw [hproc2]
            rw [List.set_set, List.set_set]
            refine scanIdx_set_first hsltP ?_ ?_
            · show (k.next_pid == k.next_pid) = true
              simp
            · intro j hj x hx
              cases x with
              | none => rfl
              | some q =>
                show (q.pid == k.next_pid) = false
                exact beq_eq_false_iff_ne.mpr (hfreshp j q (tget_of_get? hx))
          have htgp2 : tget (Kernel.process_table ({ kB with process_table := (kB.process_table.set slot (some ({ ((ProcessControlBlock.new k.next_pid ep priority parent).update_security_label creds.label).increment_thread_count with state := ProcessState.Ready }))) })) slot = some ({ ((ProcessControlBlock.new k.next_pid ep priority parent).update_security_label creds.label).increment_thread_count with state := ProcessState.Ready }) := by
            show tget (kB.process_table.set slot (some ({ ((ProcessControlBlock.new k.next_pid ep priority parent).update_security_label creds.label).increment_thread_count with state := ProcessState.Ready }))) slot = _
            exact tget_set_self _ (by rw [hproc2, List.length_set, List.length_set]; exact hsltP)
          obtain ⟨hrb1, hrb2, hrb3, hrb4⟩ :=
            rollback_fields _ k.next_thread hlocT htgT hlocp2 htgp2
          refine ⟨?_, ?_, ?_, ?_⟩
          · rw [hrb1]
            show (((kB.process_table.set slot (some ({ ((ProcessControlBlock.new k.next_pid ep priority parent).update_security_label creds.label).increment_thread_count with state := ProcessState.Ready }))).set slot (some ({ ((ProcessControlBlock.new k.next_pid ep priority parent).update_security_label creds.label).increment_thread_count with state := ProcessState.Ready }).decrement_thread_count)).set slot none) = k.process_table
            rw [hproc2]
            simp only [List.set_set]
            exact tset_self_id hP0 hsltP
          · rw [hrb2]
            show (kB.thread_table.set tslot none) = k.thread_table
            rw [hthr2]
            simp only [List.set_set]
            exact tset_self_id hT02 htslt2
          · rw [hrb3]
            show kB.scheduler = k.scheduler
            exact hsched2
          · rw [hrb4]
            show kB.security.revoke_task k.next_pid = k.security
            rw [hsecu2]
            exact register_revoke_restore k.security k.next_pid creds hwf hcnt
              hfreshd sec hreg
        · rename_i sch hsch3
          simp only [hsch3] at herr
          exact Except.noConfusion herr
/-- Kernel with one process slot and an empty thread table: `spawn_process`
must fail at thread creation and roll back. -/
def c4k : Kernel := { Kernel.new 1 4 with thread_table := [] }

theorem spawn_process_rollback_witness :
    (c4k.spawn_process 0 .Normal none Credentials.user).2.process_table =
      c4k.process_table ∧
    (c4k.spawn_process 0 .Normal none Credentials.user).2.thread_table =
      c4k.thread_table ∧
    (c4k.spawn_process 0 .Normal none Credentials.user).2.scheduler =
      c4k.scheduler ∧
    (c4k.spawn_process 0 .Normal none Credentials.user).2.security =
      c4k.security := by
  have hnoneD : ∀ i, tget c4k.security.domains i = (none : Option TaskDomain) := by
    intro i
    cases i with
    | zero => rfl
    | succ j =>
      show tget ((none : Option TaskDomain) :: []) (j + 1) = none
      rw [tget_cons_succ, tget_nil]
  have hnoneP : ∀ i, tget c4k.process_table i =
      (none : Option ProcessControlBlock) := by
    intro i
    cases i with
    | zero => rfl
    | succ j =>
      show tget ((none : Option ProcessControlBlock) :: []) (j + 1) = none
      rw [tget_cons_succ, tget_nil]
  refine spawn_process_rollback c4k 0 .Normal none Credentials.user
    .ThreadTableFull ?_ ?_ ?_ ?_ ?_ ?_
  · refine ⟨?_, ?_⟩
    · intro i j d e hd he hpp
      rw [hnoneD i] at hd
      exact Option.noConfusion hd
    · intro i d hd
      rw [hnoneD i] at hd
      exact Option.noConfusion hd
  · decide
  · intro i d hd
    rw [hnoneD i] at hd
    exact Option.noConfusion hd
  · intro i pcb hp
    rw [hnoneP i] at hp
    exact Option.noConfusion hp
  · intro i tcb ht
    have ht2 : tget ([] : List (Option ThreadControlBlock)) i = some tcb := ht
    rw [tget_nil i] at ht2
    exact Option.noConfusion ht2
  · decide

/-! ## Claim C2: terminate_process and the back-shift rehash -/

/-- The lookup probe returns `none` when no stored domain carries the pid. -/
theorem lookupAux_none (ds : List (Option TaskDomain)) (p : Nat)
    (h : ∀ i e, tget ds i = some e → e.pid ≠ p) :
    ∀ (fuel idx : Nat), lookupAux ds p idx fuel = none := by
  intro fuel
  induction fuel with
  | zero => intro idx; rfl
  | succ f ih =>
    intro idx
    cases he : tget ds idx with
    | none =>
      conv_lhs => rw [lookupAux]
      rw [he]
    | some e =>
      have hstep : lookupAux ds p idx (f + 1) =
          lookupAux ds p (sknext ds.length idx) f := by
        conv_lhs => rw [lookupAux]
        simp only [he]
        rw [if_neg (h idx e he)]
      rw [hstep]
      exact ih _

/-- The lookup probe finds an entry at the end of an occupied foreign-pid walk. -/
theorem lookupAux_found (ds : List (Option TaskDomain)) (d : TaskDomain) :
    ∀ (t fuel idx : Nat), t < fuel → idx < ds.length →
    (∀ u, u < t → ∃ e, tget ds ((idx + u) % ds.length) = some e ∧ e.pid ≠ d.pid) →
    tget ds ((idx + t) % ds.length) = some d →
    lookupAux ds d.pid idx fuel = some d := by
  intro t
  induction t with
  | zero =>
    intro fuel idx hf hidx hwalk hhit
    cases fuel with
    | zero => omega
    | succ f =>
      have h0 : (idx + 0) % ds.length = idx := by
        rw [Nat.add_zero, Nat.mod_eq_of_lt hidx]
      rw [h0] at hhit
      conv_lhs => rw [lookupAux]
      simp only [hhit]
      simp
  | succ t ih =>
    intro fuel idx hf hidx hwalk hhit
    cases fuel with
    | zero => omega
    | succ f =>
      obtain ⟨e, he, hep⟩ := hwalk 0 (Nat.succ_pos t)
      have h0 : (idx + 0) % ds.length = idx := by
        rw [Nat.add_zero, Nat.mod_eq_of_lt hidx]
      rw [h0] at he
      have hN : 0 < ds.length := lt_of_le_of_lt (Nat.zero_le idx) hidx
      have hstep : lookupAux ds d.pid idx (f + 1) =
          lookupAux ds d.pid (sknext ds.length idx) f := by
        conv_lhs => rw [lookupAux]
        simp only [he]
        rw [if_neg hep]
      rw [hstep, sknext_eq hN]
      exact ih f ((idx + 1) % ds.length) (by omega) (Nat.mod_lt _ hN)
        (by intro u hu
            obtain ⟨e2, he2, hep2⟩ := hwalk (u + 1) (by omega)
            refine ⟨e2, ?_, hep2⟩
            rw [pos_shift]
            exact he2)
        (by rw [pos_shift]
            exact hhit)

/-- A well-formed table's lookup finds every stored domain. -/
theorem lookup_finds {ds : List (Option TaskDomain)} (hwf : SKWF ds)
    {i : Nat} {d : TaskDomain} (hi : tget ds i = some d) :
    lookupAux ds d.pid (skhash ds.length d.pid) ds.length = some d := by
  obtain ⟨t, htN, hpos, hocc⟩ := hwf.wPath i d hi
  have hiN : i < ds.length := tget_some_lt_length hi
  have hN : 0 < ds.length := lt_of_le_of_lt (Nat.zero_le i) hiN
  have hex : ∃ u, (skhash ds.length d.pid + u) % ds.length = i := ⟨t, hpos⟩
  have hp0 : (skhash ds.length d.pid + Nat.find hex) % ds.length = i :=
    Nat.find_spec hex
  have ht0le : Nat.find hex ≤ t := Nat.find_min' hex hpos
  refine lookupAux_found ds d (Nat.find hex) ds.length _ (by omega)
    (skhash_lt hN d.pid) ?_ (by rw [hp0]; exact hi)
  intro u hu
  have hne : (skhash ds.length d.pid + u) % ds.length ≠ i := Nat.find_min hex hu
  have hoccu := hocc u (by omega)
  cases he2 : tget ds ((skhash ds.length d.pid + u) % ds.length) with
  | none => exact absurd he2 hoccu
  | some e2 =>
    refine ⟨e2, rfl, ?_⟩
    intro hpp
    exact hne (hwf.wPid _ i e2 d he2 hi hpp)

/-- The removal probe leaves the table alone when the pid is absent. -/
theorem removeAux_miss (ds : List (Option TaskDomain)) (pop p : Nat)
    (h : ∀ i e, tget ds i = some e → e.pid ≠ p) :
    ∀ (fuel idx : Nat), removeAux ds pop p idx fuel = (ds, pop) := by
  intro fuel
  induction fuel with
  | zero => intro idx; rfl
  | succ f ih =>
    intro idx
    cases he : tget ds idx with
    | none =>
      conv_lhs => rw [removeAux]
      rw [he]
    | some e =>
      have hstep : removeAux ds pop p idx (f + 1) =
          removeAux ds pop p (sknext ds.length idx) f := by
        conv_lhs => rw [removeAux]
        simp only [he]
        rw [if_neg (h idx e he)]
      rw [hstep]
      exact ih _

theorem countSome_eq_zero {α : Type} {l : List (Option α)}
    (h : countSome l = 0) : ∀ i e, tget l i = some e → False := by
  intro i e he
  have := countSome_pos he
  omega

/-- Count bookkeeping for a single slot overwrite. -/
theorem countSome_set {α : Type} (l : List (Option α)) (i : Nat) (x : Option α)
    (hi : i < l.length) :
    countSome (l.set i x) + (if (tget l i).isSome then 1 else 0) =
    countSome l + (if x.isSome then 1 else 0) := by
  induction l generalizing i with
  | nil => simp at hi
  | cons a as ih =>
    cases i with
    | zero =>
      show countSome (x :: as) + _ = _
      unfold countSome
      rw [tget_cons_zero]
      simp only [List.countP_cons]
      cases a with
      | none =>
        cases x with
        | none => simp
        | some y => simp
      | some b =>
        cases x with
        | none => simp
        | some y => simp
    | succ m =>
      show countSome (a :: as.set m x) + _ = _
      have hmm := ih m (by simpa using hi)
      unfold countSome at hmm ⊢
      rw [List.countP_cons, List.countP_cons, tget_cons_succ]
      omega

theorem mod_eq_near {A B N : Nat} (hN : 0 < N) (hmod : A % N = B % N)
    (hle : B ≤ A) (hlt : A < B + 2 * N) : A = B ∨ A = B + N := by
  have hz : N ∣ (A - B) := by
    have h2 : (B + (A - B)) % N = (B + 0) % N := by
      rw [Nat.add_sub_cancel' hle, Nat.add_zero, hmod]
    have h3 : A - B ≡ 0 [MOD N] := Nat.ModEq.add_left_cancel' B h2
    exact (Nat.modEq_zero_iff_dvd).mp h3
  obtain ⟨c, hc⟩ := hz
  have hc2 : c = 0 ∨ c = 1 := by
    rcases Nat.lt_or_ge c 2 with h | h
    · omega
    · exfalso
      have : 2 * N ≤ N * c := by
        calc 2 * N = N * 2 := by ring
        _ ≤ N * c := Nat.mul_le_mul_left N h
      omega
  rcases hc2 with rfl | rfl
  · left; omega
  · right; omega

theorem shift_mod_inj {N σ u v : Nat} (hN : 0 < N) (hu : u < N) (hv : v < N)
    (h : (σ + u) % N = (σ + v) % N) : u = v := by
  rcases Nat.le_total u v with hle | hle
  · rcases mod_eq_near hN h.symm (by omega) (by omega) with hc | hc
    · omega
    · omega
  · rcases mod_eq_near hN h (by omega) (by omega) with hc | hc
    · omega
    · omega

theorem shift_mod_surj {N σ : Nat} (hN : 0 < N) (hσ : σ < N) (pos : Nat)
    (hpos : pos < N) : ∃ u, u < N ∧ (σ + u) % N = pos := by
  refine ⟨(pos + N - σ) % N, Nat.mod_lt _ hN, ?_⟩
  rw [Nat.add_comm σ, Nat.mod_add_mod, Nat.add_comm]
  rw [show σ + (pos + N - σ) = pos + N from by omega]
  rw [Nat.add_mod_right]
  exact Nat.mod_eq_of_lt hpos

/-- A stored domain's probe path never crosses the still-unscanned part of the
cluster: doing so would force the path over the first empty slot. -/
theorem path_avoids {ds : List (Option TaskDomain)} {σ s d_e h t_dm v w : Nat}
    (hN : 0 < ds.length)
    (hend : (h + t_dm) % ds.length = (σ + s) % ds.length)
    (htocc : ∀ u, u < t_dm → tget ds ((h + u) % ds.length) ≠ none)
    (hempty : tget ds ((σ + d_e) % ds.length) = none)
    (htdN : t_dm < ds.length) (hwN : w < ds.length) (hdeB : d_e < ds.length)
    (hv : v < t_dm) (hw1 : s < w) (hw2 : w < d_e) :
    (h + v) % ds.length ≠ (σ + w) % ds.length := by
  intro heq
  have key : ∀ a b c : Nat, a % ds.length = b % ds.length →
      (a + c) % ds.length = (b + c) % ds.length := by
    intro a b c hab
    rw [Nat.add_mod, hab, ← Nat.add_mod]
  have e1 : (h + v + (t_dm - v)) % ds.length =
      (σ + w + (t_dm - v)) % ds.length := key _ _ _ heq
  rw [show h + v + (t_dm - v) = h + t_dm from by omega, hend] at e1
  have hBA : σ + s ≤ σ + w + (t_dm - v) := by omega
  have hA2 : σ + w + (t_dm - v) < (σ + s) + 2 * ds.length := by omega
  rcases mod_eq_near hN e1.symm hBA hA2 with hcase | hcase
  · omega
  · have hv1 : v + (d_e - w) < t_dm := by omega
    have hpos : (h + (v + (d_e - w))) % ds.length = (σ + d_e) % ds.length := by
      have e2 : (h + v + (d_e - w)) % ds.length =
          (σ + w + (d_e - w)) % ds.length := key _ _ _ heq
      rw [show σ + w + (d_e - w) = σ + d_e from by omega] at e2
      rw [show h + (v + (d_e - w)) = h + v + (d_e - w) from by omega]
      exact e2
    have := htocc (v + (d_e - w)) hv1
    rw [hpos] at this
    exact this hempty

/-- Loop invariant of the back-shift rehash: positions at distance `< s` past
the removed slot have been processed, everything further is untouched, the
entry multiset is the original minus the removed pid, and every re-homed entry
sits at the end of an occupied probe path that stays clear of the unscanned
cluster. -/
structure RehashInv (ds : List (Option TaskDomain)) (p σ d_e s : Nat)
    (cur : List (Option TaskDomain)) : Prop where
  len : cur.length = ds.length
  outside : ∀ u, s ≤ u → u < ds.length →
    tget cur ((σ + u) % ds.length) = tget ds ((σ + u) % ds.length)
  noP : ∀ j d, tget cur j = some d → d.pid ≠ p
  fromDs : ∀ j d, tget cur j = some d → ∃ i, tget ds i = some d
  toCur : ∀ i d, tget ds i = some d → d.pid ≠ p → ∃ j, tget cur j = some d
  uniq : ∀ i j d e, tget cur i = some d → tget cur j = some e → d.pid = e.pid →
    i = j
  cnt : countSome cur + 1 = countSome ds
  inD : ∀ u, u < s → ∀ d, tget cur ((σ + u) % ds.length) = some d →
    ∃ t, t < ds.length ∧
      (skhash ds.length d.pid + t) % ds.length = (σ + u) % ds.length ∧
      (∀ v, v < t → tget cur ((skhash ds.length d.pid + v) % ds.length) ≠ none) ∧
      (∀ v, v < t → ∀ w, s ≤ w → w < d_e →
        (skhash ds.length d.pid + v) % ds.length ≠ (σ + w) % ds.length)

/-- Running the rehash over the cluster that follows the removed slot, starting
`s` steps in, returns a table satisfying the invariant at the cluster's end,
with the population untouched. -/
theorem rehashAux_cluster (ds : List (Option TaskDomain)) (p σ d_e : Nat)
    (hσN : σ < ds.length) (hdeN : d_e < ds.length) (hde1 : 1 ≤ d_e)
    (hempty : tget ds ((σ + d_e) % ds.length) = none)
    (hocc : ∀ u, 1 ≤ u → u < d_e → tget ds ((σ + u) % ds.length) ≠ none)
    (hwfDs : SKWF ds) :
    ∀ (fuel s : Nat) (cur : List (Option TaskDomain)) (pop : Nat),
    1 ≤ s → s ≤ d_e → d_e - s < fuel →
    countSome cur ≤ pop →
    RehashInv ds p σ d_e s cur →
    ∃ F, rehashAux cur pop ((σ + s) % ds.length) fuel = (F, pop) ∧
      RehashInv ds p σ d_e d_e F := by
  have hN : 0 < ds.length := lt_of_le_of_lt (Nat.zero_le σ) hσN
  intro fuel
  induction fuel with
  | zero =>
    intro s cur pop hs1 hs2 hsf hpop hinv
    omega
  | succ f ih =>
    intro s cur pop hs1 hs2 hsf hpop hinv
    by_cases hse : s = d_e
    · subst hse
      have hcure : tget cur ((σ + s) % ds.length) = none := by
        rw [hinv.outside s (le_refl s) (by omega)]
        exact hempty
      refine ⟨cur, ?_, hinv⟩
      conv_lhs => rw [rehashAux]
      rw [hcure]
    · have hslt : s < d_e := lt_of_le_of_ne hs2 hse
      have hxocc : tget ds ((σ + s) % ds.length) ≠ none := hocc s hs1 hslt
      have hxcur : tget cur ((σ + s) % ds.length) =
          tget ds ((σ + s) % ds.length) :=
        hinv.outside s (le_refl s) (by omega)
      cases hxds : tget ds ((σ + s) % ds.length) with
      | none => exact absurd hxds hxocc
      | some dm =>
        have hdmcur : tget cur ((σ + s) % ds.length) = some dm := by
          rw [hxcur, hxds]
        obtain ⟨t_dm, htdmN, htdmpos, htdmocc⟩ :=
          hwfDs.wPath ((σ + s) % ds.length) dm hxds
        have hxN : (σ + s) % ds.length < ds.length := Nat.mod_lt _ hN
        have hhN : skhash ds.length dm.pid < ds.length := skhash_lt hN dm.pid
        -- the walk of the re-insert finds its first empty slot
        have hPex : ∃ u, tget (cur.set ((σ + s) % ds.length) none)
            ((skhash ds.length dm.pid + u) % ds.length) = none := by
          refine ⟨t_dm, ?_⟩
          rw [htdmpos]
          exact tget_set_self none (by rw [hinv.len]; exact hxN)
        have hPspec := Nat.find_spec hPex
        have htstar_le : Nat.find hPex ≤ t_dm := by
          refine Nat.find_min' hPex ?_
          rw [htdmpos]
          exact tget_set_self none (by rw [hinv.len]; exact hxN)
        -- positions before the landing slot are occupied foreign pids
        have hwalk : ∀ v, v < Nat.find hPex →
            ∃ e, tget (cur.set ((σ + s) % ds.length) none)
              ((skhash ds.length dm.pid + v) % ds.length) = some e ∧
              e.pid ≠ dm.pid := by
          intro v hvlt
          have hocc2 := Nat.find_min hPex hvlt
          cases hev : tget (cur.set ((σ + s) % ds.length) none)
              ((skhash ds.length dm.pid + v) % ds.length) with
          | none => exact absurd hev hocc2
          | some e =>
            refine ⟨e, rfl, ?_⟩
            intro hpp
            have hecur := tget_set_none_sub hev
            have := hinv.uniq _ _ e dm hecur hdmcur hpp
            rw [this] at hev
            rw [tget_set_self none (by rw [hinv.len]; exact hxN)] at hev
            exact Option.noConfusion hev
        have hlen' : (cur.set ((σ + s) % ds.length) none).length = ds.length := by
          rw [List.length_set, hinv.len]
        have hins := insertAux_firstEmpty (cur.set ((σ + s) % ds.length) none)
          dm (Nat.find hPex) (cur.set ((σ + s) % ds.length) none).length
          (skhash ds.length dm.pid)
          (by rw [hlen']; omega) (by rw [hlen']; exact hhN)
          (by rw [hlen']; exact hwalk) (by rw [hlen']; exact hPspec)
        rw [hlen'] at hins
        -- the step of rehashAux
        have hpop1 : 0 < pop := by
          have := countSome_pos hdmcur
          omega
        have hstep : rehashAux cur pop ((σ + s) % ds.length) (f + 1) =
            rehashAux
              (rehashStep (cur.set ((σ + s) % ds.length) none) (pop - 1) dm).1
              (rehashStep (cur.set ((σ + s) % ds.length) none) (pop - 1) dm).2
              (sknext cur.length ((σ + s) % ds.length)) f := by
          conv_lhs => rw [rehashAux]
          rw [hdmcur]
        have hrs : rehashStep (cur.set ((σ + s) % ds.length) none) (pop - 1) dm =
            ((cur.set ((σ + s) % ds.length) none).set
              ((skhash ds.length dm.pid + Nat.find hPex) % ds.length)
              (some dm), pop) := by
          unfold rehashStep
          rw [if_neg (by rw [hlen']; omega)]
          rw [hlen', hins]
          show (_, pop - 1 + 1) = (_, pop)
          rw [Nat.sub_add_cancel hpop1]
        have hnext : sknext cur.length ((σ + s) % ds.length) =
            (σ + (s + 1)) % ds.length := by
          rw [hinv.len, sknext_eq hN, Nat.mod_add_mod, Nat.add_assoc]
        rw [hstep, hrs, hnext]
        -- abbreviations
        set x := (σ + s) % ds.length with hxdef
        set landing := (skhash ds.length dm.pid + Nat.find hPex) % ds.length
          with hldef
        set C2 := (cur.set x none).set landing (some dm) with hC2def
        have hlandN : landing < ds.length := Nat.mod_lt _ hN
        -- the landing slot is the removed slot or a previously processed one
        have hldland : tget (cur.set x none) landing = none := hPspec
        have hland : landing = x ∨ ∃ u, u < s ∧ landing = (σ + u) % ds.length := by
          by_cases hle : Nat.find hPex = t_dm
          · left
            rw [hldef, hle, htdmpos]
          · right
            have hlt2 : Nat.find hPex < t_dm := lt_of_le_of_ne htstar_le hle
            have hdsocc : tget ds landing ≠ none := htdmocc (Nat.find hPex) hlt2
            have hlx : landing ≠ x := by
              intro hh
              have heq2 : (skhash ds.length dm.pid + Nat.find hPex) % ds.length =
                  (skhash ds.length dm.pid + t_dm) % ds.length := by
                rw [← hldef, htdmpos]
                exact hh
              have := shift_mod_inj hN (by omega) htdmN heq2
              omega
            have hcurl : tget cur landing = none := by
              have h2 := hldland
              rw [tget_set_ne none (fun hh => hlx hh.symm)] at h2
              exact h2
            obtain ⟨u, huN, hupos⟩ := shift_mod_surj hN hσN landing hlandN
            refine ⟨u, ?_, hupos.symm⟩
            by_contra hus
            push_neg at hus
            have := hinv.outside u hus huN
            rw [hupos, hcurl] at this
            exact hdsocc this.symm
        -- basic slot facts about the new table
        have hxlen : x < cur.length := by
          rw [hinv.len]
          exact hxN
        have hllen : landing < (cur.set x none).length := by
          rw [List.length_set, hinv.len]
          exact hlandN
        have hC2len : C2.length = ds.length := by
          rw [hC2def, List.length_set, List.length_set, hinv.len]
        have hC2land : tget C2 landing = some dm := by
          rw [hC2def]
          exact tget_set_self _ hllen
        have hC2other : ∀ j, j ≠ landing → j ≠ x → tget C2 j = tget cur j := by
          intro j hjl hjx
          rw [hC2def, tget_set_ne _ (fun hh => hjl hh.symm),
            tget_set_ne _ (fun hh => hjx hh.symm)]
        have hC2sub : ∀ j d, tget C2 j = some d →
            (j = landing ∧ d = dm) ∨
            (j ≠ landing ∧ j ≠ x ∧ tget cur j = some d) := by
          intro j d hj
          by_cases hjl : j = landing
          · subst hjl
            rw [hC2land] at hj
            exact Or.inl ⟨rfl, (Option.some.inj hj).symm⟩
          · rw [hC2def, tget_set_ne _ (fun hh => hjl hh.symm)] at hj
            exact Or.inr ⟨hjl, tget_set_none_ne hxlen hj, tget_set_none_sub hj⟩
        -- counting
        have hc1 := countSome_set cur x none hxlen
        rw [hdmcur] at hc1
        have hc2 := countSome_set (cur.set x none) landing (some dm) hllen
        rw [hldland] at hc2
        have hcC2 : countSome C2 = countSome cur := by
          rw [hC2def]
          simp only [Option.isSome] at hc1 hc2
          omega
        -- the invariant one step further
        have hinv2 : RehashInv ds p σ d_e (s + 1) C2 := by
          refine ⟨hC2len, ?_, ?_, ?_, ?_, ?_, ?_, ?_⟩
          · intro u hu huN
            have hux : (σ + u) % ds.length ≠ x := by
              rw [hxdef]
              intro hh
              have := shift_mod_inj hN huN (by omega) hh
              omega
            have hul : (σ + u) % ds.length ≠ landing := by
              rcases hland with hh | ⟨u2, hu2, hh⟩
              · rw [hh]
                exact hux
              · rw [hh]
                intro h2
                have := shift_mod_inj hN huN (by omega) h2
                omega
            rw [hC2other _ hul hux]
            exact hinv.outside u (by omega) huN
          · intro j d hj
            rcases hC2sub j d hj with ⟨_, rfl⟩ | ⟨_, _, hcur⟩
            · exact hinv.noP _ _ hdmcur
            · exact hinv.noP _ _ hcur
          · intro j d hj
            rcases hC2sub j d hj with ⟨_, rfl⟩ | ⟨_, _, hcur⟩
            · exact ⟨x, hxds⟩
            · exact hinv.fromDs _ _ hcur
          · intro i d hids hdp
            obtain ⟨j, hj⟩ := hinv.toCur i d hids hdp
            by_cases hjx : j = x
            · subst hjx
              rw [hdmcur] at hj
              obtain rfl : dm = d := Option.some.inj hj
              exact ⟨landing, hC2land⟩
            · by_cases hjl : j = landing
              · subst hjl
                exfalso
                have h2 := hldland
                rw [tget_set_ne none (fun hh => hjx hh.symm)] at h2
                rw [hj] at h2
                exact Option.noConfusion h2
              · refine ⟨j, ?_⟩
                rw [hC2other _ hjl hjx]
                exact hj
          · intro i j d e hi hj hpp
            rcases hC2sub i d hi with ⟨hil, rfl⟩ | ⟨hil, hix, hicur⟩
            · rcases hC2sub j e hj with ⟨hjl, rfl⟩ | ⟨hjl, hjx, hjcur⟩
              · rw [hil, hjl]
              · exfalso
                have := hinv.uniq j x e _ hjcur hdmcur hpp.symm
                exact hjx this
            · rcases hC2sub j e hj with ⟨hjl, rfl⟩ | ⟨hjl, hjx, hjcur⟩
              · exfalso
                have := hinv.uniq i x d _ hicur hdmcur hpp
                exact hix this
              · exact hinv.uniq i j d e hicur hjcur hpp
          · rw [hcC2]
            exact hinv.cnt
          · intro u hu d hd
            rcases hC2sub _ d hd with ⟨hpl, rfl⟩ | ⟨hpl, hpx, hcur⟩
            · -- the re-homed entry
              refine ⟨Nat.find hPex, by omega, ?_, ?_, ?_⟩
              · rw [← hldef]
                exact hpl.symm
              · intro v hv
                obtain ⟨e, he, _⟩ := hwalk v hv
                by_cases hvl : (skhash ds.length d.pid + v) % ds.length = landing
                · rw [hvl, hC2land]
                  exact fun hh => Option.noConfusion hh
                · rw [hC2def, tget_set_ne _ (fun hh => hvl hh.symm)]
                  rw [he]
                  exact fun hh => Option.noConfusion hh
              · intro v hv w hw1 hw2
                refine path_avoids hN (by rw [htdmpos, hxdef]) htdmocc hempty
                  htdmN (by omega) hdeN (by omega) (by omega) hw2
            · -- a previously re-homed entry
              have hus : u < s := by
                rcases Nat.lt_or_ge u s with h | h
                · exact h
                · exfalso
                  have hueq : u = s := by omega
                  subst hueq
                  exact hpx (by rw [hxdef])
              obtain ⟨t, htN2, htpos, htocc2, htavoid⟩ := hinv.inD u hus d hcur
              refine ⟨t, htN2, htpos, ?_, ?_⟩
              · intro v hv
                have hnx : (skhash ds.length d.pid + v) % ds.length ≠ x := by
                  rw [hxdef]
                  exact htavoid v hv s (le_refl s) hslt
                by_cases hvl : (skhash ds.length d.pid + v) % ds.length = landing
                · rw [hvl, hC2land]
                  exact fun hh => Option.noConfusion hh
                · rw [hC2other _ hvl hnx]
                  exact htocc2 v hv
              · intro v hv w hw1 hw2
                exact htavoid v hv w (by omega) hw2
        have hpop2 : countSome C2 ≤ pop := by
          rw [hcC2]
          exact hpop
        obtain ⟨F, hF, hFinv⟩ := ih (s + 1) C2 pop (by omega) (by omega)
          (by omega) hpop2 hinv2
        exact ⟨F, hF, hFinv⟩
/-- Companion to `path_avoids` for entries stored beyond the cluster's first
empty slot: their probe paths stay beyond it as well. -/
theorem path_avoids2 {ds : List (Option TaskDomain)} {σ d_e u_end h t_dm v w : Nat}
    (hN : 0 < ds.length)
    (hend : (h + t_dm) % ds.length = (σ + u_end) % ds.length)
    (htocc : ∀ u, u < t_dm → tget ds ((h + u) % ds.length) ≠ none)
    (hempty : tget ds ((σ + d_e) % ds.length) = none)
    (htdN : t_dm < ds.length) (hdeB : d_e < ds.length) (huB : u_end < ds.length)
    (hgt : d_e < u_end) (hv : v < t_dm) (hw : w < d_e) :
    (h + v) % ds.length ≠ (σ + w) % ds.length := by
  intro heq
  have key : ∀ a b c : Nat, a % ds.length = b % ds.length →
      (a + c) % ds.length = (b + c) % ds.length := by
    intro a b c hab
    rw [Nat.add_mod, hab, ← Nat.add_mod]
  have e1 : (h + v + (t_dm - v)) % ds.length =
      (σ + w + (t_dm - v)) % ds.length := key _ _ _ heq
  rw [show h + v + (t_dm - v) = h + t_dm from by omega, hend] at e1
  have hcross : w + (t_dm - v) = u_end := by
    rcases Nat.le_total (σ + u_end) (σ + w + (t_dm - v)) with hle | hle
    · rcases mod_eq_near hN e1.symm hle (by omega) with hc | hc
      · omega
      · omega
    · rcases mod_eq_near hN e1 hle (by omega) with hc | hc
      · omega
      · omega
  have hv1 : v + (d_e - w) < t_dm := by omega
  have hpos : (h + (v + (d_e - w))) % ds.length = (σ + d_e) % ds.length := by
    have e2 : (h + v + (d_e - w)) % ds.length =
        (σ + w + (d_e - w)) % ds.length := key _ _ _ heq
    rw [show σ + w + (d_e - w) = σ + d_e from by omega] at e2
    rw [show h + (v + (d_e - w)) = h + v + (d_e - w) from by omega]
    exact e2
  have := htocc (v + (d_e - w)) hv1
  rw [hpos] at this
  exact this hempty

/-- `SecurityKernel::remove`: under a well-formed table with a spare slot, the
target pid disappears and every other stored domain survives the back-shift
rehash findable by lookup. -/
theorem remove_spec (sk : SecurityKernel) (p : Nat)
    (hwf : SKWF sk.domains) (hcnt : countSome sk.domains ≤ sk.population)
    (hempty : ∃ eidx, eidx < sk.domains.length ∧ tget sk.domains eidx = none) :
    (∀ j d, tget (sk.remove p).domains j = some d → d.pid ≠ p) ∧
    (∀ i d, tget sk.domains i = some d → d.pid ≠ p →
      (sk.remove p).lookup d.pid = some d) ∧
    (sk.remove p).lookup p = none := by
  obtain ⟨eidx, heN, heNone⟩ := hempty
  have hN : 0 < sk.domains.length := lt_of_le_of_lt (Nat.zero_le eidx) heN
  unfold SecurityKernel.remove
  by_cases hg : sk.domains.length = 0 ∨ sk.population = 0
  · rw [if_pos hg]
    rcases hg with hg | hg
    · omega
    · have hz : countSome sk.domains = 0 := by omega
      have hnone : ∀ i e, tget sk.domains i = some e → False :=
        countSome_eq_zero hz
      refine ⟨?_, ?_, ?_⟩
      · intro j d hj
        exact absurd hj (fun hh => hnone j d hh)
      · intro i d hi
        exact absurd hi (fun hh => hnone i d hh)
      · unfold SecurityKernel.lookup
        rw [if_neg (by omega)]
        exact lookupAux_none _ _ (fun i e he => absurd he (fun hh => hnone i e hh)) _ _
  · rw [if_neg hg]
    push_neg at hg
    by_cases hp : ∃ i dp, tget sk.domains i = some dp ∧ dp.pid = p
    · -- p is stored: the removal probe reaches it and rehashes the cluster
      obtain ⟨σ, dp, hσd, hdpp⟩ := hp
      have hσN : σ < sk.domains.length := tget_some_lt_length hσd
      obtain ⟨t_p, htpN, htppos, htpocc⟩ := hwf.wPath σ dp hσd
      rw [hdpp] at htppos htpocc
      have hhpN : skhash sk.domains.length p < sk.domains.length := skhash_lt hN p
      -- the removal walk: minimal distance to σ
      have hex : ∃ u, (skhash sk.domains.length p + u) % sk.domains.length = σ :=
        ⟨t_p, htppos⟩
      have ht0σ : (skhash sk.domains.length p + Nat.find hex) % sk.domains.length
          = σ := Nat.find_spec hex
      have ht0le : Nat.find hex ≤ t_p := Nat.find_min' hex htppos
      have hrw := removeAux_hit sk.domains sk.population p (Nat.find hex)
        sk.domains.length (skhash sk.domains.length p) (by omega) hhpN
        (by intro u hu
            have hne : (skhash sk.domains.length p + u) % sk.domains.length ≠ σ :=
              Nat.find_min hex hu
            have hoccu := htpocc u (by omega)
            cases he2 : tget sk.domains
                ((skhash sk.domains.length p + u) % sk.domains.length) with
            | none => exact absurd he2 hoccu
            | some e2 =>
              refine ⟨e2, rfl, ?_⟩
              intro hpp
              exact hne (hwf.wPid _ σ e2 dp he2 hσd (by rw [hpp, hdpp])))
        (by refine ⟨dp, ?_, hdpp⟩
            rw [ht0σ]
            exact hσd)
      rw [ht0σ] at hrw
      -- first empty distance past σ
      have hPex : ∃ u, 1 ≤ u ∧
          tget sk.domains ((σ + u) % sk.domains.length) = none := by
        obtain ⟨u0, hu0N, hu0pos⟩ := shift_mod_surj hN hσN eidx heN
        refine ⟨u0, ?_, by rw [hu0pos]; exact heNone⟩
        rcases Nat.eq_zero_or_pos u0 with rfl | h1
        · exfalso
          rw [Nat.add_zero, Nat.mod_eq_of_lt hσN] at hu0pos
          rw [hu0pos] at hσd
          rw [heNone] at hσd
          exact Option.noConfusion hσd
        · exact h1
      obtain ⟨hde1, hdeNone⟩ := Nat.find_spec hPex
      have hdeN : Nat.find hPex < sk.domains.length := by
        obtain ⟨u0, hu0N, hu0pos⟩ := shift_mod_surj hN hσN eidx heN
        have : Nat.find hPex ≤ u0 := by
          refine Nat.find_min' hPex ⟨?_, by rw [hu0pos]; exact heNone⟩
          rcases Nat.eq_zero_or_pos u0 with rfl | h1
          · exfalso
            rw [Nat.add_zero, Nat.mod_eq_of_lt hσN] at hu0pos
            rw [hu0pos] at hσd
            rw [heNone] at hσd
            exact Option.noConfusion hσd
          · exact h1
        omega
      have hdeOcc : ∀ u, 1 ≤ u → u < Nat.find hPex →
          tget sk.domains ((σ + u) % sk.domains.length) ≠ none := by
        intro u h1 h2
        have := Nat.find_min hPex h2
        push_neg at this
        intro hnone2
        exact absurd hnone2 (by
          intro hh
          exact absurd hh (by
            have h3 := this h1
            exact h3))
      -- initial invariant: σ cleared, one step in
      have hinv1 : RehashInv sk.domains p σ (Nat.find hPex) 1
          (sk.domains.set σ none) := by
        refine ⟨List.length_set _ _ _, ?_, ?_, ?_, ?_, ?_, ?_, ?_⟩
        · intro u hu huN
          have hne : (σ + u) % sk.domains.length ≠ σ := by
            intro hh
            have h2 : (σ + u) % sk.domains.length =
                (σ + 0) % sk.domains.length := by
              rw [Nat.add_zero, Nat.mod_eq_of_lt hσN]
              exact hh
            have := shift_mod_inj hN huN hN h2
            omega
          rw [tget_set_ne none (fun hh => hne hh.symm)]
        · intro j d hj
          have hne := tget_set_none_ne hσN hj
          have hds := tget_set_none_sub hj
          intro hpd
          exact hne (hwf.wPid j σ d dp hds hσd (by rw [hpd, hdpp]))
        · intro j d hj
          exact ⟨j, tget_set_none_sub hj⟩
        · intro i d hi hdp2
          have hiσ : i ≠ σ := by
            intro hh
            rw [hh, hσd] at hi
            obtain rfl : dp = d := Option.some.inj hi
            exact hdp2 hdpp
          exact ⟨i, by rw [tget_set_ne none (fun hh => hiσ hh.symm)]; exact hi⟩
        · intro i j d e hi hj hpp
          exact hwf.wPid i j d e (tget_set_none_sub hi) (tget_set_none_sub hj) hpp
        · have h5 := countSome_set sk.domains σ none hσN
          rw [hσd] at h5
          simpa using h5
        · intro u hu d hd
          interval_cases u
          rw [Nat.add_zero, Nat.mod_eq_of_lt hσN] at hd
          rw [tget_set_self none hσN] at hd
          exact Option.noConfusion hd
      have hcnt1 : countSome (sk.domains.set σ none) ≤ sk.population - 1 := by
        have h5 := countSome_set sk.domains σ none hσN
        rw [hσd] at h5
        have h6 : countSome (sk.domains.set σ none) + 1 = countSome sk.domains := by
          simpa using h5
        have hpos := countSome_pos hσd
        omega
      obtain ⟨F, hF, hFinv⟩ := rehashAux_cluster sk.domains p σ (Nat.find hPex)
        hσN hdeN hde1 hdeNone hdeOcc hwf sk.domains.length 1
        (sk.domains.set σ none) (sk.population - 1) (le_refl 1) hde1
        (by omega) hcnt1 hinv1
      -- identify the rehash call inside remove
      have hs1 : (σ + 1) % sk.domains.length =
          sknext sk.domains.length σ := by
        rw [sknext_eq hN]
      rw [← hs1] at hrw
      rw [hF] at hrw
      -- well-formedness of the final table
      have hFlen : F.length = sk.domains.length := hFinv.len
      have hwfF : SKWF F := by
        refine ⟨hFinv.uniq, ?_⟩
        intro j d hj
        have hjN : j < F.length := tget_some_lt_length hj
        rw [hFlen] at hjN
        obtain ⟨u, huN, hupos⟩ := shift_mod_surj hN hσN j hjN
        by_cases hud : u < Nat.find hPex
        · obtain ⟨t, htN2, htpos2, htocc2, _⟩ := hFinv.inD u hud d
            (by rw [hupos]; exact hj)
          rw [hupos] at htpos2
          rw [hFlen]
          exact ⟨t, htN2, htpos2, htocc2⟩
        · push_neg at hud
          have hune : u ≠ Nat.find hPex := by
            intro hh
            have hout := hFinv.outside u hud huN
            rw [hupos, hj] at hout
            rw [hh] at hupos
            rw [hupos] at hdeNone
            exact Option.noConfusion (hout.trans hdeNone)
          have hds : tget sk.domains j = some d := by
            have := hFinv.outside u hud huN
            rw [hupos] at this
            rw [← this]
            exact hj
          obtain ⟨t, htN2, htpos2, htocc2⟩ := hwf.wPath j d hds
          rw [hFlen]
          refine ⟨t, htN2, htpos2, ?_⟩
          intro v hv
          have hpvN : (skhash sk.domains.length d.pid + v) % sk.domains.length <
              sk.domains.length := Nat.mod_lt _ hN
          obtain ⟨uv, huvN, huvpos⟩ := shift_mod_surj hN hσN _ hpvN
          have huvde : Nat.find hPex ≤ uv := by
            by_contra huv2
            push_neg at huv2
            exact path_avoids2 hN (by rw [htpos2, hupos]) htocc2 hdeNone htN2
              hdeN huN (by omega) hv huv2 huvpos.symm
          have := hFinv.outside uv huvde huvN
          rw [huvpos] at this
          rw [this]
          exact htocc2 v hv
      rw [hrw]
      refine ⟨hFinv.noP, ?_, ?_⟩
      · intro i d hi hdp2
        obtain ⟨j, hj⟩ := hFinv.toCur i d hi hdp2
        show SecurityKernel.lookup ⟨F, sk.population - 1⟩ d.pid = some d
        unfold SecurityKernel.lookup
        rw [if_neg (by show ¬ F.length = 0; omega)]
        exact lookup_finds hwfF hj
      · show SecurityKernel.lookup ⟨F, sk.population - 1⟩ p = none
        unfold SecurityKernel.lookup
        rw [if_neg (by show ¬ F.length = 0; omega)]
        exact lookupAux_none F p hFinv.noP _ _
    · -- p absent: the probe walks through and leaves everything unchanged
      push_neg at hp
      have hab : ∀ i d, tget sk.domains i = some d → d.pid ≠ p := by
        intro i d hi
        exact hp i d hi
      rw [removeAux_miss sk.domains sk.population p hab]
      refine ⟨?_, ?_, ?_⟩
      · intro j d hj
        exact hab j d hj
      · intro i d hi hdp2
        show SecurityKernel.lookup ⟨sk.domains, sk.population⟩ d.pid = some d
        unfold SecurityKernel.lookup
        rw [if_neg (by show ¬ sk.domains.length = 0; omega)]
        exact lookup_finds hwf hi
      · show SecurityKernel.lookup ⟨sk.domains, sk.population⟩ p = none
        unfold SecurityKernel.lookup
        rw [if_neg (by show ¬ sk.domains.length = 0; omega)]
        exact lookupAux_none _ _ hab _ _

/-- Two σ-relative shifts agree modulo the table size only when their offsets
agree or differ by exactly one period. -/
theorem shift_cases {N σ a b : Nat} (hN : 0 < N) (ha : a < 2 * N) (hb : b ≤ N)
    (h : (σ + a) % N = (σ + b) % N) : a = b ∨ a = b + N ∨ b = a + N := by
  rcases Nat.le_total b a with hle | hle
  · rcases mod_eq_near hN h (by omega) (by omega) with hc | hc
    · left; omega
    · right; left; omega
  · rcases mod_eq_near hN h.symm (by omega) (by omega) with hc | hc
    · left; omega
    · right; right; omega

theorem shift_add_period {N σ c : Nat} : (σ + (c + N)) % N = (σ + c) % N := by
  rw [← Nat.add_assoc, Nat.add_mod_right]

/-- Rebasing a probe position to offsets measured from the removed slot. -/
theorem shift_home {N σ δ w β : Nat} (hδ : (σ + δ) % N = β) :
    (β + w) % N = (σ + (δ + w)) % N := by
  rw [← hδ, Nat.mod_add_mod, Nat.add_assoc]

/-- `z` is an anchor slot of the table: every stored domain reaches its slot
from its hash home through occupied slots, never stepping on `z`.  A fresh
insertion re-establishes its landing slot as an anchor, the back-shift rehash
of `remove` keeps the anchor, and a table with an empty slot is anchored at
any empty slot. -/
def AnchoredAt (ds : List (Option TaskDomain)) (z : Nat) : Prop :=
  ∀ i d, tget ds i = some d → ∃ t, t < ds.length ∧
    (skhash ds.length d.pid + t) % ds.length = i ∧
    (∀ u, u < t → tget ds ((skhash ds.length d.pid + u) % ds.length) ≠ none) ∧
    (∀ u, u < t → (skhash ds.length d.pid + u) % ds.length ≠ z)

/-- Well-formedness of the security table as the code maintains it: distinct
pids plus an anchor slot (trivially satisfied by a zero-capacity table). -/
structure SKOK (ds : List (Option TaskDomain)) : Prop where
  oPid : ∀ i j d e, tget ds i = some d → tget ds j = some e → d.pid = e.pid → i = j
  oAnchor : ds.length = 0 ∨ ∃ z, z < ds.length ∧ AnchoredAt ds z

theorem SKOK_to_SKWF {ds : List (Option TaskDomain)} (h : SKOK ds) : SKWF ds := by
  refine ⟨h.oPid, ?_⟩
  intro i d hi
  rcases h.oAnchor with h0 | ⟨z, hzN, hA⟩
  · exfalso
    have := tget_some_lt_length hi
    omega
  · obtain ⟨t, h1, h2, h3, _⟩ := hA i d hi
    exact ⟨t, h1, h2, h3⟩

/-- Any empty slot anchors a table whose members sit on occupied probe paths. -/
theorem AnchoredAt_of_empty {ds : List (Option TaskDomain)} (hwf : SKWF ds)
    {z : Nat} (hz : tget ds z = none) : AnchoredAt ds z := by
  intro i d hi
  obtain ⟨t, h1, h2, h3⟩ := hwf.wPath i d hi
  refine ⟨t, h1, h2, h3, ?_⟩
  intro u hu heq
  exact h3 u hu (by rw [heq]; exact hz)

/-- Arithmetic core of the anchor bound: when the member of the slot being
rescanned moves into the hole, the scan has not passed the anchor yet. -/
theorem hole_stays {N ζ h s δγ t_dm t_star : Nat}
    (hsN : s ≤ N) (hζN : ζ < N) (hhζ : h ≤ ζ)
    (hδγ : δγ < N) (hts : t_star < t_dm)
    (hend : δγ + t_dm = s ∨ δγ + t_dm = s + N)
    (hland : δγ + t_star = h ∨ δγ + t_star = h + N)
    (havoidζ : ∀ w, w < t_dm → δγ + w ≠ ζ ∧ δγ + w ≠ ζ + N) : s ≤ ζ := by
  by_contra hζs
  push_neg at hζs
  rcases hend with he | he
  · rcases hland with hl | hl
    · have hw : ζ - δγ < t_dm := by omega
      have := havoidζ (ζ - δγ) hw
      omega
    · omega
  · have hw : ζ + N - δγ < t_dm := by omega
    have := havoidζ (ζ + N - δγ) hw
    omega

/-- Arithmetic core of the no-breakage argument: a processed member's probe
path never steps on the slot currently being rescanned. -/
theorem cross_elim {N ζ s u δβ t_d v : Nat}
    (hu : u < s) (hsζ : s ≤ ζ) (hζN : ζ < N) (hδβ : δβ < N)
    (hv : v < t_d)
    (hend : δβ + t_d = u ∨ δβ + t_d = u + N)
    (havoidζ : ∀ w, w < t_d → δβ + w ≠ ζ ∧ δβ + w ≠ ζ + N)
    (hcross : δβ + v = s ∨ δβ + v = s + N) : False := by
  rcases hend with he | he
  · omega
  · have hζδ : ζ < δβ := by
      by_contra hge
      push_neg at hge
      have hw : ζ - δβ < t_d := by omega
      have := havoidζ (ζ - δβ) hw
      omega
    omega

/-- Loop invariant of the back-shift rehash over a full table (no empty slot
besides the removed one): after rescanning the first `s - 1` slots past the
removed slot `σ`, the table holds every original domain except the removed
pid, has exactly one empty slot — at walk distance `h < s`, never past the
anchor distance `ζ` — and every member of the rescanned region sits at the end
of an occupied probe path that avoids the anchor. -/
structure FullInv (ds : List (Option TaskDomain)) (p σ ζ s : Nat)
    (cur : List (Option TaskDomain)) : Prop where
  len : cur.length = ds.length
  outside : ∀ u, s ≤ u → u < ds.length →
    tget cur ((σ + u) % ds.length) = tget ds ((σ + u) % ds.length)
  hole : ∃ h, h < s ∧ h ≤ ζ ∧ tget cur ((σ + h) % ds.length) = none ∧
    ∀ j, j < ds.length → j ≠ (σ + h) % ds.length → tget cur j ≠ none
  noP : ∀ j d, tget cur j = some d → d.pid ≠ p
  fromDs : ∀ j d, tget cur j = some d → ∃ i, tget ds i = some d
  toCur : ∀ i d, tget ds i = some d → d.pid ≠ p → ∃ j, tget cur j = some d
  uniq : ∀ i j d e, tget cur i = some d → tget cur j = some e → d.pid = e.pid →
    i = j
  cnt : countSome cur + 1 = countSome ds
  inD : ∀ u, u < s → ∀ d, tget cur ((σ + u) % ds.length) = some d →
    ∃ t, t < ds.length ∧
      (skhash ds.length d.pid + t) % ds.length = (σ + u) % ds.length ∧
      (∀ v, v < t → tget cur ((skhash ds.length d.pid + v) % ds.length) ≠ none) ∧
      (∀ v, v < t → (skhash ds.length d.pid + v) % ds.length ≠
        (σ + ζ) % ds.length)

/-- Running the rehash over a full table: the scan rescans every slot past the
removed one, each member re-lands on its own slot or moves back into the hole,
and the invariant survives to the end of the fuel. -/
theorem rehashAux_full (ds : List (Option TaskDomain)) (p σ ζ : Nat)
    (hσN : σ < ds.length) (hζN : ζ < ds.length)
    (hAnch : AnchoredAt ds ((σ + ζ) % ds.length)) :
    ∀ (fuel s : Nat) (cur : List (Option TaskDomain)) (pop : Nat),
    1 ≤ s → s + fuel = ds.length + 1 →
    countSome cur ≤ pop →
    FullInv ds p σ ζ s cur →
    ∃ F, rehashAux cur pop ((σ + s) % ds.length) fuel = (F, pop) ∧
      FullInv ds p σ ζ (ds.length + 1) F := by
  have hN : 0 < ds.length := lt_of_le_of_lt (Nat.zero_le σ) hσN
  intro fuel
  induction fuel with
  | zero =>
    intro s cur pop hs1 hsf hpop hinv
    have hs : s = ds.length + 1 := by omega
    rw [hs] at hinv
    exact ⟨cur, rfl, hinv⟩
  | succ f ih =>
    intro s cur pop hs1 hsf hpop hinv
    have hsN : s ≤ ds.length := by omega
    obtain ⟨h, hhs, hhζ, hhole, huniq⟩ := hinv.hole
    have hxN : (σ + s) % ds.length < ds.length := Nat.mod_lt _ hN
    cases hx : tget cur ((σ + s) % ds.length) with
    | none =>
      -- the scan has closed the circle: s = N and the hole still sits at σ
      have hxh : (σ + s) % ds.length = (σ + h) % ds.length := by
        by_contra hne
        exact huniq _ hxN hne hx
      have hsh : s = ds.length ∧ h = 0 := by
        rcases shift_cases hN (a := s) (b := h) (by omega) (by omega) hxh with
          hc | hc | hc
        · omega
        · omega
        · omega
      obtain ⟨hsN2, hh0⟩ := hsh
      refine ⟨cur, ?_, ?_⟩
      · conv_lhs => rw [rehashAux]
        rw [hx]
      · refine ⟨hinv.len, ?_, ⟨h, by omega, hhζ, hhole, huniq⟩, hinv.noP,
          hinv.fromDs, hinv.toCur, hinv.uniq, hinv.cnt, ?_⟩
        · intro u hu huN
          omega
        · intro u hu d hd
          by_cases hus : u < s
          · exact hinv.inD u hus d hd
          · exfalso
            have hu2 : u = ds.length := by omega
            have hpos : (σ + u) % ds.length = (σ + h) % ds.length := by
              rw [hu2, hh0, Nat.add_zero, Nat.add_mod_right]
            rw [hpos, hhole] at hd
            exact Option.noConfusion hd
    | some dm =>
      have hγN : skhash ds.length dm.pid < ds.length := skhash_lt hN dm.pid
      have hxhne : (σ + s) % ds.length ≠ (σ + h) % ds.length := by
        intro heq
        rw [heq, hhole] at hx
        exact Option.noConfusion hx
      -- the member's anchored probe path, ending at the rescanned slot
      have hpath : ∃ t_dm, t_dm < ds.length ∧
          (skhash ds.length dm.pid + t_dm) % ds.length = (σ + s) % ds.length ∧
          (∀ v, v < t_dm → (skhash ds.length dm.pid + v) % ds.length ≠
            (σ + ζ) % ds.length) := by
        by_cases hsN2 : s < ds.length
        · have hds : tget ds ((σ + s) % ds.length) = some dm := by
            have := hinv.outside s (le_refl s) hsN2
            rw [hx] at this
            exact this.symm
          obtain ⟨t, h1, h2, _, h4⟩ := hAnch _ dm hds
          exact ⟨t, h1, h2, h4⟩
        · have hs2 : s = ds.length := by omega
          have hpos0 : (σ + s) % ds.length = (σ + 0) % ds.length := by
            rw [hs2, Nat.add_zero, Nat.add_mod_right]
          have hd0 : tget cur ((σ + 0) % ds.length) = some dm := by
            rw [← hpos0]
            exact hx
          obtain ⟨t, h1, h2, _, h4⟩ := hinv.inD 0 (by omega) dm hd0
          refine ⟨t, h1, ?_, h4⟩
          rw [hpos0]
          exact h2
      obtain ⟨t_dm, htdN, htdpos, htdavoid⟩ := hpath
      -- the reinsertion lands on the first empty slot along the probe
      have hxlen : (σ + s) % ds.length < cur.length := by
        rw [hinv.len]
        exact hxN
      have hPex : ∃ u, tget (cur.set ((σ + s) % ds.length) none)
          ((skhash ds.length dm.pid + u) % ds.length) = none := by
        refine ⟨t_dm, ?_⟩
        rw [htdpos]
        exact tget_set_self none hxlen
      have hPspec := Nat.find_spec hPex
      have htstar_le : Nat.find hPex ≤ t_dm := by
        refine Nat.find_min' hPex ?_
        rw [htdpos]
        exact tget_set_self none hxlen
      have hwalk : ∀ v, v < Nat.find hPex →
          ∃ e, tget (cur.set ((σ + s) % ds.length) none)
            ((skhash ds.length dm.pid + v) % ds.length) = some e ∧
            e.pid ≠ dm.pid := by
        intro v hvlt
        have hocc2 := Nat.find_min hPex hvlt
        cases hev : tget (cur.set ((σ + s) % ds.length) none)
            ((skhash ds.length dm.pid + v) % ds.length) with
        | none => exact absurd hev hocc2
        | some e =>
          refine ⟨e, rfl, ?_⟩
          intro hpp
          have hecur := tget_set_none_sub hev
          have := hinv.uniq _ _ e dm hecur hx hpp
          rw [this] at hev
          rw [tget_set_self none hxlen] at hev
          exact Option.noConfusion hev
      have hlen' : (cur.set ((σ + s) % ds.length) none).length = ds.length := by
        rw [List.length_set, hinv.len]
      have hins := insertAux_firstEmpty (cur.set ((σ + s) % ds.length) none)
        dm (Nat.find hPex) (cur.set ((σ + s) % ds.length) none).length
        (skhash ds.length dm.pid)
        (by rw [hlen']; omega) (by rw [hlen']; exact hγN)
        (by rw [hlen']; exact hwalk) (by rw [hlen']; exact hPspec)
      rw [hlen'] at hins
      have hpop1 : 0 < pop := by
        have := countSome_pos hx
        omega
      have hstep : rehashAux cur pop ((σ + s) % ds.length) (f + 1) =
          rehashAux
            (rehashStep (cur.set ((σ + s) % ds.length) none) (pop - 1) dm).1
            (rehashStep (cur.set ((σ + s) % ds.length) none) (pop - 1) dm).2
            (sknext cur.length ((σ + s) % ds.length)) f := by
        conv_lhs => rw [rehashAux]
        rw [hx]
      have hrs : rehashStep (cur.set ((σ + s) % ds.length) none) (pop - 1) dm =
          ((cur.set ((σ + s) % ds.length) none).set
            ((skhash ds.length dm.pid + Nat.find hPex) % ds.length)
            (some dm), pop) := by
        unfold rehashStep
        rw [if_neg (by rw [hlen']; omega)]
        rw [hlen', hins]
        show (_, pop - 1 + 1) = (_, pop)
        rw [Nat.sub_add_cancel hpop1]
      have hnext : sknext cur.length ((σ + s) % ds.length) =
          (σ + (s + 1)) % ds.length := by
        rw [hinv.len, sknext_eq hN, Nat.mod_add_mod, Nat.add_assoc]
      rw [hstep, hrs, hnext]
      set x := (σ + s) % ds.length with hxdef
      set landing := (skhash ds.length dm.pid + Nat.find hPex) % ds.length
        with hldef
      set C2 := (cur.set x none).set landing (some dm) with hC2def
      have hlandN : landing < ds.length := Nat.mod_lt _ hN
      have hldland : tget (cur.set x none) landing = none := hPspec
      have hland : landing = x ∨ landing = (σ + h) % ds.length := by
        by_cases hlx : landing = x
        · exact Or.inl hlx
        · right
          have hcurl : tget cur landing = none := by
            have h2 := hldland
            rw [tget_set_ne none (fun hh => hlx hh.symm)] at h2
            exact h2
          by_contra hlh
          exact huniq landing hlandN hlh hcurl
      rcases hland with hlx | hlh
      · -- the member falls back into its own slot: the table is unchanged
        have htt : Nat.find hPex = t_dm := by
          have hpe : (skhash ds.length dm.pid + Nat.find hPex) % ds.length =
              (skhash ds.length dm.pid + t_dm) % ds.length := by
            rw [← hldef, hlx, ← htdpos]
          exact shift_mod_inj hN (by omega) htdN hpe
        have hcur2 : C2 = cur := by
          rw [hC2def, hlx, List.set_set]
          exact tset_self_id hx hxlen
        rw [hcur2]
        have hinv2 : FullInv ds p σ ζ (s + 1) cur := by
          refine ⟨hinv.len, ?_, ⟨h, by omega, hhζ, hhole, huniq⟩, hinv.noP,
            hinv.fromDs, hinv.toCur, hinv.uniq, hinv.cnt, ?_⟩
          · intro u hu huN
            exact hinv.outside u (by omega) huN
          · intro u hu d hd
            by_cases hus : u < s
            · exact hinv.inD u hus d hd
            · have hu2 : u = s := by omega
              subst hu2
              rw [← hxdef] at hd
              rw [hx] at hd
              obtain rfl : dm = d := Option.some.inj hd
              refine ⟨t_dm, htdN, ?_, ?_, htdavoid⟩
              · rw [← hxdef]
                exact htdpos
              · intro v hv
                have hv2 : v < Nat.find hPex := by omega
                obtain ⟨e, he, _⟩ := hwalk v hv2
                have h3 := tget_set_none_sub he
                rw [h3]
                exact fun hh => Option.noConfusion hh
        obtain ⟨F, hF, hFinv⟩ := ih (s + 1) cur pop (by omega) (by omega)
          hpop hinv2
        exact ⟨F, hF, hFinv⟩
      · -- the member moves back into the hole; the rescanned slot becomes the
        -- new hole, still on the near side of the anchor
        have hlxne : landing ≠ x := by
          rw [hlh]
          exact fun hh => hxhne hh.symm
        have htt : Nat.find hPex < t_dm := by
          rcases Nat.lt_or_ge (Nat.find hPex) t_dm with hlt | hge
          · exact hlt
          · exfalso
            have heq : Nat.find hPex = t_dm := by omega
            apply hlxne
            rw [hldef, heq]
            exact htdpos
        obtain ⟨δγ, hδγN, hδγpos⟩ := shift_mod_surj hN hσN
          (skhash ds.length dm.pid) hγN
        have havnum : ∀ w, w < t_dm →
            δγ + w ≠ ζ ∧ δγ + w ≠ ζ + ds.length := by
          intro w hw
          constructor
          · intro heq
            refine htdavoid w hw ?_
            rw [shift_home hδγpos, heq]
          · intro heq
            refine htdavoid w hw ?_
            rw [shift_home hδγpos, heq, shift_add_period]
        have hendnum : δγ + t_dm = s ∨ δγ + t_dm = s + ds.length := by
          have hpos2 : (σ + (δγ + t_dm)) % ds.length = (σ + s) % ds.length := by
            rw [← shift_home hδγpos, htdpos]
          rcases shift_cases hN (by omega) (by omega) hpos2 with hc | hc | hc
          · exact Or.inl hc
          · exact Or.inr hc
          · exfalso
            omega
        have hlandnum : δγ + Nat.find hPex = h ∨
            δγ + Nat.find hPex = h + ds.length := by
          have hpos2 : (σ + (δγ + Nat.find hPex)) % ds.length =
              (σ + h) % ds.length := by
            rw [← shift_home hδγpos, ← hldef]
            exact hlh
          rcases shift_cases hN (by omega) (by omega) hpos2 with hc | hc | hc
          · exact Or.inl hc
          · exact Or.inr hc
          · exfalso
            omega
        have hsζ : s ≤ ζ :=
          hole_stays hsN hζN hhζ hδγN htt hendnum hlandnum havnum
        have hllen : landing < (cur.set x none).length := by
          rw [List.length_set, hinv.len]
          exact hlandN
        have hC2land : tget C2 landing = some dm := by
          rw [hC2def]
          exact tget_set_self _ hllen
        have hC2x : tget C2 x = none := by
          rw [hC2def]
          rw [tget_set_ne _ (fun hh => hlxne hh)]
          exact tget_set_self none hxlen
        have hC2len : C2.length = ds.length := by
          rw [hC2def, List.length_set, List.length_set, hinv.len]
        have hC2other : ∀ j, j ≠ landing → j ≠ x → tget C2 j = tget cur j := by
          intro j hjl hjx
          rw [hC2def, tget_set_ne _ (fun hh => hjl hh.symm),
            tget_set_ne _ (fun hh => hjx hh.symm)]
        have hC2sub : ∀ j d, tget C2 j = some d →
            (j = landing ∧ d = dm) ∨
            (j ≠ landing ∧ j ≠ x ∧ tget cur j = some d) := by
          intro j d hj
          by_cases hjl : j = landing
          · subst hjl
            rw [hC2land] at hj
            exact Or.inl ⟨rfl, (Option.some.inj hj).symm⟩
          · rw [hC2def, tget_set_ne _ (fun hh => hjl hh.symm)] at hj
            exact Or.inr ⟨hjl, tget_set_none_ne hxlen hj, tget_set_none_sub hj⟩
        have hc1 := countSome_set cur x none hxlen
        rw [hx] at hc1
        have hc2 := countSome_set (cur.set x none) landing (some dm) hllen
        rw [hldland] at hc2
        have hcC2 : countSome C2 = countSome cur := by
          rw [hC2def]
          simp only [Option.isSome] at hc1 hc2
          omega
        have hinv2 : FullInv ds p σ ζ (s + 1) C2 := by
          refine ⟨hC2len, ?_, ?_, ?_, ?_, ?_, ?_, ?_, ?_⟩
          · intro u hu huN
            have hux : (σ + u) % ds.length ≠ x := by
              rw [hxdef]
              intro hh
              have := shift_mod_inj hN huN (by omega) hh
              omega
            have hul : (σ + u) % ds.length ≠ landing := by
              rw [hlh]
              intro hh
              have := shift_mod_inj hN huN (by omega) hh
              omega
            rw [hC2other _ hul hux]
            exact hinv.outside u (by omega) huN
          · refine ⟨s, by omega, hsζ, ?_, ?_⟩
            · rw [← hxdef]
              exact hC2x
            · intro j hjN hjne
              rw [← hxdef] at hjne
              by_cases hjl : j = landing
              · rw [hjl, hC2land]
                exact fun hh => Option.noConfusion hh
              · rw [hC2other _ hjl hjne]
                refine huniq j hjN ?_
                rw [hlh] at hjl
                exact hjl
          · intro j d hj
            rcases hC2sub j d hj with ⟨_, rfl⟩ | ⟨_, _, hcur⟩
            · exact hinv.noP _ _ hx
            · exact hinv.noP _ _ hcur
          · intro j d hj
            rcases hC2sub j d hj with ⟨_, rfl⟩ | ⟨_, _, hcur⟩
            · exact hinv.fromDs _ _ hx
            · exact hinv.fromDs _ _ hcur
          · intro i d hids hdp
            obtain ⟨j, hj⟩ := hinv.toCur i d hids hdp
            by_cases hjx : j = x
            · subst hjx
              rw [hx] at hj
              obtain rfl : dm = d := Option.some.inj hj
              exact ⟨landing, hC2land⟩
            · by_cases hjl : j = landing
              · exfalso
                rw [hjl, hlh, hhole] at hj
                exact Option.noConfusion hj
              · refine ⟨j, ?_⟩
                rw [hC2other _ hjl hjx]
                exact hj
          · intro i j d e hi hj hpp
            rcases hC2sub i d hi with ⟨hil, rfl⟩ | ⟨hil, hix, hicur⟩
            · rcases hC2sub j e hj with ⟨hjl, rfl⟩ | ⟨hjl, hjx, hjcur⟩
              · rw [hil, hjl]
              · exfalso
                have := hinv.uniq j x e _ hjcur hx hpp.symm
                exact hjx this
            · rcases hC2sub j e hj with ⟨hjl, rfl⟩ | ⟨hjl, hjx, hjcur⟩
              · exfalso
                have := hinv.uniq i x d _ hicur hx hpp
                exact hix this
              · exact hinv.uniq i j d e hicur hjcur hpp
          · rw [hcC2]
            exact hinv.cnt
          · intro u hu d hd
            by_cases hul : (σ + u) % ds.length = landing
            · rw [hul, hC2land] at hd
              obtain rfl : dm = d := Option.some.inj hd
              refine ⟨Nat.find hPex, by omega, ?_, ?_, ?_⟩
              · rw [hul, ← hldef]
              · intro v hv
                obtain ⟨e, he, _⟩ := hwalk v hv
                by_cases hvl : (skhash ds.length dm.pid + v) % ds.length =
                    landing
                · rw [hvl, hC2land]
                  exact fun hh => Option.noConfusion hh
                · rw [hC2def, tget_set_ne _ (fun hh => hvl hh.symm)]
                  rw [he]
                  exact fun hh => Option.noConfusion hh
              · intro v hv
                exact htdavoid v (by omega)
            · by_cases hux : (σ + u) % ds.length = x
              · exfalso
                rw [hux, hC2x] at hd
                exact Option.noConfusion hd
              · have hus : u < s := by
                  rcases Nat.lt_or_ge u s with h2 | h2
                  · exact h2
                  · exfalso
                    have hu2 : u = s := by omega
                    refine hux ?_
                    rw [hu2, hxdef]
                have hdcur : tget cur ((σ + u) % ds.length) = some d := by
                  rw [← hC2other _ hul hux]
                  exact hd
                obtain ⟨t_d, htd2, hpos_d, hocc_d, hav_d⟩ :=
                  hinv.inD u hus d hdcur
                refine ⟨t_d, htd2, hpos_d, ?_, hav_d⟩
                intro v hv
                by_cases hql : (skhash ds.length d.pid + v) % ds.length =
                    landing
                · rw [hql, hC2land]
                  exact fun hh => Option.noConfusion hh
                · by_cases hqx : (skhash ds.length d.pid + v) % ds.length = x
                  · exfalso
                    obtain ⟨δβ, hδβN, hδβpos⟩ := shift_mod_surj hN hσN
                      (skhash ds.length d.pid) (skhash_lt hN d.pid)
                    have havnum2 : ∀ w, w < t_d →
                        δβ + w ≠ ζ ∧ δβ + w ≠ ζ + ds.length := by
                      intro w hw
                      constructor
                      · intro heq
                        refine hav_d w hw ?_
                        rw [shift_home hδβpos, heq]
                      · intro heq
                        refine hav_d w hw ?_
                        rw [shift_home hδβpos, heq, shift_add_period]
                    have hendnum2 : δβ + t_d = u ∨ δβ + t_d = u + ds.length := by
                      have hpos3 : (σ + (δβ + t_d)) % ds.length =
                          (σ + u) % ds.length := by
                        rw [← shift_home hδβpos]
                        exact hpos_d
                      rcases shift_cases hN (by omega) (by omega) hpos3 with
                        hc | hc | hc
                      · exact Or.inl hc
                      · exact Or.inr hc
                      · exfalso
                        omega
                    have hcrossnum : δβ + v = s ∨ δβ + v = s + ds.length := by
                      have hpos3 : (σ + (δβ + v)) % ds.length =
                          (σ + s) % ds.length := by
                        rw [← shift_home hδβpos, hqx]
                      rcases shift_cases hN (by omega) (by omega) hpos3 with
                        hc | hc | hc
                      · exact Or.inl hc
                      · exact Or.inr hc
                      · exfalso
                        omega
                    exact cross_elim hus hsζ hζN hδβN hv hendnum2
                      havnum2 hcrossnum
                  · rw [hC2other _ hql hqx]
                    exact hocc_d v hv
        have hpop2 : countSome C2 ≤ pop := by
          rw [hcC2]
          exact hpop
        obtain ⟨F, hF, hFinv⟩ := ih (s + 1) C2 pop (by omega) (by omega)
          hpop2 hinv2
        exact ⟨F, hF, hFinv⟩

/-- `SecurityKernel::remove` under the anchored invariant, with no spare-slot
assumption: the target pid disappears, every other stored domain survives the
back-shift rehash findable by lookup — including over a completely full
table — and the invariant itself is preserved. -/
theorem remove_spec2 (sk : SecurityKernel) (p : Nat)
    (hok : SKOK sk.domains) (hcnt : countSome sk.domains ≤ sk.population) :
    (∀ j d, tget (sk.remove p).domains j = some d → d.pid ≠ p) ∧
    (∀ i d, tget sk.domains i = some d → d.pid ≠ p →
      (sk.remove p).lookup d.pid = some d) ∧
    (sk.remove p).lookup p = none ∧
    SKOK (sk.remove p).domains ∧
    countSome (sk.remove p).domains ≤ (sk.remove p).population ∧
    (sk.remove p).domains.length = sk.domains.length ∧
    (∀ j d, tget (sk.remove p).domains j = some d →
      ∃ i, tget sk.domains i = some d) := by
  have hwf : SKWF sk.domains := SKOK_to_SKWF hok
  unfold SecurityKernel.remove
  by_cases hg : sk.domains.length = 0 ∨ sk.population = 0
  · rw [if_pos hg]
    have hnone : ∀ i e, tget sk.domains i = some e → False := by
      rcases hg with hg | hg
      · intro i e he
        have := tget_some_lt_length he
        omega
      · exact countSome_eq_zero (by omega)
    refine ⟨?_, ?_, ?_, hok, hcnt, rfl, ?_⟩
    · intro j d hj
      exact absurd hj (fun hh => hnone j d hh)
    · intro i d hi
      exact absurd hi (fun hh => hnone i d hh)
    · unfold SecurityKernel.lookup
      by_cases h0 : sk.domains.length = 0
      · rw [if_pos h0]
      · rw [if_neg h0]
        exact lookupAux_none _ _
          (fun i e he => absurd he (fun hh => hnone i e hh)) _ _
    · intro j d hj
      exact ⟨j, hj⟩
  · rw [if_neg hg]
    push_neg at hg
    obtain ⟨hlen0, hpop0⟩ := hg
    have hN : 0 < sk.domains.length := by omega
    by_cases hp : ∃ i dp, tget sk.domains i = some dp ∧ dp.pid = p
    · -- p is stored: the removal probe reaches it and rehashes what follows
      obtain ⟨σ, dp, hσd, hdpp⟩ := hp
      have hσN : σ < sk.domains.length := tget_some_lt_length hσd
      obtain ⟨t_p, htpN, htppos, htpocc⟩ := hwf.wPath σ dp hσd
      rw [hdpp] at htppos htpocc
      have hhpN : skhash sk.domains.length p < sk.domains.length := skhash_lt hN p
      have hex : ∃ u, (skhash sk.domains.length p + u) % sk.domains.length = σ :=
        ⟨t_p, htppos⟩
      have ht0σ : (skhash sk.domains.length p + Nat.find hex) % sk.domains.length
          = σ := Nat.find_spec hex
      have ht0le : Nat.find hex ≤ t_p := Nat.find_min' hex htppos
      have hrw := removeAux_hit sk.domains sk.population p (Nat.find hex)
        sk.domains.length (skhash sk.domains.length p) (by omega) hhpN
        (by intro u hu
            have hne : (skhash sk.domains.length p + u) % sk.domains.length ≠ σ :=
              Nat.find_min hex hu
            have hoccu := htpocc u (by omega)
            cases he2 : tget sk.domains
                ((skhash sk.domains.length p + u) % sk.domains.length) with
            | none => exact absurd he2 hoccu
            | some e2 =>
              refine ⟨e2, rfl, ?_⟩
              intro hpp
              exact hne (hwf.wPid _ σ e2 dp he2 hσd (by rw [hpp, hdpp])))
        (by refine ⟨dp, ?_, hdpp⟩
            rw [ht0σ]
            exact hσd)
      rw [ht0σ] at hrw
      by_cases hemp : ∃ eidx, eidx < sk.domains.length ∧
          tget sk.domains eidx = none
      · -- a spare slot exists: the classical cluster walk
        obtain ⟨eidx, heN, heNone⟩ := hemp
        have hPex : ∃ u, 1 ≤ u ∧
            tget sk.domains ((σ + u) % sk.domains.length) = none := by
          obtain ⟨u0, hu0N, hu0pos⟩ := shift_mod_surj hN hσN eidx heN
          refine ⟨u0, ?_, by rw [hu0pos]; exact heNone⟩
          rcases Nat.eq_zero_or_pos u0 with rfl | h1
          · exfalso
            rw [Nat.add_zero, Nat.mod_eq_of_lt hσN] at hu0pos
            rw [hu0pos] at hσd
            rw [heNone] at hσd
            exact Option.noConfusion hσd
          · exact h1
        obtain ⟨hde1, hdeNone⟩ := Nat.find_spec hPex
        have hdeN : Nat.find hPex < sk.domains.length := by
          obtain ⟨u0, hu0N, hu0pos⟩ := shift_mod_surj hN hσN eidx heN
          have : Nat.find hPex ≤ u0 := by
            refine Nat.find_min' hPex ⟨?_, by rw [hu0pos]; exact heNone⟩
            rcases Nat.eq_zero_or_pos u0 with rfl | h1
            · exfalso
              rw [Nat.add_zero, Nat.mod_eq_of_lt hσN] at hu0pos
              rw [hu0pos] at hσd
              rw [heNone] at hσd
              exact Option.noConfusion hσd
            · exact h1
          omega
        have hdeOcc : ∀ u, 1 ≤ u → u < Nat.find hPex →
            tget sk.domains ((σ + u) % sk.domains.length) ≠ none := by
          intro u h1 h2
          have := Nat.find_min hPex h2
          push_neg at this
          intro hnone2
          exact absurd hnone2 (by
            intro hh
            exact absurd hh (by
              have h3 := this h1
              exact h3))
        have hinv1 : RehashInv sk.domains p σ (Nat.find hPex) 1
            (sk.domains.set σ none) := by
          refine ⟨List.length_set _ _ _, ?_, ?_, ?_, ?_, ?_, ?_, ?_⟩
          · intro u hu huN
            have hne : (σ + u) % sk.domains.length ≠ σ := by
              intro hh
              have h2 : (σ + u) % sk.domains.length =
                  (σ + 0) % sk.domains.length := by
                rw [Nat.add_zero, Nat.mod_eq_of_lt hσN]
                exact hh
              have := shift_mod_inj hN huN hN h2
              omega
            rw [tget_set_ne none (fun hh => hne hh.symm)]
          · intro j d hj
            have hne := tget_set_none_ne hσN hj
            have hds := tget_set_none_sub hj
            intro hpd
            exact hne (hwf.wPid j σ d dp hds hσd (by rw [hpd, hdpp]))
          · intro j d hj
            exact ⟨j, tget_set_none_sub hj⟩
          · intro i d hi hdp2
            have hiσ : i ≠ σ := by
              intro hh
              rw [hh, hσd] at hi
              obtain rfl : dp = d := Option.some.inj hi
              exact hdp2 hdpp
            exact ⟨i, by rw [tget_set_ne none (fun hh => hiσ hh.symm)]; exact hi⟩
          · intro i j d e hi hj hpp
            exact hwf.wPid i j d e (tget_set_none_sub hi) (tget_set_none_sub hj)
              hpp
          · have h5 := countSome_set sk.domains σ none hσN
            rw [hσd] at h5
            simpa using h5
          · intro u hu d hd
            interval_cases u
            rw [Nat.add_zero, Nat.mod_eq_of_lt hσN] at hd
            rw [tget_set_self none hσN] at hd
            exact Option.noConfusion hd
        have hcnt1 : countSome (sk.domains.set σ none) ≤ sk.population - 1 := by
          have h5 := countSome_set sk.domains σ none hσN
          rw [hσd] at h5
          have h6 : countSome (sk.domains.set σ none) + 1 =
              countSome sk.domains := by
            simpa using h5
          have hpos := countSome_pos hσd
          omega
        obtain ⟨F, hF, hFinv⟩ := rehashAux_cluster sk.domains p σ (Nat.find hPex)
          hσN hdeN hde1 hdeNone hdeOcc hwf sk.domains.length 1
          (sk.domains.set σ none) (sk.population - 1) (le_refl 1) hde1
          (by omega) hcnt1 hinv1
        have hs1 : (σ + 1) % sk.domains.length =
            sknext sk.domains.length σ := by
          rw [sknext_eq hN]
        rw [← hs1] at hrw
        rw [hF] at hrw
        have hFlen : F.length = sk.domains.length := hFinv.len
        have hwfF : SKWF F := by
          refine ⟨hFinv.uniq, ?_⟩
          intro j d hj
          have hjN : j < F.length := tget_some_lt_length hj
          rw [hFlen] at hjN
          obtain ⟨u, huN, hupos⟩ := shift_mod_surj hN hσN j hjN
          by_cases hud : u < Nat.find hPex
          · obtain ⟨t, htN2, htpos2, htocc2, _⟩ := hFinv.inD u hud d
              (by rw [hupos]; exact hj)
            rw [hupos] at htpos2
            rw [hFlen]
            exact ⟨t, htN2, htpos2, htocc2⟩
          · push_neg at hud
            have hune : u ≠ Nat.find hPex := by
              intro hh
              have hout := hFinv.outside u hud huN
              rw [hupos, hj] at hout
              rw [hh] at hupos
              rw [hupos] at hdeNone
              exact Option.noConfusion (hout.trans hdeNone)
            have hds : tget sk.domains j = some d := by
              have := hFinv.outside u hud huN
              rw [hupos] at this
              rw [← this]
              exact hj
            obtain ⟨t, htN2, htpos2, htocc2⟩ := hwf.wPath j d hds
            rw [hFlen]
            refine ⟨t, htN2, htpos2, ?_⟩
            intro v hv
            have hpvN : (skhash sk.domains.length d.pid + v) % sk.domains.length <
                sk.domains.length := Nat.mod_lt _ hN
            obtain ⟨uv, huvN, huvpos⟩ := shift_mod_surj hN hσN _ hpvN
            have huvde : Nat.find hPex ≤ uv := by
              by_contra huv2
              push_neg at huv2
              exact path_avoids2 hN (by rw [htpos2, hupos]) htocc2 hdeNone htN2
                hdeN huN (by omega) hv huv2 huvpos.symm
            have := hFinv.outside uv huvde huvN
            rw [huvpos] at this
            rw [this]
            exact htocc2 v hv
        have hFde : tget F ((σ + Nat.find hPex) % sk.domains.length) = none := by
          have := hFinv.outside (Nat.find hPex) (le_refl _) hdeN
          rw [this]
          exact hdeNone
        rw [hrw]
        refine ⟨hFinv.noP, ?_, ?_, ?_, ?_, ?_, ?_⟩
        · intro i d hi hdp2
          obtain ⟨j, hj⟩ := hFinv.toCur i d hi hdp2
          show SecurityKernel.lookup ⟨F, sk.population - 1⟩ d.pid = some d
          unfold SecurityKernel.lookup
          rw [if_neg (by show ¬ F.length = 0; omega)]
          exact lookup_finds hwfF hj
        · show SecurityKernel.lookup ⟨F, sk.population - 1⟩ p = none
          unfold SecurityKernel.lookup
          rw [if_neg (by show ¬ F.length = 0; omega)]
          exact lookupAux_none F p hFinv.noP _ _
        · show SKOK F
          refine ⟨hFinv.uniq,
            Or.inr ⟨(σ + Nat.find hPex) % sk.domains.length, ?_, ?_⟩⟩
          · show (σ + Nat.find hPex) % sk.domains.length < F.length
            rw [hFlen]
            exact Nat.mod_lt _ hN
          · exact AnchoredAt_of_empty hwfF hFde
        · show countSome F ≤ sk.population - 1
          have hcF := hFinv.cnt
          have hpos := countSome_pos hσd
          omega
        · exact hFlen
        · intro j d hj
          exact hFinv.fromDs j d hj
      · -- saturated table: rescan the whole ring past the removed slot
        push_neg at hemp
        have hfull : ∀ j, j < sk.domains.length → tget sk.domains j ≠ none := by
          intro j hj
          exact hemp j hj
        rcases hok.oAnchor with h0 | ⟨z, hzN, hAz⟩
        · omega
        obtain ⟨ζ, hζN, hζpos⟩ := shift_mod_surj hN hσN z hzN
        rw [← hζpos] at hAz
        have hinv1 : FullInv sk.domains p σ ζ 1 (sk.domains.set σ none) := by
          refine ⟨List.length_set _ _ _, ?_, ?_, ?_, ?_, ?_, ?_, ?_, ?_⟩
          · intro u hu huN
            have hne : (σ + u) % sk.domains.length ≠ σ := by
              intro hh
              have h2 : (σ + u) % sk.domains.length =
                  (σ + 0) % sk.domains.length := by
                rw [Nat.add_zero, Nat.mod_eq_of_lt hσN]
                exact hh
              have := shift_mod_inj hN huN hN h2
              omega
            rw [tget_set_ne none (fun hh => hne hh.symm)]
          · refine ⟨0, by omega, by omega, ?_, ?_⟩
            · rw [Nat.add_zero, Nat.mod_eq_of_lt hσN]
              exact tget_set_self none hσN
            · intro j hjN hjne
              rw [Nat.add_zero, Nat.mod_eq_of_lt hσN] at hjne
              rw [tget_set_ne none (fun hh => hjne hh.symm)]
              exact hfull j hjN
          · intro j d hj
            have hne := tget_set_none_ne hσN hj
            have hds := tget_set_none_sub hj
            intro hpd
            exact hne (hwf.wPid j σ d dp hds hσd (by rw [hpd, hdpp]))
          · intro j d hj
            exact ⟨j, tget_set_none_sub hj⟩
          · intro i d hi hdp2
            have hiσ : i ≠ σ := by
              intro hh
              rw [hh, hσd] at hi
              obtain rfl : dp = d := Option.some.inj hi
              exact hdp2 hdpp
            exact ⟨i, by rw [tget_set_ne none (fun hh => hiσ hh.symm)]; exact hi⟩
          · intro i j d e hi hj hpp
            exact hwf.wPid i j d e (tget_set_none_sub hi) (tget_set_none_sub hj)
              hpp
          · have h5 := countSome_set sk.domains σ none hσN
            rw [hσd] at h5
            simpa using h5
          · intro u hu d hd
            interval_cases u
            rw [Nat.add_zero, Nat.mod_eq_of_lt hσN] at hd
            rw [tget_set_self none hσN] at hd
            exact Option.noConfusion hd
        have hcnt1 : countSome (sk.domains.set σ none) ≤ sk.population - 1 := by
          have h5 := countSome_set sk.domains σ none hσN
          rw [hσd] at h5
          have h6 : countSome (sk.domains.set σ none) + 1 =
              countSome sk.domains := by
            simpa using h5
          have hpos := countSome_pos hσd
          omega
        obtain ⟨F, hF, hFinv⟩ := rehashAux_full sk.domains p σ ζ hσN hζN hAz
          sk.domains.length 1 (sk.domains.set σ none) (sk.population - 1)
          (le_refl 1) (by omega) hcnt1 hinv1
        have hs1 : (σ + 1) % sk.domains.length =
            sknext sk.domains.length σ := by
          rw [sknext_eq hN]
        rw [← hs1] at hrw
        rw [hF] at hrw
        have hFlen : F.length = sk.domains.length := hFinv.len
        obtain ⟨hfh, hfhs, hfhζ, hfhole, hfuniq⟩ := hFinv.hole
        have hwfF : SKWF F := by
          refine ⟨hFinv.uniq, ?_⟩
          intro j d hj
          have hjN : j < F.length := tget_some_lt_length hj
          rw [hFlen] at hjN
          obtain ⟨u, huN, hupos⟩ := shift_mod_surj hN hσN j hjN
          obtain ⟨t, htN2, htpos2, htocc2, _⟩ := hFinv.inD u (by omega) d
            (by rw [hupos]; exact hj)
          rw [hupos] at htpos2
          rw [hFlen]
          exact ⟨t, htN2, htpos2, htocc2⟩
        rw [hrw]
        refine ⟨hFinv.noP, ?_, ?_, ?_, ?_, ?_, ?_⟩
        · intro i d hi hdp2
          obtain ⟨j, hj⟩ := hFinv.toCur i d hi hdp2
          show SecurityKernel.lookup ⟨F, sk.population - 1⟩ d.pid = some d
          unfold SecurityKernel.lookup
          rw [if_neg (by show ¬ F.length = 0; omega)]
          exact lookup_finds hwfF hj
        · show SecurityKernel.lookup ⟨F, sk.population - 1⟩ p = none
          unfold SecurityKernel.lookup
          rw [if_neg (by show ¬ F.length = 0; omega)]
          exact lookupAux_none F p hFinv.noP _ _
        · show SKOK F
          refine ⟨hFinv.uniq,
            Or.inr ⟨(σ + hfh) % sk.domains.length, ?_, ?_⟩⟩
          · show (σ + hfh) % sk.domains.length < F.length
            rw [hFlen]
            exact Nat.mod_lt _ hN
          · exact AnchoredAt_of_empty hwfF hfhole
        · show countSome F ≤ sk.population - 1
          have hcF := hFinv.cnt
          have hpos := countSome_pos hσd
          omega
        · exact hFlen
        · intro j d hj
          exact hFinv.fromDs j d hj
    · -- p absent: the probe walks through and leaves everything unchanged
      push_neg at hp
      have hab : ∀ i d, tget sk.domains i = some d → d.pid ≠ p := by
        intro i d hi
        exact hp i d hi
      rw [removeAux_miss sk.domains sk.population p hab]
      refine ⟨?_, ?_, ?_, hok, hcnt, rfl, ?_⟩
      · intro j d hj
        exact hab j d hj
      · intro i d hi hdp2
        show SecurityKernel.lookup ⟨sk.domains, sk.population⟩ d.pid = some d
        unfold SecurityKernel.lookup
        rw [if_neg (by show ¬ sk.domains.length = 0; omega)]
        exact lookup_finds hwf hi
      · show SecurityKernel.lookup ⟨sk.domains, sk.population⟩ p = none
        unfold SecurityKernel.lookup
        rw [if_neg (by show ¬ sk.domains.length = 0; omega)]
        exact lookupAux_none _ _ hab _ _
      · intro j d hj
        exact ⟨j, hj⟩

/-- A successful `insert_domain` of a fresh pid preserves the anchored
invariant — the landing slot is the new anchor — and steps the stored count
and the population counter in lockstep. -/
theorem insert_skok {sk : SecurityKernel} {d : TaskDomain} {sk2 : SecurityKernel}
    (hok : SKOK sk.domains) (hcnt : countSome sk.domains ≤ sk.population)
    (hfr : ∀ i e, tget sk.domains i = some e → e.pid ≠ d.pid)
    (h : sk.insert_domain d = .ok sk2) :
    SKOK sk2.domains ∧ countSome sk2.domains ≤ sk2.population ∧
    sk2.domains.length = sk.domains.length ∧
    (∀ j e, tget sk2.domains j = some e →
      e = d ∨ ∃ i, tget sk.domains i = some e) := by
  have hwf : SKWF sk.domains := SKOK_to_SKWF hok
  unfold SecurityKernel.insert_domain at h
  by_cases h0 : sk.domains.length = 0
  · rw [if_pos h0] at h
    exact Except.noConfusion h
  · rw [if_neg h0] at h
    have hN : 0 < sk.domains.length := by omega
    cases hins : insertAux sk.domains d (skhash sk.domains.length d.pid)
        sk.domains.length with
    | none =>
      rw [hins] at h
      exact Except.noConfusion h
    | some res =>
      rw [hins] at h
      obtain ⟨t, htN, hwalkT, hnoneT, hres⟩ := insertAux_fresh_shape sk.domains d
        hfr sk.domains.length (skhash sk.domains.length d.pid) res
        (skhash_lt hN d.pid) hins
      subst hres
      obtain rfl : sk2 = ⟨sk.domains.set
          ((skhash sk.domains.length d.pid + t) % sk.domains.length) (some d),
          sk.population + 1⟩ := (Except.ok.inj h).symm
      have hLlt : (skhash sk.domains.length d.pid + t) % sk.domains.length <
          sk.domains.length := Nat.mod_lt _ hN
      have hsub : ∀ j e, tget (sk.domains.set
          ((skhash sk.domains.length d.pid + t) % sk.domains.length) (some d)) j
          = some e →
          (j = (skhash sk.domains.length d.pid + t) % sk.domains.length ∧ e = d)
          ∨ (j ≠ (skhash sk.domains.length d.pid + t) % sk.domains.length ∧
            tget sk.domains j = some e) := by
        intro j e hj
        rcases tget_set_cases hLlt hj with ⟨hji, hx⟩ | ⟨hne, h3⟩
        · exact Or.inl ⟨hji, (Option.some.inj hx).symm⟩
        · exact Or.inr ⟨hne, h3⟩
      have hoccne : ∀ q, tget sk.domains q ≠ none →
          q ≠ (skhash sk.domains.length d.pid + t) % sk.domains.length := by
        intro q hq heq
        rw [heq] at hq
        exact hq hnoneT
      have hpres : ∀ q, tget sk.domains q ≠ none →
          tget (sk.domains.set
            ((skhash sk.domains.length d.pid + t) % sk.domains.length)
            (some d)) q = tget sk.domains q := by
        intro q hq
        rw [tget_set_ne _ (fun hh => hoccne q hq hh.symm)]
      refine ⟨⟨?_, ?_⟩, ?_, ?_, ?_⟩
      · -- distinct pids
        intro i j e1 e2 hi hj hpp
        rcases hsub i e1 hi with ⟨hiL, rfl⟩ | ⟨hiL, hiold⟩
        · rcases hsub j e2 hj with ⟨hjL, rfl⟩ | ⟨hjL, hjold⟩
          · rw [hiL, hjL]
          · exact absurd hpp.symm (hfr j e2 hjold)
        · rcases hsub j e2 hj with ⟨hjL, rfl⟩ | ⟨hjL, hjold⟩
          · exact absurd hpp (hfr i e1 hiold)
          · exact hok.oPid i j e1 e2 hiold hjold hpp
      · -- anchored at the landing slot
        refine Or.inr ⟨(skhash sk.domains.length d.pid + t) % sk.domains.length,
          ?_, ?_⟩
        · simp only [List.length_set]
          exact hLlt
        · intro j e hj
          simp only [List.length_set]
          rcases hsub j e hj with ⟨hjL, rfl⟩ | ⟨hjL, hjold⟩
          · refine ⟨t, htN, by rw [hjL], ?_, ?_⟩
            · intro u hu
              obtain ⟨e2, he2, _⟩ := hwalkT u hu
              rw [hpres _ (by rw [he2]; exact fun hh => Option.noConfusion hh)]
              rw [he2]
              exact fun hh => Option.noConfusion hh
            · intro u hu
              obtain ⟨e2, he2, _⟩ := hwalkT u hu
              exact hoccne _ (by rw [he2]; exact fun hh => Option.noConfusion hh)
          · obtain ⟨t2, ht2N, ht2pos, ht2occ⟩ := hwf.wPath j e hjold
            refine ⟨t2, ht2N, ht2pos, ?_, ?_⟩
            · intro u hu
              rw [hpres _ (ht2occ u hu)]
              exact ht2occ u hu
            · intro u hu
              exact hoccne _ (ht2occ u hu)
      · -- count against population
        have hc := countSome_set sk.domains
          ((skhash sk.domains.length d.pid + t) % sk.domains.length)
          (some d) hLlt
        rw [hnoneT] at hc
        simp at hc
        show countSome (sk.domains.set
          ((skhash sk.domains.length d.pid + t) % sk.domains.length) (some d)) ≤
          sk.population + 1
        omega
      · exact List.length_set _ _ _
      · intro j e hj
        rcases hsub j e hj with ⟨_, rfl⟩ | ⟨_, hjold⟩
        · exact Or.inl rfl
        · exact Or.inr ⟨j, hjold⟩

/-- The security-kernel component of the reachable-state invariant: anchored
well-formed table, stored count bounded by the population counter, and every
registered pid below the pid allocator. -/
structure KSec (k : Kernel) : Prop where
  sOK : SKOK k.security.domains
  sCnt : countSome k.security.domains ≤ k.security.population
  sPid : ∀ j e, tget k.security.domains j = some e → e.pid < k.next_pid

theorem KSec_congr {k k2 : Kernel} (h : KSec k)
    (hsec : k2.security = k.security) (hnp : k.next_pid ≤ k2.next_pid) :
    KSec k2 := by
  refine ⟨?_, ?_, ?_⟩
  · rw [hsec]
    exact h.sOK
  · rw [hsec]
    exact h.sCnt
  · rw [hsec]
    intro j e hj
    have := h.sPid j e hj
    omega

/-- The all-empty table of a fresh or reset security kernel is anchored. -/
theorem SKOK_replicate (n : Nat) :
    SKOK (List.replicate n (none : Option TaskDomain)) ∧
    countSome (List.replicate n (none : Option TaskDomain)) = 0 := by
  have hmem : ∀ i d, tget (List.replicate n (none : Option TaskDomain)) i =
      some d → False := by
    intro i d hi
    rw [tget_replicate_none] at hi
    exact Option.noConfusion hi
  refine ⟨⟨?_, ?_⟩, ?_⟩
  · intro i j d e hi _ _
    exact absurd hi (fun hh => hmem i d hh)
  · by_cases h0 : n = 0
    · left
      rw [List.length_replicate]
      exact h0
    · right
      refine ⟨0, ?_, ?_⟩
      · rw [List.length_replicate]
        omega
      · intro i d hi
        exact absurd hi (fun hh => hmem i d hh)
  · unfold countSome
    rw [List.countP_eq_zero]
    intro a ha
    rw [List.eq_of_mem_replicate ha]
    exact fun hh => Bool.noConfusion hh

theorem KSec_new (a b : Nat) : KSec (Kernel.new a b) := by
  obtain ⟨hok, hcnt⟩ := SKOK_replicate a
  refine ⟨hok, ?_, ?_⟩
  · show countSome (List.replicate a (none : Option TaskDomain)) ≤ 0
    omega
  · intro j e hj
    exfalso
    have hj2 : tget (List.replicate a (none : Option TaskDomain)) j = some e := hj
    rw [tget_replicate_none] at hj2
    exact Option.noConfusion hj2

theorem KSec_bootstrap (k : Kernel) : KSec k.bootstrap := by
  obtain ⟨hok, hcnt⟩ := SKOK_replicate k.security.domains.length
  have hsec : k.bootstrap.security =
      ⟨List.replicate k.security.domains.length none, 0⟩ := by
    unfold Kernel.bootstrap
    dsimp only []
    split
    · rfl
    · rfl
  refine ⟨?_, ?_, ?_⟩
  · rw [hsec]
    exact hok
  · rw [hsec]
    show countSome (List.replicate k.security.domains.length
      (none : Option TaskDomain)) ≤ 0
    omega
  · intro j e hj
    rw [hsec] at hj
    exfalso
    have hj2 : tget (List.replicate k.security.domains.length
        (none : Option TaskDomain)) j = some e := hj
    rw [tget_replicate_none] at hj2
    exact Option.noConfusion hj2

/-- `update_process_thread_count` never touches security or the pid counter. -/
theorem upd_secnp (k : Kernel) (pid : Nat) (b : Bool) :
    (k.update_process_thread_count pid b).security = k.security ∧
    (k.update_process_thread_count pid b).next_pid = k.next_pid := by
  unfold Kernel.update_process_thread_count
  cases k.locate_process pid with
  | none => exact ⟨rfl, rfl⟩
  | some i =>
    dsimp only []
    cases tget k.process_table i with
    | none => exact ⟨rfl, rfl⟩
    | some pcb => exact ⟨rfl, rfl⟩

theorem create_thread_secnp (k : Kernel) (pid ep : Nat) (pr : ProcessPriority) :
    ((k.create_thread pid ep pr).2).security = k.security ∧
    ((k.create_thread pid ep pr).2).next_pid = k.next_pid := by
  unfold Kernel.create_thread
  cases k.find_free_thread_slot with
  | none => exact ⟨rfl, rfl⟩
  | some slot =>
    dsimp only []
    obtain ⟨h1, h2⟩ := upd_secnp { k with
      next_thread := k.next_thread + 1,
      thread_table := k.thread_table.set slot (some (ThreadControlBlock.new
        k.next_thread pid ep pr)) } pid true
    exact ⟨h1, h2⟩

theorem rollback_secnp (k : Kernel) (tid : Nat) :
    (k.rollback_thread_creation tid).security = k.security ∧
    (k.rollback_thread_creation tid).next_pid = k.next_pid := by
  unfold Kernel.rollback_thread_creation
  cases k.locate_thread tid with
  | none => exact ⟨rfl, rfl⟩
  | some index =>
    dsimp only []
    cases tget k.thread_table index with
    | none => exact ⟨rfl, rfl⟩
    | some tcb =>
      obtain ⟨h1, h2⟩ := upd_secnp
        { k with thread_table := k.thread_table.set index none } tcb.process false
      exact ⟨h1, h2⟩

theorem spawn_thread_secnp (k : Kernel) (pid ep : Nat) (pr : ProcessPriority) :
    ((k.spawn_thread pid ep pr).2).security = k.security ∧
    ((k.spawn_thread pid ep pr).2).next_pid = k.next_pid := by
  unfold Kernel.spawn_thread
  cases k.locate_process pid with
  | none => exact ⟨rfl, rfl⟩
  | some i =>
    dsimp only []
    cases hct : k.create_thread pid ep pr with
    | mk r k2 =>
      obtain ⟨hs2, hn2⟩ : k2.security = k.security ∧ k2.next_pid = k.next_pid := by
        have h3 := create_thread_secnp k pid ep pr
        rw [hct] at h3
        exact h3
      cases r with
      | error e => exact ⟨hs2, hn2⟩
      | ok tid =>
        dsimp only []
        cases k2.scheduler.enqueue (ScheduledThread.new tid pid pr) with
        | error e2 =>
          obtain ⟨h1, h2⟩ := rollback_secnp k2 tid
          exact ⟨h1.trans hs2, h2.trans hn2⟩
        | ok sch => exact ⟨hs2, hn2⟩

theorem terminate_thread_secnp (k : Kernel) (tid : Nat) :
    (k.terminate_thread tid).security = k.security ∧
    (k.terminate_thread tid).next_pid = k.next_pid := by
  unfold Kernel.terminate_thread
  cases k.locate_thread tid with
  | none => exact ⟨rfl, rfl⟩
  | some index =>
    dsimp only []
    cases tget k.thread_table index with
    | none => exact ⟨rfl, rfl⟩
    | some tcb =>
      obtain ⟨h1, h2⟩ := upd_secnp { k with
        scheduler := k.scheduler.remove_thread tid,
        core_states := k.core_states.map (fun c => c.evict tid),
        thread_table := k.thread_table.set index none } tcb.process false
      exact ⟨h1, h2⟩

theorem mtrAux_np (pid : Nat) : ∀ (fuel : Nat) (k : Kernel) (idx : Nat),
    (makeThreadsReadyAux pid k idx fuel).next_pid = k.next_pid := by
  intro fuel
  induction fuel with
  | zero =>
    intro k idx
    rfl
  | succ f ih =>
    intro k idx
    unfold makeThreadsReadyAux
    cases h : tget k.thread_table idx with
    | none => exact ih _ _
    | some thread =>
      by_cases hc : thread.process = pid ∧ thread.state = .Blocked
      · simp only [hc, if_pos]
        exact ih _ _
      · simp only [hc, if_neg, if_false]
        exact ih _ _

theorem send_secnp (k : Kernel) (s r : Nat) (pl : MessagePayload) :
    ((k.send_message s r pl).2).security = k.security ∧
    ((k.send_message s r pl).2).next_pid = k.next_pid := by
  unfold Kernel.send_message Kernel.next_message_sequence
  cases k.security.authorize_ipc s r pl.security_class with
  | error e => exact ⟨rfl, rfl⟩
  | ok u =>
    dsimp only []
    cases ({ k with message_sequence := (k.message_sequence + 1) % U64MOD }
        : Kernel).locate_process r with
    | none => exact ⟨rfl, rfl⟩
    | some qi =>
      dsimp only []
      cases (lget (MessageQueue.new 0) k.ipc_queues qi).push
          ⟨s, r, k.message_sequence, pl⟩ with
      | error e2 => exact ⟨rfl, rfl⟩
      | ok q2 =>
        dsimp only []
        cases tget k.process_table qi with
        | none => exact ⟨rfl, rfl⟩
        | some pcb =>
          dsimp only []
          by_cases hb : pcb.state = ProcessState.Blocked
          · rw [if_pos hb]
            obtain ⟨h1, _, h2, _⟩ := makeThreadsReadyAux_fields r
              { k with
                message_sequence := (k.message_sequence + 1) % U64MOD,
                ipc_queues := k.ipc_queues.set qi q2,
                process_table := k.process_table.set qi
                  (some { pcb with state := ProcessState.Ready }) } 0
              ({ k with
                message_sequence := (k.message_sequence + 1) % U64MOD,
                ipc_queues := k.ipc_queues.set qi q2,
                process_table := k.process_table.set qi
                  (some { pcb with state := ProcessState.Ready })
                } : Kernel).thread_table.length
            refine ⟨?_, ?_⟩
            · exact h2
            · exact mtrAux_np r _ _ _
          · rw [if_neg hb]
            exact ⟨rfl, rfl⟩

theorem receive_secnp (k : Kernel) (pid : Nat) :
    ((k.receive_message pid).2).security = k.security ∧
    ((k.receive_message pid).2).next_pid = k.next_pid := by
  unfold Kernel.receive_message
  cases k.locate_process pid with
  | none => exact ⟨rfl, rfl⟩
  | some qi =>
    dsimp only []
    cases ((lget (MessageQueue.new 0) k.ipc_queues qi).pop).1 with
    | none => exact ⟨rfl, rfl⟩
    | some m => exact ⟨rfl, rfl⟩

theorem block_secnp (k : Kernel) (pid : Nat) :
    (k.block_for_message pid).security = k.security ∧
    (k.block_for_message pid).next_pid = k.next_pid := by
  unfold Kernel.block_for_message Kernel.block_threads_for_process
  cases k.locate_process pid with
  | none => exact ⟨rfl, rfl⟩
  | some index =>
    dsimp only []
    cases tget k.process_table index with
    | none => exact ⟨rfl, rfl⟩
    | some pcb => exact ⟨rfl, rfl⟩

theorem bringUpAux_secnp : ∀ (fuel : Nat) (k : Kernel) (idx r : Nat),
    (bringUpAux k idx r fuel).security = k.security ∧
    (bringUpAux k idx r fuel).next_pid = k.next_pid := by
  intro fuel
  induction fuel with
  | zero =>
    intro k idx r
    exact ⟨rfl, rfl⟩
  | succ f ih =>
    intro k idx r
    by_cases hr : r = 0
    · have hstep : bringUpAux k idx r (f + 1) = k := by
        conv_lhs => rw [bringUpAux]
        rw [if_pos hr]
      rw [hstep]
      exact ⟨rfl, rfl⟩
    · have hstep : bringUpAux k idx r (f + 1) =
          bringUpAux (k.set_core idx CpuCoreState.set_online) (idx + 1) (r - 1)
            f := by
        conv_lhs => rw [bringUpAux]
        rw [if_neg hr]
      rw [hstep]
      exact ih _ _ _

/-- Stepping `removeThreadsAux` past an empty thread slot. -/
theorem removeThreadsAux_step_none (pid : Nat) (k : Kernel) (idx f : Nat)
    (ht : tget k.thread_table idx = none) :
    removeThreadsAux pid k idx (f + 1) = removeThreadsAux pid k (idx + 1) f := by
  conv_lhs => rw [removeThreadsAux]
  rw [ht]

/-- Stepping `removeThreadsAux` over a thread of the doomed process. -/
theorem removeThreadsAux_step_hit (pid : Nat) (k : Kernel) (idx f : Nat)
    {th : ThreadControlBlock} (ht : tget k.thread_table idx = some th)
    (hp : th.process = pid) :
    removeThreadsAux pid k idx (f + 1) = removeThreadsAux pid { k with scheduler := k.scheduler.remove_thread th.id, core_states := k.core_states.map (fun c => c.evict th.id), thread_table := k.thread_table.set idx none } (idx + 1) f := by
  conv_lhs => rw [removeThreadsAux]
  simp only [ht]
  rw [if_pos hp]
  rfl

/-- Stepping `removeThreadsAux` over a foreign thread. -/
theorem removeThreadsAux_step_miss (pid : Nat) (k : Kernel) (idx f : Nat)
    {th : ThreadControlBlock} (ht : tget k.thread_table idx = some th)
    (hp : ¬ th.process = pid) :
    removeThreadsAux pid k idx (f + 1) = removeThreadsAux pid k (idx + 1) f := by
  conv_lhs => rw [removeThreadsAux]
  simp only [ht]
  rw [if_neg hp]

/-- The thread-removal sweep leaves the process table, security table and IPC
queues alone, keeps the thread table length, and only ever drops scheduler
entries. -/
theorem removeThreadsAux_fields (pid : Nat) :
    ∀ (fuel : Nat) (k : Kernel) (idx : Nat),
    (removeThreadsAux pid k idx fuel).process_table = k.process_table ∧
    (removeThreadsAux pid k idx fuel).security = k.security ∧
    (removeThreadsAux pid k idx fuel).ipc_queues = k.ipc_queues ∧
    (removeThreadsAux pid k idx fuel).thread_table.length = k.thread_table.length ∧
    (∀ j e, tget (removeThreadsAux pid k idx fuel).scheduler.queue j = some e →
      tget k.scheduler.queue j = some e) := by
  intro fuel
  induction fuel with
  | zero =>
    intro k idx
    exact ⟨rfl, rfl, rfl, rfl, fun j e h => h⟩
  | succ f ih =>
    intro k idx
    cases ht : tget k.thread_table idx with
    | none =>
      rw [removeThreadsAux_step_none pid k idx f ht]
      exact ih k (idx + 1)
    | some th =>
      by_cases hp : th.process = pid
      · rw [removeThreadsAux_step_hit pid k idx f ht hp]
        obtain ⟨h1, h2, h3, h4, h5⟩ := ih { k with scheduler := k.scheduler.remove_thread th.id, core_states := k.core_states.map (fun c => c.evict th.id), thread_table := k.thread_table.set idx none } (idx + 1)
        refine ⟨h1, h2, h3, ?_, ?_⟩
        · rw [h4]
          show (k.thread_table.set idx none).length = _
          rw [List.length_set]
        · intro j e hj
          have h6 := h5 j e hj
          have h7 : tget (schedRemoveAux (fun x => x.thread == th.id)
              k.scheduler.queue k.scheduler.len 0 k.scheduler.queue.length).1 j =
              some e := h6
          exact schedRemoveAux_sub _ _ _ _ _ h7
      · rw [removeThreadsAux_step_miss pid k idx f ht hp]
        exact ih k (idx + 1)


theorem removeThreadsAux_np (pid : Nat) : ∀ (fuel : Nat) (k : Kernel) (idx : Nat),
    (removeThreadsAux pid k idx fuel).next_pid = k.next_pid := by
  intro fuel
  induction fuel with
  | zero =>
    intro k idx
    rfl
  | succ f ih =>
    intro k idx
    cases ht : tget k.thread_table idx with
    | none =>
      rw [removeThreadsAux_step_none pid k idx f ht]
      exact ih k (idx + 1)
    | some th =>
      by_cases hp : th.process = pid
      · rw [removeThreadsAux_step_hit pid k idx f ht hp]
        exact ih _ (idx + 1)
      · rw [removeThreadsAux_step_miss pid k idx f ht hp]
        exact ih k (idx + 1)

/-- `terminate_process` is a no-op or replaces security by `remove pid`. -/
theorem terminate_sec_cases (k : Kernel) (pid : Nat) :
    k.terminate_process pid = k ∨
    ((k.terminate_process pid).security = k.security.remove pid ∧
      (k.terminate_process pid).next_pid = k.next_pid) := by
  cases hl : k.locate_process pid with
  | none =>
    left
    unfold Kernel.terminate_process
    rw [hl]
  | some index =>
    right
    have hshape : k.terminate_process pid = { removeThreadsAux pid
        ({ k with
          process_table := k.process_table.set index none,
          ipc_queues := k.ipc_queues.set index
            ((lget (MessageQueue.new 0) k.ipc_queues index).clear),
          scheduler := k.scheduler.remove_process pid })
        0 k.thread_table.length with
      security := (removeThreadsAux pid
        ({ k with
          process_table := k.process_table.set index none,
          ipc_queues := k.ipc_queues.set index
            ((lget (MessageQueue.new 0) k.ipc_queues index).clear),
          scheduler := k.scheduler.remove_process pid })
        0 k.thread_table.length).security.revoke_task pid } := by
      unfold Kernel.terminate_process
      rw [hl]
      rfl
    obtain ⟨_, hsec, _, _, _⟩ := removeThreadsAux_fields pid
      k.thread_table.length ({ k with
        process_table := k.process_table.set index none,
        ipc_queues := k.ipc_queues.set index
          ((lget (MessageQueue.new 0) k.ipc_queues index).clear),
        scheduler := k.scheduler.remove_process pid }) 0
    have hnp := removeThreadsAux_np pid k.thread_table.length ({ k with
        process_table := k.process_table.set index none,
        ipc_queues := k.ipc_queues.set index
          ((lget (MessageQueue.new 0) k.ipc_queues index).clear),
        scheduler := k.scheduler.remove_process pid }) 0
    rw [hshape]
    exact ⟨congrArg (fun s2 => SecurityKernel.remove s2 pid) hsec, hnp⟩

theorem KSec_terminate_process {k : Kernel} (h : KSec k) (pid : Nat) :
    KSec (k.terminate_process pid) := by
  rcases terminate_sec_cases k pid with heq | ⟨hsec, hnp⟩
  · rw [heq]
    exact h
  · obtain ⟨_, _, _, hok2, hcnt2, _, hsub⟩ :=
      remove_spec2 k.security pid h.sOK h.sCnt
    refine ⟨?_, ?_, ?_⟩
    · rw [hsec]
      exact hok2
    · rw [hsec]
      exact hcnt2
    · intro j e hj
      rw [hsec] at hj
      obtain ⟨i, hi⟩ := hsub j e hj
      rw [hnp]
      exact h.sPid i e hi

theorem KSec_terminate_thread {k : Kernel} (h : KSec k) (tid : Nat) :
    KSec (k.terminate_thread tid) := by
  obtain ⟨h1, h2⟩ := terminate_thread_secnp k tid
  exact KSec_congr h h1 (by omega)

theorem KSec_spawn_thread {k : Kernel} (h : KSec k) (pid ep : Nat)
    (pr : ProcessPriority) : KSec (k.spawn_thread pid ep pr).2 := by
  obtain ⟨h1, h2⟩ := spawn_thread_secnp k pid ep pr
  exact KSec_congr h h1 (by omega)

theorem KSec_send {k : Kernel} (h : KSec k) (s r : Nat) (pl : MessagePayload) :
    KSec (k.send_message s r pl).2 := by
  obtain ⟨h1, h2⟩ := send_secnp k s r pl
  exact KSec_congr h h1 (by omega)

theorem KSec_receive {k : Kernel} (h : KSec k) (pid : Nat) :
    KSec (k.receive_message pid).2 := by
  obtain ⟨h1, h2⟩ := receive_secnp k pid
  exact KSec_congr h h1 (by omega)

theorem KSec_block_for_message {k : Kernel} (h : KSec k) (pid : Nat) :
    KSec (k.block_for_message pid) := by
  obtain ⟨h1, h2⟩ := block_secnp k pid
  exact KSec_congr h h1 (by omega)

theorem KSec_bring_up {k : Kernel} (h : KSec k) (c : Nat) :
    KSec (k.bring_up_secondary_cores c) := by
  obtain ⟨h1, h2⟩ := bringUpAux_secnp (k.core_states.length - 1) k 1 c
  exact KSec_congr h h1 (Nat.le_of_eq h2.symm)

/-- The bookkeeping tail of `run_core` (state updates, core finish, requeue)
touches neither the security kernel nor the pid counter. -/
theorem run_tail_secnp (k2 : Kernel) (process_index thread_index ci : Nat)
    (scheduled : ScheduledThread) :
    (fun kk : Kernel => kk.security = k2.security ∧ kk.next_pid = k2.next_pid)
      (let kA := match tget k2.process_table process_index with
        | some pcb => { k2 with process_table := k2.process_table.set process_index (some { pcb with state := ProcessState.Running, cpu_time := pcb.cpu_time + 1 }) }
        | none => k2;
      let kB := match tget kA.thread_table thread_index with
        | some thread => { kA with thread_table := kA.thread_table.set thread_index (some thread.mark_ready) }
        | none => kA;
      let kC := match tget kB.process_table process_index with
        | some pcb => { kB with process_table := kB.process_table.set process_index (some { pcb with state := ProcessState.Ready }) }
        | none => kB;
      let kD := Kernel.set_core kC ci CpuCoreState.finish_cycle;
      { kD with scheduler := kD.scheduler.enqueueD (if (scheduled.consume_time_slice).1 = true then (scheduled.consume_time_slice).2.reset_time_slice else (scheduled.consume_time_slice).2) }) := by
  have main : ∀ (kC : Kernel), kC.security = k2.security → kC.next_pid = k2.next_pid →
      ({ Kernel.set_core kC ci CpuCoreState.finish_cycle with scheduler := (Kernel.set_core kC ci CpuCoreState.finish_cycle).scheduler.enqueueD (if (scheduled.consume_time_slice).1 = true then (scheduled.consume_time_slice).2.reset_time_slice else (scheduled.consume_time_slice).2) } : Kernel).security = k2.security ∧ ({ Kernel.set_core kC ci CpuCoreState.finish_cycle with scheduler := (Kernel.set_core kC ci CpuCoreState.finish_cycle).scheduler.enqueueD (if (scheduled.consume_time_slice).1 = true then (scheduled.consume_time_slice).2.reset_time_slice else (scheduled.consume_time_slice).2) } : Kernel).next_pid = k2.next_pid := by
    intro kC h1 h2
    exact ⟨h1, h2⟩
  dsimp only []
  cases hA : tget k2.process_table process_index with
  | none =>
    dsimp only []
    cases hB : tget k2.thread_table thread_index with
    | none =>
      dsimp only []
      cases hC : tget k2.process_table process_index with
      | none =>
        dsimp only []
        exact main k2 rfl rfl
      | some pcb =>
        dsimp only []
        exact main _ rfl rfl
    | some thread =>
      dsimp only []
      cases hC : tget k2.process_table process_index with
      | none =>
        dsimp only []
        exact main _ rfl rfl
      | some pcb =>
        dsimp only []
        exact main _ rfl rfl
  | some pcb =>
    dsimp only []
    cases hB : tget k2.thread_table thread_index with
    | none =>
      dsimp only []
      cases hC : tget (k2.process_table.set process_index (some { pcb with state := ProcessState.Running, cpu_time := pcb.cpu_time + 1 })) process_index with
      | none =>
        dsimp only []
        exact main _ rfl rfl
      | some pcb2 =>
        dsimp only []
        exact main _ rfl rfl
    | some thread =>
      dsimp only []
      cases hC : tget (k2.process_table.set process_index (some { pcb with state := ProcessState.Running, cpu_time := pcb.cpu_time + 1 })) process_index with
      | none =>
        dsimp only []
        exact main _ rfl rfl
      | some pcb2 =>
        dsimp only []
        exact main _ rfl rfl

/-- `run_core` preserves the security invariant: ordinary scheduling leaves the
security kernel and the pid counter alone, and an isolation fault terminates
the offending process, which is covered by `KSec_terminate_process`. -/
theorem KSec_run_core {k : Kernel} (h : KSec k) (ci : Nat) : KSec (k.run_core ci) := by
  unfold Kernel.run_core
  dsimp only []
  cases hnx : k.scheduler.next.1 with
  | none =>
    dsimp only []
    exact KSec_congr h rfl (le_refl _)
  | some scheduled =>
    dsimp only []
    cases hlt : Kernel.locate_thread ({ k with scheduler := k.scheduler.next.2 } : Kernel) scheduled.thread with
    | none =>
      dsimp only []
      exact KSec_congr h rfl (le_refl _)
    | some thread_index =>
      dsimp only []
      cases hlp : Kernel.locate_process ({ k with scheduler := k.scheduler.next.2 } : Kernel) scheduled.process with
      | none =>
        dsimp only []
        exact KSec_congr h rfl (le_refl _)
      | some process_index =>
        dsimp only []
        cases hiso : SecurityKernel.enforce_isolation k.security scheduled.process with
        | error e =>
          dsimp only []
          have hK1 : KSec ({ k with scheduler := k.scheduler.next.2 } : Kernel) :=
            KSec_congr h rfl (le_refl _)
          exact KSec_terminate_process hK1 scheduled.process
        | ok u =>
          dsimp only []
          cases htk : tget (Kernel.set_core ({ k with scheduler := k.scheduler.next.2 } : Kernel) ci (fun c => c.start_thread scheduled.thread)).thread_table thread_index with
          | none =>
            dsimp only []
            obtain ⟨h1, h2⟩ := run_tail_secnp (Kernel.set_core ({ k with scheduler := k.scheduler.next.2 } : Kernel) ci (fun c => c.start_thread scheduled.thread)) process_index thread_index ci scheduled
            exact KSec_congr h (h1.trans rfl) (le_of_eq ((h2.trans rfl).symm))
          | some thread =>
            dsimp only []
            by_cases hterm : thread.state = ThreadState.Terminated
            · rw [if_pos hterm]
              dsimp only []
              obtain ⟨h1, h2⟩ := upd_secnp ({ Kernel.set_core ({ k with scheduler := k.scheduler.next.2 } : Kernel) ci (fun c => c.start_thread scheduled.thread) with thread_table := (Kernel.set_core ({ k with scheduler := k.scheduler.next.2 } : Kernel) ci (fun c => c.start_thread scheduled.thread)).thread_table.set thread_index none } : Kernel) scheduled.process false
              exact KSec_congr h (h1.trans rfl) (le_of_eq ((h2.trans rfl).symm))
            · rw [if_neg hterm]
              dsimp only []
              obtain ⟨h1, h2⟩ := run_tail_secnp ({ Kernel.set_core ({ k with scheduler := k.scheduler.next.2 } : Kernel) ci (fun c => c.start_thread scheduled.thread) with thread_table := (Kernel.set_core ({ k with scheduler := k.scheduler.next.2 } : Kernel) ci (fun c => c.start_thread scheduled.thread)).thread_table.set thread_index (some (thread.mark_running.accumulate_cpu_time 1)) } : Kernel) process_index thread_index ci scheduled
              exact KSec_congr h (h1.trans rfl) (le_of_eq ((h2.trans rfl).symm))

/-- The fuelled core loop of `tick` preserves the security invariant. -/
theorem KSec_tickAux : ∀ (fuel : Nat) (k : Kernel) (idx : Nat), KSec k →
    KSec (tickAux k idx fuel) := by
  intro fuel
  induction fuel with
  | zero =>
    intro k idx h
    exact h
  | succ f ih =>
    intro k idx h
    show KSec (tickAux (if (lget CpuCoreState.new k.core_states idx).online = true then k.run_core idx else k) (idx + 1) f)
    by_cases ho : (lget CpuCoreState.new k.core_states idx).online = true
    · rw [if_pos ho]
      exact ih _ _ (KSec_run_core h idx)
    · rw [if_neg ho]
      exact ih _ _ h

/-- `tick` preserves the security invariant. -/
theorem KSec_tick {k : Kernel} (h : KSec k) : KSec k.tick :=
  KSec_tickAux k.core_states.length k 0 h

/-- After the sweep, no surviving thread control block belongs to the process. -/
theorem removeThreadsAux_clears (pid : Nat) :
    ∀ (fuel : Nat) (k : Kernel) (idx : Nat),
    k.thread_table.length ≤ idx + fuel →
    (∀ j t, j < idx → tget k.thread_table j = some t → t.process ≠ pid) →
    ∀ j t, tget (removeThreadsAux pid k idx fuel).thread_table j = some t →
      t.process ≠ pid := by
  intro fuel
  induction fuel with
  | zero =>
    intro k idx hcov hclean j t hj
    have hjlen : j < k.thread_table.length := tget_some_lt_length hj
    exact hclean j t (by omega) hj
  | succ f ih =>
    intro k idx hcov hclean
    cases ht : tget k.thread_table idx with
    | none =>
      rw [removeThreadsAux_step_none pid k idx f ht]
      refine ih k (idx + 1) (by omega) ?_
      intro j t hji hjt
      rcases Nat.lt_or_ge j idx with hlt | hge
      · exact hclean j t hlt hjt
      · have hji2 : j = idx := by omega
        rw [hji2, ht] at hjt
        exact Option.noConfusion hjt
    | some th =>
      by_cases hp : th.process = pid
      · rw [removeThreadsAux_step_hit pid k idx f ht hp]
        refine ih _ (idx + 1) ?_ ?_
        · show (k.thread_table.set idx none).length ≤ idx + 1 + f
          rw [List.length_set]
          omega
        · intro j t hji hjt
          have hjt2 : tget (k.thread_table.set idx none) j = some t := hjt
          rcases Nat.lt_or_ge j idx with hlt | hge
          · rw [tget_set_ne none (fun hh => by omega)] at hjt2
            exact hclean j t hlt hjt2
          · have hji2 : j = idx := by omega
            rw [hji2] at hjt2
            rw [tget_set_self none (tget_some_lt_length ht)] at hjt2
            exact Option.noConfusion hjt2
      · rw [removeThreadsAux_step_miss pid k idx f ht hp]
        refine ih k (idx + 1) (by omega) ?_
        intro j t hji hjt
        rcases Nat.lt_or_ge j idx with hlt | hge
        · exact hclean j t hlt hjt
        · have hji2 : j = idx := by omega
          rw [hji2, ht] at hjt
          have hth : th = t := Option.some.inj hjt
          rw [← hth]
          exact hp

/-- Executable well-formedness check for a security table: distinct pids and,
for every stored domain, a fully occupied probe walk from its hash home to its
slot. -/
def skwfCheck (ds : List (Option TaskDomain)) : Bool :=
  (List.range ds.length).all (fun i =>
    match tget ds i with
    | none => true
    | some d =>
      ((List.range ds.length).all (fun j =>
        match tget ds j with
        | none => true
        | some e => decide (d.pid = e.pid → i = j))) &&
      ((List.range ds.length).any (fun t =>
        decide ((skhash ds.length d.pid + t) % ds.length = i) &&
        ((List.range t).all (fun u =>
          (tget ds ((skhash ds.length d.pid + u) % ds.length)).isSome)))))

/-- The executable check implies the propositional well-formedness. -/
theorem SKWF_of_check {ds : List (Option TaskDomain)} (h : skwfCheck ds = true) :
    SKWF ds := by
  unfold skwfCheck at h
  rw [List.all_eq_true] at h
  constructor
  · intro i j d e hd he hpp
    have hiN : i < ds.length := tget_some_lt_length hd
    have hi := h i (List.mem_range.mpr hiN)
    simp only [hd] at hi
    rw [Bool.and_eq_true] at hi
    obtain ⟨hi1, _⟩ := hi
    rw [List.all_eq_true] at hi1
    have hjN : j < ds.length := tget_some_lt_length he
    have hij := hi1 j (List.mem_range.mpr hjN)
    simp only [he] at hij
    exact of_decide_eq_true hij hpp
  · intro i d hd
    have hiN : i < ds.length := tget_some_lt_length hd
    have hi := h i (List.mem_range.mpr hiN)
    simp only [hd] at hi
    rw [Bool.and_eq_true] at hi
    obtain ⟨_, hi2⟩ := hi
    rw [List.any_eq_true] at hi2
    obtain ⟨t, htmem, hts⟩ := hi2
    rw [Bool.and_eq_true] at hts
    obtain ⟨hts1, hts2⟩ := hts
    refine ⟨t, List.mem_range.mp htmem, of_decide_eq_true hts1, ?_⟩
    intro u hu
    rw [List.all_eq_true] at hts2
    have h2 := hts2 u (List.mem_range.mpr hu)
    intro hnone
    rw [hnone] at h2
    simp at h2

def c2k : Kernel := { Kernel.new 2 4 with process_table := [some (ProcessControlBlock.new 1 0 .Normal none), none], thread_table := [some (ThreadControlBlock.new 1 1 0 .Normal), some (ThreadControlBlock.new 2 4 0 .Normal), none], scheduler := ⟨[some (ScheduledThread.new 1 1 .Normal), some (ScheduledThread.new 2 4 .Normal), none], 0, 2, 2⟩, security := ⟨[none, some (TaskDomain.from_credentials 1 Credentials.user), some (TaskDomain.from_credentials 4 Credentials.user)], 2⟩ }

/-- After `terminate_process(p)` on a kernel whose security table is anchored
and duplicate-free, whose stored-domain count is bounded by the population
counter, and in which `p` occupies a process-table slot: the security kernel's
lookup of `p` returns `none` (surfaced as `UnknownTask`), no scheduler queue
entry has process `p`, no live thread control block has process `p`, and -
across the back-shift rehash, including on a saturated table - every other
registered domain is still found by lookup, unchanged. -/
theorem terminate_process_secure (k : Kernel) (p pidx : Nat)
    (hok : SKOK k.security.domains)
    (hcnt : countSome k.security.domains ≤ k.security.population)
    (hloc : k.locate_process p = some pidx) :
    (k.terminate_process p).security.lookup p = none ∧
    (∀ j e, tget (k.terminate_process p).scheduler.queue j = some e →
      e.process ≠ p) ∧
    (∀ j t, tget (k.terminate_process p).thread_table j = some t →
      t.process ≠ p) ∧
    (∀ i d, tget k.security.domains i = some d → d.pid ≠ p →
      (k.terminate_process p).security.lookup d.pid = some d) := by
  have hshape : k.terminate_process p = { removeThreadsAux p ({ k with process_table := k.process_table.set pidx none, ipc_queues := k.ipc_queues.set pidx ((lget (MessageQueue.new 0) k.ipc_queues pidx).clear), scheduler := k.scheduler.remove_process p }) 0 k.thread_table.length with security := (removeThreadsAux p ({ k with process_table := k.process_table.set pidx none, ipc_queues := k.ipc_queues.set pidx ((lget (MessageQueue.new 0) k.ipc_queues pidx).clear), scheduler := k.scheduler.remove_process p }) 0 k.thread_table.length).security.revoke_task p } := by
    unfold Kernel.terminate_process
    rw [hloc]
    rfl
  obtain ⟨hpt, hsec, hipc, hlen, hsched⟩ := removeThreadsAux_fields p
    k.thread_table.length ({ k with process_table := k.process_table.set pidx none, ipc_queues := k.ipc_queues.set pidx ((lget (MessageQueue.new 0) k.ipc_queues pidx).clear), scheduler := k.scheduler.remove_process p }) 0
  have hRsec : (removeThreadsAux p ({ k with process_table := k.process_table.set pidx none, ipc_queues := k.ipc_queues.set pidx ((lget (MessageQueue.new 0) k.ipc_queues pidx).clear), scheduler := k.scheduler.remove_process p }) 0 k.thread_table.length).security = k.security := hsec
  obtain ⟨hrm1, hrm2, hrm3, _, _, _, _⟩ := remove_spec2 k.security p hok hcnt
  refine ⟨?_, ?_, ?_, ?_⟩
  · rw [hshape]
    show ((removeThreadsAux p ({ k with process_table := k.process_table.set pidx none, ipc_queues := k.ipc_queues.set pidx ((lget (MessageQueue.new 0) k.ipc_queues pidx).clear), scheduler := k.scheduler.remove_process p }) 0 k.thread_table.length).security.revoke_task p).lookup p = none
    rw [hRsec]
    exact hrm3
  · intro j e hj
    rw [hshape] at hj
    have hj2 : tget (removeThreadsAux p ({ k with process_table := k.process_table.set pidx none, ipc_queues := k.ipc_queues.set pidx ((lget (MessageQueue.new 0) k.ipc_queues pidx).clear), scheduler := k.scheduler.remove_process p }) 0 k.thread_table.length).scheduler.queue j = some e := hj
    have hj3 := hsched j e hj2
    have hj4 : tget (k.scheduler.remove_process p).queue j = some e := hj3
    exact remove_process_clears _ p hj4
  · intro j t hj
    rw [hshape] at hj
    have hj2 : tget (removeThreadsAux p ({ k with process_table := k.process_table.set pidx none, ipc_queues := k.ipc_queues.set pidx ((lget (MessageQueue.new 0) k.ipc_queues pidx).clear), scheduler := k.scheduler.remove_process p }) 0 k.thread_table.length).thread_table j = some t := hj
    refine removeThreadsAux_clears p k.thread_table.length _ 0 ?_ ?_ j t hj2
    · show k.thread_table.length ≤ 0 + k.thread_table.length
      omega
    · intro j2 t2 hlt _
      exact absurd hlt (Nat.not_lt_zero j2)
  · intro i d hi hdp
    rw [hshape]
    show ((removeThreadsAux p ({ k with process_table := k.process_table.set pidx none, ipc_queues := k.ipc_queues.set pidx ((lget (MessageQueue.new 0) k.ipc_queues pidx).clear), scheduler := k.scheduler.remove_process p }) 0 k.thread_table.length).security.revoke_task p).lookup d.pid = some d
    rw [hRsec]
    exact hrm2 i d hi hdp

/-! ## Claim C7: the thread-count invariant -/

/-- Weight of one thread-table slot towards process `q`. -/
def cnt1 (o : Option ThreadControlBlock) (q : Nat) : Nat :=
  match o with
  | some t => if t.process = q then 1 else 0
  | none => 0

/-- Number of live TCBs of process `q`. -/
def countTcb : List (Option ThreadControlBlock) → Nat → Nat
  | [], _ => 0
  | o :: rest, q => countTcb rest q + cnt1 o q

/-- Sum of the `thread_count` fields over the live PCBs. -/
def sumTC : List (Option ProcessControlBlock) → Nat
  | [] => 0
  | o :: rest => (match o with | some p => p.thread_count | none => 0) + sumTC rest

/-- Thread table with process `q`'s TCBs masked out. -/
def maskTcb (tt : List (Option ThreadControlBlock)) (q : Nat) :
    List (Option ThreadControlBlock) :=
  tt.map (fun o => match o with
    | some t => if t.process = q then none else some t
    | none => none)

theorem cnt1_some_eq {t : ThreadControlBlock} {q : Nat} (h : t.process = q) :
    cnt1 (some t) q = 1 := by
  show (if t.process = q then 1 else 0) = 1
  rw [if_pos h]

theorem cnt1_some_ne {t : ThreadControlBlock} {q : Nat} (h : ¬ t.process = q) :
    cnt1 (some t) q = 0 := by
  show (if t.process = q then 1 else 0) = 0
  rw [if_neg h]

theorem countSome_cons {α : Type} (o : Option α) (l : List (Option α)) :
    countSome (o :: l) = countSome l + (if o.isSome then 1 else 0) := by
  unfold countSome
  rw [List.countP_cons]

theorem countTcb_zero {tt : List (Option ThreadControlBlock)} {q : Nat}
    (h : ∀ j t, tget tt j = some t → t.process ≠ q) : countTcb tt q = 0 := by
  induction tt with
  | nil => rfl
  | cons o rest ih =>
    have hrest : countTcb rest q = 0 :=
      ih (fun j t hj => h (j + 1) t (by rw [tget_cons_succ]; exact hj))
    show countTcb rest q + cnt1 o q = 0
    cases o with
    | none => rw [hrest]; rfl
    | some t =>
      rw [hrest, cnt1_some_ne (h 0 t (tget_cons_zero _ _))]

theorem countTcb_pos {tt : List (Option ThreadControlBlock)} {q j : Nat}
    {t : ThreadControlBlock} (hj : tget tt j = some t) (hp : t.process = q) :
    1 ≤ countTcb tt q := by
  induction tt generalizing j with
  | nil => rw [tget_nil] at hj; exact Option.noConfusion hj
  | cons o rest ih =>
    show 1 ≤ countTcb rest q + cnt1 o q
    cases j with
    | zero =>
      rw [tget_cons_zero] at hj
      rw [hj, cnt1_some_eq hp]
      omega
    | succ m =>
      rw [tget_cons_succ] at hj
      have := ih hj
      omega

theorem countTcb_set (tt : List (Option ThreadControlBlock)) (i : Nat)
    (x : Option ThreadControlBlock) (q : Nat) (hi : i < tt.length) :
    countTcb (tt.set i x) q + cnt1 (tget tt i) q = countTcb tt q + cnt1 x q := by
  induction tt generalizing i with
  | nil => simp at hi
  | cons o rest ih =>
    cases i with
    | zero =>
      show countTcb rest q + cnt1 x q + cnt1 (tget (o :: rest) 0) q =
        countTcb rest q + cnt1 o q + cnt1 x q
      rw [tget_cons_zero]
      omega
    | succ m =>
      show countTcb (rest.set m x) q + cnt1 o q + cnt1 (tget (o :: rest) (m + 1)) q =
        countTcb rest q + cnt1 o q + cnt1 x q
      rw [tget_cons_succ]
      have := ih m (by simpa using hi)
      omega

theorem maskTcb_count (tt : List (Option ThreadControlBlock)) (q : Nat) :
    countSome tt = countSome (maskTcb tt q) + countTcb tt q := by
  induction tt with
  | nil => rfl
  | cons o rest ih =>
    cases o with
    | none =>
      have hm : maskTcb (none :: rest) q = none :: maskTcb rest q := rfl
      rw [hm, countSome_cons, countSome_cons]
      show countSome rest + 0 = countSome (maskTcb rest q) + 0 + (countTcb rest q + 0)
      omega
    | some t =>
      by_cases hp : t.process = q
      · have hm : maskTcb (some t :: rest) q = none :: maskTcb rest q := by
          show (if t.process = q then none else some t) :: maskTcb rest q =
            none :: maskTcb rest q
          rw [if_pos hp]
        rw [hm, countSome_cons, countSome_cons]
        show countSome rest + 1 = countSome (maskTcb rest q) + 0 +
          (countTcb rest q + cnt1 (some t) q)
        rw [cnt1_some_eq hp]
        omega
      · have hm : maskTcb (some t :: rest) q = some t :: maskTcb rest q := by
          show (if t.process = q then none else some t) :: maskTcb rest q =
            some t :: maskTcb rest q
          rw [if_neg hp]
        rw [hm, countSome_cons, countSome_cons]
        show countSome rest + 1 = countSome (maskTcb rest q) + 1 +
          (countTcb rest q + cnt1 (some t) q)
        rw [cnt1_some_ne hp]
        omega

theorem maskTcb_countTcb_ne (tt : List (Option ThreadControlBlock)) {q q2 : Nat}
    (h : q2 ≠ q) : countTcb (maskTcb tt q) q2 = countTcb tt q2 := by
  induction tt with
  | nil => rfl
  | cons o rest ih =>
    cases o with
    | none =>
      have hm : maskTcb (none :: rest) q = none :: maskTcb rest q := rfl
      rw [hm]
      show countTcb (maskTcb rest q) q2 + 0 = countTcb rest q2 + 0
      rw [ih]
    | some t =>
      by_cases hp : t.process = q
      · have hm : maskTcb (some t :: rest) q = none :: maskTcb rest q := by
          show (if t.process = q then none else some t) :: maskTcb rest q =
            none :: maskTcb rest q
          rw [if_pos hp]
        rw [hm]
        show countTcb (maskTcb rest q) q2 + 0 = countTcb rest q2 + cnt1 (some t) q2
        rw [ih, cnt1_some_ne (by rw [hp]; exact fun hh => h hh.symm)]
      · have hm : maskTcb (some t :: rest) q = some t :: maskTcb rest q := by
          show (if t.process = q then none else some t) :: maskTcb rest q =
            some t :: maskTcb rest q
          rw [if_neg hp]
        rw [hm]
        show countTcb (maskTcb rest q) q2 + cnt1 (some t) q2 =
          countTcb rest q2 + cnt1 (some t) q2
        rw [ih]

theorem maskTcb_tget {tt : List (Option ThreadControlBlock)} {q j : Nat}
    {t : ThreadControlBlock} (h : tget (maskTcb tt q) j = some t) :
    tget tt j = some t ∧ t.process ≠ q := by
  unfold maskTcb at h
  rw [tget_map _ _ _ rfl] at h
  cases ho : tget tt j with
  | none => rw [ho] at h; exact Option.noConfusion h
  | some t2 =>
    rw [ho] at h
    have h2 : (if t2.process = q then none else some t2) = some t := h
    by_cases hp : t2.process = q
    · rw [if_pos hp] at h2
      exact Option.noConfusion h2
    · rw [if_neg hp] at h2
      have := Option.some.inj h2
      subst this
      exact ⟨rfl, hp⟩

theorem countSome_zero_of {α : Type} {l : List (Option α)}
    (h : ∀ j t, tget l j = some t → False) : countSome l = 0 := by
  induction l with
  | nil => rfl
  | cons o rest ih =>
    rw [countSome_cons]
    have hrest := ih (fun j t hj => h (j + 1) t (by rw [tget_cons_succ]; exact hj))
    cases o with
    | none => rw [hrest]; rfl
    | some t => exact absurd (tget_cons_zero (some t) rest) (fun hh => h 0 t hh)

/-- Aggregation: distinct-pid PCBs whose counts match their per-pid TCB
population, covering every live TCB, sum to the live-TCB total. -/
theorem sumTC_eq : ∀ (pt : List (Option ProcessControlBlock))
    (tt : List (Option ThreadControlBlock)),
    (∀ i j pi pj, tget pt i = some pi → tget pt j = some pj → pi.pid = pj.pid → i = j) →
    (∀ j t, tget tt j = some t → ∃ i pcb, tget pt i = some pcb ∧ pcb.pid = t.process) →
    (∀ i pcb, tget pt i = some pcb → pcb.thread_count = countTcb tt pcb.pid) →
    sumTC pt = countSome tt := by
  intro pt
  induction pt with
  | nil =>
    intro tt _ h2 _
    have hz : countSome tt = 0 := countSome_zero_of (fun j t hj => by
      obtain ⟨i, pcb, hi, _⟩ := h2 j t hj
      rw [tget_nil] at hi
      exact Option.noConfusion hi)
    rw [hz]
    rfl
  | cons o rest ih =>
    intro tt h1 h2 h3
    cases o with
    | none =>
      show 0 + sumTC rest = countSome tt
      rw [Nat.zero_add]
      refine ih tt ?_ ?_ ?_
      · intro i j pi pj hi hj hpp
        have := h1 (i + 1) (j + 1) pi pj (by rw [tget_cons_succ]; exact hi)
          (by rw [tget_cons_succ]; exact hj) hpp
        omega
      · intro j t hj
        obtain ⟨i, pcb, hi, hpid⟩ := h2 j t hj
        cases i with
        | zero =>
          rw [tget_cons_zero] at hi
          exact Option.noConfusion hi
        | succ m =>
          rw [tget_cons_succ] at hi
          exact ⟨m, pcb, hi, hpid⟩
      · intro i pcb hi
        exact h3 (i + 1) pcb (by rw [tget_cons_succ]; exact hi)
    | some p =>
      show p.thread_count + sumTC rest = countSome tt
      have hp0 : tget (some p :: rest) 0 = some p := tget_cons_zero _ _
      have hcnt := h3 0 p hp0
      have hmask := maskTcb_count tt p.pid
      have hih : sumTC rest = countSome (maskTcb tt p.pid) := by
        refine ih (maskTcb tt p.pid) ?_ ?_ ?_
        · intro i j pi pj hi hj hpp
          have := h1 (i + 1) (j + 1) pi pj (by rw [tget_cons_succ]; exact hi)
            (by rw [tget_cons_succ]; exact hj) hpp
          omega
        · intro j t hj
          obtain ⟨hjt, hjne⟩ := maskTcb_tget hj
          obtain ⟨i, pcb, hi, hpid⟩ := h2 j t hjt
          cases i with
          | zero =>
            rw [tget_cons_zero] at hi
            have hpe : p = pcb := Option.some.inj hi
            exact absurd (hpid.symm.trans (congrArg ProcessControlBlock.pid hpe.symm))
              hjne
          | succ m =>
            rw [tget_cons_succ] at hi
            exact ⟨m, pcb, hi, hpid⟩
        · intro i pcb hi
          have hi1 : tget (some p :: rest) (i + 1) = some pcb := by
            rw [tget_cons_succ]; exact hi
          have hne : pcb.pid ≠ p.pid := fun hh => by
            have := h1 (i + 1) 0 pcb p hi1 hp0 hh
            omega
          rw [h3 (i + 1) pcb hi1]
          exact (maskTcb_countTcb_ne tt hne).symm
      omega

/-- Invariant bundle of reachable kernels: distinct pids and thread ids,
counter freshness, scheduler entries naming fresh threads consistently with the
thread table, every TCB backed by a PCB, and per-PCB thread counts matching the
thread table. -/
structure KInv (k : Kernel) : Prop where
  pidD : ∀ i j pi pj, tget k.process_table i = some pi →
    tget k.process_table j = some pj → pi.pid = pj.pid → i = j
  tidD : ∀ i j ti tj, tget k.thread_table i = some ti →
    tget k.thread_table j = some tj → ti.id = tj.id → i = j
  pidF : ∀ i pcb, tget k.process_table i = some pcb → pcb.pid < k.next_pid
  tidF : ∀ i t, tget k.thread_table i = some t → t.id < k.next_thread
  schedF : ∀ j e, tget k.scheduler.queue j = some e → e.thread < k.next_thread
  tcbP : ∀ j t, tget k.thread_table j = some t →
    ∃ i pcb, tget k.process_table i = some pcb ∧ pcb.pid = t.process
  schedOK : ∀ j e, tget k.scheduler.queue j = some e →
    ∀ i t, tget k.thread_table i = some t → t.id = e.thread → t.process = e.process
  counts : ∀ i pcb, tget k.process_table i = some pcb →
    pcb.thread_count = countTcb k.thread_table pcb.pid

/-- The bundle only reads the two tables, the queue and the two counters. -/
theorem KInv_congr {k k2 : Kernel} (h : KInv k)
    (hpt : k2.process_table = k.process_table)
    (htt : k2.thread_table = k.thread_table)
    (hq : k2.scheduler.queue = k.scheduler.queue)
    (hnp : k.next_pid ≤ k2.next_pid)
    (hnt : k.next_thread ≤ k2.next_thread) : KInv k2 := by
  refine ⟨?_, ?_, ?_, ?_, ?_, ?_, ?_, ?_⟩
  · rw [hpt]; exact h.pidD
  · rw [htt]; exact h.tidD
  · rw [hpt]; intro i pcb hi; have := h.pidF i pcb hi; omega
  · rw [htt]; intro i t hi; have := h.tidF i t hi; omega
  · rw [hq]; intro j e hj; have := h.schedF j e hj; omega
  · rw [htt, hpt]; exact h.tcbP
  · rw [hq, htt]; exact h.schedOK
  · rw [hpt, htt]; exact h.counts

/-- Replacing the scheduler by one whose entries all come from the old queue. -/
theorem KInv_set_sched {k : Kernel} (h : KInv k) {s2 : Scheduler}
    (hsub : ∀ j e, tget s2.queue j = some e →
      ∃ j2, tget k.scheduler.queue j2 = some e) :
    KInv { k with scheduler := s2 } := by
  refine ⟨h.pidD, h.tidD, h.pidF, h.tidF, ?_, h.tcbP, ?_, h.counts⟩
  · intro j e hj
    obtain ⟨j2, hj2⟩ := hsub j e hj
    exact h.schedF j2 e hj2
  · intro j e hj i t hi hid
    obtain ⟨j2, hj2⟩ := hsub j e hj
    exact h.schedOK j2 e hj2 i t hi hid

/-- Replacing the scheduler by one whose entries come from the old queue or are
one fixed entry that is consistent with the thread table. -/
theorem KInv_sched_extend {k : Kernel} (h : KInv k) {s2 : Scheduler}
    {e0 : ScheduledThread}
    (hsub : ∀ j e, tget s2.queue j = some e →
      (∃ j2, tget k.scheduler.queue j2 = some e) ∨ e = e0)
    (hth : e0.thread < k.next_thread)
    (hOK : ∀ i t, tget k.thread_table i = some t → t.id = e0.thread →
      t.process = e0.process) :
    KInv { k with scheduler := s2 } := by
  refine ⟨h.pidD, h.tidD, h.pidF, h.tidF, ?_, h.tcbP, ?_, h.counts⟩
  · intro j e hj
    rcases hsub j e hj with ⟨j2, hj2⟩ | rfl
    · exact h.schedF j2 e hj2
    · exact hth
  · intro j e hj i t hi hid
    rcases hsub j e hj with ⟨j2, hj2⟩ | rfl
    · exact h.schedOK j2 e hj2 i t hi hid
    · exact hOK i t hi hid

/-- Replacing one live PCB by a record with the same pid and thread count. -/
theorem KInv_set_pcb {k : Kernel} (h : KInv k) {i : Nat}
    {pcb pcb2 : ProcessControlBlock} (hp : tget k.process_table i = some pcb)
    (hpid : pcb2.pid = pcb.pid) (hc : pcb2.thread_count = pcb.thread_count) :
    KInv { k with process_table := k.process_table.set i (some pcb2) } := by
  have hi : i < k.process_table.length := tget_some_lt_length hp
  refine ⟨?_, h.tidD, ?_, h.tidF, h.schedF, ?_, h.schedOK, ?_⟩
  · intro a b pa pb ha hb hpp
    have ha0 : tget (k.process_table.set i (some pcb2)) a = some pa := ha
    have hb0 : tget (k.process_table.set i (some pcb2)) b = some pb := hb
    rcases tget_set_cases hi ha0 with ⟨hai, hxa⟩ | ⟨hane, ha3⟩
    · rcases tget_set_cases hi hb0 with ⟨hbi, hxb⟩ | ⟨hbne, hb3⟩
      · rw [hai, hbi]
      · exfalso
        have hpa : pcb2 = pa := Option.some.inj hxa
        have : b = i := h.pidD b i pb pcb hb3 hp (by rw [← hpp, ← hpa]; exact hpid)
        exact hbne this
    · rcases tget_set_cases hi hb0 with ⟨hbi, hxb⟩ | ⟨hbne, hb3⟩
      · exfalso
        have hpb : pcb2 = pb := Option.some.inj hxb
        have : a = i := h.pidD a i pa pcb ha3 hp (by rw [hpp, ← hpb]; exact hpid)
        exact hane this
      · exact h.pidD a b pa pb ha3 hb3 hpp
  · intro a pa ha
    have ha0 : tget (k.process_table.set i (some pcb2)) a = some pa := ha
    rcases tget_set_cases hi ha0 with ⟨hai, hxa⟩ | ⟨hane, ha3⟩
    · have hpa : pcb2 = pa := Option.some.inj hxa
      show pa.pid < k.next_pid
      rw [← hpa, hpid]
      exact h.pidF i pcb hp
    · exact h.pidF a pa ha3
  · intro j t hj
    obtain ⟨a, pcb3, ha, hpid3⟩ := h.tcbP j t hj
    by_cases hai : a = i
    · subst hai
      have h33 : pcb3 = pcb := Option.some.inj (ha.symm.trans hp)
      refine ⟨a, pcb2, ?_, ?_⟩
      · show tget (k.process_table.set a (some pcb2)) a = some pcb2
        exact tget_set_self _ hi
      · rw [hpid, ← h33]
        exact hpid3
    · refine ⟨a, pcb3, ?_, hpid3⟩
      show tget (k.process_table.set i (some pcb2)) a = some pcb3
      rw [tget_set_ne _ (fun hh => hai hh.symm)]
      exact ha
  · intro a pa ha
    have ha0 : tget (k.process_table.set i (some pcb2)) a = some pa := ha
    rcases tget_set_cases hi ha0 with ⟨hai, hxa⟩ | ⟨hane, ha3⟩
    · have hpa : pcb2 = pa := Option.some.inj hxa
      show pa.thread_count = countTcb k.thread_table pa.pid
      rw [← hpa, hpid, hc]
      exact h.counts i pcb hp
    · exact h.counts a pa ha3

/-- Replacing one live TCB by a record with the same id and process. -/
theorem KInv_set_tcb {k : Kernel} (h : KInv k) {i : Nat}
    {t t2 : ThreadControlBlock} (ht : tget k.thread_table i = some t)
    (hid : t2.id = t.id) (hproc : t2.process = t.process) :
    KInv { k with thread_table := k.thread_table.set i (some t2) } := by
  have hi : i < k.thread_table.length := tget_some_lt_length ht
  refine ⟨h.pidD, ?_, h.pidF, ?_, h.schedF, ?_, ?_, ?_⟩
  · intro a b ta tb ha hb hidab
    have ha0 : tget (k.thread_table.set i (some t2)) a = some ta := ha
    have hb0 : tget (k.thread_table.set i (some t2)) b = some tb := hb
    rcases tget_set_cases hi ha0 with ⟨hai, hxa⟩ | ⟨hane, ha3⟩
    · rcases tget_set_cases hi hb0 with ⟨hbi, hxb⟩ | ⟨hbne, hb3⟩
      · rw [hai, hbi]
      · exfalso
        have hta : t2 = ta := Option.some.inj hxa
        have : b = i := h.tidD b i tb t hb3 ht (by rw [← hidab, ← hta]; exact hid)
        exact hbne this
    · rcases tget_set_cases hi hb0 with ⟨hbi, hxb⟩ | ⟨hbne, hb3⟩
      · exfalso
        have htb : t2 = tb := Option.some.inj hxb
        have : a = i := h.tidD a i ta t ha3 ht (by rw [hidab, ← htb]; exact hid)
        exact hane this
      · exact h.tidD a b ta tb ha3 hb3 hidab
  · intro a ta ha
    have ha0 : tget (k.thread_table.set i (some t2)) a = some ta := ha
    rcases tget_set_cases hi ha0 with ⟨hai, hxa⟩ | ⟨hane, ha3⟩
    · have hta : t2 = ta := Option.some.inj hxa
      show ta.id < k.next_thread
      rw [← hta, hid]
      exact h.tidF i t ht
    · exact h.tidF a ta ha3
  · intro j tj hj
    have hj0 : tget (k.thread_table.set i (some t2)) j = some tj := hj
    rcases tget_set_cases hi hj0 with ⟨hji, hxj⟩ | ⟨hjne, hj3⟩
    · have htj : t2 = tj := Option.some.inj hxj
      obtain ⟨a, pcb, ha, hpid⟩ := h.tcbP i t ht
      exact ⟨a, pcb, ha, by rw [← htj, hproc]; exact hpid⟩
    · exact h.tcbP j tj hj3
  · intro j e hj a ta ha hta
    have ha0 : tget (k.thread_table.set i (some t2)) a = some ta := ha
    rcases tget_set_cases hi ha0 with ⟨hai, hxa⟩ | ⟨hane, ha3⟩
    · have h2 : t2 = ta := Option.some.inj hxa
      have h3 := h.schedOK j e hj i t ht (by rw [← hid, h2]; exact hta)
      show ta.process = e.process
      rw [← h2, hproc]
      exact h3
    · exact h.schedOK j e hj a ta ha3 hta
  · intro a pa ha
    have h4 := h.counts a pa ha
    show pa.thread_count = countTcb (k.thread_table.set i (some t2)) pa.pid
    rw [h4]
    have hset := countTcb_set k.thread_table i (some t2) pa.pid hi
    rw [ht] at hset
    have hcc : cnt1 (some t2) pa.pid = cnt1 (some t) pa.pid := by
      by_cases hq : t.process = pa.pid
      · rw [cnt1_some_eq (by rw [hproc]; exact hq), cnt1_some_eq hq]
      · rw [cnt1_some_ne (by rw [hproc]; exact hq), cnt1_some_ne hq]
    omega

theorem get?_of_tget {α : Type} {l : List (Option α)} {i : Nat} {x : α}
    (h : tget l i = some x) : l.get? i = some (some x) := by
  unfold tget at h
  cases hg : l.get? i with
  | none => rw [hg] at h; exact Option.noConfusion h
  | some y => rw [hg] at h; rw [show y = some x from h]

theorem scanIdx_none {α : Type} {p : α → Bool} {l : List α}
    (h : scanIdx p l = none) : ∀ j x, l.get? j = some x → p x = false := by
  induction l with
  | nil =>
    intro j x hx
    rw [List.get?_nil] at hx
    exact Option.noConfusion hx
  | cons a as ih =>
    intro j x hx
    unfold scanIdx at h
    by_cases hp : p a = true
    · rw [if_pos hp] at h
      exact Option.noConfusion h
    · rw [if_neg hp] at h
      have has : scanIdx p as = none := by
        cases hs : scanIdx p as with
        | none => rfl
        | some i => rw [hs] at h; exact Option.noConfusion h
      cases j with
      | zero =>
        have hax : a = x := by simpa using hx
        rw [← hax]
        exact Bool.eq_false_iff.mpr hp
      | succ m => exact ih has m x (by simpa using hx)

/-- A successful `locate_process` points at a live PCB with the pid. -/
theorem locate_process_sound {k : Kernel} {pid i : Nat}
    (h : k.locate_process pid = some i) :
    ∃ pcb, tget k.process_table i = some pcb ∧ pcb.pid = pid := by
  obtain ⟨x, hx, hpx⟩ := scanIdx_found h
  cases x with
  | none => exact Bool.noConfusion hpx
  | some pcb => exact ⟨pcb, tget_of_get? hx, by simpa using hpx⟩

/-- A successful `locate_thread` points at a live TCB with the id. -/
theorem locate_thread_sound {k : Kernel} {tid i : Nat}
    (h : k.locate_thread tid = some i) :
    ∃ t, tget k.thread_table i = some t ∧ t.id = tid := by
  obtain ⟨x, hx, hpx⟩ := scanIdx_found h
  cases x with
  | none => exact Bool.noConfusion hpx
  | some t => exact ⟨t, tget_of_get? hx, by simpa using hpx⟩

/-- A failing `locate_process` means no live PCB has the pid. -/
theorem locate_process_none {k : Kernel} {pid : Nat}
    (h : k.locate_process pid = none) :
    ∀ i pcb, tget k.process_table i = some pcb → pcb.pid ≠ pid := by
  intro i pcb hi hpp
  have hg := get?_of_tget hi
  have := scanIdx_none h i (some pcb) hg
  rw [show (match (some pcb : Option ProcessControlBlock) with
    | some pcb => pcb.pid == pid | none => false) = (pcb.pid == pid) from rfl] at this
  rw [beq_iff_eq.mpr hpp] at this
  exact Bool.noConfusion this

/-- `update_process_thread_count` is either a no-op on an unknown pid, or a
single PCB replacement with the count stepped. -/
theorem upd_cases (k : Kernel) (pid : Nat) (b : Bool) :
    (k.update_process_thread_count pid b = k ∧ k.locate_process pid = none) ∨
    ∃ i pcb, k.locate_process pid = some i ∧ tget k.process_table i = some pcb ∧
      pcb.pid = pid ∧ k.update_process_thread_count pid b =
        { k with process_table := k.process_table.set i (some (if b then pcb.increment_thread_count else pcb.decrement_thread_count)) } := by
  cases hl : k.locate_process pid with
  | none =>
    left
    refine ⟨?_, rfl⟩
    unfold Kernel.update_process_thread_count
    rw [hl]
  | some i =>
    right
    obtain ⟨pcb, hp, hpid⟩ := locate_process_sound hl
    exact ⟨i, pcb, rfl, hp, hpid, update_count_eq k pid b i pcb hl hp⟩

/-- Entries after a successful `enqueue`: the old ones plus the new entry. -/
theorem enqueue_entries {s : Scheduler} {t : ScheduledThread} {s2 : Scheduler}
    (h : s.enqueue t = .ok s2) :
    ∀ j e, tget s2.queue j = some e → tget s.queue j = some e ∨ e = t := by
  unfold Scheduler.enqueue at h
  by_cases hf : s.len = s.queue.length
  · rw [if_pos hf] at h
    exact Except.noConfusion h
  · rw [if_neg hf] at h
    have hs : s2 = ⟨s.queue.set s.tail (some t), s.head,
        (s.tail + 1) % s.queue.length, s.len + 1⟩ := (Except.ok.inj h).symm
    subst hs
    intro j e hj
    have hj0 : tget (s.queue.set s.tail (some t)) j = some e := hj
    by_cases htl : s.tail < s.queue.length
    · rcases tget_set_cases htl hj0 with ⟨hji, hx⟩ | ⟨hne, h3⟩
      · exact Or.inr (Option.some.inj hx).symm
      · exact Or.inl h3
    · rw [List.set_eq_of_length_le (by omega)] at hj0
      exact Or.inl hj0

/-- Entries after `enqueueD`. -/
theorem enqueueD_entries (s : Scheduler) (t : ScheduledThread) :
    ∀ j e, tget (s.enqueueD t).queue j = some e →
      tget s.queue j = some e ∨ e = t := by
  intro j e hj
  unfold Scheduler.enqueueD at hj
  cases h : s.enqueue t with
  | ok s2 =>
    rw [h] at hj
    exact enqueue_entries h j e hj
  | error err =>
    rw [h] at hj
    exact Or.inl hj

theorem schedNextAux_sound {q : List (Option ScheduledThread)} {head : Nat} :
    ∀ {fuel steps idx : Nat} {e : ScheduledThread},
    schedNextAux q head steps fuel = some (idx, e) → tget q idx = some e := by
  intro fuel
  induction fuel with
  | zero =>
    intro steps idx e h
    exact Option.noConfusion h
  | succ f ih =>
    intro steps idx e h
    unfold schedNextAux at h
    cases ht : tget q ((head + steps) % q.length) with
    | some entry =>
      simp only [ht] at h
      have h2 := Option.some.inj h
      injection h2 with h3 h4
      rw [← h3, ← h4]
      exact ht
    | none =>
      simp only [ht] at h
      exact ih h

/-- Entries of the queue after `Scheduler::next`. -/
theorem next_entries (s : Scheduler) :
    ∀ j e, tget s.next.2.queue j = some e → tget s.queue j = some e := by
  intro j e hj
  unfold Scheduler.next at hj
  by_cases h0 : s.len = 0
  · rw [if_pos h0] at hj
    exact hj
  · rw [if_neg h0] at hj
    cases hn : schedNextAux s.queue s.head 0 s.queue.length with
    | some p =>
      obtain ⟨idx, entry⟩ := p
      rw [hn] at hj
      exact tget_set_none_sub hj
    | none =>
      rw [hn] at hj
      exact hj

/-- The entry returned by `Scheduler::next` was stored in the queue. -/
theorem next_returned {s : Scheduler} {e : ScheduledThread}
    (h : s.next.1 = some e) : ∃ j, tget s.queue j = some e := by
  unfold Scheduler.next at h
  by_cases h0 : s.len = 0
  · rw [if_pos h0] at h
    exact Option.noConfusion h
  · rw [if_neg h0] at h
    cases hn : schedNextAux s.queue s.head 0 s.queue.length with
    | some p =>
      obtain ⟨idx, entry⟩ := p
      rw [hn] at h
      have he : entry = e := Option.some.inj h
      exact ⟨idx, by rw [← he]; exact schedNextAux_sound hn⟩
    | none =>
      rw [hn] at h
      exact Option.noConfusion h

/-- Pointwise-equal slot weights give equal per-process counts. -/
theorem countTcb_congr : ∀ (tt tt2 : List (Option ThreadControlBlock)) (q : Nat),
    tt2.length = tt.length →
    (∀ j, j < tt.length → cnt1 (tget tt2 j) q = cnt1 (tget tt j) q) →
    countTcb tt2 q = countTcb tt q := by
  intro tt
  induction tt with
  | nil =>
    intro tt2 q hlen _
    have : tt2 = [] := List.length_eq_zero.mp hlen
    rw [this]
  | cons o rest ih =>
    intro tt2 q hlen hpt
    cases tt2 with
    | nil => simp at hlen
    | cons o2 rest2 =>
      show countTcb rest2 q + cnt1 o2 q = countTcb rest q + cnt1 o q
      have h0 := hpt 0 (by simp)
      rw [tget_cons_zero, tget_cons_zero] at h0
      have hr := ih rest2 q (by simpa using hlen) (fun j hj => by
        have := hpt (j + 1) (by simp; omega)
        rwa [tget_cons_succ, tget_cons_succ] at this)
      rw [h0, hr]

/-- The thread-removal sweep keeps the id counters. -/
theorem removeThreadsAux_ids (pid : Nat) : ∀ (fuel : Nat) (k : Kernel) (idx : Nat),
    (removeThreadsAux pid k idx fuel).next_pid = k.next_pid ∧
    (removeThreadsAux pid k idx fuel).next_thread = k.next_thread := by
  intro fuel
  induction fuel with
  | zero => intro k idx; exact ⟨rfl, rfl⟩
  | succ f ih =>
    intro k idx
    cases ht : tget k.thread_table idx with
    | none =>
      rw [removeThreadsAux_step_none pid k idx f ht]
      exact ih k (idx + 1)
    | some th =>
      by_cases hp : th.process = pid
      · rw [removeThreadsAux_step_hit pid k idx f ht hp]
        exact ih _ (idx + 1)
      · rw [removeThreadsAux_step_miss pid k idx f ht hp]
        exact ih k (idx + 1)

/-- Surviving TCBs of the sweep were already present, at the same slot. -/
theorem removeThreadsAux_tt_sub (pid : Nat) :
    ∀ (fuel : Nat) (k : Kernel) (idx : Nat) {j : Nat} {t : ThreadControlBlock},
    tget (removeThreadsAux pid k idx fuel).thread_table j = some t →
    tget k.thread_table j = some t := by
  intro fuel
  induction fuel with
  | zero => intro k idx j t h; exact h
  | succ f ih =>
    intro k idx j t h
    cases ht : tget k.thread_table idx with
    | none =>
      rw [removeThreadsAux_step_none pid k idx f ht] at h
      exact ih k (idx + 1) h
    | some th =>
      by_cases hp : th.process = pid
      · rw [removeThreadsAux_step_hit pid k idx f ht hp] at h
        have h2 := ih _ (idx + 1) h
        have h3 : tget (k.thread_table.set idx none) j = some t := h2
        exact tget_set_none_sub h3
      · rw [removeThreadsAux_step_miss pid k idx f ht hp] at h
        exact ih k (idx + 1) h

/-- Foreign TCBs survive the sweep untouched. -/
theorem removeThreadsAux_keep (pid : Nat) :
    ∀ (fuel : Nat) (k : Kernel) (idx : Nat) {j : Nat} {t : ThreadControlBlock},
    tget k.thread_table j = some t → t.process ≠ pid →
    tget (removeThreadsAux pid k idx fuel).thread_table j = some t := by
  intro fuel
  induction fuel with
  | zero => intro k idx j t h hne; exact h
  | succ f ih =>
    intro k idx j t h hne
    cases ht : tget k.thread_table idx with
    | none =>
      rw [removeThreadsAux_step_none pid k idx f ht]
      exact ih k (idx + 1) h hne
    | some th =>
      by_cases hp : th.process = pid
      · rw [removeThreadsAux_step_hit pid k idx f ht hp]
        refine ih _ (idx + 1) ?_ hne
        show tget (k.thread_table.set idx none) j = some t
        have hji : j ≠ idx := by
          intro hh
          rw [hh, ht] at h
          have := Option.some.inj h
          rw [← this] at hne
          exact hne hp
        rw [tget_set_ne none (fun hh => hji hh.symm)]
        exact h
      · rw [removeThreadsAux_step_miss pid k idx f ht hp]
        exact ih k (idx + 1) h hne

/-- The bundle holds vacuously when every table is empty. -/
theorem KInv_of_empty {k : Kernel}
    (hpt : ∀ i, tget k.process_table i = none)
    (htt : ∀ i, tget k.thread_table i = none)
    (hq : ∀ i, tget k.scheduler.queue i = none) : KInv k := by
  refine ⟨?_, ?_, ?_, ?_, ?_, ?_, ?_, ?_⟩
  · intro i j pi pj hi _ _
    rw [hpt i] at hi
    exact Option.noConfusion hi
  · intro i j ti tj hi _ _
    rw [htt i] at hi
    exact Option.noConfusion hi
  · intro i pcb hi
    rw [hpt i] at hi
    exact Option.noConfusion hi
  · intro i t hi
    rw [htt i] at hi
    exact Option.noConfusion hi
  · intro j e hj
    rw [hq j] at hj
    exact Option.noConfusion hj
  · intro j t hj
    rw [htt j] at hj
    exact Option.noConfusion hj
  · intro j e hj
    rw [hq j] at hj
    exact Option.noConfusion hj
  · intro i pcb hi
    rw [hpt i] at hi
    exact Option.noConfusion hi

theorem KInv_new (a b : Nat) : KInv (Kernel.new a b) := by
  refine KInv_of_empty ?_ ?_ ?_
  · intro i
    show tget (List.replicate a (none : Option ProcessControlBlock)) i = none
    exact tget_replicate_none a i
  · intro i
    show tget (List.replicate MAX_THREADS (none : Option ThreadControlBlock)) i = none
    exact tget_replicate_none _ i
  · intro i
    show tget (List.replicate MAX_THREADS (none : Option ScheduledThread)) i = none
    exact tget_replicate_none _ i

theorem KInv_bootstrap (k : Kernel) : KInv k.bootstrap := by
  have hpt : k.bootstrap.process_table =
      List.replicate k.process_table.length none := by
    unfold Kernel.bootstrap
    rw [apply_ite Kernel.process_table]
    show (if _ then List.replicate k.process_table.length none
      else List.replicate k.process_table.length none) = _
    rw [ite_self]
  have htt : k.bootstrap.thread_table =
      List.replicate k.thread_table.length none := by
    unfold Kernel.bootstrap
    rw [apply_ite Kernel.thread_table]
    show (if _ then List.replicate k.thread_table.length none
      else List.replicate k.thread_table.length none) = _
    rw [ite_self]
  have hq : k.bootstrap.scheduler.queue =
      List.replicate k.scheduler.queue.length none := by
    unfold Kernel.bootstrap
    rw [apply_ite Kernel.scheduler]
    show Scheduler.queue (if _ then k.scheduler.reset else k.scheduler.reset) = _
    rw [ite_self]
    rfl
  refine KInv_of_empty ?_ ?_ ?_
  · intro i
    rw [hpt]
    exact tget_replicate_none _ i
  · intro i
    rw [htt]
    exact tget_replicate_none _ i
  · intro i
    rw [hq]
    exact tget_replicate_none _ i

theorem bringUpAux_fields : ∀ (fuel : Nat) (k : Kernel) (idx r : Nat),
    (bringUpAux k idx r fuel).process_table = k.process_table ∧
    (bringUpAux k idx r fuel).thread_table = k.thread_table ∧
    (bringUpAux k idx r fuel).scheduler = k.scheduler ∧
    (bringUpAux k idx r fuel).next_pid = k.next_pid ∧
    (bringUpAux k idx r fuel).next_thread = k.next_thread := by
  intro fuel
  induction fuel with
  | zero => intro k idx r; exact ⟨rfl, rfl, rfl, rfl, rfl⟩
  | succ f ih =>
    intro k idx r
    by_cases hr : r = 0
    · have hstep : bringUpAux k idx r (f + 1) = k := by
        conv_lhs => rw [bringUpAux]
        rw [if_pos hr]
      rw [hstep]
      exact ⟨rfl, rfl, rfl, rfl, rfl⟩
    · have hstep : bringUpAux k idx r (f + 1) =
          bringUpAux (k.set_core idx CpuCoreState.set_online) (idx + 1) (r - 1) f := by
        conv_lhs => rw [bringUpAux]
        rw [if_neg hr]
      rw [hstep]
      exact ih _ (idx + 1) (r - 1)

theorem KInv_bring_up {k : Kernel} (h : KInv k) (c : Nat) :
    KInv (k.bring_up_secondary_cores c) := by
  obtain ⟨h1, h2, h3, h4, h5⟩ := bringUpAux_fields (k.core_states.length - 1) k 1 c
  exact KInv_congr h h1 h2 (congrArg Scheduler.queue h3) (Nat.le_of_eq h4.symm)
    (Nat.le_of_eq h5.symm)

theorem receive_fields (k : Kernel) (pid : Nat) :
    (k.receive_message pid).2.process_table = k.process_table ∧
    (k.receive_message pid).2.thread_table = k.thread_table ∧
    (k.receive_message pid).2.scheduler = k.scheduler ∧
    (k.receive_message pid).2.next_pid = k.next_pid ∧
    (k.receive_message pid).2.next_thread = k.next_thread := by
  cases hl : k.locate_process pid with
  | none =>
    have hs : k.receive_message pid = (.error .UnknownProcess, k) := by
      unfold Kernel.receive_message
      rw [hl]
    rw [hs]
    exact ⟨rfl, rfl, rfl, rfl, rfl⟩
  | some qi =>
    have hs : k.receive_message pid =
        (match ((lget (MessageQueue.new 0) k.ipc_queues qi).pop).1 with
          | none => (.error .MessageQueueEmpty, k)
          | some m => (.ok m, { k with ipc_queues := k.ipc_queues.set qi ((lget (MessageQueue.new 0) k.ipc_queues qi).pop).2 })) := by
      unfold Kernel.receive_message
      rw [hl]
    rw [hs]
    cases hm : ((lget (MessageQueue.new 0) k.ipc_queues qi).pop).1 with
    | none => exact ⟨rfl, rfl, rfl, rfl, rfl⟩
    | some m => exact ⟨rfl, rfl, rfl, rfl, rfl⟩

theorem KInv_receive {k : Kernel} (h : KInv k) (pid : Nat) :
    KInv (k.receive_message pid).2 := by
  obtain ⟨h1, h2, h3, h4, h5⟩ := receive_fields k pid
  exact KInv_congr h h1 h2 (congrArg Scheduler.queue h3) (Nat.le_of_eq h4.symm)
    (Nat.le_of_eq h5.symm)

theorem countTcb_map_pres (g : Option ThreadControlBlock → Option ThreadControlBlock)
    (hg0 : g none = none)
    (hg1 : ∀ t, ∃ t2, g (some t) = some t2 ∧ t2.id = t.id ∧ t2.process = t.process) :
    ∀ (tt : List (Option ThreadControlBlock)) (q : Nat),
    countTcb (tt.map g) q = countTcb tt q := by
  intro tt q
  induction tt with
  | nil => rfl
  | cons o rest ih =>
    show countTcb (rest.map g) q + cnt1 (g o) q = countTcb rest q + cnt1 o q
    rw [ih]
    cases o with
    | none => rw [hg0]
    | some t =>
      obtain ⟨t2, hgt, _, hproc⟩ := hg1 t
      rw [hgt]
      by_cases hq : t.process = q
      · rw [cnt1_some_eq (by rw [hproc]; exact hq), cnt1_some_eq hq]
      · rw [cnt1_some_ne (by rw [hproc]; exact hq), cnt1_some_ne hq]

/-- Mapping the thread table with an id- and process-preserving transform. -/
theorem KInv_tcb_transform {k : Kernel} (h : KInv k)
    (g : Option ThreadControlBlock → Option ThreadControlBlock)
    (hg0 : g none = none)
    (hg1 : ∀ t, ∃ t2, g (some t) = some t2 ∧ t2.id = t.id ∧ t2.process = t.process) :
    KInv { k with thread_table := k.thread_table.map g } := by
  have hrec : ∀ {a : Nat} {ta : ThreadControlBlock},
      tget (k.thread_table.map g) a = some ta →
      ∃ t, tget k.thread_table a = some t ∧ ta.id = t.id ∧ ta.process = t.process := by
    intro a ta ha
    rw [tget_map g _ _ hg0] at ha
    cases ho : tget k.thread_table a with
    | none =>
      rw [ho, hg0] at ha
      exact Option.noConfusion ha
    | some t =>
      rw [ho] at ha
      obtain ⟨t2, hgt, hid, hproc⟩ := hg1 t
      rw [hgt] at ha
      have := Option.some.inj ha
      subst this
      exact ⟨t, rfl, hid, hproc⟩
  refine ⟨h.pidD, ?_, h.pidF, ?_, h.schedF, ?_, ?_, ?_⟩
  · intro a b ta tb ha hb hidab
    obtain ⟨t1, ht1, hid1, _⟩ := hrec ha
    obtain ⟨t2, ht2, hid2, _⟩ := hrec hb
    exact h.tidD a b t1 t2 ht1 ht2 (by rw [← hid1, ← hid2]; exact hidab)
  · intro a ta ha
    obtain ⟨t1, ht1, hid1, _⟩ := hrec ha
    show ta.id < k.next_thread
    rw [hid1]
    exact h.tidF a t1 ht1
  · intro j tj hj
    obtain ⟨t1, ht1, _, hproc1⟩ := hrec hj
    obtain ⟨a, pcb, ha, hpid⟩ := h.tcbP j t1 ht1
    exact ⟨a, pcb, ha, by rw [hproc1, hpid]⟩
  · intro j e hj a ta ha hta
    obtain ⟨t1, ht1, hid1, hproc1⟩ := hrec ha
    have := h.schedOK j e hj a t1 ht1 (by rw [← hid1]; exact hta)
    show ta.process = e.process
    rw [hproc1]
    exact this
  · intro a pa ha
    show pa.thread_count = countTcb (k.thread_table.map g) pa.pid
    rw [countTcb_map_pres g hg0 hg1]
    exact h.counts a pa ha

theorem KInv_block_threads {k : Kernel} (h : KInv k) (pid : Nat) :
    KInv (k.block_threads_for_process pid) := by
  refine KInv_tcb_transform h _ rfl ?_
  intro t
  by_cases hp : t.process = pid
  · refine ⟨t.block, ?_, rfl, rfl⟩
    show (if t.process = pid then some t.block else some t) = some t.block
    rw [if_pos hp]
  · refine ⟨t, ?_, rfl, rfl⟩
    show (if t.process = pid then some t.block else some t) = some t
    rw [if_neg hp]

theorem mtr_step_none (pid : Nat) (k : Kernel) (idx f : Nat)
    (ht : tget k.thread_table idx = none) :
    makeThreadsReadyAux pid k idx (f + 1) = makeThreadsReadyAux pid k (idx + 1) f := by
  conv_lhs => rw [makeThreadsReadyAux]
  rw [ht]

theorem mtr_step_hit (pid : Nat) (k : Kernel) (idx f : Nat)
    {th : ThreadControlBlock} (ht : tget k.thread_table idx = some th)
    (hp : th.process = pid ∧ th.state = .Blocked) :
    makeThreadsReadyAux pid k idx (f + 1) = makeThreadsReadyAux pid { k with thread_table := k.thread_table.set idx (some th.mark_ready), scheduler := k.scheduler.enqueueD (ScheduledThread.new th.id th.process th.priority) } (idx + 1) f := by
  conv_lhs => rw [makeThreadsReadyAux]
  simp only [ht]
  rw [if_pos hp]

theorem mtr_step_miss (pid : Nat) (k : Kernel) (idx f : Nat)
    {th : ThreadControlBlock} (ht : tget k.thread_table idx = some th)
    (hp : ¬ (th.process = pid ∧ th.state = .Blocked)) :
    makeThreadsReadyAux pid k idx (f + 1) = makeThreadsReadyAux pid k (idx + 1) f := by
  conv_lhs => rw [makeThreadsReadyAux]
  simp only [ht]
  rw [if_neg hp]

theorem KInv_mtrAux (pid : Nat) : ∀ (fuel : Nat) (k : Kernel) (idx : Nat),
    KInv k → KInv (makeThreadsReadyAux pid k idx fuel) := by
  intro fuel
  induction fuel with
  | zero => intro k idx h; exact h
  | succ f ih =>
    intro k idx h
    cases ht : tget k.thread_table idx with
    | none =>
      rw [mtr_step_none pid k idx f ht]
      exact ih k (idx + 1) h
    | some th =>
      by_cases hp : th.process = pid ∧ th.state = .Blocked
      · rw [mtr_step_hit pid k idx f ht hp]
        refine ih _ (idx + 1) ?_
        have hA : KInv { k with thread_table := k.thread_table.set idx (some th.mark_ready) } :=
          KInv_set_tcb h ht rfl rfl
        have htA : tget ({ k with thread_table := k.thread_table.set idx (some th.mark_ready) }).thread_table idx = some th.mark_ready := by
          show tget (k.thread_table.set idx (some th.mark_ready)) idx = some th.mark_ready
          exact tget_set_self _ (tget_some_lt_length ht)
        refine @KInv_sched_extend _ hA _ (ScheduledThread.new th.id th.process th.priority) ?_ ?_ ?_
        · intro j e hj
          have hj2 : tget (Scheduler.enqueueD k.scheduler (ScheduledThread.new th.id th.process th.priority)).queue j = some e := hj
          rcases enqueueD_entries k.scheduler _ j e hj2 with h2 | h2
          · exact Or.inl ⟨j, h2⟩
          · exact Or.inr h2
        · show th.id < k.next_thread
          exact h.tidF idx th ht
        · intro a ta ha hta
          have ha2 : tget (k.thread_table.set idx (some th.mark_ready)) a = some ta := ha
          rcases tget_set_cases (tget_some_lt_length ht) ha2 with ⟨hai, hxa⟩ | ⟨hane, ha3⟩
          · have := Option.some.inj hxa
            rw [← this]
            rfl
          · exfalso
            have : a = idx := h.tidD a idx ta th ha3 ht hta
            exact hane this
      · rw [mtr_step_miss pid k idx f ht hp]
        exact ih k (idx + 1) h

theorem KInv_mtr {k : Kernel} (h : KInv k) (pid : Nat) :
    KInv (k.make_threads_ready pid) :=
  KInv_mtrAux pid k.thread_table.length k 0 h

theorem KInv_block_for_message {k : Kernel} (h : KInv k) (pid : Nat) :
    KInv (k.block_for_message pid) := by
  unfold Kernel.block_for_message
  cases hl : k.locate_process pid with
  | none => exact h
  | some idx =>
    cases hp : tget k.process_table idx with
    | none =>
      simp only [hp]
      have h2 : KInv { k with scheduler := k.scheduler.remove_process pid } := by
        refine KInv_set_sched h ?_
        intro j e hj
        have hj2 : tget (schedRemoveAux (fun x => x.process == pid) k.scheduler.queue k.scheduler.len 0 k.scheduler.queue.length).1 j = some e := hj
        exact ⟨j, schedRemoveAux_sub _ _ _ _ _ hj2⟩
      exact KInv_block_threads h2 pid
    | some pcb =>
      simp only [hp]
      have h1 : KInv { k with process_table := k.process_table.set idx (some { pcb with state := ProcessState.Blocked }) } :=
        KInv_set_pcb h hp rfl rfl
      have h2 : KInv { k with process_table := k.process_table.set idx (some { pcb with state := ProcessState.Blocked }), scheduler := k.scheduler.remove_process pid } := by
        refine KInv_set_sched h1 ?_
        intro j e hj
        have hj2 : tget (schedRemoveAux (fun x => x.process == pid) k.scheduler.queue k.scheduler.len 0 k.scheduler.queue.length).1 j = some e := hj
        exact ⟨j, schedRemoveAux_sub _ _ _ _ _ hj2⟩
      exact KInv_block_threads h2 pid

theorem KInv_send {k : Kernel} (h : KInv k) (s r : Nat) (pl : MessagePayload) :
    KInv (k.send_message s r pl).2 := by
  have hKM : KInv { k with message_sequence := (k.message_sequence + 1) % U64MOD } :=
    KInv_congr h rfl rfl rfl (le_refl _) (le_refl _)
  have hstep0 : k.send_message s r pl = (match k.security.authorize_ipc s r pl.security_class with
    | .error _ => (.error .SecurityViolation, k)
    | .ok _ =>
      match Kernel.locate_process { k with message_sequence := (k.message_sequence + 1) % U64MOD } r with
      | none => (.error .UnknownProcess, { k with message_sequence := (k.message_sequence + 1) % U64MOD })
      | some qi =>
        match (lget (MessageQueue.new 0) k.ipc_queues qi).push ⟨s, r, k.message_sequence, pl⟩ with
        | .error _ => (.error .MessageQueueFull, { k with message_sequence := (k.message_sequence + 1) % U64MOD })
        | .ok q2 =>
          match tget k.process_table qi with
          | some pcb =>
            if pcb.state = .Blocked then
              (.ok (), Kernel.make_threads_ready { k with message_sequence := (k.message_sequence + 1) % U64MOD, ipc_queues := k.ipc_queues.set qi q2, process_table := k.process_table.set qi (some { pcb with state := .Ready }) } r)
            else (.ok (), { k with message_sequence := (k.message_sequence + 1) % U64MOD, ipc_queues := k.ipc_queues.set qi q2 })
          | none => (.ok (), { k with message_sequence := (k.message_sequence + 1) % U64MOD, ipc_queues := k.ipc_queues.set qi q2 })) := rfl
  rw [hstep0]
  split
  · exact h
  · split
    · exact hKM
    · split
      · exact hKM
      · split
        · split
          · rename_i x1 qi hl x2 q2 hq e0 pcb hp hb
            have hKQ : KInv { k with message_sequence := (k.message_sequence + 1) % U64MOD, ipc_queues := k.ipc_queues.set qi q2 } :=
              KInv_congr h rfl rfl rfl (le_refl _) (le_refl _)
            have hpQ : tget ({ k with message_sequence := (k.message_sequence + 1) % U64MOD, ipc_queues := k.ipc_queues.set qi q2 } : Kernel).process_table qi = some pcb := hp
            have h3 : KInv { k with message_sequence := (k.message_sequence + 1) % U64MOD, ipc_queues := k.ipc_queues.set qi q2, process_table := k.process_table.set qi (some { pcb with state := ProcessState.Ready }) } :=
              KInv_set_pcb hKQ hpQ rfl rfl
            exact KInv_mtr h3 r
          · exact KInv_congr h rfl rfl rfl (le_refl _) (le_refl _)
        · exact KInv_congr h rfl rfl rfl (le_refl _) (le_refl _)

/-- Removing one TCB together with the matching decrement of its process's
count (shared by `terminate_thread` and the `run_core` reap). -/
theorem KInv_reap {k : Kernel} (h : KInv k) {index : Nat} {tcb : ThreadControlBlock}
    (htc : tget k.thread_table index = some tcb)
    {i2 : Nat} {pcb2 : ProcessControlBlock}
    (hp2 : tget k.process_table i2 = some pcb2) (hpid2 : pcb2.pid = tcb.process)
    {pcb3 : ProcessControlBlock} (hpid3 : pcb3.pid = pcb2.pid)
    (hc3 : pcb3.thread_count = pcb2.thread_count - 1)
    {s2 : Scheduler}
    (hsub : ∀ j e, tget s2.queue j = some e → ∃ j2, tget k.scheduler.queue j2 = some e)
    (cs : List CpuCoreState) :
    KInv { k with process_table := k.process_table.set i2 (some pcb3), thread_table := k.thread_table.set index none, scheduler := s2, core_states := cs } := by
  have hi2 : i2 < k.process_table.length := tget_some_lt_length hp2
  have hidx : index < k.thread_table.length := tget_some_lt_length htc
  refine ⟨?_, ?_, ?_, ?_, ?_, ?_, ?_, ?_⟩
  · intro a b pa pb ha hb hpp
    have ha0 : tget (k.process_table.set i2 (some pcb3)) a = some pa := ha
    have hb0 : tget (k.process_table.set i2 (some pcb3)) b = some pb := hb
    rcases tget_set_cases hi2 ha0 with ⟨hai, hxa⟩ | ⟨hane, ha3⟩
    · rcases tget_set_cases hi2 hb0 with ⟨hbi, hxb⟩ | ⟨hbne, hb3⟩
      · rw [hai, hbi]
      · exfalso
        have hpa : pcb3 = pa := Option.some.inj hxa
        have : b = i2 := h.pidD b i2 pb pcb2 hb3 hp2 (by rw [← hpp, ← hpa]; exact hpid3)
        exact hbne this
    · rcases tget_set_cases hi2 hb0 with ⟨hbi, hxb⟩ | ⟨hbne, hb3⟩
      · exfalso
        have hpb : pcb3 = pb := Option.some.inj hxb
        have : a = i2 := h.pidD a i2 pa pcb2 ha3 hp2 (by rw [hpp, ← hpb]; exact hpid3)
        exact hane this
      · exact h.pidD a b pa pb ha3 hb3 hpp
  · intro a b ta tb ha hb hidab
    have ha0 : tget (k.thread_table.set index none) a = some ta := ha
    have hb0 : tget (k.thread_table.set index none) b = some tb := hb
    exact h.tidD a b ta tb (tget_set_none_sub ha0) (tget_set_none_sub hb0) hidab
  · intro a pa ha
    have ha0 : tget (k.process_table.set i2 (some pcb3)) a = some pa := ha
    rcases tget_set_cases hi2 ha0 with ⟨hai, hxa⟩ | ⟨hane, ha3⟩
    · have hpa : pcb3 = pa := Option.some.inj hxa
      show pa.pid < k.next_pid
      rw [← hpa, hpid3]
      exact h.pidF i2 pcb2 hp2
    · exact h.pidF a pa ha3
  · intro a ta ha
    have ha0 : tget (k.thread_table.set index none) a = some ta := ha
    exact h.tidF a ta (tget_set_none_sub ha0)
  · intro j e hj
    obtain ⟨j2, hj2⟩ := hsub j e hj
    exact h.schedF j2 e hj2
  · intro j t hj
    have hj0 : tget (k.thread_table.set index none) j = some t := hj
    have hjk := tget_set_none_sub hj0
    obtain ⟨a, pcb, ha, hpid⟩ := h.tcbP j t hjk
    by_cases hai : a = i2
    · subst hai
      have hpe : pcb = pcb2 := Option.some.inj (ha.symm.trans hp2)
      refine ⟨a, pcb3, ?_, ?_⟩
      · show tget (k.process_table.set a (some pcb3)) a = some pcb3
        exact tget_set_self _ hi2
      · rw [hpid3, ← hpe]
        exact hpid
    · refine ⟨a, pcb, ?_, hpid⟩
      show tget (k.process_table.set i2 (some pcb3)) a = some pcb
      rw [tget_set_ne _ (fun hh => hai hh.symm)]
      exact ha
  · intro j e hj a ta ha hta
    obtain ⟨j2, hj2⟩ := hsub j e hj
    have ha0 : tget (k.thread_table.set index none) a = some ta := ha
    exact h.schedOK j2 e hj2 a ta (tget_set_none_sub ha0) hta
  · intro a pa ha
    have ha0 : tget (k.process_table.set i2 (some pcb3)) a = some pa := ha
    rcases tget_set_cases hi2 ha0 with ⟨hai, hxa⟩ | ⟨hane, ha3⟩
    · have hpa : pcb3 = pa := Option.some.inj hxa
      have hcount := h.counts i2 pcb2 hp2
      show pa.thread_count = countTcb (k.thread_table.set index none) pa.pid
      rw [← hpa, hc3, hpid3]
      have hcp : cnt1 (some tcb) pcb2.pid = 1 := cnt1_some_eq hpid2.symm
      have hpos : 1 ≤ countTcb k.thread_table pcb2.pid := countTcb_pos htc hpid2.symm
      have hset := countTcb_set k.thread_table index none pcb2.pid hidx
      rw [htc] at hset
      have hc0 : cnt1 (none : Option ThreadControlBlock) pcb2.pid = 0 := rfl
      rw [hcount]
      omega
    · have hcount := h.counts a pa ha3
      have hne : pa.pid ≠ tcb.process := by
        intro hh
        have : a = i2 := h.pidD a i2 pa pcb2 ha3 hp2 (by rw [hh, hpid2])
        exact hane this
      have hcp : cnt1 (some tcb) pa.pid = 0 :=
        cnt1_some_ne (fun hh => hne hh.symm)
      have hset := countTcb_set k.thread_table index none pa.pid hidx
      rw [htc] at hset
      have hc0 : cnt1 (none : Option ThreadControlBlock) pa.pid = 0 := rfl
      show pa.thread_count = countTcb (k.thread_table.set index none) pa.pid
      rw [hcount]
      omega

theorem KInv_terminate_thread {k : Kernel} (h : KInv k) (tid : Nat) :
    KInv (k.terminate_thread tid) := by
  have hstep0 : k.terminate_thread tid = (match k.locate_thread tid with
    | none => k
    | some index =>
      match tget k.thread_table index with
      | some tcb => Kernel.update_process_thread_count { k with scheduler := k.scheduler.remove_thread tid, core_states := k.core_states.map (fun c => c.evict tid), thread_table := k.thread_table.set index none } tcb.process false
      | none => k) := rfl
  rw [hstep0]
  split
  · exact h
  · split
    · rename_i x1 index hl x2 tcb htc
      rcases upd_cases { k with scheduler := k.scheduler.remove_thread tid, core_states := k.core_states.map (fun c => c.evict tid), thread_table := k.thread_table.set index none } tcb.process false with ⟨hupd, hloc2⟩ | ⟨i2, pcb2, hloc2, hp2, hpid2, hupd⟩
      · exfalso
        have hloc3 : k.locate_process tcb.process = none := hloc2
        obtain ⟨a, pcb, ha, hpid⟩ := h.tcbP index tcb htc
        exact locate_process_none hloc3 a pcb ha hpid
      · rw [hupd]
        have hp3 : tget k.process_table i2 = some pcb2 := hp2
        have hsub : ∀ j e, tget (k.scheduler.remove_thread tid).queue j = some e →
            ∃ j2, tget k.scheduler.queue j2 = some e := by
          intro j e hj
          have hj2 : tget (schedRemoveAux (fun x => x.thread == tid) k.scheduler.queue k.scheduler.len 0 k.scheduler.queue.length).1 j = some e := hj
          exact ⟨j, schedRemoveAux_sub _ _ _ _ _ hj2⟩
        exact @KInv_reap k h index tcb htc i2 pcb2 hp3 hpid2 pcb2.decrement_thread_count rfl rfl (k.scheduler.remove_thread tid) hsub _
    · exact h

theorem KInv_terminate_process {k : Kernel} (h : KInv k) (pid : Nat) :
    KInv (k.terminate_process pid) := by
  cases hl : k.locate_process pid with
  | none =>
    have hs : k.terminate_process pid = k := by
      unfold Kernel.terminate_process
      rw [hl]
    rw [hs]
    exact h
  | some idx =>
    obtain ⟨pcb0, hp0, hpid0⟩ := locate_process_sound hl
    have hidx : idx < k.process_table.length := tget_some_lt_length hp0
    have hshape : k.terminate_process pid = { removeThreadsAux pid ({ k with process_table := k.process_table.set idx none, ipc_queues := k.ipc_queues.set idx ((lget (MessageQueue.new 0) k.ipc_queues idx).clear), scheduler := k.scheduler.remove_process pid }) 0 k.thread_table.length with security := (removeThreadsAux pid ({ k with process_table := k.process_table.set idx none, ipc_queues := k.ipc_queues.set idx ((lget (MessageQueue.new 0) k.ipc_queues idx).clear), scheduler := k.scheduler.remove_process pid }) 0 k.thread_table.length).security.revoke_task pid } := by
      unfold Kernel.terminate_process
      rw [hl]
      rfl
    rw [hshape]
    obtain ⟨hpt, hsec, hipc, hlen, hsched⟩ := removeThreadsAux_fields pid
      k.thread_table.length ({ k with process_table := k.process_table.set idx none, ipc_queues := k.ipc_queues.set idx ((lget (MessageQueue.new 0) k.ipc_queues idx).clear), scheduler := k.scheduler.remove_process pid }) 0
    obtain ⟨hnp, hnt⟩ := removeThreadsAux_ids pid k.thread_table.length ({ k with process_table := k.process_table.set idx none, ipc_queues := k.ipc_queues.set idx ((lget (MessageQueue.new 0) k.ipc_queues idx).clear), scheduler := k.scheduler.remove_process pid }) 0
    have hpt2 : (removeThreadsAux pid ({ k with process_table := k.process_table.set idx none, ipc_queues := k.ipc_queues.set idx ((lget (MessageQueue.new 0) k.ipc_queues idx).clear), scheduler := k.scheduler.remove_process pid }) 0 k.thread_table.length).process_table = k.process_table.set idx none := hpt
    have hnp2 : (removeThreadsAux pid ({ k with process_table := k.process_table.set idx none, ipc_queues := k.ipc_queues.set idx ((lget (MessageQueue.new 0) k.ipc_queues idx).clear), scheduler := k.scheduler.remove_process pid }) 0 k.thread_table.length).next_pid = k.next_pid := hnp
    have hnt2 : (removeThreadsAux pid ({ k with process_table := k.process_table.set idx none, ipc_queues := k.ipc_queues.set idx ((lget (MessageQueue.new 0) k.ipc_queues idx).clear), scheduler := k.scheduler.remove_process pid }) 0 k.thread_table.length).next_thread = k.next_thread := hnt
    have hlen2 : (removeThreadsAux pid ({ k with process_table := k.process_table.set idx none, ipc_queues := k.ipc_queues.set idx ((lget (MessageQueue.new 0) k.ipc_queues idx).clear), scheduler := k.scheduler.remove_process pid }) 0 k.thread_table.length).thread_table.length = k.thread_table.length := hlen
    have httsub : ∀ {j : Nat} {t : ThreadControlBlock},
        tget (removeThreadsAux pid ({ k with process_table := k.process_table.set idx none, ipc_queues := k.ipc_queues.set idx ((lget (MessageQueue.new 0) k.ipc_queues idx).clear), scheduler := k.scheduler.remove_process pid }) 0 k.thread_table.length).thread_table j = some t → tget k.thread_table j = some t := by
      intro j t hj
      exact removeThreadsAux_tt_sub pid k.thread_table.length ({ k with process_table := k.process_table.set idx none, ipc_queues := k.ipc_queues.set idx ((lget (MessageQueue.new 0) k.ipc_queues idx).clear), scheduler := k.scheduler.remove_process pid }) 0 hj
    have httkeep : ∀ {j : Nat} {t : ThreadControlBlock},
        tget k.thread_table j = some t → t.process ≠ pid →
        tget (removeThreadsAux pid ({ k with process_table := k.process_table.set idx none, ipc_queues := k.ipc_queues.set idx ((lget (MessageQueue.new 0) k.ipc_queues idx).clear), scheduler := k.scheduler.remove_process pid }) 0 k.thread_table.length).thread_table j = some t := by
      intro j t hj hne
      exact removeThreadsAux_keep pid k.thread_table.length ({ k with process_table := k.process_table.set idx none, ipc_queues := k.ipc_queues.set idx ((lget (MessageQueue.new 0) k.ipc_queues idx).clear), scheduler := k.scheduler.remove_process pid }) 0 hj hne
    have httclear : ∀ j t, tget (removeThreadsAux pid ({ k with process_table := k.process_table.set idx none, ipc_queues := k.ipc_queues.set idx ((lget (MessageQueue.new 0) k.ipc_queues idx).clear), scheduler := k.scheduler.remove_process pid }) 0 k.thread_table.length).thread_table j = some t → t.process ≠ pid := by
      refine removeThreadsAux_clears pid k.thread_table.length ({ k with process_table := k.process_table.set idx none, ipc_queues := k.ipc_queues.set idx ((lget (MessageQueue.new 0) k.ipc_queues idx).clear), scheduler := k.scheduler.remove_process pid }) 0 ?_ ?_
      · show k.thread_table.length ≤ 0 + k.thread_table.length
        omega
      · intro j2 t2 hlt _
        exact absurd hlt (Nat.not_lt_zero j2)
    have hqsub : ∀ {j : Nat} {e : ScheduledThread},
        tget (removeThreadsAux pid ({ k with process_table := k.process_table.set idx none, ipc_queues := k.ipc_queues.set idx ((lget (MessageQueue.new 0) k.ipc_queues idx).clear), scheduler := k.scheduler.remove_process pid }) 0 k.thread_table.length).scheduler.queue j = some e →
        ∃ j2, tget k.scheduler.queue j2 = some e := by
      intro j e hj
      have hj2 := hsched j e hj
      have hj3 : tget (schedRemoveAux (fun x => x.process == pid) k.scheduler.queue k.scheduler.len 0 k.scheduler.queue.length).1 j = some e := hj2
      exact ⟨j, schedRemoveAux_sub _ _ _ _ _ hj3⟩
    have hKR : KInv (removeThreadsAux pid ({ k with process_table := k.process_table.set idx none, ipc_queues := k.ipc_queues.set idx ((lget (MessageQueue.new 0) k.ipc_queues idx).clear), scheduler := k.scheduler.remove_process pid }) 0 k.thread_table.length) := by
      refine ⟨?_, ?_, ?_, ?_, ?_, ?_, ?_, ?_⟩
      · intro a b pa pb ha hb hpp
        rw [hpt2] at ha hb
        exact h.pidD a b pa pb (tget_set_none_sub ha) (tget_set_none_sub hb) hpp
      · intro a b ta tb ha hb hidab
        exact h.tidD a b ta tb (httsub ha) (httsub hb) hidab
      · intro a pa ha
        rw [hpt2] at ha
        rw [hnp2]
        exact h.pidF a pa (tget_set_none_sub ha)
      · intro a ta ha
        rw [hnt2]
        exact h.tidF a ta (httsub ha)
      · intro j e hj
        obtain ⟨j2, hj2⟩ := hqsub hj
        rw [hnt2]
        exact h.schedF j2 e hj2
      · intro j t hj
        have hne := httclear j t hj
        obtain ⟨a, pcb, ha, hpid⟩ := h.tcbP j t (httsub hj)
        have hai : a ≠ idx := by
          intro hh
          rw [hh] at ha
          have : pcb = pcb0 := Option.some.inj (ha.symm.trans hp0)
          rw [this, hpid0] at hpid
          exact hne hpid.symm
        refine ⟨a, pcb, ?_, hpid⟩
        rw [hpt2]
        rw [tget_set_ne none (fun hh => hai hh.symm)]
        exact ha
      · intro j e hj a ta ha hta
        obtain ⟨j2, hj2⟩ := hqsub hj
        exact h.schedOK j2 e hj2 a ta (httsub ha) hta
      · intro a pa ha
        rw [hpt2] at ha
        have hane : a ≠ idx := tget_set_none_ne hidx ha
        have ha2 := tget_set_none_sub ha
        have hpane : pa.pid ≠ pid := by
          intro hh
          have : a = idx := h.pidD a idx pa pcb0 ha2 hp0 (by rw [hh, hpid0])
          exact hane this
        have hcc : countTcb (removeThreadsAux pid ({ k with process_table := k.process_table.set idx none, ipc_queues := k.ipc_queues.set idx ((lget (MessageQueue.new 0) k.ipc_queues idx).clear), scheduler := k.scheduler.remove_process pid }) 0 k.thread_table.length).thread_table pa.pid =
            countTcb k.thread_table pa.pid := by
          refine countTcb_congr k.thread_table _ pa.pid hlen2 ?_
          intro j hj
          cases hkj : tget k.thread_table j with
          | none =>
            cases hRj : tget (removeThreadsAux pid ({ k with process_table := k.process_table.set idx none, ipc_queues := k.ipc_queues.set idx ((lget (MessageQueue.new 0) k.ipc_queues idx).clear), scheduler := k.scheduler.remove_process pid }) 0 k.thread_table.length).thread_table j with
            | none => rfl
            | some t2 =>
              have hsub2 := httsub hRj
              rw [hkj] at hsub2
              exact Option.noConfusion hsub2
          | some t =>
            by_cases htp : t.process = pid
            · cases hRj : tget (removeThreadsAux pid ({ k with process_table := k.process_table.set idx none, ipc_queues := k.ipc_queues.set idx ((lget (MessageQueue.new 0) k.ipc_queues idx).clear), scheduler := k.scheduler.remove_process pid }) 0 k.thread_table.length).thread_table j with
              | none =>
                rw [cnt1_some_ne (by rw [htp]; exact fun hh => hpane hh.symm)]
                rfl
              | some t2 =>
                exfalso
                have hsub2 := httsub hRj
                rw [hkj] at hsub2
                have hte : t = t2 := Option.some.inj hsub2
                have hcl := httclear j t2 hRj
                rw [← hte] at hcl
                exact hcl htp
            · rw [httkeep hkj htp]
        rw [hcc]
        exact h.counts a pa ha2
    exact KInv_congr hKR rfl rfl rfl (le_refl _) (le_refl _)

theorem upd_ids (k : Kernel) (pid : Nat) (b : Bool) :
    (k.update_process_thread_count pid b).next_pid = k.next_pid ∧
    (k.update_process_thread_count pid b).next_thread = k.next_thread := by
  rcases upd_cases k pid b with ⟨hupd, _⟩ | ⟨i, pcb, _, _, _, hupd⟩
  · rw [hupd]
    exact ⟨rfl, rfl⟩
  · rw [hupd]
    exact ⟨rfl, rfl⟩

theorem create_thread_ok_ids (k : Kernel) (pid ep : Nat) (pr : ProcessPriority)
    {tid : Nat} {k2 : Kernel} (h : k.create_thread pid ep pr = (.ok tid, k2)) :
    k2.next_pid = k.next_pid ∧ k2.next_thread = k.next_thread + 1 := by
  obtain ⟨tslot, _, _, _, h4⟩ := create_thread_ok_shape k pid ep pr h
  obtain ⟨h5, h6⟩ := upd_ids ({ k with next_thread := k.next_thread + 1, thread_table := (k.thread_table.set tslot (some (ThreadControlBlock.new k.next_thread pid ep pr))) }) pid true
  rw [h4]
  exact ⟨h5, h6⟩

theorem rollback_ids (k : Kernel) (tid : Nat) :
    (k.rollback_thread_creation tid).next_pid = k.next_pid ∧
    (k.rollback_thread_creation tid).next_thread = k.next_thread := by
  unfold Kernel.rollback_thread_creation
  split
  · split
    · rename_i x1 index hl x2 tcb htc
      obtain ⟨h5, h6⟩ := upd_ids ({ k with thread_table := k.thread_table.set index none }) tcb.process false
      exact ⟨h5, h6⟩
    · exact ⟨rfl, rfl⟩
  · exact ⟨rfl, rfl⟩

/-- A successful `create_thread` for a live pid preserves the bundle: the new
TCB lands in a free slot, its process's count is stepped with it. -/
theorem KInv_create_thread {k : Kernel} (h : KInv k) {pid ep : Nat}
    {pr : ProcessPriority} {idx : Nat} {pcb : ProcessControlBlock}
    (hloc : k.locate_process pid = some idx)
    (htg : tget k.process_table idx = some pcb)
    {tid : Nat} {k2 : Kernel} (hstep : k.create_thread pid ep pr = (.ok tid, k2)) :
    KInv k2 := by
  obtain ⟨tslot, htslt, hT0, htid, hpt, htt, hsch, hsec⟩ :=
    create_thread_ok_fields k pid ep pr hstep hloc htg
  obtain ⟨hnp, hnt⟩ := create_thread_ok_ids k pid ep pr hstep
  have hidxlen : idx < k.process_table.length := tget_some_lt_length htg
  have hpcbpid : pcb.pid = pid := by
    obtain ⟨pcb2, hg2, hp2⟩ := locate_process_sound hloc
    have : pcb = pcb2 := Option.some.inj (htg.symm.trans hg2)
    rw [this]
    exact hp2
  have hsetlen : idx < (k.process_table.set idx (some pcb.increment_thread_count)).length := by
    rw [List.length_set]
    exact hidxlen
  refine ⟨?_, ?_, ?_, ?_, ?_, ?_, ?_, ?_⟩
  · intro a b pa pb ha hb hpp
    rw [hpt] at ha hb
    rcases tget_set_cases hidxlen ha with ⟨hai, hxa⟩ | ⟨hane, ha3⟩
    · rcases tget_set_cases hidxlen hb with ⟨hbi, hxb⟩ | ⟨hbne, hb3⟩
      · rw [hai, hbi]
      · exfalso
        have hpa : pcb.increment_thread_count = pa := Option.some.inj hxa
        have : b = idx := h.pidD b idx pb pcb hb3 htg (by rw [← hpp, ← hpa]; rfl)
        exact hbne this
    · rcases tget_set_cases hidxlen hb with ⟨hbi, hxb⟩ | ⟨hbne, hb3⟩
      · exfalso
        have hpb : pcb.increment_thread_count = pb := Option.some.inj hxb
        have : a = idx := h.pidD a idx pa pcb ha3 htg (by rw [hpp, ← hpb]; rfl)
        exact hane this
      · exact h.pidD a b pa pb ha3 hb3 hpp
  · intro a b ta tb ha hb hidab
    rw [htt] at ha hb
    rcases tget_set_cases htslt ha with ⟨hai, hxa⟩ | ⟨hane, ha3⟩
    · rcases tget_set_cases htslt hb with ⟨hbi, hxb⟩ | ⟨hbne, hb3⟩
      · rw [hai, hbi]
      · exfalso
        have hta : ThreadControlBlock.new k.next_thread pid ep pr = ta :=
          Option.some.inj hxa
        have hlt := h.tidF b tb hb3
        rw [← hidab, ← hta] at hlt
        exact absurd hlt (by show ¬ k.next_thread < k.next_thread; omega)
    · rcases tget_set_cases htslt hb with ⟨hbi, hxb⟩ | ⟨hbne, hb3⟩
      · exfalso
        have htb : ThreadControlBlock.new k.next_thread pid ep pr = tb :=
          Option.some.inj hxb
        have hlt := h.tidF a ta ha3
        rw [hidab, ← htb] at hlt
        exact absurd hlt (by show ¬ k.next_thread < k.next_thread; omega)
      · exact h.tidD a b ta tb ha3 hb3 hidab
  · intro a pa ha
    rw [hpt] at ha
    rw [hnp]
    rcases tget_set_cases hidxlen ha with ⟨hai, hxa⟩ | ⟨hane, ha3⟩
    · have hpa : pcb.increment_thread_count = pa := Option.some.inj hxa
      show pa.pid < k.next_pid
      rw [← hpa]
      exact h.pidF idx pcb htg
    · exact h.pidF a pa ha3
  · intro a ta ha
    rw [htt] at ha
    rw [hnt]
    rcases tget_set_cases htslt ha with ⟨hai, hxa⟩ | ⟨hane, ha3⟩
    · have hta : ThreadControlBlock.new k.next_thread pid ep pr = ta :=
        Option.some.inj hxa
      show ta.id < k.next_thread + 1
      rw [← hta]
      show k.next_thread < k.next_thread + 1
      omega
    · have := h.tidF a ta ha3
      omega
  · intro j e hj
    rw [hsch] at hj
    rw [hnt]
    have := h.schedF j e hj
    omega
  · intro j t hj
    rw [htt] at hj
    rw [hpt]
    rcases tget_set_cases htslt hj with ⟨hji, hxj⟩ | ⟨hjne, hj3⟩
    · have htj : ThreadControlBlock.new k.next_thread pid ep pr = t :=
        Option.some.inj hxj
      refine ⟨idx, pcb.increment_thread_count, tget_set_self _ hidxlen, ?_⟩
      show pcb.increment_thread_count.pid = t.process
      rw [← htj]
      show pcb.pid = pid
      exact hpcbpid
    · obtain ⟨a, pcba, ha, hpida⟩ := h.tcbP j t hj3
      by_cases hai : a = idx
      · subst hai
        have : pcba = pcb := Option.some.inj (ha.symm.trans htg)
        refine ⟨a, pcb.increment_thread_count, tget_set_self _ hidxlen, ?_⟩
        show pcb.increment_thread_count.pid = t.process
        rw [show pcb.increment_thread_count.pid = pcb.pid from rfl, ← this]
        exact hpida
      · refine ⟨a, pcba, ?_, hpida⟩
        rw [tget_set_ne _ (fun hh => hai hh.symm)]
        exact ha
  · intro j e hj a ta ha hta
    rw [hsch] at hj
    rw [htt] at ha
    rcases tget_set_cases htslt ha with ⟨hai, hxa⟩ | ⟨hane, ha3⟩
    · exfalso
      have hta2 : ThreadControlBlock.new k.next_thread pid ep pr = ta :=
        Option.some.inj hxa
      have hf := h.schedF j e hj
      rw [← hta, ← hta2] at hf
      exact absurd hf (by show ¬ k.next_thread < k.next_thread; omega)
    · exact h.schedOK j e hj a ta ha3 hta
  · intro a pa ha
    rw [hpt] at ha
    rw [htt]
    have hset := countTcb_set k.thread_table tslot
      (some (ThreadControlBlock.new k.next_thread pid ep pr)) pa.pid htslt
    rw [hT0] at hset
    have hc0 : cnt1 (none : Option ThreadControlBlock) pa.pid = 0 := rfl
    rcases tget_set_cases hidxlen ha with ⟨hai, hxa⟩ | ⟨hane, ha3⟩
    · have hpa : pcb.increment_thread_count = pa := Option.some.inj hxa
      have hcnt0 := h.counts idx pcb htg
      have hpapid : pa.pid = pcb.pid := by rw [← hpa]; rfl
      have hcp : cnt1 (some (ThreadControlBlock.new k.next_thread pid ep pr)) pa.pid = 1 := by
        refine cnt1_some_eq ?_
        show pid = pa.pid
        rw [hpapid, hpcbpid]
      have hpac : pa.thread_count = pcb.thread_count + 1 := by rw [← hpa]; rfl
      rw [hpac, hpapid, hcnt0]
      rw [hpapid] at hset hcp hc0
      omega
    · have hpane : pa.pid ≠ pid := by
        intro hh
        have : a = idx := h.pidD a idx pa pcb ha3 htg (by rw [hh, hpcbpid])
        exact hane this
      have hcp : cnt1 (some (ThreadControlBlock.new k.next_thread pid ep pr)) pa.pid = 0 := by
        refine cnt1_some_ne ?_
        show ¬ pid = pa.pid
        exact fun hh => hpane hh.symm
      have hcnt0 := h.counts a pa ha3
      rw [hcnt0]
      omega

theorem KInv_spawn_thread {k : Kernel} (h : KInv k) (pid ep : Nat)
    (pr : ProcessPriority) : KInv (k.spawn_thread pid ep pr).2 := by
  unfold Kernel.spawn_thread
  split
  · exact h
  · split
    · rename_i x1 b1 hloc0 x2 err k2 hct
      obtain ⟨hk2, _⟩ := create_thread_error_shape _ _ _ _ hct
      subst hk2
      exact h
    · rename_i x1 b1 hloc0 x2 tid k2 hct
      obtain ⟨pcb, htg, hpcbpid⟩ := locate_process_sound hloc0
      have hK2 : KInv k2 := KInv_create_thread h hloc0 htg hct
      obtain ⟨tslot, htslt, hT0, htid, hpt, htt, hsch, hsec⟩ :=
        create_thread_ok_fields k pid ep pr hct hloc0 htg
      obtain ⟨hnp, hnt⟩ := create_thread_ok_ids k pid ep pr hct
      split
      · rename_i x3 e3 hsch3
        have hlocT : k2.locate_thread tid = some tslot := by
          show scanIdx (fun e => match e with | some tcb => tcb.id == tid | none => false) k2.thread_table = some tslot
          rw [htt, htid]
          refine scanIdx_set_first htslt ?_ ?_
          · show (k.next_thread == k.next_thread) = true
            simp
          · intro j hj x hx
            cases x with
            | none => rfl
            | some q =>
              show (q.id == k.next_thread) = false
              refine beq_eq_false_iff_ne.mpr ?_
              have := h.tidF j q (tget_of_get? hx)
              omega
        have htgT : tget k2.thread_table tslot =
            some (ThreadControlBlock.new k.next_thread pid ep pr) := by
          rw [htt]
          exact tget_set_self _ htslt
        have hlocp : k2.locate_process
            (ThreadControlBlock.new k.next_thread pid ep pr).process = some b1 := by
          show scanIdx (fun e => match e with | some pcb => pcb.pid == pid | none => false) k2.process_table = some b1
          rw [hpt]
          refine scanIdx_set_pred hloc0 _ ?_
          show (pcb.pid == pid) = true
          rw [hpcbpid]
          simp
        have htgp : tget k2.process_table b1 = some pcb.increment_thread_count := by
          rw [hpt]
          exact tget_set_self _ (tget_some_lt_length htg)
        obtain ⟨hrb1, hrb2, hrb3, hrb4⟩ := rollback_fields k2 tid hlocT htgT hlocp htgp
        obtain ⟨hrnp, hrnt⟩ := rollback_ids k2 tid
        refine KInv_congr h ?_ ?_ ?_ ?_ ?_
        · show (k2.rollback_thread_creation tid).process_table = k.process_table
          rw [hrb1, hpt, List.set_set]
          have hdec : pcb.increment_thread_count.decrement_thread_count = pcb := by
            show ({ pcb with thread_count := pcb.thread_count + 1 - 1 } : ProcessControlBlock) = pcb
            rw [Nat.add_sub_cancel]
          rw [hdec]
          exact tset_self_id htg (tget_some_lt_length htg)
        · show (k2.rollback_thread_creation tid).thread_table = k.thread_table
          rw [hrb2, htt, List.set_set]
          exact tset_self_id hT0 htslt
        · show (k2.rollback_thread_creation tid).scheduler.queue = k.scheduler.queue
          rw [hrb3, hsch]
        · show k.next_pid ≤ (k2.rollback_thread_creation tid).next_pid
          rw [hrnp, hnp]
        · show k.next_thread ≤ (k2.rollback_thread_creation tid).next_thread
          rw [hrnt, hnt]
          omega
      · rename_i x3 sch hsch3
        refine @KInv_sched_extend _ hK2 _ (ScheduledThread.new tid pid pr) ?_ ?_ ?_
        · intro j e hj
          have hj2 : tget sch.queue j = some e := hj
          rcases enqueue_entries hsch3 j e hj2 with h2 | h2
          · exact Or.inl ⟨j, h2⟩
          · exact Or.inr h2
        · show (ScheduledThread.new tid pid pr).thread < k2.next_thread
          rw [hnt, htid]
          show k.next_thread < k.next_thread + 1
          omega
        · intro a ta ha hta
          have ha2 : tget k2.thread_table a = some ta := ha
          rw [htt] at ha2
          rcases tget_set_cases htslt ha2 with ⟨hai, hxa⟩ | ⟨hane, ha3⟩
          · have hta2 : ThreadControlBlock.new k.next_thread pid ep pr = ta :=
              Option.some.inj hxa
            show ta.process = (ScheduledThread.new tid pid pr).process
            rw [← hta2]
            rfl
          · exfalso
            have hlt := h.tidF a ta ha3
            rw [hta] at hlt
            have hlt2 : tid < k.next_thread := hlt
            rw [htid] at hlt2
            omega

theorem KInv_spawn_process {k : Kernel} (h : KInv k) (ep : Nat)
    (priority : ProcessPriority) (parent : Option Nat) (creds : Credentials) :
    KInv (k.spawn_process ep priority parent creds).2 := by
  unfold Kernel.spawn_process
  cases hslot : k.find_free_slot with
  | none =>
    simp only [hslot]
    exact h
  | some slot =>
    simp only [hslot]
    have hslot2 : scanIdx (fun e => e.isNone) k.process_table = some slot := hslot
    have hsltP : slot < k.process_table.length := scanIdx_lt_length hslot2
    have hP0 : tget k.process_table slot = none := by
      obtain ⟨x, hx, hpx⟩ := scanIdx_found hslot2
      have hxn : x = none := Option.isNone_iff_eq_none.mp hpx
      subst hxn
      exact tget_of_get? hx
    have hfP : ∀ j q, tget k.process_table j = some q → q.pid ≠ k.next_pid := by
      intro j q hq hh
      have := h.pidF j q hq
      omega
    cases hreg : k.security.register_task k.next_pid creds with
    | error e1 =>
      simp only [hreg]
      exact KInv_congr h rfl rfl rfl (Nat.le_succ _) (le_refl _)
    | ok sec =>
      simp only [hreg]
      have hKS : KInv ({ k with next_pid := k.next_pid + 1, security := sec, process_table := (k.process_table.set slot (some ((ProcessControlBlock.new k.next_pid ep priority parent).update_security_label creds.label))) }) := by
        refine ⟨?_, h.tidD, ?_, h.tidF, h.schedF, ?_, h.schedOK, ?_⟩
        · intro a b pa pb ha hb hpp
          have ha0 : tget (k.process_table.set slot (some ((ProcessControlBlock.new k.next_pid ep priority parent).update_security_label creds.label))) a = some pa := ha
          have hb0 : tget (k.process_table.set slot (some ((ProcessControlBlock.new k.next_pid ep priority parent).update_security_label creds.label))) b = some pb := hb
          rcases tget_set_cases hsltP ha0 with ⟨hai, hxa⟩ | ⟨hane, ha3⟩
          · rcases tget_set_cases hsltP hb0 with ⟨hbi, hxb⟩ | ⟨hbne, hb3⟩
            · rw [hai, hbi]
            · exfalso
              have hpa : ((ProcessControlBlock.new k.next_pid ep priority parent).update_security_label creds.label) = pa := Option.some.inj hxa
              refine hfP b pb hb3 ?_
              rw [← hpp, ← hpa]
              rfl
          · rcases tget_set_cases hsltP hb0 with ⟨hbi, hxb⟩ | ⟨hbne, hb3⟩
            · exfalso
              have hpb : ((ProcessControlBlock.new k.next_pid ep priority parent).update_security_label creds.label) = pb := Option.some.inj hxb
              refine hfP a pa ha3 ?_
              rw [hpp, ← hpb]
              rfl
            · exact h.pidD a b pa pb ha3 hb3 hpp
        · intro a pa ha
          have ha0 : tget (k.process_table.set slot (some ((ProcessControlBlock.new k.next_pid ep priority parent).update_security_label creds.label))) a = some pa := ha
          show pa.pid < k.next_pid + 1
          rcases tget_set_cases hsltP ha0 with ⟨hai, hxa⟩ | ⟨hane, ha3⟩
          · have hpa : ((ProcessControlBlock.new k.next_pid ep priority parent).update_security_label creds.label) = pa := Option.some.inj hxa
            rw [← hpa]
            show k.next_pid < k.next_pid + 1
            omega
          · have := h.pidF a pa ha3
            omega
        · intro j t hj
          obtain ⟨a, pcba, ha, hpida⟩ := h.tcbP j t hj
          have hane : a ≠ slot := by
            intro hh
            rw [hh, hP0] at ha
            exact Option.noConfusion ha
          refine ⟨a, pcba, ?_, hpida⟩
          show tget (k.process_table.set slot (some ((ProcessControlBlock.new k.next_pid ep priority parent).update_security_label creds.label))) a = some pcba
          rw [tget_set_ne _ (fun hh => hane hh.symm)]
          exact ha
        · intro a pa ha
          have ha0 : tget (k.process_table.set slot (some ((ProcessControlBlock.new k.next_pid ep priority parent).update_security_label creds.label))) a = some pa := ha
          rcases tget_set_cases hsltP ha0 with ⟨hai, hxa⟩ | ⟨hane, ha3⟩
          · have hpa : ((ProcessControlBlock.new k.next_pid ep priority parent).update_security_label creds.label) = pa := Option.some.inj hxa
            show pa.thread_count = countTcb k.thread_table pa.pid
            rw [← hpa]
            show (0 : Nat) = countTcb k.thread_table k.next_pid
            refine (countTcb_zero ?_).symm
            intro j t hjt
            obtain ⟨b, pcbb, hb, hpidb⟩ := h.tcbP j t hjt
            rw [← hpidb]
            exact hfP b pcbb hb
          · exact h.counts a pa ha3
      have hlocA : Kernel.locate_process ({ k with next_pid := k.next_pid + 1, security := sec, process_table := (k.process_table.set slot (some ((ProcessControlBlock.new k.next_pid ep priority parent).update_security_label creds.label))) }) k.next_pid = some slot := by
        show scanIdx (fun e => match e with | some pcb => pcb.pid == k.next_pid | none => false) (k.process_table.set slot (some ((ProcessControlBlock.new k.next_pid ep priority parent).update_security_label creds.label))) = some slot
        refine scanIdx_set_first hsltP ?_ ?_
        · show (k.next_pid == k.next_pid) = true
          simp
        · intro j hj x hx
          cases x with
          | none => rfl
          | some q =>
            show (q.pid == k.next_pid) = false
            exact beq_eq_false_iff_ne.mpr (hfP j q (tget_of_get? hx))
      have htgA : tget (Kernel.process_table ({ k with next_pid := k.next_pid + 1, security := sec, process_table := (k.process_table.set slot (some ((ProcessControlBlock.new k.next_pid ep priority parent).update_security_label creds.label))) })) slot = some ((ProcessControlBlock.new k.next_pid ep priority parent).update_security_label creds.label) := by
        show tget (k.process_table.set slot (some ((ProcessControlBlock.new k.next_pid ep priority parent).update_security_label creds.label))) slot = _
        exact tget_set_self _ hsltP
      split
      · rename_i x2 e2 kB hct
        obtain ⟨hkB, he2⟩ := create_thread_error_shape _ _ _ _ hct
        subst hkB
        refine KInv_congr h ?_ rfl rfl (Nat.le_succ _) (le_refl _)
        show ((k.process_table.set slot (some ((ProcessControlBlock.new k.next_pid ep priority parent).update_security_label creds.label))).set slot none) = k.process_table
        rw [List.set_set]
        exact tset_self_id hP0 hsltP
      · rename_i x2 tid kB hct
        obtain ⟨tslot, htslt0, hT0A, htid, hproc, hthr, hsched, hsecu⟩ :=
          create_thread_ok_fields _ _ _ _ hct hlocA htgA
        have htid2 : tid = k.next_thread := htid
        subst htid2
        have htslt2 : tslot < k.thread_table.length := htslt0
        have hT02 : tget k.thread_table tslot = none := hT0A
        have hproc2 : kB.process_table = (k.process_table.set slot (some ((ProcessControlBlock.new k.next_pid ep priority parent).update_security_label creds.label))).set slot (some ((ProcessControlBlock.new k.next_pid ep priority parent).update_security_label creds.label).increment_thread_count) := hproc
        have hthr2 : kB.thread_table = k.thread_table.set tslot (some (ThreadControlBlock.new k.next_thread k.next_pid ep priority)) := hthr
        have hsched2 : kB.scheduler = k.scheduler := hsched
        obtain ⟨hnpB, hntB⟩ := create_thread_ok_ids _ _ _ _ hct
        have hnpB2 : kB.next_pid = k.next_pid + 1 := hnpB
        have hntB2 : kB.next_thread = k.next_thread + 1 := hntB
        have hKB : KInv kB := KInv_create_thread hKS hlocA htgA hct
        have htgB : tget kB.process_table slot = some ((ProcessControlBlock.new k.next_pid ep priority parent).update_security_label creds.label).increment_thread_count := by
          rw [hproc2]
          exact tget_set_self _ (by rw [List.length_set]; exact hsltP)
        simp only [htgB]
        have hK3 : KInv { kB with process_table := (kB.process_table.set slot (some ({ ((ProcessControlBlock.new k.next_pid ep priority parent).update_security_label creds.label).increment_thread_count with state := ProcessState.Ready }))) } :=
          KInv_set_pcb hKB htgB rfl rfl
        split
        · rename_i x3 e3 hsch3
          have hlocT : Kernel.locate_thread ({ kB with process_table := (kB.process_table.set slot (some ({ ((ProcessControlBlock.new k.next_pid ep priority parent).update_security_label creds.label).increment_thread_count with state := ProcessState.Ready }))) }) k.next_thread = some tslot := by
            show scanIdx (fun e => match e with | some tcb => tcb.id == k.next_thread | none => false) kB.thread_table = some tslot
            rw [hthr2]
            refine scanIdx_set_first htslt2 ?_ ?_
            · show (k.next_thread == k.next_thread) = true
              simp
            · intro j hj x hx
              cases x with
              | none => rfl
              | some q =>
                refine beq_eq_false_iff_ne.mpr ?_
                have := h.tidF j q (tget_of_get? hx)
                omega
          have htgT : tget (Kernel.thread_table ({ kB with process_table := (kB.process_table.set slot (some ({ ((ProcessControlBlock.new k.next_pid ep priority parent).update_security_label creds.label).increment_thread_count with state := ProcessState.Ready }))) })) tslot = some (ThreadControlBlock.new k.next_thread k.next_pid ep priority) := by
            show tget kB.thread_table tslot = _
            rw [hthr2]
            exact tget_set_self _ htslt2
          have hlocp2 : Kernel.locate_process ({ kB with process_table := (kB.process_table.set slot (some ({ ((ProcessControlBlock.new k.next_pid ep priority parent).update_security_label creds.label).increment_thread_count with state := ProcessState.Ready }))) }) (ThreadControlBlock.new k.next_thread k.next_pid ep priority).process = some slot := by
            show scanIdx (fun e => match e with | some pcb => pcb.pid == k.next_pid | none => false) (kB.process_table.set slot (some ({ ((ProcessControlBlock.new k.next_pid ep priority parent).update_security_label creds.label).increment_thread_count with state := ProcessState.Ready }))) = some slot
            rw [hproc2]
            rw [List.set_set, List.set_set]
            refine scanIdx_set_first hsltP ?_ ?_
            · show (k.next_pid == k.next_pid) = true
              simp
            · intro j hj x hx
              cases x with
              | none => rfl
              | some q =>
                show (q.pid == k.next_pid) = false
                exact beq_eq_false_iff_ne.mpr (hfP j q (tget_of_get? hx))
          have htgp2 : tget (Kernel.process_table ({ kB with process_table := (kB.process_table.set slot (some ({ ((ProcessControlBlock.new k.next_pid ep priority parent).update_security_label creds.label).increment_thread_count with state := ProcessState.Ready }))) })) slot = some ({ ((ProcessControlBlock.new k.next_pid ep priority parent).update_security_label creds.label).increment_thread_count with state := ProcessState.Ready }) := by
            show tget (kB.process_table.set slot (some ({ ((ProcessControlBlock.new k.next_pid ep priority parent).update_security_label creds.label).increment_thread_count with state := ProcessState.Ready }))) slot = _
            exact tget_set_self _ (by rw [hproc2, List.length_set, List.length_set]; exact hsltP)
          obtain ⟨hrb1, hrb2, hrb3, hrb4⟩ :=
            rollback_fields _ k.next_thread hlocT htgT hlocp2 htgp2
          obtain ⟨hrnp, hrnt⟩ := rollback_ids ({ kB with process_table := (kB.process_table.set slot (some ({ ((ProcessControlBlock.new k.next_pid ep priority parent).update_security_label creds.label).increment_thread_count with state := ProcessState.Ready }))) }) k.next_thread
          refine KInv_congr h ?_ ?_ ?_ ?_ ?_
          · show ((({ kB with process_table := (kB.process_table.set slot (some ({ ((ProcessControlBlock.new k.next_pid ep priority parent).update_security_label creds.label).increment_thread_count with state := ProcessState.Ready }))) }).rollback_thread_creation k.next_thread).process_table.set slot none) = k.process_table
            rw [hrb1]
            show (((kB.process_table.set slot (some ({ ((ProcessControlBlock.new k.next_pid ep priority parent).update_security_label creds.label).increment_thread_count with state := ProcessState.Ready }))).set slot (some (({ ((ProcessControlBlock.new k.next_pid ep priority parent).update_security_label creds.label).increment_thread_count with state := ProcessState.Ready }).decrement_thread_count))).set slot none) = k.process_table
            rw [hproc2]
            simp only [List.set_set]
            exact tset_self_id hP0 hsltP
          · show (({ kB with process_table := (kB.process_table.set slot (some ({ ((ProcessControlBlock.new k.next_pid ep priority parent).update_security_label creds.label).increment_thread_count with state := ProcessState.Ready }))) }).rollback_thread_creation k.next_thread).thread_table = k.thread_table
            rw [hrb2]
            show (kB.thread_table.set tslot none) = k.thread_table
            rw [hthr2]
            simp only [List.set_set]
            exact tset_self_id hT02 htslt2
          · show (({ kB with process_table := (kB.process_table.set slot (some ({ ((ProcessControlBlock.new k.next_pid ep priority parent).update_security_label creds.label).increment_thread_count with state := ProcessState.Ready }))) }).rollback_thread_creation k.next_thread).scheduler.queue = k.scheduler.queue
            rw [hrb3]
            show kB.scheduler.queue = k.scheduler.queue
            rw [hsched2]
          · show k.next_pid ≤ (({ kB with process_table := (kB.process_table.set slot (some ({ ((ProcessControlBlock.new k.next_pid ep priority parent).update_security_label creds.label).increment_thread_count with state := ProcessState.Ready }))) }).rollback_thread_creation k.next_thread).next_pid
            rw [hrnp]
            show k.next_pid ≤ kB.next_pid
            rw [hnpB2]
            omega
          · show k.next_thread ≤ (({ kB with process_table := (kB.process_table.set slot (some ({ ((ProcessControlBlock.new k.next_pid ep priority parent).update_security_label creds.label).increment_thread_count with state := ProcessState.Ready }))) }).rollback_thread_creation k.next_thread).next_thread
            rw [hrnt]
            show k.next_thread ≤ kB.next_thread
            rw [hntB2]
            omega
        · rename_i x3 sch hsch3
          refine @KInv_sched_extend _ hK3 _ (ScheduledThread.new k.next_thread k.next_pid priority) ?_ ?_ ?_
          · intro j e hj
            have hj2 : tget sch.queue j = some e := hj
            rcases enqueue_entries hsch3 j e hj2 with h2 | h2
            · exact Or.inl ⟨j, h2⟩
            · exact Or.inr h2
          · show (ScheduledThread.new k.next_thread k.next_pid priority).thread < kB.next_thread
            rw [hntB2]
            show k.next_thread < k.next_thread + 1
            omega
          · intro a ta ha hta
            have ha2 : tget kB.thread_table a = some ta := ha
            rw [hthr2] at ha2
            rcases tget_set_cases htslt2 ha2 with ⟨hai, hxa⟩ | ⟨hane, ha3⟩
            · have hta2 : ThreadControlBlock.new k.next_thread k.next_pid ep priority = ta := Option.some.inj hxa
              show ta.process = (ScheduledThread.new k.next_thread k.next_pid priority).process
              rw [← hta2]
              rfl
            · exfalso
              have hlt := h.tidF a ta ha3
              rw [hta] at hlt
              have hlt2 : k.next_thread < k.next_thread := hlt
              omega

theorem sched_requeue_fields (scheduled : ScheduledThread) :
    (if (scheduled.consume_time_slice).1 = true then (scheduled.consume_time_slice).2.reset_time_slice else (scheduled.consume_time_slice).2).thread = scheduled.thread ∧
    (if (scheduled.consume_time_slice).1 = true then (scheduled.consume_time_slice).2.reset_time_slice else (scheduled.consume_time_slice).2).process = scheduled.process := by
  have hc : (scheduled.consume_time_slice).2.thread = scheduled.thread ∧
      (scheduled.consume_time_slice).2.process = scheduled.process := by
    constructor
    · show (if scheduled.remaining_slice > 0 then ({ scheduled with remaining_slice := scheduled.remaining_slice - 1 } : ScheduledThread) else scheduled).thread = scheduled.thread
      by_cases hr : scheduled.remaining_slice > 0
      · rw [if_pos hr]
      · rw [if_neg hr]
    · show (if scheduled.remaining_slice > 0 then ({ scheduled with remaining_slice := scheduled.remaining_slice - 1 } : ScheduledThread) else scheduled).process = scheduled.process
      by_cases hr : scheduled.remaining_slice > 0
      · rw [if_pos hr]
      · rw [if_neg hr]
  by_cases hcs : (scheduled.consume_time_slice).1 = true
  · rw [if_pos hcs]
    exact ⟨hc.1, hc.2⟩
  · rw [if_neg hcs]
    exact hc

/-- The non-reaping tail of `run_core`: PCB and TCB state touch-ups, the core
cycle, and the requeue of the dispatched entry. -/
theorem KInv_run_core_tail {k2 : Kernel} (h2 : KInv k2)
    (process_index thread_index ci : Nat) {scheduled : ScheduledThread}
    (hth : scheduled.thread < k2.next_thread)
    (hOK : ∀ i t, tget k2.thread_table i = some t → t.id = scheduled.thread →
      t.process = scheduled.process) :
    KInv (let kA := match tget k2.process_table process_index with
        | some pcb => { k2 with process_table := k2.process_table.set process_index (some { pcb with state := ProcessState.Running, cpu_time := pcb.cpu_time + 1 }) }
        | none => k2;
      let kB := match tget kA.thread_table thread_index with
        | some thread => { kA with thread_table := kA.thread_table.set thread_index (some thread.mark_ready) }
        | none => kA;
      let kC := match tget kB.process_table process_index with
        | some pcb => { kB with process_table := kB.process_table.set process_index (some { pcb with state := ProcessState.Ready }) }
        | none => kB;
      let kD := Kernel.set_core kC ci CpuCoreState.finish_cycle;
      { kD with scheduler := kD.scheduler.enqueueD (if (scheduled.consume_time_slice).1 = true then (scheduled.consume_time_slice).2.reset_time_slice else (scheduled.consume_time_slice).2) }) := by
  obtain ⟨hrqt, hrqp⟩ := sched_requeue_fields scheduled
  have main : ∀ (kC : Kernel), KInv kC → kC.next_thread = k2.next_thread →
      (∀ i t, tget kC.thread_table i = some t → t.id = scheduled.thread →
        t.process = scheduled.process) →
      KInv { Kernel.set_core kC ci CpuCoreState.finish_cycle with scheduler := (Kernel.set_core kC ci CpuCoreState.finish_cycle).scheduler.enqueueD (if (scheduled.consume_time_slice).1 = true then (scheduled.consume_time_slice).2.reset_time_slice else (scheduled.consume_time_slice).2) } := by
    intro kC hC hnt hOKC
    have hD : KInv (Kernel.set_core kC ci CpuCoreState.finish_cycle) :=
      KInv_congr hC rfl rfl rfl (le_refl _) (le_refl _)
    refine @KInv_sched_extend _ hD _ (if (scheduled.consume_time_slice).1 = true then (scheduled.consume_time_slice).2.reset_time_slice else (scheduled.consume_time_slice).2) ?_ ?_ ?_
    · intro j e hj
      rcases enqueueD_entries (Kernel.set_core kC ci CpuCoreState.finish_cycle).scheduler _ j e hj with h3 | h3
      · exact Or.inl ⟨j, h3⟩
      · exact Or.inr h3
    · show (if (scheduled.consume_time_slice).1 = true then (scheduled.consume_time_slice).2.reset_time_slice else (scheduled.consume_time_slice).2).thread < (Kernel.set_core kC ci CpuCoreState.finish_cycle).next_thread
      rw [hrqt]
      show scheduled.thread < kC.next_thread
      rw [hnt]
      exact hth
    · intro a ta ha hta
      rw [hrqt] at hta
      have ha2 : tget kC.thread_table a = some ta := ha
      have := hOKC a ta ha2 hta
      rw [hrqp]
      exact this
  dsimp only []
  cases hA : tget k2.process_table process_index with
  | none =>
    dsimp only []
    cases hB : tget k2.thread_table thread_index with
    | none =>
      dsimp only []
      cases hC : tget k2.process_table process_index with
      | none =>
        dsimp only []
        exact main k2 h2 rfl hOK
      | some pcb =>
        rw [hA] at hC
        exact Option.noConfusion hC
    | some thread =>
      dsimp only []
      have hKB : KInv { k2 with thread_table := k2.thread_table.set thread_index (some thread.mark_ready) } :=
        KInv_set_tcb h2 hB rfl rfl
      cases hC : tget k2.process_table process_index with
      | some pcb =>
        rw [hA] at hC
        exact Option.noConfusion hC
      | none =>
        dsimp only []
        refine main _ hKB rfl ?_
        intro a ta ha hta
        have ha2 : tget (k2.thread_table.set thread_index (some thread.mark_ready)) a = some ta := ha
        rcases tget_set_cases (tget_some_lt_length hB) ha2 with ⟨hai, hxa⟩ | ⟨hane, ha3⟩
        · have hte : thread.mark_ready = ta := Option.some.inj hxa
          have hido : thread.id = scheduled.thread := by
            rw [← hte] at hta
            exact hta
          have := hOK thread_index thread hB hido
          rw [← hte]
          exact this
        · exact hOK a ta ha3 hta
  | some pcb =>
    dsimp only []
    have hKA : KInv { k2 with process_table := k2.process_table.set process_index (some { pcb with state := ProcessState.Running, cpu_time := pcb.cpu_time + 1 }) } :=
      KInv_set_pcb h2 hA rfl rfl
    have hplen : process_index < k2.process_table.length := tget_some_lt_length hA
    cases hB : tget k2.thread_table thread_index with
    | none =>
      dsimp only []
      cases hC : tget (k2.process_table.set process_index (some { pcb with state := ProcessState.Running, cpu_time := pcb.cpu_time + 1 })) process_index with
      | none =>
        rw [tget_set_self _ hplen] at hC
        exact Option.noConfusion hC
      | some pcb2 =>
        dsimp only []
        have hC2 : tget ({ k2 with process_table := k2.process_table.set process_index (some { pcb with state := ProcessState.Running, cpu_time := pcb.cpu_time + 1 }) } : Kernel).process_table process_index = some pcb2 := hC
        have hKC : KInv { k2 with process_table := (k2.process_table.set process_index (some { pcb with state := ProcessState.Running, cpu_time := pcb.cpu_time + 1 })).set process_index (some { pcb2 with state := ProcessState.Ready }) } :=
          KInv_set_pcb hKA hC2 rfl rfl
        exact main _ hKC rfl hOK
    | some thread =>
      dsimp only []
      have hB2 : tget ({ k2 with process_table := k2.process_table.set process_index (some { pcb with state := ProcessState.Running, cpu_time := pcb.cpu_time + 1 }) } : Kernel).thread_table thread_index = some thread := hB
      have hKB : KInv { k2 with process_table := k2.process_table.set process_index (some { pcb with state := ProcessState.Running, cpu_time := pcb.cpu_time + 1 }), thread_table := k2.thread_table.set thread_index (some thread.mark_ready) } :=
        KInv_set_tcb hKA hB2 rfl rfl
      cases hC : tget (k2.process_table.set process_index (some { pcb with state := ProcessState.Running, cpu_time := pcb.cpu_time + 1 })) process_index with
      | none =>
        rw [tget_set_self _ hplen] at hC
        exact Option.noConfusion hC
      | some pcb2 =>
        dsimp only []
        have hC2 : tget ({ k2 with process_table := k2.process_table.set process_index (some { pcb with state := ProcessState.Running, cpu_time := pcb.cpu_time + 1 }), thread_table := k2.thread_table.set thread_index (some thread.mark_ready) } : Kernel).process_table process_index = some pcb2 := hC
        have hKC : KInv { k2 with process_table := (k2.process_table.set process_index (some { pcb with state := ProcessState.Running, cpu_time := pcb.cpu_time + 1 })).set process_index (some { pcb2 with state := ProcessState.Ready }), thread_table := k2.thread_table.set thread_index (some thread.mark_ready) } :=
          KInv_set_pcb hKB hC2 rfl rfl
        refine main _ hKC rfl ?_
        intro a ta ha hta
        have ha2 : tget (k2.thread_table.set thread_index (some thread.mark_ready)) a = some ta := ha
        rcases tget_set_cases (tget_some_lt_length hB) ha2 with ⟨hai, hxa⟩ | ⟨hane, ha3⟩
        · have hte : thread.mark_ready = ta := Option.some.inj hxa
          have hido : thread.id = scheduled.thread := by
            rw [← hte] at hta
            exact hta
          have := hOK thread_index thread hB hido
          rw [← hte]
          exact this
        · exact hOK a ta ha3 hta

/-- `run_core` preserves the kernel invariant.  The reaping branch (a scheduled
thread found Terminated) removes exactly one live TCB and decrements the count
of its owning process, found through the scheduler-consistency field. -/
theorem KInv_run_core {k : Kernel} (h : KInv k) (ci : Nat) : KInv (k.run_core ci) := by
  have hnextsub : ∀ j e, tget (k.scheduler.next.2).queue j = some e →
      ∃ j2, tget k.scheduler.queue j2 = some e :=
    fun j e hj => ⟨j, next_entries k.scheduler j e hj⟩
  have hK1 : KInv { k with scheduler := k.scheduler.next.2 } :=
    KInv_set_sched h hnextsub
  unfold Kernel.run_core
  dsimp only []
  cases hnx : k.scheduler.next.1 with
  | none =>
    dsimp only []
    exact KInv_congr hK1 rfl rfl rfl (le_refl _) (le_refl _)
  | some scheduled =>
    dsimp only []
    obtain ⟨jq, hjq⟩ := next_returned hnx
    cases hlt : Kernel.locate_thread ({ k with scheduler := k.scheduler.next.2 } : Kernel) scheduled.thread with
    | none =>
      dsimp only []
      exact KInv_congr hK1 rfl rfl rfl (le_refl _) (le_refl _)
    | some thread_index =>
      dsimp only []
      obtain ⟨tcb0, htcb0, hid0⟩ := locate_thread_sound hlt
      have htcb0k : tget k.thread_table thread_index = some tcb0 := htcb0
      have hproc0 : tcb0.process = scheduled.process :=
        h.schedOK jq scheduled hjq thread_index tcb0 htcb0k hid0
      cases hlp : Kernel.locate_process ({ k with scheduler := k.scheduler.next.2 } : Kernel) scheduled.process with
      | none =>
        exfalso
        have hlpk : k.locate_process scheduled.process = none := hlp
        obtain ⟨i, pcb, hi, hpidp⟩ := h.tcbP thread_index tcb0 htcb0k
        exact locate_process_none hlpk i pcb hi (hpidp.trans hproc0)
      | some process_index =>
        dsimp only []
        have hlpk : k.locate_process scheduled.process = some process_index := hlp
        cases hiso : SecurityKernel.enforce_isolation k.security scheduled.process with
        | error e =>
          dsimp only []
          exact KInv_terminate_process hK1 scheduled.process
        | ok u =>
          dsimp only []
          have hK2 : KInv (Kernel.set_core ({ k with scheduler := k.scheduler.next.2 } : Kernel) ci (fun c => c.start_thread scheduled.thread)) :=
            KInv_congr hK1 rfl rfl rfl (le_refl _) (le_refl _)
          cases htk : tget (Kernel.set_core ({ k with scheduler := k.scheduler.next.2 } : Kernel) ci (fun c => c.start_thread scheduled.thread)).thread_table thread_index with
          | none =>
            exfalso
            have htkk : tget k.thread_table thread_index = none := htk
            rw [htkk] at htcb0k
            exact Option.noConfusion htcb0k
          | some thread =>
            dsimp only []
            have hthk : tget k.thread_table thread_index = some thread := htk
            have hteq : thread = tcb0 := Option.some.inj (hthk.symm.trans htcb0k)
            by_cases hterm : thread.state = ThreadState.Terminated
            · rw [if_pos hterm]
              dsimp only []
              rcases upd_cases ({ Kernel.set_core ({ k with scheduler := k.scheduler.next.2 } : Kernel) ci (fun c => c.start_thread scheduled.thread) with thread_table := (Kernel.set_core ({ k with scheduler := k.scheduler.next.2 } : Kernel) ci (fun c => c.start_thread scheduled.thread)).thread_table.set thread_index none } : Kernel) scheduled.process false with
                ⟨hupd0, hlocn⟩ | ⟨i2, pcb2, hloc2, hp2, hpid2, hupd⟩
              · exfalso
                have hlocnk : k.locate_process scheduled.process = none := hlocn
                rw [hlpk] at hlocnk
                exact Option.noConfusion hlocnk
              · rw [hupd]
                have hp2k : tget k.process_table i2 = some pcb2 := hp2
                have hpid2t : pcb2.pid = thread.process := by
                  rw [hpid2, hteq]
                  exact hproc0.symm
                exact @KInv_reap k h thread_index thread hthk i2 pcb2 hp2k hpid2t
                  pcb2.decrement_thread_count rfl rfl (k.scheduler.next.2) hnextsub _
            · rw [if_neg hterm]
              dsimp only []
              have htkK2 : tget (Kernel.set_core ({ k with scheduler := k.scheduler.next.2 } : Kernel) ci (fun c => c.start_thread scheduled.thread)).thread_table thread_index = some thread := htk
              have hKR : KInv ({ Kernel.set_core ({ k with scheduler := k.scheduler.next.2 } : Kernel) ci (fun c => c.start_thread scheduled.thread) with thread_table := (Kernel.set_core ({ k with scheduler := k.scheduler.next.2 } : Kernel) ci (fun c => c.start_thread scheduled.thread)).thread_table.set thread_index (some (thread.mark_running.accumulate_cpu_time 1)) } : Kernel) :=
                KInv_set_tcb hK2 htkK2 rfl rfl
              have hth2 : scheduled.thread < ({ Kernel.set_core ({ k with scheduler := k.scheduler.next.2 } : Kernel) ci (fun c => c.start_thread scheduled.thread) with thread_table := (Kernel.set_core ({ k with scheduler := k.scheduler.next.2 } : Kernel) ci (fun c => c.start_thread scheduled.thread)).thread_table.set thread_index (some (thread.mark_running.accumulate_cpu_time 1)) } : Kernel).next_thread :=
                h.schedF jq scheduled hjq
              have hOK2 : ∀ a ta, tget ({ Kernel.set_core ({ k with scheduler := k.scheduler.next.2 } : Kernel) ci (fun c => c.start_thread scheduled.thread) with thread_table := (Kernel.set_core ({ k with scheduler := k.scheduler.next.2 } : Kernel) ci (fun c => c.start_thread scheduled.thread)).thread_table.set thread_index (some (thread.mark_running.accumulate_cpu_time 1)) } : Kernel).thread_table a = some ta → ta.id = scheduled.thread → ta.process = scheduled.process := by
                intro a ta ha hta
                have ha2 : tget (k.thread_table.set thread_index (some (thread.mark_running.accumulate_cpu_time 1))) a = some ta := ha
                rcases tget_set_cases (tget_some_lt_length hthk) ha2 with ⟨hai, hxa⟩ | ⟨hane, ha3⟩
                · have hte : thread.mark_running.accumulate_cpu_time 1 = ta := Option.some.inj hxa
                  rw [← hte]
                  show thread.process = scheduled.process
                  rw [hteq]
                  exact hproc0
                · exact h.schedOK jq scheduled hjq a ta ha3 hta
              exact KInv_run_core_tail hKR process_index thread_index ci hth2 hOK2

/-- The fuelled core loop of `tick` preserves the invariant. -/
theorem KInv_tickAux : ∀ (fuel : Nat) (k : Kernel) (idx : Nat), KInv k →
    KInv (tickAux k idx fuel) := by
  intro fuel
  induction fuel with
  | zero =>
    intro k idx h
    exact h
  | succ f ih =>
    intro k idx h
    show KInv (tickAux (if (lget CpuCoreState.new k.core_states idx).online = true then k.run_core idx else k) (idx + 1) f)
    by_cases ho : (lget CpuCoreState.new k.core_states idx).online = true
    · rw [if_pos ho]
      exact ih _ _ (KInv_run_core h idx)
    · rw [if_neg ho]
      exact ih _ _ h

/-- `tick` preserves the invariant. -/
theorem KInv_tick {k : Kernel} (h : KInv k) : KInv k.tick :=
  KInv_tickAux k.core_states.length k 0 h

/-- A successful `create_thread` leaves the security kernel untouched. -/
theorem create_thread_ok_sec (k : Kernel) (pid ep : Nat) (pr : ProcessPriority)
    {tid : Nat} {k2 : Kernel} (h : k.create_thread pid ep pr = (.ok tid, k2)) :
    k2.security = k.security := by
  obtain ⟨tslot, _, _, _, h4⟩ := create_thread_ok_shape k pid ep pr h
  obtain ⟨h5, _⟩ := upd_secnp ({ k with
    next_thread := k.next_thread + 1,
    thread_table := (k.thread_table.set tslot (some (ThreadControlBlock.new
      k.next_thread pid ep pr))) } : Kernel) pid true
  rw [h4]
  exact h5

/-- `spawn_process` preserves the security invariant: on success the fresh pid
is inserted into the anchored table (`insert_skok`); on the thread-table-full
and scheduler-full rollbacks it is registered and then revoked again, which is
covered by `remove_spec2`; the pid counter only grows. -/
theorem KSec_spawn_process {k : Kernel} (h : KSec k) (ep : Nat)
    (priority : ProcessPriority) (parent : Option Nat) (creds : Credentials) :
    KSec (k.spawn_process ep priority parent creds).2 := by
  unfold Kernel.spawn_process
  cases hslot : k.find_free_slot with
  | none =>
    simp only [hslot]
    exact h
  | some slot =>
    simp only [hslot]
    cases hreg : k.security.register_task k.next_pid creds with
    | error e1 =>
      simp only [hreg]
      exact KSec_congr h rfl (Nat.le_succ _)
    | ok sec =>
      simp only [hreg]
      have hfr : ∀ i e, tget k.security.domains i = some e →
          e.pid ≠ (TaskDomain.from_credentials k.next_pid creds).pid := by
        intro i e hi hh
        have h9 := h.sPid i e hi
        have hh2 : e.pid = k.next_pid := hh
        omega
      have hins : k.security.insert_domain
          (TaskDomain.from_credentials k.next_pid creds) = .ok sec := hreg
      obtain ⟨hok2, hcnt2, hlen2, hsub2⟩ := insert_skok h.sOK h.sCnt hfr hins
      have hpid2 : ∀ j e, tget sec.domains j = some e → e.pid < k.next_pid + 1 := by
        intro j e hj
        rcases hsub2 j e hj with he | ⟨i, hi⟩
        · have hh2 : e.pid = k.next_pid := by
            rw [he]
            exact rfl
          omega
        · have := h.sPid i e hi
          omega
      obtain ⟨hrm1, hrm2, hrm3, hok3, hcnt3, hlen3, hsub3⟩ :=
        remove_spec2 sec k.next_pid hok2 hcnt2
      have hpid3 : ∀ j e, tget (SecurityKernel.remove sec k.next_pid).domains j =
          some e → e.pid < k.next_pid + 1 := by
        intro j e hj
        obtain ⟨i, hi⟩ := hsub3 j e hj
        exact hpid2 i e hi
      have mainrm : ∀ (kD : Kernel),
          kD.security = SecurityKernel.remove sec k.next_pid →
          kD.next_pid = k.next_pid + 1 → KSec kD := by
        intro kD hs hn
        refine ⟨?_, ?_, ?_⟩
        · rw [hs]
          exact hok3
        · rw [hs]
          exact hcnt3
        · rw [hs, hn]
          exact hpid3
      have mainok : ∀ (kD : Kernel), kD.security = sec →
          kD.next_pid = k.next_pid + 1 → KSec kD := by
        intro kD hs hn
        refine ⟨?_, ?_, ?_⟩
        · rw [hs]
          exact hok2
        · rw [hs]
          exact hcnt2
        · rw [hs, hn]
          exact hpid2
      split
      · rename_i x2 e2 kB hct
        obtain ⟨hkB, he2⟩ := create_thread_error_shape _ _ _ _ hct
        subst hkB
        exact mainrm _ rfl rfl
      · rename_i x2 tid kB hct
        obtain ⟨hnpB, _⟩ := create_thread_ok_ids _ _ _ _ hct
        have hnB : kB.next_pid = k.next_pid + 1 := hnpB
        have hsB : kB.security = sec := create_thread_ok_sec _ _ _ _ hct
        cases htgB : tget kB.process_table slot with
        | none =>
          dsimp only []
          split
          · rename_i x3 e3 hsch3
            have h5s : (Kernel.rollback_thread_creation kB tid).security = sec := by
              rw [(rollback_secnp kB tid).1]
              exact hsB
            have h5n : (Kernel.rollback_thread_creation kB tid).next_pid =
                k.next_pid + 1 := by
              rw [(rollback_secnp kB tid).2]
              exact hnB
            refine mainrm _ ?_ ?_
            · show SecurityKernel.remove
                (Kernel.rollback_thread_creation kB tid).security k.next_pid =
                SecurityKernel.remove sec k.next_pid
              rw [h5s]
            · exact h5n
          · rename_i x3 sch hsch3
            exact mainok _ hsB hnB
        | some pcb2 =>
          dsimp only []
          have hsC : ({ kB with process_table := kB.process_table.set slot (some { pcb2 with state := ProcessState.Ready }) } : Kernel).security = sec := hsB
          have hnC : ({ kB with process_table := kB.process_table.set slot (some { pcb2 with state := ProcessState.Ready }) } : Kernel).next_pid = k.next_pid + 1 := hnB
          split
          · rename_i x3 e3 hsch3
            have h5s : (Kernel.rollback_thread_creation ({ kB with process_table := kB.process_table.set slot (some { pcb2 with state := ProcessState.Ready }) } : Kernel) tid).security = sec := by
              rw [(rollback_secnp ({ kB with process_table := kB.process_table.set slot (some { pcb2 with state := ProcessState.Ready }) } : Kernel) tid).1]
              exact hsC
            have h5n : (Kernel.rollback_thread_creation ({ kB with process_table := kB.process_table.set slot (some { pcb2 with state := ProcessState.Ready }) } : Kernel) tid).next_pid = k.next_pid + 1 := by
              rw [(rollback_secnp ({ kB with process_table := kB.process_table.set slot (some { pcb2 with state := ProcessState.Ready }) } : Kernel) tid).2]
              exact hnC
            refine mainrm _ ?_ ?_
            · show SecurityKernel.remove (Kernel.rollback_thread_creation ({ kB with process_table := kB.process_table.set slot (some { pcb2 with state := ProcessState.Ready }) } : Kernel) tid).security k.next_pid = SecurityKernel.remove sec k.next_pid
              rw [h5s]
            · exact h5n
          · rename_i x3 sch hsch3
            exact mainok _ hsC hnC

/-- Kernel states reachable through the public kernel API. -/
inductive KReachable : Kernel → Prop where
  | new (maxProc msgDepth : Nat) : KReachable (Kernel.new maxProc msgDepth)
  | bootstrap {k : Kernel} : KReachable k → KReachable k.bootstrap
  | bring_up {k : Kernel} (c : Nat) : KReachable k →
      KReachable (k.bring_up_secondary_cores c)
  | spawn_process {k : Kernel} (ep : Nat) (pr : ProcessPriority) (parent : Option Nat)
      (creds : Credentials) : KReachable k →
      KReachable (k.spawn_process ep pr parent creds).2
  | spawn_initial_process {k : Kernel} (creds : Credentials) : KReachable k →
      KReachable (k.spawn_initial_process creds).2
  | spawn_thread {k : Kernel} (pid ep : Nat) (pr : ProcessPriority) : KReachable k →
      KReachable (k.spawn_thread pid ep pr).2
  | terminate_process {k : Kernel} (pid : Nat) : KReachable k →
      KReachable (k.terminate_process pid)
  | terminate_thread {k : Kernel} (tid : Nat) : KReachable k →
      KReachable (k.terminate_thread tid)
  | send_message {k : Kernel} (s r : Nat) (pl : MessagePayload) : KReachable k →
      KReachable (k.send_message s r pl).2
  | receive_message {k : Kernel} (pid : Nat) : KReachable k →
      KReachable (k.receive_message pid).2
  | block_for_message {k : Kernel} (pid : Nat) : KReachable k →
      KReachable (k.block_for_message pid)
  | tick {k : Kernel} : KReachable k → KReachable k.tick

/-- Every reachable kernel state satisfies the invariant bundle. -/
theorem KInv_reachable : ∀ {k : Kernel}, KReachable k → KInv k := by
  intro k h
  induction h with
  | new a b => exact KInv_new a b
  | bootstrap _ ih => exact KInv_bootstrap _
  | bring_up c _ ih => exact KInv_bring_up ih c
  | spawn_process ep pr parent creds _ ih => exact KInv_spawn_process ih ep pr parent creds
  | spawn_initial_process creds _ ih =>
    exact KInv_spawn_process ih 0 ProcessPriority.Critical none creds
  | spawn_thread pid ep pr _ ih => exact KInv_spawn_thread ih pid ep pr
  | terminate_process pid _ ih => exact KInv_terminate_process ih pid
  | terminate_thread tid _ ih => exact KInv_terminate_thread ih tid
  | send_message s r pl _ ih => exact KInv_send ih s r pl
  | receive_message pid _ ih => exact KInv_receive ih pid
  | block_for_message pid _ ih => exact KInv_block_for_message ih pid
  | tick _ ih => exact KInv_tick ih

/-- Every reachable kernel state satisfies the security invariant: the
open-addressed domain table is anchored and duplicate-free, its stored-domain
count never exceeds the population counter, and every registered pid is below
`next_pid`. -/
theorem KSec_reachable : ∀ {k : Kernel}, KReachable k → KSec k := by
  intro k h
  induction h with
  | new a b => exact KSec_new a b
  | bootstrap _ ih => exact KSec_bootstrap _
  | bring_up c _ ih => exact KSec_bring_up ih c
  | spawn_process ep pr parent creds _ ih => exact KSec_spawn_process ih ep pr parent creds
  | spawn_initial_process creds _ ih =>
    exact KSec_spawn_process ih 0 ProcessPriority.Critical none creds
  | spawn_thread pid ep pr _ ih => exact KSec_spawn_thread ih pid ep pr
  | terminate_process pid _ ih => exact KSec_terminate_process ih pid
  | terminate_thread tid _ ih => exact KSec_terminate_thread ih tid
  | send_message s r pl _ ih => exact KSec_send ih s r pl
  | receive_message pid _ ih => exact KSec_receive ih pid
  | block_for_message pid _ ih => exact KSec_block_for_message ih pid
  | tick _ ih => exact KSec_tick ih

/-- **C7.** In every kernel state reachable through the public API, the sum
over all live process control blocks of their `thread_count` field equals the
number of live thread control blocks (the `some` entries of the thread table);
the count is maintained on every thread creation, termination and removal path
(`thread_count` and its increment/decrement are modelled from the spec, their
bodies being absent from `process.rs`). -/
theorem thread_count_invariant (k : Kernel) (h : KReachable k) :
    sumTC k.process_table = countSome k.thread_table := by
  have hI := KInv_reachable h
  exact sumTC_eq k.process_table k.thread_table hI.pidD hI.tcbP hI.counts

/-- The thread-count invariant evaluated on a concrete reachable state: a fresh
kernel after one `spawn_process` (pid 1, one initial thread) and one extra
`spawn_thread` for pid 1. -/
theorem thread_count_invariant_witness :
    sumTC ((((Kernel.new 2 4).spawn_process 0 ProcessPriority.Normal none
        Credentials.user).2.spawn_thread 1 0 ProcessPriority.Normal).2).process_table =
      countSome ((((Kernel.new 2 4).spawn_process 0 ProcessPriority.Normal none
        Credentials.user).2.spawn_thread 1 0 ProcessPriority.Normal).2).thread_table :=
  thread_count_invariant _
    (KReachable.spawn_thread 1 0 ProcessPriority.Normal
      (KReachable.spawn_process 0 ProcessPriority.Normal none Credentials.user
        (KReachable.new 2 4)))

/-- **C2.** For every reachable kernel and every pid `p` occupying a
process-table slot, after `terminate_process(p)` the security kernel's lookup
of `p` returns `none` (surfaced as `UnknownTask`), no scheduler queue entry has
process `p`, no live thread control block has process `p`, and every other
registered domain is still found by lookup, unchanged — in particular across
the open-addressed table's back-shift rehash after removal, including the case
of a fully saturated table.  The security-table preconditions (anchored
duplicate-free table, count bounded by population) are themselves proven
invariants of every reachable kernel (`KSec_reachable`). -/
theorem terminate_process_spec (k : Kernel) (p pidx : Nat)
    (hk : KReachable k) (hloc : k.locate_process p = some pidx) :
    (k.terminate_process p).security.lookup p = none ∧
    (∀ j e, tget (k.terminate_process p).scheduler.queue j = some e →
      e.process ≠ p) ∧
    (∀ j t, tget (k.terminate_process p).thread_table j = some t →
      t.process ≠ p) ∧
    (∀ i d, tget k.security.domains i = some d → d.pid ≠ p →
      (k.terminate_process p).security.lookup d.pid = some d) := by
  have hs := KSec_reachable hk
  exact terminate_process_secure k p pidx hs.sOK hs.sCnt hloc

/-- The reachable kernel exercising C2's saturated-table rehash: four spawns
fill the four security slots (pids 1-4 at slots 1,2,3,0), terminating pid 2
frees slot 2, and a fifth spawn registers pid 5 (hash home 1) displaced into
slot 2 — the table is full again with a displaced domain. -/
def kW : Kernel :=
  (((((((Kernel.new 4 2).spawn_process 0 .Normal none Credentials.user).2.spawn_process 0 .Normal none Credentials.user).2.spawn_process 0 .Normal none Credentials.user).2.spawn_process 0 .Normal none Credentials.user).2.terminate_process 2).spawn_process 0 .Normal none Credentials.user).2

/-- Witness for C2 at the reachable kernel `kW`: its security table is
saturated (four stored domains in four slots, pid 5 displaced from its hash
home), and terminating pid 1 triggers the full-table back-shift rehash, which
re-homes pid 5 into slot 1 while pids 3 and 4 stay put. -/
theorem terminate_process_spec_witness :
    (kW.terminate_process 1).security.lookup 1 = none ∧
    (∀ j e, tget (kW.terminate_process 1).scheduler.queue j = some e →
      e.process ≠ 1) ∧
    (∀ j t, tget (kW.terminate_process 1).thread_table j = some t →
      t.process ≠ 1) ∧
    (∀ i d, tget kW.security.domains i = some d → d.pid ≠ 1 →
      (kW.terminate_process 1).security.lookup d.pid = some d) :=
  terminate_process_spec kW 1 0
    (KReachable.spawn_process 0 .Normal none Credentials.user
      (KReachable.terminate_process 2
        (KReachable.spawn_process 0 .Normal none Credentials.user
          (KReachable.spawn_process 0 .Normal none Credentials.user
            (KReachable.spawn_process 0 .Normal none Credentials.user
              (KReachable.spawn_process 0 .Normal none Credentials.user
                (KReachable.new 4 2)))))))
    (by decide)

end Mirage
